import Mathlib

/-!
# jom: macro table (`src/jomlib/macrotable.cpp`) and parser (`src/app/parser.cpp`)

A shallow embedding of `NMakeFile::MacroTable` and `NMakeFile::Parser`.

* `QString` is a list of characters; the few Qt string primitives the source
  uses (`mid`, `indexOf`, `replace`, `remove`, `toUpper`) are modelled in the
  namespace `QString` after the Qt 5 documentation, and the character classes
  of `QChar` after the Unicode Character Database 14.0.
* The macro table is a pair of association lists (`m_macros`, `m_environment`).
* A C++ exception is the error value `Error.exception msg`; a member function
  that mutates the table returns an `Effect`: the table it leaves behind and
  the exception it raised, if any.
* `expandMacros` is recursive through macro values.  The embedding bounds the
  nesting of recursive calls by a budget and the iterations of the scanning
  loop by a counter; both bounds are proved never to be hit.
* The parser is a record of the members that the embedded functions use; the
  makefile is an association list of description blocks, and a pointer to a
  block is the name under which the block is stored.  The recursive functions
  of the parser (`checkForCycles`, `updateTimeStamp`,
  `preselectInferenceRulesRecursive`) have a budget for nested calls as well.
-/

set_option autoImplicit false

namespace NMakeFile

/-- A `QString`, as the list of its characters. -/
abbrev QString := List Char

/-! ## Character tables

The character classes of `QChar` and the case mapping of `QString` follow the
Unicode Character Database, which is not part of the repository.  The tables
below hold the code points from U+0080 to U+FFFF; a `QChar` is a 16 bit code
unit, and a character beyond U+FFFF is stored in a `QString` as two surrogate
code units, which are neither letters, numbers, marks nor separators and have
no case. -/

/-- The ranges of the code points from U+0080 to U+FFFF whose general category is a
letter (`Lu`, `Ll`, `Lt`, `Lm`, `Lo`), after the Unicode Character Database 14.0. -/
def unicodeLetters : List (Nat × Nat) :=
  [(170, 170), (181, 181), (186, 186), (192, 214), (216, 246), (248, 705), (710, 721), (736, 740),
   (748, 748), (750, 750), (880, 884), (886, 887), (890, 893), (895, 895), (902, 902), (904, 906),
   (908, 908), (910, 929), (931, 1013), (1015, 1153), (1162, 1327), (1329, 1366), (1369, 1369),
   (1376, 1416), (1488, 1514), (1519, 1522), (1568, 1610), (1646, 1647), (1649, 1747),
   (1749, 1749), (1765, 1766), (1774, 1775), (1786, 1788), (1791, 1791), (1808, 1808),
   (1810, 1839), (1869, 1957), (1969, 1969), (1994, 2026), (2036, 2037), (2042, 2042),
   (2048, 2069), (2074, 2074), (2084, 2084), (2088, 2088), (2112, 2136), (2144, 2154),
   (2160, 2183), (2185, 2190), (2208, 2249), (2308, 2361), (2365, 2365), (2384, 2384),
   (2392, 2401), (2417, 2432), (2437, 2444), (2447, 2448), (2451, 2472), (2474, 2480),
   (2482, 2482), (2486, 2489), (2493, 2493), (2510, 2510), (2524, 2525), (2527, 2529),
   (2544, 2545), (2556, 2556), (2565, 2570), (2575, 2576), (2579, 2600), (2602, 2608),
   (2610, 2611), (2613, 2614), (2616, 2617), (2649, 2652), (2654, 2654), (2674, 2676),
   (2693, 2701), (2703, 2705), (2707, 2728), (2730, 2736), (2738, 2739), (2741, 2745),
   (2749, 2749), (2768, 2768), (2784, 2785), (2809, 2809), (2821, 2828), (2831, 2832),
   (2835, 2856), (2858, 2864), (2866, 2867), (2869, 2873), (2877, 2877), (2908, 2909),
   (2911, 2913), (2929, 2929), (2947, 2947), (2949, 2954), (2958, 2960), (2962, 2965),
   (2969, 2970), (2972, 2972), (2974, 2975), (2979, 2980), (2984, 2986), (2990, 3001),
   (3024, 3024), (3077, 3084), (3086, 3088), (3090, 3112), (3114, 3129), (3133, 3133),
   (3160, 3162), (3165, 3165), (3168, 3169), (3200, 3200), (3205, 3212), (3214, 3216),
   (3218, 3240), (3242, 3251), (3253, 3257), (3261, 3261), (3293, 3294), (3296, 3297),
   (3313, 3314), (3332, 3340), (3342, 3344), (3346, 3386), (3389, 3389), (3406, 3406),
   (3412, 3414), (3423, 3425), (3450, 3455), (3461, 3478), (3482, 3505), (3507, 3515),
   (3517, 3517), (3520, 3526), (3585, 3632), (3634, 3635), (3648, 3654), (3713, 3714),
   (3716, 3716), (3718, 3722), (3724, 3747), (3749, 3749), (3751, 3760), (3762, 3763),
   (3773, 3773), (3776, 3780), (3782, 3782), (3804, 3807), (3840, 3840), (3904, 3911),
   (3913, 3948), (3976, 3980), (4096, 4138), (4159, 4159), (4176, 4181), (4186, 4189),
   (4193, 4193), (4197, 4198), (4206, 4208), (4213, 4225), (4238, 4238), (4256, 4293),
   (4295, 4295), (4301, 4301), (4304, 4346), (4348, 4680), (4682, 4685), (4688, 4694),
   (4696, 4696), (4698, 4701), (4704, 4744), (4746, 4749), (4752, 4784), (4786, 4789),
   (4792, 4798), (4800, 4800), (4802, 4805), (4808, 4822), (4824, 4880), (4882, 4885),
   (4888, 4954), (4992, 5007), (5024, 5109), (5112, 5117), (5121, 5740), (5743, 5759),
   (5761, 5786), (5792, 5866), (5873, 5880), (5888, 5905), (5919, 5937), (5952, 5969),
   (5984, 5996), (5998, 6000), (6016, 6067), (6103, 6103), (6108, 6108), (6176, 6264),
   (6272, 6276), (6279, 6312), (6314, 6314), (6320, 6389), (6400, 6430), (6480, 6509),
   (6512, 6516), (6528, 6571), (6576, 6601), (6656, 6678), (6688, 6740), (6823, 6823),
   (6917, 6963), (6981, 6988), (7043, 7072), (7086, 7087), (7098, 7141), (7168, 7203),
   (7245, 7247), (7258, 7293), (7296, 7304), (7312, 7354), (7357, 7359), (7401, 7404),
   (7406, 7411), (7413, 7414), (7418, 7418), (7424, 7615), (7680, 7957), (7960, 7965),
   (7968, 8005), (8008, 8013), (8016, 8023), (8025, 8025), (8027, 8027), (8029, 8029),
   (8031, 8061), (8064, 8116), (8118, 8124), (8126, 8126), (8130, 8132), (8134, 8140),
   (8144, 8147), (8150, 8155), (8160, 8172), (8178, 8180), (8182, 8188), (8305, 8305),
   (8319, 8319), (8336, 8348), (8450, 8450), (8455, 8455), (8458, 8467), (8469, 8469),
   (8473, 8477), (8484, 8484), (8486, 8486), (8488, 8488), (8490, 8493), (8495, 8505),
   (8508, 8511), (8517, 8521), (8526, 8526), (8579, 8580), (11264, 11492), (11499, 11502),
   (11506, 11507), (11520, 11557), (11559, 11559), (11565, 11565), (11568, 11623), (11631, 11631),
   (11648, 11670), (11680, 11686), (11688, 11694), (11696, 11702), (11704, 11710), (11712, 11718),
   (11720, 11726), (11728, 11734), (11736, 11742), (11823, 11823), (12293, 12294), (12337, 12341),
   (12347, 12348), (12353, 12438), (12445, 12447), (12449, 12538), (12540, 12543), (12549, 12591),
   (12593, 12686), (12704, 12735), (12784, 12799), (13312, 19903), (19968, 42124), (42192, 42237),
   (42240, 42508), (42512, 42527), (42538, 42539), (42560, 42606), (42623, 42653), (42656, 42725),
   (42775, 42783), (42786, 42888), (42891, 42954), (42960, 42961), (42963, 42963), (42965, 42969),
   (42994, 43009), (43011, 43013), (43015, 43018), (43020, 43042), (43072, 43123), (43138, 43187),
   (43250, 43255), (43259, 43259), (43261, 43262), (43274, 43301), (43312, 43334), (43360, 43388),
   (43396, 43442), (43471, 43471), (43488, 43492), (43494, 43503), (43514, 43518), (43520, 43560),
   (43584, 43586), (43588, 43595), (43616, 43638), (43642, 43642), (43646, 43695), (43697, 43697),
   (43701, 43702), (43705, 43709), (43712, 43712), (43714, 43714), (43739, 43741), (43744, 43754),
   (43762, 43764), (43777, 43782), (43785, 43790), (43793, 43798), (43808, 43814), (43816, 43822),
   (43824, 43866), (43868, 43881), (43888, 44002), (44032, 55203), (55216, 55238), (55243, 55291),
   (63744, 64109), (64112, 64217), (64256, 64262), (64275, 64279), (64285, 64285), (64287, 64296),
   (64298, 64310), (64312, 64316), (64318, 64318), (64320, 64321), (64323, 64324), (64326, 64433),
   (64467, 64829), (64848, 64911), (64914, 64967), (65008, 65019), (65136, 65140), (65142, 65276),
   (65313, 65338), (65345, 65370), (65382, 65470), (65474, 65479), (65482, 65487), (65490, 65495),
   (65498, 65500)]

/-- The ranges of the code points from U+0080 to U+FFFF whose general category is a
number (`Nd`, `Nl`, `No`), after the Unicode Character Database 14.0. -/
def unicodeNumbers : List (Nat × Nat) :=
  [(178, 179), (185, 185), (188, 190), (1632, 1641), (1776, 1785), (1984, 1993), (2406, 2415),
   (2534, 2543), (2548, 2553), (2662, 2671), (2790, 2799), (2918, 2927), (2930, 2935),
   (3046, 3058), (3174, 3183), (3192, 3198), (3302, 3311), (3416, 3422), (3430, 3448),
   (3558, 3567), (3664, 3673), (3792, 3801), (3872, 3891), (4160, 4169), (4240, 4249),
   (4969, 4988), (5870, 5872), (6112, 6121), (6128, 6137), (6160, 6169), (6470, 6479),
   (6608, 6618), (6784, 6793), (6800, 6809), (6992, 7001), (7088, 7097), (7232, 7241),
   (7248, 7257), (8304, 8304), (8308, 8313), (8320, 8329), (8528, 8578), (8581, 8585),
   (9312, 9371), (9450, 9471), (10102, 10131), (11517, 11517), (12295, 12295), (12321, 12329),
   (12344, 12346), (12690, 12693), (12832, 12841), (12872, 12879), (12881, 12895), (12928, 12937),
   (12977, 12991), (42528, 42537), (42726, 42735), (43056, 43061), (43216, 43225), (43264, 43273),
   (43472, 43481), (43504, 43513), (43600, 43609), (44016, 44025), (65296, 65305)]

/-- The ranges of the code points up to U+FFFF whose general category is a mark
(`Mn`, `Mc`, `Me`), after the Unicode Character Database 14.0. -/
def unicodeMarks : List (Nat × Nat) :=
  [(768, 879), (1155, 1161), (1425, 1469), (1471, 1471), (1473, 1474), (1476, 1477), (1479, 1479),
   (1552, 1562), (1611, 1631), (1648, 1648), (1750, 1756), (1759, 1764), (1767, 1768),
   (1770, 1773), (1809, 1809), (1840, 1866), (1958, 1968), (2027, 2035), (2045, 2045),
   (2070, 2073), (2075, 2083), (2085, 2087), (2089, 2093), (2137, 2139), (2200, 2207),
   (2250, 2273), (2275, 2307), (2362, 2364), (2366, 2383), (2385, 2391), (2402, 2403),
   (2433, 2435), (2492, 2492), (2494, 2500), (2503, 2504), (2507, 2509), (2519, 2519),
   (2530, 2531), (2558, 2558), (2561, 2563), (2620, 2620), (2622, 2626), (2631, 2632),
   (2635, 2637), (2641, 2641), (2672, 2673), (2677, 2677), (2689, 2691), (2748, 2748),
   (2750, 2757), (2759, 2761), (2763, 2765), (2786, 2787), (2810, 2815), (2817, 2819),
   (2876, 2876), (2878, 2884), (2887, 2888), (2891, 2893), (2901, 2903), (2914, 2915),
   (2946, 2946), (3006, 3010), (3014, 3016), (3018, 3021), (3031, 3031), (3072, 3076),
   (3132, 3132), (3134, 3140), (3142, 3144), (3146, 3149), (3157, 3158), (3170, 3171),
   (3201, 3203), (3260, 3260), (3262, 3268), (3270, 3272), (3274, 3277), (3285, 3286),
   (3298, 3299), (3328, 3331), (3387, 3388), (3390, 3396), (3398, 3400), (3402, 3405),
   (3415, 3415), (3426, 3427), (3457, 3459), (3530, 3530), (3535, 3540), (3542, 3542),
   (3544, 3551), (3570, 3571), (3633, 3633), (3636, 3642), (3655, 3662), (3761, 3761),
   (3764, 3772), (3784, 3789), (3864, 3865), (3893, 3893), (3895, 3895), (3897, 3897),
   (3902, 3903), (3953, 3972), (3974, 3975), (3981, 3991), (3993, 4028), (4038, 4038),
   (4139, 4158), (4182, 4185), (4190, 4192), (4194, 4196), (4199, 4205), (4209, 4212),
   (4226, 4237), (4239, 4239), (4250, 4253), (4957, 4959), (5906, 5909), (5938, 5940),
   (5970, 5971), (6002, 6003), (6068, 6099), (6109, 6109), (6155, 6157), (6159, 6159),
   (6277, 6278), (6313, 6313), (6432, 6443), (6448, 6459), (6679, 6683), (6741, 6750),
   (6752, 6780), (6783, 6783), (6832, 6862), (6912, 6916), (6964, 6980), (7019, 7027),
   (7040, 7042), (7073, 7085), (7142, 7155), (7204, 7223), (7376, 7378), (7380, 7400),
   (7405, 7405), (7412, 7412), (7415, 7417), (7616, 7679), (8400, 8432), (11503, 11505),
   (11647, 11647), (11744, 11775), (12330, 12335), (12441, 12442), (42607, 42610), (42612, 42621),
   (42654, 42655), (42736, 42737), (43010, 43010), (43014, 43014), (43019, 43019), (43043, 43047),
   (43052, 43052), (43136, 43137), (43188, 43205), (43232, 43249), (43263, 43263), (43302, 43309),
   (43335, 43347), (43392, 43395), (43443, 43456), (43493, 43493), (43561, 43574), (43587, 43587),
   (43596, 43597), (43643, 43645), (43696, 43696), (43698, 43700), (43703, 43704), (43710, 43711),
   (43713, 43713), (43755, 43759), (43765, 43766), (44003, 44010), (44012, 44013), (64286, 64286),
   (65024, 65039), (65056, 65071)]

/-- The ranges of the code points from U+0080 to U+FFFF whose general category is a
separator (`Zs`, `Zl`, `Zp`), after the Unicode Character Database 14.0. -/
def unicodeSeparators : List (Nat × Nat) :=
  [(160, 160), (5760, 5760), (8192, 8202), (8232, 8233), (8239, 8239), (8287, 8287),
   (12288, 12288)]

set_option maxHeartbeats 4000000 in
set_option maxRecDepth 100000 in
/-- The upper-case mapping of the code points from U+0080 to U+FFFF that have one
(the full mapping, `SpecialCasing` included), after the Unicode Character
Database 14.0. -/
def unicodeUpper : List (Nat × List Nat) :=
  [(181, [924]), (223, [83, 83]), (224, [192]), (225, [193]), (226, [194]), (227, [195]),
   (228, [196]), (229, [197]), (230, [198]), (231, [199]), (232, [200]), (233, [201]),
   (234, [202]), (235, [203]), (236, [204]), (237, [205]), (238, [206]), (239, [207]),
   (240, [208]), (241, [209]), (242, [210]), (243, [211]), (244, [212]), (245, [213]),
   (246, [214]), (248, [216]), (249, [217]), (250, [218]), (251, [219]), (252, [220]),
   (253, [221]), (254, [222]), (255, [376]), (257, [256]), (259, [258]), (261, [260]),
   (263, [262]), (265, [264]), (267, [266]), (269, [268]), (271, [270]), (273, [272]),
   (275, [274]), (277, [276]), (279, [278]), (281, [280]), (283, [282]), (285, [284]),
   (287, [286]), (289, [288]), (291, [290]), (293, [292]), (295, [294]), (297, [296]),
   (299, [298]), (301, [300]), (303, [302]), (305, [73]), (307, [306]), (309, [308]),
   (311, [310]), (314, [313]), (316, [315]), (318, [317]), (320, [319]), (322, [321]),
   (324, [323]), (326, [325]), (328, [327]), (329, [700, 78]), (331, [330]), (333, [332]),
   (335, [334]), (337, [336]), (339, [338]), (341, [340]), (343, [342]), (345, [344]),
   (347, [346]), (349, [348]), (351, [350]), (353, [352]), (355, [354]), (357, [356]),
   (359, [358]), (361, [360]), (363, [362]), (365, [364]), (367, [366]), (369, [368]),
   (371, [370]), (373, [372]), (375, [374]), (378, [377]), (380, [379]), (382, [381]),
   (383, [83]), (384, [579]), (387, [386]), (389, [388]), (392, [391]), (396, [395]),
   (402, [401]), (405, [502]), (409, [408]), (410, [573]), (414, [544]), (417, [416]),
   (419, [418]), (421, [420]), (424, [423]), (429, [428]), (432, [431]), (436, [435]),
   (438, [437]), (441, [440]), (445, [444]), (447, [503]), (453, [452]), (454, [452]),
   (456, [455]), (457, [455]), (459, [458]), (460, [458]), (462, [461]), (464, [463]),
   (466, [465]), (468, [467]), (470, [469]), (472, [471]), (474, [473]), (476, [475]),
   (477, [398]), (479, [478]), (481, [480]), (483, [482]), (485, [484]), (487, [486]),
   (489, [488]), (491, [490]), (493, [492]), (495, [494]), (496, [74, 780]), (498, [497]),
   (499, [497]), (501, [500]), (505, [504]), (507, [506]), (509, [508]), (511, [510]),
   (513, [512]), (515, [514]), (517, [516]), (519, [518]), (521, [520]), (523, [522]),
   (525, [524]), (527, [526]), (529, [528]), (531, [530]), (533, [532]), (535, [534]),
   (537, [536]), (539, [538]), (541, [540]), (543, [542]), (547, [546]), (549, [548]),
   (551, [550]), (553, [552]), (555, [554]), (557, [556]), (559, [558]), (561, [560]),
   (563, [562]), (572, [571]), (575, [11390]), (576, [11391]), (578, [577]), (583, [582]),
   (585, [584]), (587, [586]), (589, [588]), (591, [590]), (592, [11375]), (593, [11373]),
   (594, [11376]), (595, [385]), (596, [390]), (598, [393]), (599, [394]), (601, [399]),
   (603, [400]), (604, [42923]), (608, [403]), (609, [42924]), (611, [404]), (613, [42893]),
   (614, [42922]), (616, [407]), (617, [406]), (618, [42926]), (619, [11362]), (620, [42925]),
   (623, [412]), (625, [11374]), (626, [413]), (629, [415]), (637, [11364]), (640, [422]),
   (642, [42949]), (643, [425]), (647, [42929]), (648, [430]), (649, [580]), (650, [433]),
   (651, [434]), (652, [581]), (658, [439]), (669, [42930]), (670, [42928]), (837, [921]),
   (881, [880]), (883, [882]), (887, [886]), (891, [1021]), (892, [1022]), (893, [1023]),
   (912, [921, 776, 769]), (940, [902]), (941, [904]), (942, [905]), (943, [906]),
   (944, [933, 776, 769]), (945, [913]), (946, [914]), (947, [915]), (948, [916]), (949, [917]),
   (950, [918]), (951, [919]), (952, [920]), (953, [921]), (954, [922]), (955, [923]),
   (956, [924]), (957, [925]), (958, [926]), (959, [927]), (960, [928]), (961, [929]),
   (962, [931]), (963, [931]), (964, [932]), (965, [933]), (966, [934]), (967, [935]),
   (968, [936]), (969, [937]), (970, [938]), (971, [939]), (972, [908]), (973, [910]),
   (974, [911]), (976, [914]), (977, [920]), (981, [934]), (982, [928]), (983, [975]),
   (985, [984]), (987, [986]), (989, [988]), (991, [990]), (993, [992]), (995, [994]),
   (997, [996]), (999, [998]), (1001, [1000]), (1003, [1002]), (1005, [1004]), (1007, [1006]),
   (1008, [922]), (1009, [929]), (1010, [1017]), (1011, [895]), (1013, [917]), (1016, [1015]),
   (1019, [1018]), (1072, [1040]), (1073, [1041]), (1074, [1042]), (1075, [1043]), (1076, [1044]),
   (1077, [1045]), (1078, [1046]), (1079, [1047]), (1080, [1048]), (1081, [1049]), (1082, [1050]),
   (1083, [1051]), (1084, [1052]), (1085, [1053]), (1086, [1054]), (1087, [1055]), (1088, [1056]),
   (1089, [1057]), (1090, [1058]), (1091, [1059]), (1092, [1060]), (1093, [1061]), (1094, [1062]),
   (1095, [1063]), (1096, [1064]), (1097, [1065]), (1098, [1066]), (1099, [1067]), (1100, [1068]),
   (1101, [1069]), (1102, [1070]), (1103, [1071]), (1104, [1024]), (1105, [1025]), (1106, [1026]),
   (1107, [1027]), (1108, [1028]), (1109, [1029]), (1110, [1030]), (1111, [1031]), (1112, [1032]),
   (1113, [1033]), (1114, [1034]), (1115, [1035]), (1116, [1036]), (1117, [1037]), (1118, [1038]),
   (1119, [1039]), (1121, [1120]), (1123, [1122]), (1125, [1124]), (1127, [1126]), (1129, [1128]),
   (1131, [1130]), (1133, [1132]), (1135, [1134]), (1137, [1136]), (1139, [1138]), (1141, [1140]),
   (1143, [1142]), (1145, [1144]), (1147, [1146]), (1149, [1148]), (1151, [1150]), (1153, [1152]),
   (1163, [1162]), (1165, [1164]), (1167, [1166]), (1169, [1168]), (1171, [1170]), (1173, [1172]),
   (1175, [1174]), (1177, [1176]), (1179, [1178]), (1181, [1180]), (1183, [1182]), (1185, [1184]),
   (1187, [1186]), (1189, [1188]), (1191, [1190]), (1193, [1192]), (1195, [1194]), (1197, [1196]),
   (1199, [1198]), (1201, [1200]), (1203, [1202]), (1205, [1204]), (1207, [1206]), (1209, [1208]),
   (1211, [1210]), (1213, [1212]), (1215, [1214]), (1218, [1217]), (1220, [1219]), (1222, [1221]),
   (1224, [1223]), (1226, [1225]), (1228, [1227]), (1230, [1229]), (1231, [1216]), (1233, [1232]),
   (1235, [1234]), (1237, [1236]), (1239, [1238]), (1241, [1240]), (1243, [1242]), (1245, [1244]),
   (1247, [1246]), (1249, [1248]), (1251, [1250]), (1253, [1252]), (1255, [1254]), (1257, [1256]),
   (1259, [1258]), (1261, [1260]), (1263, [1262]), (1265, [1264]), (1267, [1266]), (1269, [1268]),
   (1271, [1270]), (1273, [1272]), (1275, [1274]), (1277, [1276]), (1279, [1278]), (1281, [1280]),
   (1283, [1282]), (1285, [1284]), (1287, [1286]), (1289, [1288]), (1291, [1290]), (1293, [1292]),
   (1295, [1294]), (1297, [1296]), (1299, [1298]), (1301, [1300]), (1303, [1302]), (1305, [1304]),
   (1307, [1306]), (1309, [1308]), (1311, [1310]), (1313, [1312]), (1315, [1314]), (1317, [1316]),
   (1319, [1318]), (1321, [1320]), (1323, [1322]), (1325, [1324]), (1327, [1326]), (1377, [1329]),
   (1378, [1330]), (1379, [1331]), (1380, [1332]), (1381, [1333]), (1382, [1334]), (1383, [1335]),
   (1384, [1336]), (1385, [1337]), (1386, [1338]), (1387, [1339]), (1388, [1340]), (1389, [1341]),
   (1390, [1342]), (1391, [1343]), (1392, [1344]), (1393, [1345]), (1394, [1346]), (1395, [1347]),
   (1396, [1348]), (1397, [1349]), (1398, [1350]), (1399, [1351]), (1400, [1352]), (1401, [1353]),
   (1402, [1354]), (1403, [1355]), (1404, [1356]), (1405, [1357]), (1406, [1358]), (1407, [1359]),
   (1408, [1360]), (1409, [1361]), (1410, [1362]), (1411, [1363]), (1412, [1364]), (1413, [1365]),
   (1414, [1366]), (1415, [1333, 1362]), (4304, [7312]), (4305, [7313]), (4306, [7314]),
   (4307, [7315]), (4308, [7316]), (4309, [7317]), (4310, [7318]), (4311, [7319]), (4312, [7320]),
   (4313, [7321]), (4314, [7322]), (4315, [7323]), (4316, [7324]), (4317, [7325]), (4318, [7326]),
   (4319, [7327]), (4320, [7328]), (4321, [7329]), (4322, [7330]), (4323, [7331]), (4324, [7332]),
   (4325, [7333]), (4326, [7334]), (4327, [7335]), (4328, [7336]), (4329, [7337]), (4330, [7338]),
   (4331, [7339]), (4332, [7340]), (4333, [7341]), (4334, [7342]), (4335, [7343]), (4336, [7344]),
   (4337, [7345]), (4338, [7346]), (4339, [7347]), (4340, [7348]), (4341, [7349]), (4342, [7350]),
   (4343, [7351]), (4344, [7352]), (4345, [7353]), (4346, [7354]), (4349, [7357]), (4350, [7358]),
   (4351, [7359]), (5112, [5104]), (5113, [5105]), (5114, [5106]), (5115, [5107]), (5116, [5108]),
   (5117, [5109]), (7296, [1042]), (7297, [1044]), (7298, [1054]), (7299, [1057]), (7300, [1058]),
   (7301, [1058]), (7302, [1066]), (7303, [1122]), (7304, [42570]), (7545, [42877]),
   (7549, [11363]), (7566, [42950]), (7681, [7680]), (7683, [7682]), (7685, [7684]),
   (7687, [7686]), (7689, [7688]), (7691, [7690]), (7693, [7692]), (7695, [7694]), (7697, [7696]),
   (7699, [7698]), (7701, [7700]), (7703, [7702]), (7705, [7704]), (7707, [7706]), (7709, [7708]),
   (7711, [7710]), (7713, [7712]), (7715, [7714]), (7717, [7716]), (7719, [7718]), (7721, [7720]),
   (7723, [7722]), (7725, [7724]), (7727, [7726]), (7729, [7728]), (7731, [7730]), (7733, [7732]),
   (7735, [7734]), (7737, [7736]), (7739, [7738]), (7741, [7740]), (7743, [7742]), (7745, [7744]),
   (7747, [7746]), (7749, [7748]), (7751, [7750]), (7753, [7752]), (7755, [7754]), (7757, [7756]),
   (7759, [7758]), (7761, [7760]), (7763, [7762]), (7765, [7764]), (7767, [7766]), (7769, [7768]),
   (7771, [7770]), (7773, [7772]), (7775, [7774]), (7777, [7776]), (7779, [7778]), (7781, [7780]),
   (7783, [7782]), (7785, [7784]), (7787, [7786]), (7789, [7788]), (7791, [7790]), (7793, [7792]),
   (7795, [7794]), (7797, [7796]), (7799, [7798]), (7801, [7800]), (7803, [7802]), (7805, [7804]),
   (7807, [7806]), (7809, [7808]), (7811, [7810]), (7813, [7812]), (7815, [7814]), (7817, [7816]),
   (7819, [7818]), (7821, [7820]), (7823, [7822]), (7825, [7824]), (7827, [7826]), (7829, [7828]),
   (7830, [72, 817]), (7831, [84, 776]), (7832, [87, 778]), (7833, [89, 778]), (7834, [65, 702]),
   (7835, [7776]), (7841, [7840]), (7843, [7842]), (7845, [7844]), (7847, [7846]), (7849, [7848]),
   (7851, [7850]), (7853, [7852]), (7855, [7854]), (7857, [7856]), (7859, [7858]), (7861, [7860]),
   (7863, [7862]), (7865, [7864]), (7867, [7866]), (7869, [7868]), (7871, [7870]), (7873, [7872]),
   (7875, [7874]), (7877, [7876]), (7879, [7878]), (7881, [7880]), (7883, [7882]), (7885, [7884]),
   (7887, [7886]), (7889, [7888]), (7891, [7890]), (7893, [7892]), (7895, [7894]), (7897, [7896]),
   (7899, [7898]), (7901, [7900]), (7903, [7902]), (7905, [7904]), (7907, [7906]), (7909, [7908]),
   (7911, [7910]), (7913, [7912]), (7915, [7914]), (7917, [7916]), (7919, [7918]), (7921, [7920]),
   (7923, [7922]), (7925, [7924]), (7927, [7926]), (7929, [7928]), (7931, [7930]), (7933, [7932]),
   (7935, [7934]), (7936, [7944]), (7937, [7945]), (7938, [7946]), (7939, [7947]), (7940, [7948]),
   (7941, [7949]), (7942, [7950]), (7943, [7951]), (7952, [7960]), (7953, [7961]), (7954, [7962]),
   (7955, [7963]), (7956, [7964]), (7957, [7965]), (7968, [7976]), (7969, [7977]), (7970, [7978]),
   (7971, [7979]), (7972, [7980]), (7973, [7981]), (7974, [7982]), (7975, [7983]), (7984, [7992]),
   (7985, [7993]), (7986, [7994]), (7987, [7995]), (7988, [7996]), (7989, [7997]), (7990, [7998]),
   (7991, [7999]), (8000, [8008]), (8001, [8009]), (8002, [8010]), (8003, [8011]), (8004, [8012]),
   (8005, [8013]), (8016, [933, 787]), (8017, [8025]), (8018, [933, 787, 768]), (8019, [8027]),
   (8020, [933, 787, 769]), (8021, [8029]), (8022, [933, 787, 834]), (8023, [8031]),
   (8032, [8040]), (8033, [8041]), (8034, [8042]), (8035, [8043]), (8036, [8044]), (8037, [8045]),
   (8038, [8046]), (8039, [8047]), (8048, [8122]), (8049, [8123]), (8050, [8136]), (8051, [8137]),
   (8052, [8138]), (8053, [8139]), (8054, [8154]), (8055, [8155]), (8056, [8184]), (8057, [8185]),
   (8058, [8170]), (8059, [8171]), (8060, [8186]), (8061, [8187]), (8064, [7944, 921]),
   (8065, [7945, 921]), (8066, [7946, 921]), (8067, [7947, 921]), (8068, [7948, 921]),
   (8069, [7949, 921]), (8070, [7950, 921]), (8071, [7951, 921]), (8072, [7944, 921]),
   (8073, [7945, 921]), (8074, [7946, 921]), (8075, [7947, 921]), (8076, [7948, 921]),
   (8077, [7949, 921]), (8078, [7950, 921]), (8079, [7951, 921]), (8080, [7976, 921]),
   (8081, [7977, 921]), (8082, [7978, 921]), (8083, [7979, 921]), (8084, [7980, 921]),
   (8085, [7981, 921]), (8086, [7982, 921]), (8087, [7983, 921]), (8088, [7976, 921]),
   (8089, [7977, 921]), (8090, [7978, 921]), (8091, [7979, 921]), (8092, [7980, 921]),
   (8093, [7981, 921]), (8094, [7982, 921]), (8095, [7983, 921]), (8096, [8040, 921]),
   (8097, [8041, 921]), (8098, [8042, 921]), (8099, [8043, 921]), (8100, [8044, 921]),
   (8101, [8045, 921]), (8102, [8046, 921]), (8103, [8047, 921]), (8104, [8040, 921]),
   (8105, [8041, 921]), (8106, [8042, 921]), (8107, [8043, 921]), (8108, [8044, 921]),
   (8109, [8045, 921]), (8110, [8046, 921]), (8111, [8047, 921]), (8112, [8120]), (8113, [8121]),
   (8114, [8122, 921]), (8115, [913, 921]), (8116, [902, 921]), (8118, [913, 834]),
   (8119, [913, 834, 921]), (8124, [913, 921]), (8126, [921]), (8130, [8138, 921]),
   (8131, [919, 921]), (8132, [905, 921]), (8134, [919, 834]), (8135, [919, 834, 921]),
   (8140, [919, 921]), (8144, [8152]), (8145, [8153]), (8146, [921, 776, 768]),
   (8147, [921, 776, 769]), (8150, [921, 834]), (8151, [921, 776, 834]), (8160, [8168]),
   (8161, [8169]), (8162, [933, 776, 768]), (8163, [933, 776, 769]), (8164, [929, 787]),
   (8165, [8172]), (8166, [933, 834]), (8167, [933, 776, 834]), (8178, [8186, 921]),
   (8179, [937, 921]), (8180, [911, 921]), (8182, [937, 834]), (8183, [937, 834, 921]),
   (8188, [937, 921]), (8526, [8498]), (8560, [8544]), (8561, [8545]), (8562, [8546]),
   (8563, [8547]), (8564, [8548]), (8565, [8549]), (8566, [8550]), (8567, [8551]), (8568, [8552]),
   (8569, [8553]), (8570, [8554]), (8571, [8555]), (8572, [8556]), (8573, [8557]), (8574, [8558]),
   (8575, [8559]), (8580, [8579]), (9424, [9398]), (9425, [9399]), (9426, [9400]), (9427, [9401]),
   (9428, [9402]), (9429, [9403]), (9430, [9404]), (9431, [9405]), (9432, [9406]), (9433, [9407]),
   (9434, [9408]), (9435, [9409]), (9436, [9410]), (9437, [9411]), (9438, [9412]), (9439, [9413]),
   (9440, [9414]), (9441, [9415]), (9442, [9416]), (9443, [9417]), (9444, [9418]), (9445, [9419]),
   (9446, [9420]), (9447, [9421]), (9448, [9422]), (9449, [9423]), (11312, [11264]),
   (11313, [11265]), (11314, [11266]), (11315, [11267]), (11316, [11268]), (11317, [11269]),
   (11318, [11270]), (11319, [11271]), (11320, [11272]), (11321, [11273]), (11322, [11274]),
   (11323, [11275]), (11324, [11276]), (11325, [11277]), (11326, [11278]), (11327, [11279]),
   (11328, [11280]), (11329, [11281]), (11330, [11282]), (11331, [11283]), (11332, [11284]),
   (11333, [11285]), (11334, [11286]), (11335, [11287]), (11336, [11288]), (11337, [11289]),
   (11338, [11290]), (11339, [11291]), (11340, [11292]), (11341, [11293]), (11342, [11294]),
   (11343, [11295]), (11344, [11296]), (11345, [11297]), (11346, [11298]), (11347, [11299]),
   (11348, [11300]), (11349, [11301]), (11350, [11302]), (11351, [11303]), (11352, [11304]),
   (11353, [11305]), (11354, [11306]), (11355, [11307]), (11356, [11308]), (11357, [11309]),
   (11358, [11310]), (11359, [11311]), (11361, [11360]), (11365, [570]), (11366, [574]),
   (11368, [11367]), (11370, [11369]), (11372, [11371]), (11379, [11378]), (11382, [11381]),
   (11393, [11392]), (11395, [11394]), (11397, [11396]), (11399, [11398]), (11401, [11400]),
   (11403, [11402]), (11405, [11404]), (11407, [11406]), (11409, [11408]), (11411, [11410]),
   (11413, [11412]), (11415, [11414]), (11417, [11416]), (11419, [11418]), (11421, [11420]),
   (11423, [11422]), (11425, [11424]), (11427, [11426]), (11429, [11428]), (11431, [11430]),
   (11433, [11432]), (11435, [11434]), (11437, [11436]), (11439, [11438]), (11441, [11440]),
   (11443, [11442]), (11445, [11444]), (11447, [11446]), (11449, [11448]), (11451, [11450]),
   (11453, [11452]), (11455, [11454]), (11457, [11456]), (11459, [11458]), (11461, [11460]),
   (11463, [11462]), (11465, [11464]), (11467, [11466]), (11469, [11468]), (11471, [11470]),
   (11473, [11472]), (11475, [11474]), (11477, [11476]), (11479, [11478]), (11481, [11480]),
   (11483, [11482]), (11485, [11484]), (11487, [11486]), (11489, [11488]), (11491, [11490]),
   (11500, [11499]), (11502, [11501]), (11507, [11506]), (11520, [4256]), (11521, [4257]),
   (11522, [4258]), (11523, [4259]), (11524, [4260]), (11525, [4261]), (11526, [4262]),
   (11527, [4263]), (11528, [4264]), (11529, [4265]), (11530, [4266]), (11531, [4267]),
   (11532, [4268]), (11533, [4269]), (11534, [4270]), (11535, [4271]), (11536, [4272]),
   (11537, [4273]), (11538, [4274]), (11539, [4275]), (11540, [4276]), (11541, [4277]),
   (11542, [4278]), (11543, [4279]), (11544, [4280]), (11545, [4281]), (11546, [4282]),
   (11547, [4283]), (11548, [4284]), (11549, [4285]), (11550, [4286]), (11551, [4287]),
   (11552, [4288]), (11553, [4289]), (11554, [4290]), (11555, [4291]), (11556, [4292]),
   (11557, [4293]), (11559, [4295]), (11565, [4301]), (42561, [42560]), (42563, [42562]),
   (42565, [42564]), (42567, [42566]), (42569, [42568]), (42571, [42570]), (42573, [42572]),
   (42575, [42574]), (42577, [42576]), (42579, [42578]), (42581, [42580]), (42583, [42582]),
   (42585, [42584]), (42587, [42586]), (42589, [42588]), (42591, [42590]), (42593, [42592]),
   (42595, [42594]), (42597, [42596]), (42599, [42598]), (42601, [42600]), (42603, [42602]),
   (42605, [42604]), (42625, [42624]), (42627, [42626]), (42629, [42628]), (42631, [42630]),
   (42633, [42632]), (42635, [42634]), (42637, [42636]), (42639, [42638]), (42641, [42640]),
   (42643, [42642]), (42645, [42644]), (42647, [42646]), (42649, [42648]), (42651, [42650]),
   (42787, [42786]), (42789, [42788]), (42791, [42790]), (42793, [42792]), (42795, [42794]),
   (42797, [42796]), (42799, [42798]), (42803, [42802]), (42805, [42804]), (42807, [42806]),
   (42809, [42808]), (42811, [42810]), (42813, [42812]), (42815, [42814]), (42817, [42816]),
   (42819, [42818]), (42821, [42820]), (42823, [42822]), (42825, [42824]), (42827, [42826]),
   (42829, [42828]), (42831, [42830]), (42833, [42832]), (42835, [42834]), (42837, [42836]),
   (42839, [42838]), (42841, [42840]), (42843, [42842]), (42845, [42844]), (42847, [42846]),
   (42849, [42848]), (42851, [42850]), (42853, [42852]), (42855, [42854]), (42857, [42856]),
   (42859, [42858]), (42861, [42860]), (42863, [42862]), (42874, [42873]), (42876, [42875]),
   (42879, [42878]), (42881, [42880]), (42883, [42882]), (42885, [42884]), (42887, [42886]),
   (42892, [42891]), (42897, [42896]), (42899, [42898]), (42900, [42948]), (42903, [42902]),
   (42905, [42904]), (42907, [42906]), (42909, [42908]), (42911, [42910]), (42913, [42912]),
   (42915, [42914]), (42917, [42916]), (42919, [42918]), (42921, [42920]), (42933, [42932]),
   (42935, [42934]), (42937, [42936]), (42939, [42938]), (42941, [42940]), (42943, [42942]),
   (42945, [42944]), (42947, [42946]), (42952, [42951]), (42954, [42953]), (42961, [42960]),
   (42967, [42966]), (42969, [42968]), (42998, [42997]), (43859, [42931]), (43888, [5024]),
   (43889, [5025]), (43890, [5026]), (43891, [5027]), (43892, [5028]), (43893, [5029]),
   (43894, [5030]), (43895, [5031]), (43896, [5032]), (43897, [5033]), (43898, [5034]),
   (43899, [5035]), (43900, [5036]), (43901, [5037]), (43902, [5038]), (43903, [5039]),
   (43904, [5040]), (43905, [5041]), (43906, [5042]), (43907, [5043]), (43908, [5044]),
   (43909, [5045]), (43910, [5046]), (43911, [5047]), (43912, [5048]), (43913, [5049]),
   (43914, [5050]), (43915, [5051]), (43916, [5052]), (43917, [5053]), (43918, [5054]),
   (43919, [5055]), (43920, [5056]), (43921, [5057]), (43922, [5058]), (43923, [5059]),
   (43924, [5060]), (43925, [5061]), (43926, [5062]), (43927, [5063]), (43928, [5064]),
   (43929, [5065]), (43930, [5066]), (43931, [5067]), (43932, [5068]), (43933, [5069]),
   (43934, [5070]), (43935, [5071]), (43936, [5072]), (43937, [5073]), (43938, [5074]),
   (43939, [5075]), (43940, [5076]), (43941, [5077]), (43942, [5078]), (43943, [5079]),
   (43944, [5080]), (43945, [5081]), (43946, [5082]), (43947, [5083]), (43948, [5084]),
   (43949, [5085]), (43950, [5086]), (43951, [5087]), (43952, [5088]), (43953, [5089]),
   (43954, [5090]), (43955, [5091]), (43956, [5092]), (43957, [5093]), (43958, [5094]),
   (43959, [5095]), (43960, [5096]), (43961, [5097]), (43962, [5098]), (43963, [5099]),
   (43964, [5100]), (43965, [5101]), (43966, [5102]), (43967, [5103]), (64256, [70, 70]),
   (64257, [70, 73]), (64258, [70, 76]), (64259, [70, 70, 73]), (64260, [70, 70, 76]),
   (64261, [83, 84]), (64262, [83, 84]), (64275, [1348, 1350]), (64276, [1348, 1333]),
   (64277, [1348, 1339]), (64278, [1358, 1350]), (64279, [1348, 1341]), (65345, [65313]),
   (65346, [65314]), (65347, [65315]), (65348, [65316]), (65349, [65317]), (65350, [65318]),
   (65351, [65319]), (65352, [65320]), (65353, [65321]), (65354, [65322]), (65355, [65323]),
   (65356, [65324]), (65357, [65325]), (65358, [65326]), (65359, [65327]), (65360, [65328]),
   (65361, [65329]), (65362, [65330]), (65363, [65331]), (65364, [65332]), (65365, [65333]),
   (65366, [65334]), (65367, [65335]), (65368, [65336]), (65369, [65337]), (65370, [65338])]

/-- Whether the code point of `c` lies in one of the ranges of a table of
code points beyond the ASCII range. -/
def inRanges (table : List (Nat × Nat)) (c : Char) : Bool :=
  decide (128 ≤ c.toNat) && table.any fun r => decide (r.1 ≤ c.toNat) && decide (c.toNat ≤ r.2)

/-- The function `QChar::isLetter`: the general category is a letter. -/
def isLetter (c : Char) : Bool := c.isAlpha || inRanges unicodeLetters c

/-- The function `QChar::isLetterOrNumber`: the general category is a letter
or a number. -/
def isLetterOrNumber (c : Char) : Bool :=
  c.isAlphanum || inRanges unicodeLetters c || inRanges unicodeNumbers c

/-- The function `QChar::isMark`: the general category is a mark. -/
def isMark (c : Char) : Bool := inRanges unicodeMarks c

/-- The function `QChar::isSpace` of Qt 5: space, the control characters tab,
line feed, vertical tab, form feed, carriage return and next line (U+0085),
and the characters whose general category is a separator.  The pattern `\s`
of `QRegExp` matches the same characters. -/
def isSpace (c : Char) : Bool :=
  c == ' ' || (decide (9 ≤ c.toNat) && decide (c.toNat ≤ 13)) || c.toNat == 133 ||
    inRanges unicodeSeparators c

/-- The upper case of one character: the characters that `QString::toUpper`
writes for it. -/
def upperOf (c : Char) : QString :=
  if c.toNat < 128 then [c.toUpper]
  else
    match List.lookup c.toNat unicodeUpper with
    | some u => u.map Char.ofNat
    | none => [c]

namespace QString

/-- The character at index `i` (`QString::at`); the source only calls it in range. -/
def charAt (s : QString) (i : Nat) : Char := s.getD i (Char.ofNat 0)

/-- For non-negative arguments `QString::mid(position, n)` is the at most `n`
characters starting at `position`. -/
def mid (s : QString) (position n : Nat) : QString := (s.drop position).take n

/-- Scan of `indexOf`: the first position, counted from `k`, at which `pat` starts. -/
def indexOfFrom (pat : QString) : QString → Nat → Option Nat
  | [], k => if pat = [] then some k else none
  | c :: t, k => if pat.isPrefixOf (c :: t) = true then some k else indexOfFrom pat t (k + 1)

/-- The function `QString::indexOf(pat, from)` for `from ≥ 0`; `none` is the source's `-1`. -/
def indexOf (s pat : QString) (start : Nat) : Option Nat :=
  if start ≤ s.length then indexOfFrom pat (s.drop start) start else none

/-- The function `QString::replace(position, n, after)`: the `n` characters at
`position` are replaced by `after`. -/
def replaceAt (s : QString) (position n : Nat) (after : QString) : QString :=
  s.take position ++ after ++ s.drop (position + n)

/-- Replacement of every occurrence of a non-empty `before`, scanning left to
right: at a match `after` is written and the matched characters are skipped
(`skip` counts those still to skip), so matches do not overlap and the text
written is never scanned again. -/
def replaceSkip (before after : QString) : Nat → QString → QString
  | _, [] => []
  | skip + 1, _ :: t => replaceSkip before after skip t
  | 0, c :: t =>
    if before.isPrefixOf (c :: t) = true then
      after ++ replaceSkip before after (before.length - 1) t
    else c :: replaceSkip before after 0 t

/-- The function `QString::replace(before, after)`.  An empty `before` matches
at every position, so `after` is inserted before each character and at the end. -/
def replace (s before after : QString) : QString :=
  if before = [] then after ++ (s.map fun c => c :: after).flatten
  else replaceSkip before after 0 s

/-- The function `QString::remove(pos, len)` of Qt 5: a negative `pos` counts
from the end, an out-of-range `pos` does nothing, and a range that runs over
the end truncates. -/
def remove (s : QString) (pos len : Int) : QString :=
  let p : Int := if pos < 0 then pos + s.length else pos
  if p < 0 ∨ (s.length : Int) ≤ p then s
  else if (s.length : Int) - p ≤ len then s.take p.toNat
  else if 0 < len then s.take p.toNat ++ s.drop (p.toNat + len.toNat)
  else s

/-- The function `QString::toUpper`: every character is replaced by its upper
case, which can be more than one character. -/
def toUpper (s : QString) : QString := s.flatMap upperOf

end QString

/-! ## Regular expressions (`QRegExp::exactMatch`) -/

/-- Regular expressions over character classes: the fragment of `QRegExp`
that `rexMacroIdentifier` needs. -/
inductive RegExp where
  | never : RegExp
  | empty : RegExp
  | cls : (Char → Bool) → RegExp
  | alt : RegExp → RegExp → RegExp
  | seq : RegExp → RegExp → RegExp
  | star : RegExp → RegExp

namespace RegExp

/-- Whether the expression matches the empty string. -/
def nullable : RegExp → Bool
  | never => false
  | empty => true
  | cls _ => false
  | alt a b => a.nullable || b.nullable
  | seq a b => a.nullable && b.nullable
  | star _ => true

/-- Brzozowski derivative: what remains to be matched after reading `c`. -/
def deriv : RegExp → Char → RegExp
  | never, _ => never
  | empty, _ => never
  | cls p, c => if p c = true then empty else never
  | alt a b, c => alt (a.deriv c) (b.deriv c)
  | seq a b, c =>
    if a.nullable = true then alt (seq (a.deriv c) b) (b.deriv c) else seq (a.deriv c) b
  | star a, c => seq (a.deriv c) (star a)

/-- The function `QRegExp::exactMatch`: the whole string is in the language. -/
def exactMatch (r : RegExp) : QString → Bool
  | [] => r.nullable
  | c :: t => exactMatch (r.deriv c) t

/-- One or more repetitions, the `+` of the pattern syntax. -/
def plus (r : RegExp) : RegExp := seq r (star r)

end RegExp

/-- The class `[A-Z]` under `Qt::CaseInsensitive`. -/
def rexUpperAZ : RegExp := .cls fun c => c.isAlpha

/-- The class `\w` of `QRegExp`: a letter, a number, a mark or an underscore. -/
def rexWord : RegExp := .cls fun c => isLetterOrNumber c || isMark c || c == '_'

/-- The pattern `([A-Z]|_|)(\w|\.)+` that `isMacroNameValid` compiles. -/
def rexMacroIdentifier : RegExp :=
  .seq (.alt rexUpperAZ (.alt (.cls fun c => c == '_') .empty))
    (RegExp.plus (.alt rexWord (.cls fun c => c == '.')))

/-- The function `MacroTable::isMacroNameValid`. -/
def isMacroNameValid (name : QString) : Bool := rexMacroIdentifier.exactMatch name


/-! ## The macro table -/

/-- The enumeration `MacroTable::MacroSource`. -/
inductive MacroSource where
  | CommandLine
  | CommandLineImplicit
  | Environment
  | MakeFile
  | Predefinition
  deriving DecidableEq, Repr

/-- Modelled from the spec: `MacroTable::MacroData` is declared in
`macrotable.h`, which is not among the sources.  A macro carries a raw value,
a source and a read-only flag; a default-constructed entry has an empty value,
is not read-only and counts as a normal makefile macro. -/
structure MacroData where
  value : QString := []
  source : MacroSource := MacroSource.MakeFile
  isReadOnly : Bool := false
  deriving DecidableEq, Repr

/-- A `QHash`/`QMap` keyed by strings, as an association list; the first
entry of a key is the one that counts. -/
abbrev StringMap (β : Type) := List (QString × β)

namespace StringMap

variable {β : Type}

/-- Lookup of a key. -/
def find (m : StringMap β) (key : QString) : Option β :=
  match m with
  | [] => none
  | (k, v) :: rest => if k = key then some v else find rest key

/-- The test `contains(key)`. -/
def contains (m : StringMap β) (key : QString) : Bool := (find m key).isSome

/-- Assignment `m[key] = v`: the entry is overwritten, or appended when new. -/
def set (m : StringMap β) (key : QString) (v : β) : StringMap β :=
  match m with
  | [] => [(key, v)]
  | (k, w) :: rest => if k = key then (k, v) :: rest else (k, w) :: set rest key v

/-- The call `remove(key)`. -/
def erase (m : StringMap β) (key : QString) : StringMap β :=
  m.filter fun e => !decide (e.1 = key)

end StringMap

/-- Modelled from the spec: the type of `m_environment` is declared outside
the sources; it is the environment mapping from names to values that
`setEnvironmentVariable` writes with `m_environment[name] = value`. -/
abbrev ProcessEnvironment := StringMap QString

/-- The state of a `MacroTable`: the macros and the mirrored process
environment. -/
structure MacroTable where
  m_macros : StringMap MacroData
  m_environment : ProcessEnvironment
  deriving DecidableEq, Repr

/-- What a call can fail with.  `exception` is a thrown `Exception` with its
message; `depthExceeded` and `iterationsExceeded` are the bounds of the
embedding: the budget for nested recursive calls, and the counter of loop
iterations; `nullPointer` is the use of a null pointer, which ends the run. -/
inductive Error where
  | exception (msg : QString)
  | depthExceeded
  | iterationsExceeded
  | nullPointer
  deriving DecidableEq, Repr

/-- Equality of results is decidable, so that concrete runs can be evaluated. -/
instance instDecidableEqExcept {ε α : Type} [DecidableEq ε] [DecidableEq α] :
    DecidableEq (Except ε α)
  | .ok a, .ok b =>
    if h : a = b then isTrue (congrArg Except.ok h) else isFalse fun h1 => h (Except.ok.inj h1)
  | .error a, .error b =>
    if h : a = b then isTrue (congrArg Except.error h)
    else isFalse fun h1 => h (Except.error.inj h1)
  | .ok _, .error _ => isFalse fun h => Except.noConfusion h
  | .error _, .ok _ => isFalse fun h => Except.noConfusion h

/-- The outcome of a member function that mutates the table: the table after
the call, and the exception that left the call, if any. -/
structure Effect where
  table : MacroTable
  raised : Option Error
  deriving DecidableEq, Repr

/-- The constant `MacroTable::fileNameMacroMagicEscape`, `QChar::ByteOrderMark`. -/
def fileNameMacroMagicEscape : Char := Char.ofNat 0xFEFF

/-- The value `m_macros.value(name)`: the entry, or a default-constructed one. -/
def macroData (mt : MacroTable) (name : QString) : MacroData :=
  (mt.m_macros.find name).getD {}

/-- The function `MacroTable::macroValue`. -/
def macroValue (mt : MacroTable) (macroName : QString) : QString :=
  (macroData mt macroName).value

/-- The function `MacroTable::isMacroDefined`. -/
def isMacroDefined (mt : MacroTable) (name : QString) : Bool :=
  mt.m_macros.contains name

/-- The function `MacroTable::undefineMacro`. -/
def undefineMacro (mt : MacroTable) (name : QString) : MacroTable :=
  { mt with m_macros := mt.m_macros.erase name }

/-- The function `MacroTable::setEnvironmentVariable`. -/
def setEnvironmentVariable (mt : MacroTable) (name value : QString) : MacroTable :=
  { mt with m_environment := mt.m_environment.set name value }

/-- The message of the cycle exception, `msg.arg(macroName)`. -/
def cycleMessage (macroName : QString) : QString :=
  "Cycle in macro detected when trying to invoke $(".toList ++ macroName ++ ").".toList

/-- The function `MacroTable::cycleCheckedMacroValue`: the raw value and the
updated set of macros in progress, or the cycle exception. -/
def cycleCheckedMacroValue (mt : MacroTable) (macroName : QString)
    (usedMacros : Finset QString) : Except Error (QString × Finset QString) :=
  if macroName ∈ usedMacros then .error (.exception (cycleMessage macroName))
  else .ok (macroValue mt macroName, insert macroName usedMacros)

/-! ## Substitution statements -/

/-- The structure `MacroTable::Substitution`. -/
structure Substitution where
  before : QString
  after : QString
  deriving DecidableEq, Repr

/-- The scanning loop of `parseSubstitutionStatement` over the characters from
index `i` on, with the loop variables `equalsSignIdx`, `quoted` and
`quotePositions`; the result is `equalsSignIdx`, `macroInvokationEndIdx`
(`none` for `-1`) and `quotePositions`. -/
def parseSubstitutionScan :
    QString → Nat → Option Nat → Bool → List Nat → Option Nat × Option Nat × List Nat
  | [], _, equalsSignIdx, _, quotePositions => (equalsSignIdx, none, quotePositions)
  | ch :: rest, i, equalsSignIdx, quoted, quotePositions =>
    if ch = '=' then parseSubstitutionScan rest (i + 1) (some i) false quotePositions
    else if ch = ')' ∧ quoted = false then (equalsSignIdx, some i, quotePositions)
    else if ch = '^' then
      parseSubstitutionScan rest (i + 1) equalsSignIdx true (quotePositions ++ [i])
    else parseSubstitutionScan rest (i + 1) equalsSignIdx false quotePositions

/-- The function `MacroTable::parseSubstitutionStatement`: the substitution
and the new value of the reference parameter `macroInvokationEndIdx`. -/
def parseSubstitutionStatement (str : QString) (substitutionStartIdx : Nat) :
    Except Error (Substitution × Nat) :=
  match parseSubstitutionScan (str.drop substitutionStartIdx) substitutionStartIdx none false [] with
  | (some equalsSignIdx, some macroInvokationEndIdx, quotePositions) =>
    .ok ({ before := QString.mid str substitutionStartIdx (equalsSignIdx - substitutionStartIdx)
           after := quotePositions.foldr
             (fun (q : Nat) (after : QString) =>
               QString.remove after ((q : Int) - (equalsSignIdx : Int) - 1) 1)
             (QString.mid str (equalsSignIdx + 1) (macroInvokationEndIdx - equalsSignIdx - 1)) },
         macroInvokationEndIdx)
  | _ => .error (.exception "Cannot find = after : in macro substitution.".toList)

/-- The function `MacroTable::applySubstitution`. -/
def applySubstitution (substitution : Substitution) (value : QString) : QString :=
  QString.replace value substitution.before substitution.after

/-! ## Macro expansion -/

/-- The result of an expansion: the text and the set of macros in progress
as the call leaves it. -/
abbrev Expansion := Except Error (QString × Finset QString)

/-- The `for` loop of `expandMacros` that looks for the end of a `$(`
invocation, over the characters from index `macroInvokationEnd` on: the index
of the first `:`, if one comes before the first `)` (`macroNameEnd`, `none`
for `-1`), the index the loop stops at, and `closingParenthesisFound`. -/
def scanInvocation : QString → Nat → Option Nat → Option Nat × Nat × Bool
  | [], macroInvokationEnd, macroNameEnd => (macroNameEnd, macroInvokationEnd, false)
  | ch :: rest, macroInvokationEnd, macroNameEnd =>
    if ch = ':' then
      scanInvocation rest (macroInvokationEnd + 1)
        (if macroNameEnd.isNone = true then some macroInvokationEnd else macroNameEnd)
    else if ch = ')' then (macroNameEnd, macroInvokationEnd, true)
    else scanInvocation rest (macroInvokationEnd + 1) macroNameEnd

/-- The switch on the first character of a filename macro. -/
def isFileNameMacroChar (c : Char) : Bool :=
  c == '<' || c == '*' || c == '@' || c == '?'

/-- The variables of the scanning loop of `expandMacros`.  `appendStart` is
`none` where the source holds `-1`. -/
structure LoopState where
  i : Nat
  ret : QString
  appendStart : Option Nat
  appendLength : Nat
  usedMacros : Finset QString

/-- The branch `$(` of the loop body, entered with `i` at the parenthesis:
the new `i`, `ret` and `usedMacros`.  `recur` is the recursive call. -/
def expandInvocation (mt : MacroTable) (recur : QString → Finset QString → Expansion)
    (str : QString) (i : Nat) (ret : QString) (usedMacros : Finset QString) :
    Except Error (Nat × QString × Finset QString) :=
  match scanInvocation (str.drop (i + 1)) (i + 1) none with
  | (_, _, false) => .error (.exception "Macro invocation $( without closing ) found".toList)
  | (nameEnd, macroInvokationEnd, true) =>
    let macroNameEnd := nameEnd.getD macroInvokationEnd
    let macroName := QString.mid str (i + 1) (macroNameEnd - i - 1)
    if macroName = [] then .error (.exception "Macro name is missing from invocation".toList)
    else if isFileNameMacroChar (QString.charAt macroName 0) = true then
      .ok (macroInvokationEnd,
        ret ++ [fileNameMacroMagicEscape] ++ ['('] ++ QString.mid str (i + 1) (macroInvokationEnd - i),
        usedMacros)
    else
      match cycleCheckedMacroValue mt macroName usedMacros with
      | .error e => .error e
      | .ok (rawValue, used1) =>
        match recur rawValue used1 with
        | .error e => .error e
        | .ok (macroValue, used2) =>
          if macroNameEnd ≠ macroInvokationEnd then
            match parseSubstitutionStatement str (macroNameEnd + 1) with
            | .error e => .error e
            | .ok (s, newEnd) =>
              .ok (newEnd, ret ++ applySubstitution s macroValue, used2.erase macroName)
          else .ok (macroInvokationEnd, ret ++ macroValue, used2.erase macroName)

/-- The branch `$$` of the loop body, entered with `i` at the second dollar:
the new `i` and `ret`. -/
def expandDollar (inDependentsLine : Bool) (str : QString) (i : Nat) (ret : QString) :
    Nat × QString :=
  if inDependentsLine = true then
    let parenthesisFound : Bool := decide (i + 1 < str.length ∧ QString.charAt str (i + 1) = '(')
    let j := if parenthesisFound = true then i + 2 else i + 1
    if j < str.length ∧ QString.charAt str j = '@' then
      (j, ret ++ [fileNameMacroMagicEscape] ++ (if parenthesisFound = true then ['('] else []) ++ ['@'])
    else (i, ret ++ ['$'])
  else (i, ret ++ ['$'])

/-- The body of the `while` loop of `expandMacros`, up to the final `++i`. -/
def expandStep (mt : MacroTable) (inDependentsLine : Bool)
    (recur : QString → Finset QString → Expansion) (str : QString) (st : LoopState) :
    Except Error LoopState :=
  if QString.charAt str st.i = '$' ∧ st.i + 1 < str.length then
    let ret := match st.appendStart with
      | some appendStart => st.ret ++ QString.mid str appendStart st.appendLength
      | none => st.ret
    let i := st.i + 1
    if QString.charAt str i = '(' then
      match expandInvocation mt recur str i ret st.usedMacros with
      | .error e => .error e
      | .ok (i, ret, usedMacros) =>
        .ok { st with i := i, ret := ret, appendStart := none, usedMacros := usedMacros }
    else if QString.charAt str i = '$' then
      let r := expandDollar inDependentsLine str i ret
      .ok { st with i := r.1, ret := r.2, appendStart := none }
    else if isLetterOrNumber (QString.charAt str i) = true then
      let macroName : QString := [QString.charAt str i]
      match cycleCheckedMacroValue mt macroName st.usedMacros with
      | .error e => .error e
      | .ok (rawValue, used1) =>
        match recur rawValue used1 with
        | .error e => .error e
        | .ok (macroValue, used2) =>
          .ok { st with i := i, ret := ret ++ macroValue, appendStart := none,
                        usedMacros := used2.erase macroName }
    else if isFileNameMacroChar (QString.charAt str i) = true then
      .ok { st with i := i, ret := ret ++ [fileNameMacroMagicEscape] ++ [QString.charAt str i],
                    appendStart := none }
    else .error (.exception "Invalid macro invocation found".toList)
  else
    match st.appendStart with
    | none => .ok { st with appendStart := some st.i, appendLength := 1 }
    | some _ => .ok { st with appendLength := st.appendLength + 1 }

/-- The `while (i <= max_i)` loop of `expandMacros`; `fuel` counts the
iterations that may still be made. -/
def expandLoop (mt : MacroTable) (inDependentsLine : Bool)
    (recur : QString → Finset QString → Expansion) (str : QString) :
    Nat → LoopState → Except Error LoopState
  | 0, st => if st.i < str.length then .error .iterationsExceeded else .ok st
  | fuel + 1, st =>
    if st.i < str.length then
      match expandStep mt inDependentsLine recur str st with
      | .error e => .error e
      | .ok st1 => expandLoop mt inDependentsLine recur str fuel { st1 with i := st1.i + 1 }
    else .ok st

/-- The body of the three-argument `MacroTable::expandMacros`, with the
recursive call as a parameter.  Every iteration advances `i`, so `str.length`
iterations are enough. -/
def expandBody (mt : MacroTable) (inDependentsLine : Bool)
    (recur : QString → Finset QString → Expansion) (str : QString)
    (usedMacros : Finset QString) : Expansion :=
  match expandLoop mt inDependentsLine recur str str.length
      { i := 0, ret := [], appendStart := none, appendLength := 0, usedMacros := usedMacros } with
  | .error e => .error e
  | .ok st =>
    match st.appendStart with
    | some appendStart =>
      if appendStart = 0 ∧ st.appendLength = str.length then .ok (str, st.usedMacros)
      else .ok (st.ret ++ QString.mid str appendStart st.appendLength, st.usedMacros)
    | none => .ok (st.ret, st.usedMacros)

/-- The three-argument `MacroTable::expandMacros` with at most `depth` levels
of nested recursive calls below it. -/
def expandMacrosDepth (mt : MacroTable) (inDependentsLine : Bool) :
    Nat → QString → Finset QString → Expansion
  | 0 => expandBody mt inDependentsLine (fun _ _ => .error .depthExceeded)
  | depth + 1 => expandBody mt inDependentsLine (expandMacrosDepth mt inDependentsLine depth)

/-- The number of defined macros. -/
def definedCount (mt : MacroTable) : Nat := (mt.m_macros.map Prod.fst).toFinset.card

/-- The two-argument `MacroTable::expandMacros`: the expansion starts with no
macro in progress.  The nesting budget is the number of defined macros plus
one, which is proved never to be exceeded. -/
def expandMacros (mt : MacroTable) (str : QString) (inDependentsLine : Bool) :
    Except Error QString :=
  match expandMacrosDepth mt inDependentsLine (definedCount mt + 1) str ∅ with
  | .error e => .error e
  | .ok (ret, _) => .ok ret

/-! ## Setting macros -/

/-- The `do … while` loop of `replaceStringWithLazyValue`, entered with an
occurrence of `searchString` at `idx`; `none` when `fuel` iterations do not
finish it. -/
def replaceLazyLoop (searchString oldValue : QString) : Nat → QString → Nat → Option QString
  | 0, _, _ => none
  | fuel + 1, str, idx =>
    let str1 := QString.replaceAt str idx searchString.length oldValue
    match QString.indexOf str1 searchString (idx + oldValue.length) with
    | some idx1 => replaceLazyLoop searchString oldValue fuel str1 idx1
    | none => some str1

/-- The function template `replaceStringWithLazyValue`: the new content of
`str`.  Each iteration uses up an occurrence of the search string in the
original text, so `str.length` iterations are enough for a non-empty one. -/
def replaceStringWithLazyValue (str searchString : QString) (getValue : Unit → QString) :
    Option QString :=
  match QString.indexOf str searchString 0 with
  | some idx => replaceLazyLoop searchString (getValue ()) str.length str idx
  | none => some str

/-- A write through a `MacroData*` that points at the entry of `key`. -/
def modifyMacro (mt : MacroTable) (key : QString) (f : MacroData → MacroData) : MacroTable :=
  { mt with m_macros := mt.m_macros.set key (f (macroData mt key)) }

/-- The function `MacroTable::internalSetMacroValue`.  The returned pointer is
the key of the entry it points at, `none` for the null pointer.  The only
exception is the one of `expandMacros(name)`, raised before anything is written. -/
def internalSetMacroValue (mt : MacroTable) (name value : QString) (ignoreReadOnly : Bool) :
    Except Error (MacroTable × Option QString) :=
  match expandMacros mt name false with
  | .error e => .error e
  | .ok expandedName =>
    if isMacroNameValid expandedName = false then .ok (mt, none)
    else
      let instantiatedName := "$(".toList ++ expandedName ++ ")".toList
      match replaceStringWithLazyValue value instantiatedName
          (fun _ => macroValue mt expandedName) with
      | none => .error .iterationsExceeded
      | some newValue =>
        .ok (modifyMacro mt expandedName (fun result =>
              if ignoreReadOnly = true ∨ result.isReadOnly = false then
                { result with value := newValue }
              else result),
             some expandedName)

/-- The function `MacroTable::setMacroValueImpl`. -/
def setMacroValueImpl (mt : MacroTable) (name value : QString) (source : MacroSource) : Effect :=
  match internalSetMacroValue mt name value false with
  | .error e => { table := mt, raised := some e }
  | .ok (mt1, none) =>
    { table := mt1,
      raised := some (.exception ("macro name ".toList ++ name ++ " is invalid".toList)) }
  | .ok (mt1, some key) =>
    let mt2 := modifyMacro mt1 key (fun md => { md with source := source })
    if (macroData mt2 key).source = MacroSource.Environment then
      match expandMacros mt2 (macroData mt2 key).value false with
      | .error e => { table := mt2, raised := some e }
      | .ok expanded => { table := setEnvironmentVariable mt2 name expanded, raised := none }
    else { table := mt2, raised := none }

/-- The function `MacroTable::setMacroValue`. -/
def setMacroValue (mt : MacroTable) (name value : QString) : Effect :=
  setMacroValueImpl mt name value MacroSource.MakeFile

/-- The function `MacroTable::predefineValue`. -/
def predefineValue (mt : MacroTable) (name value : QString) : Effect :=
  setMacroValueImpl mt name value MacroSource.Predefinition

/-- The function `MacroTable::defineCommandLineMacroValueImpl`. -/
def defineCommandLineMacroValueImpl (mt : MacroTable) (name value : QString)
    (source : MacroSource) : Effect :=
  match internalSetMacroValue mt name value true with
  | .error e => { table := mt, raised := some e }
  | .ok (mt1, none) => { table := mt1, raised := none }
  | .ok (mt1, some key) =>
    { table := modifyMacro mt1 key (fun md => { md with source := source, isReadOnly := true }),
      raised := none }

/-- The function `MacroTable::defineCommandLineMacroValue`. -/
def defineCommandLineMacroValue (mt : MacroTable) (name value : QString) : Effect :=
  defineCommandLineMacroValueImpl mt name value MacroSource.CommandLine

/-- The function `MacroTable::defineImplicitCommandLineMacroValue`. -/
def defineImplicitCommandLineMacroValue (mt : MacroTable) (name value : QString) : Effect :=
  defineCommandLineMacroValueImpl mt name value MacroSource.CommandLineImplicit

/-- The function `MacroTable::defineEnvironmentMacroValue`.  The `catch`
clause takes every `Exception` of `expandMacros(value)`. -/
def defineEnvironmentMacroValue (mt : MacroTable) (name value : QString) (readOnly : Bool) :
    Effect :=
  let upperName := QString.toUpper name
  if mt.m_macros.contains upperName = true then
    if (macroData mt upperName).source = MacroSource.CommandLine then
      let mt1 := modifyMacro mt upperName (fun md => { md with source := MacroSource.Environment })
      match expandMacros mt1 (macroData mt1 upperName).value false with
      | .error e => { table := mt1, raised := some e }
      | .ok expanded => { table := setEnvironmentVariable mt1 upperName expanded, raised := none }
    else { table := mt, raised := none }
  else
    match expandMacros mt value false with
    | .error (.exception _) => { table := mt, raised := none }
    | .error e => { table := mt, raised := some e }
    | .ok expandedValue =>
      match internalSetMacroValue mt upperName value false with
      | .error e => { table := mt, raised := some e }
      | .ok (mt1, none) => { table := mt1, raised := none }
      | .ok (mt1, some key) =>
        let mt2 := modifyMacro mt1 key
          (fun md => { md with source := MacroSource.Environment, isReadOnly := readOnly })
        { table := setEnvironmentVariable mt2 upperName expandedValue, raised := none }

/-- A table with no macro and an empty environment, as the constructor leaves it. -/
def MacroTable.empty : MacroTable := { m_macros := [], m_environment := [] }

/-! ## Text primitives used by the parser -/

namespace QString

/-- The call `s.trimmed()`: white space is removed from both ends. -/
def trimmed (s : QString) : QString :=
  ((s.dropWhile isSpace).reverse.dropWhile isSpace).reverse

/-- The call `s.left(n)` for `n ≥ 0`. -/
def left (s : QString) (n : Nat) : QString := s.take n

/-- The call `s.right(n)` for `n ≥ 0`. -/
def right (s : QString) (n : Nat) : QString := s.drop (s.length - n)

/-- The call `s.startsWith(c)` for a character `c`. -/
def startsWithChar (s : QString) (c : Char) : Bool :=
  match s with
  | [] => false
  | d :: _ => d == c

/-- The call `s.startsWith(pat)` for a string `pat`. -/
def startsWith (s pat : QString) : Bool := pat.isPrefixOf s

/-- The call `s.indexOf(c)` for a character `c`; `none` stands for `-1`. -/
def indexOfChar : QString → Char → Option Nat
  | [], _ => none
  | d :: t, c => if d = c then some 0 else (indexOfChar t c).map (· + 1)

/-- The call `s.split(QRegExp("\\s"))`: the string is cut at every white
space character, and empty parts are kept. -/
def splitSpace : QString → List QString
  | [] => [[]]
  | c :: t =>
    if isSpace c = true then [] :: splitSpace t
    else
      match splitSpace t with
      | [] => [[c]]
      | h :: r => (c :: h) :: r

/-- The call `s.split(QRegExp("\\s"), QString::SkipEmptyParts)`. -/
def splitSpaceSkipEmpty (s : QString) : List QString :=
  (splitSpace s).filter fun part => !decide (part = [])

/-- The call `s.toInt(&ok)`, `none` where `ok` is set to false.  White space
around the number is skipped, a sign may stand before the digits, the digits
are decimal, and the value has to fit in 32 bits. -/
def toInt (s : QString) : Option Int :=
  let t := trimmed s
  let digits := if t.head? = some '-' ∨ t.head? = some '+' then t.drop 1 else t
  if digits ≠ [] ∧ digits.all Char.isDigit = true then
    let n : Int :=
      digits.foldl (fun (acc : Int) (c : Char) => 10 * acc + ((c.toNat - 48 : Nat) : Int)) 0
    let v : Int := if t.head? = some '-' then -n else n
    if -2147483648 ≤ v ∧ v ≤ 2147483647 then some v else none
  else none

end QString

/-- The search `m_rexInlineMarkerOption.indexIn(line)` for the pattern
`(<<\s*)(\S*)`, with the capture `cap(2)` as its result; `none` stands for the
result `-1`.  The match starts at the first `<<`; the quantifiers are greedy,
so the first group takes all the white space behind it and the second group
the characters up to the next white space. -/
def inlineMarkerOption (line : QString) : Option QString :=
  match QString.indexOf line "<<".toList 0 with
  | none => none
  | some i => some (((line.drop (i + 2)).dropWhile isSpace).takeWhile fun c => !isSpace c)

/-! ## The makefile -/

/-- Modelled from the spec: the class `InlineFile` is declared in makefile.h,
which is not among the sources.  It has a filename (possibly empty), a
content, a keep flag and a unicode flag; a new object has empty strings and
both flags off. -/
structure InlineFile where
  m_keep : Bool := false
  m_unicode : Bool := false
  m_filename : QString := []
  m_content : QString := []
  deriving DecidableEq, Repr

/-- Modelled from the spec: the class `Command` is declared in makefile.h,
which is not among the sources.  It has the command line, the largest exit
code that counts as success (an `unsigned char`, 0 in a new object), the
silent flag (off in a new object) and an optional inline file. -/
structure Command where
  m_commandLine : QString := []
  m_inlineFile : Option InlineFile := none
  m_maxExitCode : Nat := 0
  m_silent : Bool := false
  deriving DecidableEq, Repr

/-- Modelled from the spec: the class `InferenceRule` is declared in
makefile.h, which is not among the sources.  It has the batch mode flag, the
search path and the extension of the source, the search path and the
extension of the target, and the commands. -/
structure InferenceRule where
  m_batchMode : Bool := false
  m_fromSearchPath : QString := []
  m_fromExtension : QString := []
  m_toSearchPath : QString := []
  m_toExtension : QString := []
  m_commands : List Command := []
  deriving DecidableEq, Repr

/-- Modelled from the spec: `InferenceRule::operator==` is declared in
makefile.h, which is not among the sources.  Two rules are equal when the two
search paths and the two extensions are; the batch mode flag and the commands
do not count. -/
def InferenceRule.equals (a b : InferenceRule) : Bool :=
  decide (a.m_fromSearchPath = b.m_fromSearchPath) && decide (a.m_fromExtension = b.m_fromExtension)
    && decide (a.m_toSearchPath = b.m_toSearchPath) && decide (a.m_toExtension = b.m_toExtension)

/-- Modelled from the spec: the enumeration `DescriptionBlock::AddCommandsState`
is declared in makefile.h, which is not among the sources; the enumerators are
taken in the order in which the spec lists them, `Unknown | Enabled | Disabled`,
so that `ACSUnknown` has the value 0. -/
inductive AddCommandsState where
  | ACSUnknown
  | ACSEnabled
  | ACSDisabled
  deriving DecidableEq, Repr

/-- The conversion of an enumerator to `bool` in `if (canAddCommands)`: the
value is compared with 0.  A new block gets its commands through this test
with `ACSEnabled`, which therefore is not 0. -/
def AddCommandsState.toBool : AddCommandsState → Bool
  | .ACSUnknown => false
  | .ACSEnabled => true
  | .ACSDisabled => true

/-- Modelled from the spec: the class `DescriptionBlock` is declared in
makefile.h, which is not among the sources.  The fields are the ones the
parser reads and writes; `m_timeStamp` is `none` for an invalid `QDateTime`,
and `m_suffixes`, a shared pointer to a list that is never changed in place,
is the list.  `m_inferenceRules`, a list of pointers to rules of the makefile,
is the list of the rules.  A new block has no dependents, no commands, no
rules, the state `ACSUnknown` and no visited mark. -/
structure DescriptionBlock where
  m_target : QString := []
  m_dependents : List QString := []
  m_commands : List Command := []
  m_suffixes : List QString := []
  m_timeStamp : Option Nat := none
  m_bFileExists : Bool := false
  m_canAddCommands : AddCommandsState := AddCommandsState.ACSUnknown
  m_bVisitedByCycleCheck : Bool := false
  m_inferenceRules : List InferenceRule := []
  deriving DecidableEq, Repr

/-- Modelled from the spec: the class `Makefile` is declared in makefile.h,
which is not among the sources.  It owns the description blocks, in a map
from the target name to the block, and knows the first target; it has the
list of the inference rules and the list of the precious targets.  A pointer
to a block is the name under which the block is stored; `none` is the null
pointer. -/
structure Makefile where
  m_targets : StringMap DescriptionBlock := []
  m_firstTarget : Option QString := none
  m_inferenceRules : List InferenceRule := []
  m_preciousTargets : List QString := []
  deriving DecidableEq, Repr

namespace Makefile

/-- Modelled from the spec: the lookup `target(name)` of a block by its name,
the null pointer when there is none. -/
def target (mf : Makefile) (name : QString) : Option QString :=
  if mf.m_targets.contains name = true then some name else none

/-- The block a pointer points at. -/
def block (mf : Makefile) (ptr : QString) : DescriptionBlock :=
  (mf.m_targets.find ptr).getD {}

/-- A write through a pointer to a block. -/
def modify (mf : Makefile) (ptr : QString) (f : DescriptionBlock → DescriptionBlock) :
    Makefile :=
  { mf with m_targets := mf.m_targets.set ptr (f (mf.block ptr)) }

/-- Modelled from the spec: `append(target)` stores the block under its name;
the first block appended is the first target. -/
def append (mf : Makefile) (target : DescriptionBlock) : Makefile :=
  { mf with
    m_targets := mf.m_targets.set target.m_target target
    m_firstTarget := match mf.m_firstTarget with
      | none => some target.m_target
      | some first => some first }

end Makefile

/-- Modelled from the spec: the preprocessor is not among the sources.  It
hands out the logical lines one at a time, and it owns the macro table, which
changes while the lines are read; every line to come is paired with the macro
table as it is once the line has been read.  At the end of the input
`readLine` returns the null string. -/
structure Preprocessor where
  m_lines : List (QString × MacroTable) := []
  m_macroTable : MacroTable := MacroTable.empty
  deriving DecidableEq, Repr

/-- Modelled from the spec: the call `m_preprocessor->readLine()`, which
returns the next logical line: the line, `none` for the null string at the end
of the input, and the preprocessor after the call. -/
def Preprocessor.readLine (pp : Preprocessor) : Option QString × Preprocessor :=
  match pp.m_lines with
  | [] => (none, pp)
  | (line, table) :: rest => (some line, { m_lines := rest, m_macroTable := table })

/-- Modelled from the spec: the calls `QFile::exists(name)` and
`QFileInfo(name).lastModified()`: the modification time of the file of that
name, `none` when there is no such file. -/
abbrev FileSystem := QString → Option Nat

/-- The members of `Parser` that the embedded functions use.  `m_line` is
`none` for the null string. -/
structure Parser where
  m_preprocessor : Preprocessor := {}
  m_line : Option QString := none
  m_makefile : Makefile := {}
  m_suffixes : List QString := []
  m_silentCommands : Bool := false
  m_ignoreExitCodes : Bool := false
  m_activeTargets : List QString := []
  deriving DecidableEq, Repr

namespace Parser

/-- The characters of `m_line`; the null string has none. -/
def line (p : Parser) : QString := p.m_line.getD []

/-- The function `Parser::macroTable`. -/
def macroTable (p : Parser) : MacroTable := p.m_preprocessor.m_macroTable

/-- The number of lines that the preprocessor still has. -/
def remaining (p : Parser) : Nat := p.m_preprocessor.m_lines.length

/-- The function `Parser::readLine`. -/
def readLine (p : Parser) : Parser :=
  { p with m_line := p.m_preprocessor.readLine.1, m_preprocessor := p.m_preprocessor.readLine.2 }

/-- The function `Parser::error`: it throws an `Exception` with the message
(the exception also carries the line number, which is left out). -/
def error {α : Type} (msg : String) : Except Error α := .error (.exception msg.toList)

/-- The function `Parser::isEmptyLine`. -/
def isEmptyLine (p : Parser) : Bool := (QString.trimmed p.line).isEmpty

/-- The function `Parser::isDescriptionBlock`: `none` for the result false,
otherwise the values of `separatorPos` and `separatorLength`. -/
def isDescriptionBlock (p : Parser) : Option (Nat × Nat) :=
  if p.line.length = 0 then none
  else if QString.charAt p.line 0 = ' ' ∨ QString.charAt p.line 0 = '\t' then none
  else
    match QString.indexOfChar p.line ':' with
    | none => none
    | some separatorPos =>
      if separatorPos + 1 < p.line.length ∧ QString.charAt p.line (separatorPos + 1) = ':' then
        some (separatorPos, 2)
      else some (separatorPos, 1)

end Parser

namespace Parser

/-- The function `Parser::createTarget`. -/
def createTarget (fs : FileSystem) (p : Parser) (targetName : QString) : Parser :=
  let target : DescriptionBlock :=
    { m_target := targetName
      m_bFileExists := (fs targetName).isSome
      m_suffixes := p.m_suffixes
      m_timeStamp := fs targetName }
  { p with m_makefile := p.m_makefile.append target }

/-- The loop `while (m_line.trimmed().isEmpty())` at the head of
`parseCommand`; the flag is false where the loop leaves the function with
`return false`.  `fuel` counts the tests of the loop condition that may still
be made. -/
def eatEmptyLines : Nat → Parser → Option (Parser × Bool)
  | 0, _ => none
  | fuel + 1, p =>
    if (QString.trimmed p.line).isEmpty = true then
      if p.readLine.m_line.isNone = true then some (p.readLine, false)
      else eatEmptyLines fuel p.readLine
    else some (p, true)

/-- The `while (!m_line.isNull())` loop of `parseInlineFile`.  `fuel` counts
the tests of the loop condition that may still be made. -/
def parseInlineFileLoop : Nat → Parser → InlineFile → Parser × Except Error InlineFile
  | 0, p, _ => (p, .error .iterationsExceeded)
  | fuel + 1, p, inlineFile =>
    match p.m_line with
    | none => (p, .ok inlineFile)
    | some line =>
      if QString.startsWith line "<<".toList = true then
        let options := QString.splitSpace (QString.right line (line.length - 2))
        let inlineFile1 : InlineFile :=
          if "KEEP".toList ∈ options then { inlineFile with m_keep := true } else inlineFile
        let inlineFile2 : InlineFile :=
          if "UNICODE".toList ∈ options then { inlineFile1 with m_unicode := true }
          else inlineFile1
        (p, .ok inlineFile2)
      else
        match expandMacros p.macroTable (QString.trimmed line) false with
        | .error e => (p, .error e)
        | .ok text =>
          parseInlineFileLoop fuel p.readLine
            { inlineFile with m_content := inlineFile.m_content ++ (text ++ "\n".toList) }

/-- The function `Parser::parseInlineFile`; the result is the command with the
inline file attached.  `m_rexInlineMarkerOption.cap(2)` is the capture of the
search that `parseCommand` has just made in `m_line`.  Every line is read at
most once, so one test of the loop condition per line that is left, and one
more, are enough. -/
def parseInlineFile (p : Parser) (cmd : Command) : Parser × Except Error Command :=
  let inlineFile : InlineFile := { m_filename := (inlineMarkerOption p.line).getD [] }
  match parseInlineFileLoop (p.remaining + 1) p.readLine inlineFile with
  | (p1, .error e) => (p1, .error e)
  | (p1, .ok inlineFile1) => (p1, .ok { cmd with m_inlineFile := some inlineFile1 })

/-- The part of `parseCommand` that looks at the first character of the
command line: `-`, with an optional number, and `@`. -/
def parseCommandPrefix (cmd : Command) : Command :=
  if QString.startsWithChar cmd.m_commandLine '-' = true then
    let commandLine := QString.right cmd.m_commandLine (cmd.m_commandLine.length - 1)
    let idx : Option Nat :=
      match QString.indexOfChar commandLine ' ' with
      | none => QString.indexOfChar commandLine '\t'
      | some idx => some idx
    let maxExitCode : Nat :=
      match idx with
      | none => 255
      | some idx =>
        match QString.toInt (QString.left commandLine (idx + 1)) with
        | none => 255
        | some exitCode => (exitCode % 256).toNat
    { cmd with m_commandLine := commandLine, m_maxExitCode := maxExitCode }
  else if QString.startsWithChar cmd.m_commandLine '@' = true then
    { cmd with
      m_commandLine := QString.right cmd.m_commandLine (cmd.m_commandLine.length - 1)
      m_silent := true }
  else cmd

/-- The function `Parser::parseCommand`: the value returned and the list
`commands` after the call.  When an exception leaves the function, the list,
a local variable of the caller, is gone. -/
def parseCommand (p : Parser) (commands : List Command) (inferenceRule : Bool) :
    Parser × Except Error (Bool × List Command) :=
  match eatEmptyLines (p.remaining + 1) p with
  | none => (p, .error .iterationsExceeded)
  | some (p1, false) => (p1, .ok (false, commands))
  | some (p1, true) =>
    if QString.startsWithChar p1.line ' ' = false ∧ QString.startsWithChar p1.line '\t' = false then
      (p1, .ok (false, commands))
    else
      let cmd : Command :=
        { m_maxExitCode := if p1.m_ignoreExitCodes = true then 255 else 0
          m_silent := p1.m_silentCommands }
      match (if inferenceRule = false then
          expandMacros p1.macroTable (QString.trimmed p1.line) false
        else .ok (QString.trimmed p1.line)) with
      | .error e => (p1, .error e)
      | .ok commandLine =>
        let cmd1 := parseCommandPrefix { cmd with m_commandLine := commandLine }
        if (inlineMarkerOption p1.line).isSome = true then
          match parseInlineFile p1 cmd1 with
          | (p2, .error e) => (p2, .error e)
          | (p2, .ok cmd2) => (p2, .ok (true, commands ++ [cmd2]))
        else (p1, .ok (true, commands ++ [cmd1]))

/-- The loop `while (parseCommand(commands, false)) readLine();`.  `fuel`
counts the calls of `parseCommand` that may still be made. -/
def parseCommands (inferenceRule : Bool) :
    Nat → Parser → List Command → Parser × Except Error (List Command)
  | 0, p, _ => (p, .error .iterationsExceeded)
  | fuel + 1, p, commands =>
    match parseCommand p commands inferenceRule with
    | (p1, .error e) => (p1, .error e)
    | (p1, .ok (false, commands1)) => (p1, .ok commands1)
    | (p1, .ok (true, commands1)) => parseCommands inferenceRule fuel p1.readLine commands1

/-- The loop at the end of the body of the `foreach` of
`parseDescriptionBlock`, which expands the command lines of the block in
place: the commands as the loop leaves them, and the exception that ended it,
if any. -/
def expandCommands (mt : MacroTable) : List Command → List Command × Option Error
  | [] => ([], none)
  | cmd :: rest =>
    match expandMacros mt cmd.m_commandLine false with
    | .error e => (cmd :: rest, some e)
    | .ok commandLine =>
      ({ cmd with m_commandLine := commandLine } :: (expandCommands mt rest).1,
        (expandCommands mt rest).2)

/-- The body of the `foreach (const QString& t, targets)` loop of
`parseDescriptionBlock`. -/
def addTarget (fs : FileSystem) (p : Parser) (separatorLength : Nat)
    (dependents : List QString) (commands : List Command) (t : QString) :
    Parser × Option Error :=
  let canAddCommands : AddCommandsState :=
    if separatorLength > 1 then AddCommandsState.ACSEnabled else AddCommandsState.ACSDisabled
  let entered : Except Error (Parser × AddCommandsState) :=
    match p.m_makefile.target t with
    | some descblock =>
      if canAddCommands ≠ (p.m_makefile.block descblock).m_canAddCommands ∧
          (p.m_makefile.block descblock).m_canAddCommands ≠ AddCommandsState.ACSUnknown then
        error "cannot have : and :: dependents for same target"
      else
        let mf1 := p.m_makefile.modify descblock fun b =>
          { b with m_canAddCommands := canAddCommands }
        .ok ({ p with m_makefile := mf1 }, canAddCommands)
    | none =>
      let mf1 := (createTarget fs p t).m_makefile.modify t fun b =>
        { b with m_canAddCommands := canAddCommands }
      .ok ({ (createTarget fs p t) with m_makefile := mf1 }, AddCommandsState.ACSEnabled)
  match entered with
  | .error e => (p, some e)
  | .ok (p1, canAddCommands1) =>
    let mf2 := p1.m_makefile.modify t fun b =>
      { b with m_dependents := dependents, m_suffixes := p1.m_suffixes }
    let mf3 := if canAddCommands1.toBool = true then
        mf2.modify t fun b => { b with m_commands := commands }
      else mf2
    let expanded := expandCommands p1.macroTable (mf3.block t).m_commands
    let mf4 := mf3.modify t fun b => { b with m_commands := expanded.1 }
    ({ p1 with m_makefile := mf4 }, expanded.2)

/-- The `foreach (const QString& t, targets)` loop of `parseDescriptionBlock`. -/
def addTargets (fs : FileSystem) (separatorLength : Nat) (dependents : List QString)
    (commands : List Command) : List QString → Parser → Parser × Option Error
  | [], p => (p, none)
  | t :: rest, p =>
    match addTarget fs p separatorLength dependents commands t with
    | (p1, some e) => (p1, some e)
    | (p1, none) => addTargets fs separatorLength dependents commands rest p1

/-- The lines of `parseDescriptionBlock` that read the commands of the block:
`readLine()`, then one more `readLine()` when the line is empty, and the loop
over `parseCommand` when it is not.  A call of `parseCommand` that returns
true is followed by `readLine`, so it is made at most once per line that is
left and once for the current line; one more call returns false. -/
def readCommands (p : Parser) : Parser × Except Error (List Command) :=
  if (QString.trimmed p.readLine.line).isEmpty = true then (p.readLine.readLine, .ok [])
  else parseCommands false (p.readLine.remaining + 2) p.readLine []

/-- The function `Parser::parseDescriptionBlock`: the parser after the call
and the exception that left it, if any. -/
def parseDescriptionBlock (fs : FileSystem) (p : Parser) (separatorPos separatorLength : Nat) :
    Parser × Option Error :=
  match expandMacros p.macroTable (QString.trimmed (QString.left p.line separatorPos)) false with
  | .error e => (p, some e)
  | .ok target =>
    match expandMacros p.macroTable
        (QString.trimmed (QString.right p.line (p.line.length - separatorPos - separatorLength)))
        false with
    | .error e => (p, some e)
    | .ok value =>
      match readCommands p with
      | (p2, .error e) => (p2, some e)
      | (p2, .ok commands) =>
        addTargets fs separatorLength (QString.splitSpaceSkipEmpty value) commands
          (QString.splitSpace target) p2

end Parser

/-! ## Cycles of targets -/

/-- The `foreach (const QString& depname, target->m_dependents)` loop of
`checkForCycles`, with the recursive call as a parameter. -/
def checkDependents (check : Makefile → Option QString → Except Error Makefile) :
    List QString → Makefile → Except Error Makefile
  | [], mf => .ok mf
  | depname :: rest, mf =>
    match check mf (mf.target depname) with
    | .error e => .error e
    | .ok mf1 => checkDependents check rest mf1

/-- The function `Parser::checkForCycles` with at most `depth` levels of
nested calls on a block below it; the result is the makefile with the marks
as the call leaves them. -/
def checkForCyclesDepth : Nat → Makefile → Option QString → Except Error Makefile
  | _, mf, none => .ok mf
  | 0, _, some _ => .error .depthExceeded
  | depth + 1, mf, some target =>
    if (mf.block target).m_bVisitedByCycleCheck = true then
      .error (.exception ("cycle in targets detected: ".toList ++ (mf.block target).m_target))
    else
      match checkDependents (checkForCyclesDepth depth) (mf.block target).m_dependents
          (mf.modify target fun b => { b with m_bVisitedByCycleCheck := true }) with
      | .error e => .error e
      | .ok mf2 => .ok (mf2.modify target fun b => { b with m_bVisitedByCycleCheck := false })

/-- The function `Parser::checkForCycles`.  Every nested call on a block marks
a block that was not marked, so the nesting is never deeper than the number of
blocks. -/
def checkForCycles (mf : Makefile) (target : Option QString) : Except Error Makefile :=
  checkForCyclesDepth (mf.m_targets.length + 1) mf target

/-! ## Inference rules and dot directives -/

namespace QString

/-- The call `s.endsWith(pat)` for a string `pat`. -/
def endsWith (s pat : QString) : Bool := pat.isSuffixOf s

/-- The call `s.endsWith(c)` for a character `c`. -/
def endsWithChar (s : QString) (c : Char) : Bool := s.getLast? == some c

/-- The call `s.chop(n)`: the last `n` characters are removed. -/
def chop (s : QString) (n : Nat) : QString := s.take (s.length - n)

/-- The call `s.simplified()`: white space is removed from both ends, and
every run of white space inside is replaced by one space. -/
def simplified (s : QString) : QString := " ".toList.intercalate (splitSpaceSkipEmpty s)

end QString

/-- Modelled from the spec: `removeDirSeparatorAtEnd` is defined outside the
sources; it strips a trailing directory separator, `/` or `\`, from a path. -/
def removeDirSeparatorAtEnd (directory : QString) : QString :=
  if QString.endsWithChar directory '/' = true ∨ QString.endsWithChar directory '\\' = true then
    QString.chop directory 1
  else directory

/-- The characters of the class `\w`. -/
def isWordChar (c : Char) : Bool := isLetterOrNumber c || isMark c || c == '_'

/-- The match of `m_rexDotDirective`, with the pattern
`^\.(IGNORE|PRECIOUS|SILENT|SUFFIXES)\s*:(.*)`, against a whole line
(`exactMatch`): the captures `cap(1)` and `cap(2)`, `none` when the line does
not match. -/
def rexDotDirective (line : QString) : Option (QString × QString) :=
  match line with
  | '.' :: rest =>
    ["IGNORE".toList, "PRECIOUS".toList, "SILENT".toList, "SUFFIXES".toList].findSome?
      fun directive =>
        if directive.isPrefixOf rest = true then
          match (rest.drop directive.length).dropWhile isSpace with
          | ':' :: value => some (directive, value)
          | _ => none
        else none
  | _ => none

/-- The part `(\.\w+)` of a pattern at the head of a text: the capture and
the text behind it.  The capture takes every word character that follows. -/
def rexExtension (s : QString) : Option (QString × QString) :=
  match s with
  | '.' :: t =>
    if t.takeWhile isWordChar = [] then none
    else some ('.' :: t.takeWhile isWordChar, t.dropWhile isWordChar)
  | _ => none

/-- The indices of the characters `}` of a text that starts at index `i`,
the last one first. -/
def closingBraces : QString → Nat → List Nat
  | [], _ => []
  | c :: t, i => if c = '}' then closingBraces t (i + 1) ++ [i] else closingBraces t (i + 1)

/-- The part `(\.\w+)(\{.*\})?(\.\w+)(:{1,2})` of the pattern of
`m_rexInferenceRule`, matched against a whole text: the captures of the four
groups.  The second extension and the colons hold no `}`, so the group in
braces, if there is one, ends at the last `}`. -/
def rexInferenceRuleTail (s : QString) : Option (QString × QString × QString × QString) :=
  match rexExtension s with
  | none => none
  | some (fromExt, s1) =>
    let toPath : QString :=
      match s1, closingBraces s1 0 with
      | '{' :: _, k :: _ => s1.take (k + 1)
      | _, _ => []
    match rexExtension (s1.drop toPath.length) with
    | none => none
    | some (toExt, s2) =>
      if s2 = ":".toList ∨ s2 = "::".toList then some (fromExt, toPath, toExt, s2) else none

/-- The match of `m_rexInferenceRule`, with the pattern
`^(\{.*\})?(\.\w+)(\{.*\})?(\.\w+)(:{1,2})`, against a whole line
(`exactMatch`): the captures `cap(1)` to `cap(5)`, `none` when the line does
not match.  The quantifiers are greedy: the first group in braces ends at the
last `}` behind which the rest of the line still matches. -/
def rexInferenceRule (line : QString) :
    Option (QString × QString × QString × QString × QString) :=
  match line with
  | '{' :: _ =>
    (closingBraces line 0).findSome? fun k =>
      (rexInferenceRuleTail (line.drop (k + 1))).map fun caps => (line.take (k + 1), caps)
  | _ => (rexInferenceRuleTail line).map fun caps => ([], caps)

namespace Parser

/-- The function `Parser::isInferenceRule`. -/
def isInferenceRule (p : Parser) : Bool := (rexInferenceRule p.line).isSome

/-- The function `Parser::isDotDirective`. -/
def isDotDirective (p : Parser) : Bool := (rexDotDirective p.line).isSome

/-- The lines of `parseInferenceRule` that turn a capture in braces into a
search path: the braces are stripped, an empty path becomes `.`, and a
directory separator at the end is removed. -/
def searchPath (captured : QString) : QString :=
  let path1 : QString :=
    if captured.length ≥ 2 then QString.mid captured 1 (captured.length - 2) else captured
  let path2 : QString := if path1.isEmpty = true then ".".toList else path1
  removeDirSeparatorAtEnd path2

/-- The end of `parseInferenceRule`: `qFind` looks for the first rule that is
equal to `rule`, that rule is erased, and `rule` is appended. -/
def replaceRule (rules : List InferenceRule) (rule : InferenceRule) : List InferenceRule :=
  match rules.findIdx? fun r => r.equals rule with
  | some it => rules.eraseIdx it ++ [rule]
  | none => rules ++ [rule]

/-- The lines of `parseInferenceRule` that build the rule, without commands,
from the captures.  The captures are those of the match that `isInferenceRule`
has just made against `m_line`; without a match they are empty. -/
def inferenceRuleOfLine (p : Parser) : InferenceRule :=
  let caps := (rexInferenceRule p.line).getD ([], [], [], [], [])
  { m_batchMode := decide (caps.2.2.2.2.length > 1)
    m_fromSearchPath := searchPath caps.1
    m_fromExtension := caps.2.1
    m_toSearchPath := searchPath caps.2.2.1
    m_toExtension := caps.2.2.2.1 }

/-- The function `Parser::parseInferenceRule`: the parser after the call and
the exception that left it, if any.  The bound on the calls of `parseCommand`
is the one of `readCommands`. -/
def parseInferenceRule (p : Parser) : Parser × Option Error :=
  match parseCommands true (p.readLine.remaining + 2) p.readLine [] with
  | (p1, .error e) => (p1, some e)
  | (p1, .ok commands) =>
    let rules := replaceRule p1.m_makefile.m_inferenceRules
      { p.inferenceRuleOfLine with m_commands := commands }
    ({ p1 with m_makefile := { p1.m_makefile with m_inferenceRules := rules } }, none)

/-- The loop `foreach (QString str, splitvalues)` of the branch `PRECIOUS` of
`parseDotDirective`. -/
def addPreciousTargets : List QString → List QString → List QString
  | [], preciousTargets => preciousTargets
  | str :: rest, preciousTargets =>
    if str.isEmpty = false ∧ str ∉ preciousTargets then
      addPreciousTargets rest (preciousTargets ++ [str])
    else addPreciousTargets rest preciousTargets

/-- The function `Parser::parseDotDirective`.  The captures are those of the
match that `isDotDirective` has just made against `m_line`; without a match
they are empty. -/
def parseDotDirective (p : Parser) : Parser :=
  let caps := (rexDotDirective p.line).getD ([], [])
  let directive := caps.1
  let value := caps.2
  let p1 : Parser :=
    if directive = "SUFFIXES".toList then
      let splitvalues := QString.splitSpaceSkipEmpty (QString.simplified value)
      if splitvalues.isEmpty = true then { p with m_suffixes := [] }
      else { p with m_suffixes := p.m_suffixes ++ splitvalues }
    else if directive = "IGNORE".toList then { p with m_ignoreExitCodes := true }
    else if directive = "PRECIOUS".toList then
      let preciousTargets :=
        addPreciousTargets (QString.splitSpace value) p.m_makefile.m_preciousTargets
      { p with m_makefile := { p.m_makefile with m_preciousTargets := preciousTargets } }
    else if directive = "SILENT".toList then { p with m_silentCommands := true }
    else p
  p1.readLine

end Parser

/-! ## Time stamps -/

/-- The time stamp `QDateTime(QDate(1900, 1, 1))`.  A valid `QDateTime` is
the number of milliseconds since the start of the Julian day 0; the first of
January 1900 is the Julian day 2415021. -/
def sentinelTimeStamp : Nat := 2415021 * 86400000

/-- The comparison `a > b` of two `QDateTime`; the source compares time stamps
that are valid, and with an invalid one the result is taken to be false. -/
def timeStampGreater (a b : Option Nat) : Bool :=
  match a, b with
  | some x, some y => decide (x > y)
  | _, _ => false

/-- The state that `updateTimeStamp` works on: the makefile, and the number of
calls of `QDateTime::currentDateTime()` made so far.  The system clock is a
function `clock`: the call number `n` returns `clock n`. -/
structure TimeStampState where
  makefile : Makefile
  clockCalls : Nat
  deriving DecidableEq, Repr

/-- The `foreach (const QString& depname, db->m_dependents)` loop of
`updateTimeStamp`, with the recursive call as a parameter.  The lookup
`m_targets[depname]` is the null pointer for a name without a block; the entry
with a null pointer that it adds to the map is, for every lookup, the same as
no entry. -/
def updateDependentsTimeStamp
    (update : TimeStampState → QString → Except Error TimeStampState) (db : QString) :
    List QString → TimeStampState → Except Error TimeStampState
  | [], s => .ok s
  | depname :: rest, s =>
    match s.makefile.target depname with
    | none => updateDependentsTimeStamp update db rest s
    | some dep =>
      match update s dep with
      | .error e => .error e
      | .ok s1 =>
        let depTimeStamp := (s1.makefile.block dep).m_timeStamp
        if timeStampGreater depTimeStamp (s1.makefile.block db).m_timeStamp = true then
          updateDependentsTimeStamp update db rest
            { s1 with makefile := s1.makefile.modify db fun b =>
                { b with m_timeStamp := depTimeStamp } }
        else updateDependentsTimeStamp update db rest s1

/-- The body of `Parser::updateTimeStamp`, with the recursive call as a
parameter. -/
def updateTimeStampBody (clock : Nat → Nat)
    (update : TimeStampState → QString → Except Error TimeStampState)
    (s : TimeStampState) (db : QString) : Except Error TimeStampState :=
  if (s.makefile.block db).m_timeStamp.isSome = true then .ok s
  else if (s.makefile.block db).m_dependents.isEmpty = true then
    .ok { makefile := s.makefile.modify db fun b =>
            { b with m_timeStamp := some (clock s.clockCalls) }
          clockCalls := s.clockCalls + 1 }
  else
    updateDependentsTimeStamp update db (s.makefile.block db).m_dependents
      { s with makefile := s.makefile.modify db fun b =>
          { b with m_timeStamp := some sentinelTimeStamp } }

/-- The function `Parser::updateTimeStamp` with at most `depth` levels of
nested calls below it. -/
def updateTimeStampDepth (clock : Nat → Nat) :
    Nat → TimeStampState → QString → Except Error TimeStampState
  | 0 => updateTimeStampBody clock fun _ _ => .error .depthExceeded
  | depth + 1 => updateTimeStampBody clock (updateTimeStampDepth clock depth)

/-- The function `Parser::updateTimeStamp`.  A nested call that does not
return at once is made on a block without a valid time stamp, after the
calling block got one, so the nesting is never deeper than the number of
blocks. -/
def updateTimeStamp (clock : Nat → Nat) (s : TimeStampState) (db : QString) :
    Except Error TimeStampState :=
  updateTimeStampDepth clock s.makefile.m_targets.length s db

/-- The loop `foreach (DescriptionBlock* db, m_makefile.m_targets)` of
`updateTimeStamps` over the pointers to the blocks. -/
def updateTimeStampsLoop (clock : Nat → Nat) :
    List QString → TimeStampState → Except Error TimeStampState
  | [], s => .ok s
  | db :: rest, s =>
    match updateTimeStamp clock s db with
    | .error e => .error e
    | .ok s1 => updateTimeStampsLoop clock rest s1

/-- The function `Parser::updateTimeStamps`. -/
def updateTimeStamps (clock : Nat → Nat) (s : TimeStampState) : Except Error TimeStampState :=
  updateTimeStampsLoop clock (s.makefile.m_targets.map Prod.fst) s

/-! ## Preselection of inference rules -/

/-- The function `Parser::findRulesByTargetExtension`. -/
def Makefile.findRulesByTargetExtension (mf : Makefile) (targetName : QString) :
    List InferenceRule :=
  mf.m_inferenceRules.filter fun rule => QString.endsWith targetName rule.m_toExtension

/-- The call `QFileInfo(name).fileName()`: the name without the path, which is
what follows the last directory separator, `/` or `\`. -/
def fileName (name : QString) : QString :=
  (name.reverse.takeWhile fun c => !(c == '/' || c == '\\')).reverse

/-- The lines of `filterRulesByTargetName` that compute the directory of the
target: the name without the file name and without the separator at its end,
and `.` when nothing is left. -/
def targetDirectory (targetName : QString) : QString :=
  let directory :=
    removeDirSeparatorAtEnd
      (QString.left targetName (targetName.length - (fileName targetName).length))
  if directory.isEmpty = true then ".".toList else directory

/-- The function `Parser::filterRulesByTargetName`: the list `rules` after the
call. -/
def filterRulesByTargetName : List InferenceRule → QString → List InferenceRule
  | [], _ => []
  | rule :: rest, targetName =>
    if QString.endsWith targetName rule.m_toExtension = false then
      filterRulesByTargetName rest targetName
    else if targetDirectory targetName ≠ rule.m_toSearchPath then
      filterRulesByTargetName rest targetName
    else rule :: filterRulesByTargetName rest targetName

/-- The function `Parser::preselectInferenceRules(targetName, rules, suffixes)`:
the list `rules` after the call. -/
def Makefile.preselectInferenceRules (mf : Makefile) (targetName : QString)
    (rules : List InferenceRule) (suffixes : List QString) : List InferenceRule :=
  let inferenceRulesApplicable : Bool := suffixes.any fun suffix => QString.endsWith targetName suffix
  if inferenceRulesApplicable = false then rules
  else filterRulesByTargetName (mf.findRulesByTargetExtension targetName) targetName

namespace Parser

/-- The `foreach (const QString& dependentName, target->m_dependents)` loop of
`preselectInferenceRulesRecursive`, with the recursive call as a parameter. -/
def preselectDependents (fs : FileSystem) (recur : Parser → QString → Except Error Parser)
    (target : QString) : List QString → Parser → Except Error Parser
  | [], p => .ok p
  | dependentName :: rest, p =>
    match p.m_makefile.target dependentName with
    | some dependent =>
      if (p.m_makefile.block dependent).m_commands.isEmpty = false then
        match recur p dependent with
        | .error e => .error e
        | .ok p1 => preselectDependents fs recur target rest p1
      else
        let selectedRules := p.m_makefile.preselectInferenceRules dependentName []
          (p.m_makefile.block dependent).m_suffixes
        let mf1 := p.m_makefile.modify dependent fun b =>
          { b with m_inferenceRules := selectedRules }
        match recur { p with m_makefile := mf1 } dependent with
        | .error e => .error e
        | .ok p1 => preselectDependents fs recur target rest p1
    | none =>
      let selectedRules := p.m_makefile.preselectInferenceRules dependentName []
        (p.m_makefile.block target).m_suffixes
      if selectedRules.isEmpty = true then preselectDependents fs recur target rest p
      else
        let mf1 := (createTarget fs p dependentName).m_makefile.modify dependentName fun b =>
          { b with m_inferenceRules := selectedRules }
        match recur { createTarget fs p dependentName with m_makefile := mf1 } dependentName with
        | .error e => .error e
        | .ok p1 => preselectDependents fs recur target rest p1

/-- The function `Parser::preselectInferenceRulesRecursive` with at most
`depth` levels of nested calls, this one included. -/
def preselectInferenceRulesRecursiveDepth (fs : FileSystem) :
    Nat → Parser → QString → Except Error Parser
  | 0, _, _ => .error .depthExceeded
  | depth + 1, p, target =>
    preselectDependents fs (preselectInferenceRulesRecursiveDepth fs depth) target
      (p.m_makefile.block target).m_dependents p

/-- The function `Parser::preselectInferenceRulesRecursive`.  Where the targets
below `target` have no cycle, a chain of nested calls goes through different
blocks, of which all but the last have dependents. -/
def preselectInferenceRulesRecursive (fs : FileSystem) (p : Parser) (target : QString) :
    Except Error Parser :=
  preselectInferenceRulesRecursiveDepth fs (p.m_makefile.m_targets.length + 1) p target

/-- The `foreach (const QString targetName, m_activeTargets)` loop of
`preselectInferenceRules()`.  The pointer `target` is used without a test; a
null pointer ends the run. -/
def preselectTargets (fs : FileSystem) : List QString → Parser → Except Error Parser
  | [], p => .ok p
  | targetName :: rest, p =>
    match p.m_makefile.target targetName with
    | none => .error .nullPointer
    | some target =>
      let mf1 :=
        if (p.m_makefile.block target).m_commands.isEmpty = true then
          p.m_makefile.modify target fun b =>
            { b with m_inferenceRules :=
                p.m_makefile.preselectInferenceRules b.m_target b.m_inferenceRules b.m_suffixes }
        else p.m_makefile
      match preselectInferenceRulesRecursive fs { p with m_makefile := mf1 } target with
      | .error e => .error e
      | .ok p1 => preselectTargets fs rest p1

/-- The function `Parser::preselectInferenceRules()`. -/
def preselectInferenceRules (fs : FileSystem) (p : Parser) : Except Error Parser :=
  preselectTargets fs p.m_activeTargets p

end Parser

/-! ## The function `apply` -/

/-- The suffix list that `apply` starts with. -/
def initialSuffixes : List QString :=
  [".exe".toList, ".obj".toList, ".asm".toList, ".c".toList, ".cpp".toList, ".cxx".toList,
   ".bas".toList, ".cbl".toList, ".for".toList, ".pas".toList, ".res".toList, ".rc".toList]

namespace Parser

/-- The `while (!m_line.isNull())` loop of `apply`: the parser as the loop
leaves it, and the exception that ended it, if any.  Every iteration reads a
line, so one iteration for every line that is left is enough; `fuel` counts
the tests of the loop condition that may still be made. -/
def applyLoop (fs : FileSystem) : Nat → Parser → Parser × Option Error
  | 0, p => (p, some .iterationsExceeded)
  | fuel + 1, p =>
    if p.m_line.isNone = true then (p, none)
    else if p.isEmptyLine = true then applyLoop fs fuel p.readLine
    else if p.isDotDirective = true then applyLoop fs fuel p.parseDotDirective
    else if p.isInferenceRule = true then
      match p.parseInferenceRule with
      | (p1, some e) => (p1, some e)
      | (p1, none) => applyLoop fs fuel p1
    else
      match p.isDescriptionBlock with
      | some (separatorPos, separatorLength) =>
        match p.parseDescriptionBlock fs separatorPos separatorLength with
        | (p1, some e) => (p1, some e)
        | (p1, none) => applyLoop fs fuel p1
      | none => (p, some (.exception "don't know what to do".toList))

/-- The loop `foreach (const QString& targetName, m_activeTargets)` of `apply`
that calls `checkForCycles` for every active target. -/
def checkActiveTargets : List QString → Makefile → Except Error Makefile
  | [], mf => .ok mf
  | targetName :: rest, mf =>
    match checkForCycles mf (mf.target targetName) with
    | .error e => .error e
    | .ok mf1 => checkActiveTargets rest mf1

/-- The function `Parser::apply`: the parser as the call leaves it, with the
makefile that the call returns.  The global options
`g_options.suppressOutputMessages` and `g_options.stopOnErrors`, which are
defined outside the sources, are parameters.  The call of
`QDateTime::currentDateTime()` for `m_latestTimeStamp` is the first call of
the clock.  Modelled from the spec: `firstTarget()` is declared in makefile.h,
which is not among the sources; it returns the first block that was appended,
the null pointer when there is none. -/
def apply (fs : FileSystem) (clock : Nat → Nat) (suppressOutputMessages stopOnErrors : Bool)
    (pp : Preprocessor) (activeTargets : List QString) : Except Error Parser :=
  let p0 : Parser :=
    { m_preprocessor := pp
      m_activeTargets := activeTargets
      m_silentCommands := suppressOutputMessages
      m_ignoreExitCodes := !stopOnErrors
      m_suffixes := initialSuffixes }
  match applyLoop fs (p0.readLine.remaining + 2) p0.readLine with
  | (_, some e) => .error e
  | (p1, none) =>
    match p1.m_activeTargets.find? fun targetName => (p1.m_makefile.target targetName).isNone with
    | some targetName =>
      .error (.exception ("Target ".toList ++ targetName ++ " doesn't exist.".toList))
    | none =>
      let active : Except Error (List QString) :=
        if p1.m_activeTargets.isEmpty = true then
          match p1.m_makefile.m_firstTarget with
          | none => .error .nullPointer
          | some first => .ok [(p1.m_makefile.block first).m_target]
        else .ok p1.m_activeTargets
      match active with
      | .error e => .error e
      | .ok activeTargets1 =>
        match checkActiveTargets activeTargets1 p1.m_makefile with
        | .error e => .error e
        | .ok mf1 =>
          match updateTimeStamps clock { makefile := mf1, clockCalls := 1 } with
          | .error e => .error e
          | .ok s =>
            preselectInferenceRules fs
              { p1 with m_makefile := s.makefile, m_activeTargets := activeTargets1 }

end Parser

/-! ## Notions of the statements -/

/-- The characters of `(\w|\.)`: a letter, a number, a mark, an underscore
or a dot. -/
def isWordOrDot (c : Char) : Bool := isLetterOrNumber c || isMark c || c == '_' || c == '.'

/-- The identifiers the specification describes: a leading letter or
underscore, followed by word characters or dots. -/
def isLeadingLetterIdentifier : QString → Bool
  | [] => false
  | c :: t => (isLetter c || c == '_') && t.all isWordOrDot

/-- Every key of the table is a valid macro name, as it is for a table that
was filled through the member functions. -/
def ValidKeys (mt : MacroTable) : Prop :=
  ∀ k ∈ mt.m_macros.map Prod.fst, isMacroNameValid k = true

/-- A name that an invocation `$(NAME)` or `$(NAME:…)` reads back as its
macro name: non-empty, without `:` and `)`, and not the start of a filename macro. -/
def IsInvocableName (name : QString) : Prop :=
  name ≠ [] ∧ ':' ∉ name ∧ ')' ∉ name ∧ isFileNameMacroChar (QString.charAt name 0) = false

/-- The first `$` of the raw value of `a` starts the plain invocation `$(b)`:
expanding `a` invokes `b` before anything else can fail. -/
def InvokesFirst (mt : MacroTable) (a b : QString) : Prop :=
  ∃ pre post, '$' ∉ pre ∧ macroValue mt a = pre ++ '$' :: '(' :: (b ++ ')' :: post)

/-- A result that is the cycle exception, for some macro. -/
def IsCycle {α : Type} (res : Except Error α) : Prop :=
  ∃ name, res = .error (.exception (cycleMessage name))

/-- No two rules of the list are equal: no two have the same search paths and
extensions. -/
def RulesDistinct (rules : List InferenceRule) : Prop :=
  rules.Pairwise fun a b => a.equals b = false

/-- The dependents relation over the names that have a block: `b` is a
dependent of the block of `a`, and has a block itself. -/
def Makefile.Dep (mf : Makefile) (a b : QString) : Prop :=
  mf.target a = some a ∧ b ∈ (mf.block a).m_dependents ∧ mf.target b = some b

/-- No block carries the mark of the cycle check. -/
def Makefile.MarksClear (mf : Makefile) : Prop :=
  ∀ t, (mf.block t).m_bVisitedByCycleCheck = false

/-- The result is the exception "cycle in targets detected" for some target. -/
def IsTargetCycle (res : Except Error Makefile) : Prop :=
  ∃ name, res = .error (.exception ("cycle in targets detected: ".toList ++ name))

/-- The command line without the `-` or the `@` that may stand at its head. -/
def stripCommandPrefix (commandLine : QString) : QString :=
  if QString.startsWithChar commandLine '-' = true ∨
      QString.startsWithChar commandLine '@' = true then commandLine.drop 1
  else commandLine

/-- The time stamp of the block `k`; `none` for an invalid one. -/
def Makefile.timeStamp (mf : Makefile) (k : QString) : Option Nat := (mf.block k).m_timeStamp

/-- The time stamps of those among `deps` that have a block with a valid time
stamp. -/
def Makefile.dependentStamps (mf : Makefile) (deps : List QString) : List Nat :=
  deps.filterMap fun d => if mf.target d = some d then mf.timeStamp d else none

/-- The block `k` has its time stamp from its dependents, or from the clock
when it has none: every dependent that has a block has a valid time stamp,
and the time stamp of `k` is the latest of these and of the first of January
1900; a block without dependents has a reading of the clock. -/
def Makefile.Propagated (clock : Nat → Nat) (mf : Makefile) (k : QString) : Prop :=
  if (mf.block k).m_dependents = [] then ∃ n, mf.timeStamp k = some (clock n)
  else
    (∀ d ∈ (mf.block k).m_dependents, mf.target d = some d → (mf.timeStamp d).isSome = true) ∧
      mf.timeStamp k
        = some ((mf.dependentStamps (mf.block k).m_dependents).foldl max sentinelTimeStamp)

/-- No block that can be reached from `k` lies on a cycle of the dependents
relation. -/
def Makefile.Acyclic (mf : Makefile) (k : QString) : Prop :=
  ∀ u, Relation.ReflTransGen mf.Dep k u → ¬ Relation.TransGen mf.Dep u u

/-- The inference rules, in the order of the rule list, whose `toExtension` is
a suffix of the target name and whose `toSearchPath` is the directory of the
target, `.` for a name without a directory. -/
def Makefile.fittingRules (mf : Makefile) (targetName : QString) : List InferenceRule :=
  mf.m_inferenceRules.filter fun rule =>
    QString.endsWith targetName rule.m_toExtension &&
      decide (targetDirectory targetName = rule.m_toSearchPath)

/-- The text `str` holds an invocation of the macro `b`: the characters
`$(b)`, the characters `$(b:` that start an invocation with a substitution,
or, for a name of one letter or number, the characters `$b`. -/
def Refers (str b : QString) : Prop :=
  ("$(".toList ++ b ++ ")".toList) <:+: str ∨ ("$(".toList ++ b ++ ":".toList) <:+: str ∨
    ∃ c, b = [c] ∧ isLetterOrNumber c = true ∧ ['$', c] <:+: str

/-- The graph of the macros: `a` depends on `b` when the raw value of `a`
holds an invocation of `b`. -/
def DependsOn (mt : MacroTable) (a b : QString) : Prop := Refers (macroValue mt a) b

/-- The lines that the loop over `parseCommand` takes from the lines before
it, each with a mark: `true` for a command line, `false` for a line of the
text of an inline file.  The first argument tells whether the lines start
inside an inline file.  Outside an inline file a blank line is skipped, a line
that begins with a space or a tab is a command line, and any other line ends
the commands; a command line that holds `<<` starts an inline file, which runs
up to the first line that begins with `<<`. -/
def commandBlock : Bool → List (QString × MacroTable) → List (Bool × (QString × MacroTable))
  | _, [] => []
  | true, l :: rest =>
    if QString.startsWith l.1 "<<".toList = true then commandBlock false rest
    else (false, l) :: commandBlock true rest
  | false, l :: rest =>
    if (QString.trimmed l.1).isEmpty = true then commandBlock false rest
    else if QString.startsWithChar l.1 ' ' = false ∧ QString.startsWithChar l.1 '\t' = false then []
    else (true, l) :: commandBlock (inlineMarkerOption l.1).isSome rest

/-- The command lines among the lines before the parser, each with the macro
table that goes with it. -/
def commandLinesOf (lines : List (QString × MacroTable)) : List (QString × MacroTable) :=
  ((commandBlock false lines).filter fun x => x.1).map Prod.snd

/-- The lines of the texts of the inline files among the lines before the
parser, each with the macro table that goes with it. -/
def inlineLinesOf (lines : List (QString × MacroTable)) : List (QString × MacroTable) :=
  ((commandBlock false lines).filter fun x => !x.1).map Prod.snd

/-- The lines behind a description line in which `parseDescriptionBlock` looks
for the commands of the block: none when the line right behind the
description line is blank, or when the input ends there. -/
def blockLines (lines : List (QString × MacroTable)) : List (QString × MacroTable) :=
  match lines with
  | [] => []
  | l :: rest => if (QString.trimmed l.1).isEmpty = true then [] else l :: rest

/-! ## Notions of the proofs -/

/-- The language of a regular expression. -/
inductive RegExp.Matches : RegExp → QString → Prop
  | empty : Matches .empty []
  | cls (p : Char → Bool) (c : Char) : p c = true → Matches (.cls p) [c]
  | altLeft (a b : RegExp) (s : QString) : Matches a s → Matches (.alt a b) s
  | altRight (a b : RegExp) (s : QString) : Matches b s → Matches (.alt a b) s
  | seq (a b : RegExp) (s t : QString) : Matches a s → Matches b t → Matches (.seq a b) (s ++ t)
  | starNil (a : RegExp) : Matches (.star a) []
  | starCons (a : RegExp) (s t : QString) :
      Matches a s → Matches (.star a) t → Matches (.star a) (s ++ t)

/-- A result that is a text together with the set `U`, or a thrown exception. -/
def Settled (U : Finset QString) (res : Expansion) : Prop :=
  (∃ r, res = .ok (r, U)) ∨ (∃ msg, res = .error (.exception msg))

/-- A loop step that ends in a state with the set `U` and an index not below `i`,
or in an exception. -/
def StepSettled (U : Finset QString) (i : Nat) (res : Except Error LoopState) : Prop :=
  (∃ st1, res = .ok st1 ∧ st1.usedMacros = U ∧ i ≤ st1.i) ∨ (∃ msg, res = .error (.exception msg))

/-- Two candidates for the recursive call agree on every call that an
expansion with the set `U` in progress can make, and their result is settled. -/
def RecAgree (mt : MacroTable) (U : Finset QString)
    (rec1 rec2 : QString → Finset QString → Expansion) : Prop :=
  ∀ m, m ∉ U → rec1 (macroValue mt m) (insert m U) = rec2 (macroValue mt m) (insert m U) ∧
    Settled (insert m U) (rec1 (macroValue mt m) (insert m U))

/-- The number of defined macros that are not in progress. -/
def freeCount (mt : MacroTable) (U : Finset QString) : Nat :=
  ((mt.m_macros.map Prod.fst).toFinset \ U).card

/-- The recursive call that a budget of `depth` levels leaves to the body. -/
def recurAt (mt : MacroTable) (inDependentsLine : Bool) :
    Nat → QString → Finset QString → Expansion
  | 0 => fun _ _ => .error .depthExceeded
  | depth + 1 => expandMacrosDepth mt inDependentsLine depth

/-- A recursive call `rec1` made with the set `U1` in progress is followed by
`rec2` made with `U2`, unless `Q` holds: whenever `rec1` expands the value of a
macro `m`, it restores the set, and `m` is not in `U2` and `rec2` expands the
value to the same text, or `Q`. -/
def RecSim (mt : MacroTable) (Q : Prop) (U1 U2 : Finset QString)
    (rec1 rec2 : QString → Finset QString → Expansion) : Prop :=
  ∀ m, m ∉ U1 → ∀ r W, rec1 (macroValue mt m) (insert m U1) = .ok (r, W) →
    W = insert m U1 ∧
      ((m ∉ U2 ∧ rec2 (macroValue mt m) (insert m U2) = .ok (r, insert m U2)) ∨ Q)

/-- The recursive call `recur` behaves alike with `U1` and with `U2` in
progress, up to cycle exceptions: a macro in `U1` is in `U2`, or the expansion
of its value under `U2` raises the cycle exception; and for a macro in neither
set, what the call returns under `U1` it returns under `U2`, unless it raises
the cycle exception there, and a cycle exception under `U1` is one under `U2`. -/
structure CycleSim (mt : MacroTable) (U1 U2 : Finset QString)
    (recur : QString → Finset QString → Expansion) : Prop where
  inProgress : ∀ m, m ∈ U1 → m ∈ U2 ∨ IsCycle (recur (macroValue mt m) (insert m U2))
  restores : ∀ m, m ∉ U1 → ∀ r W, recur (macroValue mt m) (insert m U1) = .ok (r, W) →
    W = insert m U1
  returns : ∀ m, m ∉ U1 → m ∉ U2 → ∀ r,
    recur (macroValue mt m) (insert m U1) = .ok (r, insert m U1) →
      recur (macroValue mt m) (insert m U2) = .ok (r, insert m U2) ∨
        IsCycle (recur (macroValue mt m) (insert m U2))
  raises : ∀ m, m ∉ U1 → m ∉ U2 → IsCycle (recur (macroValue mt m) (insert m U1)) →
    IsCycle (recur (macroValue mt m) (insert m U2))

/-- The parser `p` once its preprocessor has handed out the entry `e`, with
the entries `rest` still to come. -/
def Parser.standAt (p : Parser) (e : QString × MacroTable) (rest : List (QString × MacroTable)) :
    Parser :=
  { p with m_line := some e.1, m_preprocessor := { m_lines := rest, m_macroTable := e.2 } }

/-- The number of lines that the parser can still look at: the current line,
unless it is the null string, and the lines that the preprocessor still has. -/
def Parser.linesLeft (p : Parser) : Nat :=
  p.remaining + (if p.m_line.isSome = true then 1 else 0)

/-- What reading lines does to the parser: the makefile and the settings stay,
and no line comes back. -/
structure Parser.Advanced (p p1 : Parser) : Prop where
  makefile : p1.m_makefile = p.m_makefile
  suffixes : p1.m_suffixes = p.m_suffixes
  silentCommands : p1.m_silentCommands = p.m_silentCommands
  ignoreExitCodes : p1.m_ignoreExitCodes = p.m_ignoreExitCodes
  remaining : p1.remaining ≤ p.remaining
  linesLeft : p1.linesLeft ≤ p.linesLeft

/-- An error that is a thrown exception, not a bound of the embedding. -/
def Error.IsException (e : Error) : Prop := ∃ msg, e = .exception msg

/-- A result that is not an error, or the error of a thrown exception. -/
def Thrown {α : Type} (res : Except Error α) : Prop :=
  ∀ e, res = .error e → e.IsException

/-- The blocks among `K` that do not carry the mark of the cycle check. -/
def Makefile.unmarked (mf : Makefile) (K : Finset QString) : Finset QString :=
  K.filter fun k => mf.target k = some k ∧ (mf.block k).m_bVisitedByCycleCheck = false

/-- From `k` a block can be reached that carries the mark of the cycle check
or lies on a cycle. -/
def Makefile.Bad (mf : Makefile) (k : QString) : Prop :=
  ∃ u, Relation.ReflTransGen mf.Dep k u ∧
    ((mf.block u).m_bVisitedByCycleCheck = true ∨ Relation.TransGen mf.Dep u u)

/-- The makefile with the mark of the block `k` set to `v`. -/
def Makefile.mark (mf : Makefile) (k : QString) (v : Bool) : Makefile :=
  mf.modify k fun b => { b with m_bVisitedByCycleCheck := v }

/-- The indices of the characters `^` of a text that starts at index `i`. -/
def caretPositions : QString → Nat → List Nat
  | [], _ => []
  | c :: t, i => if c = '^' then i :: caretPositions t (i + 1) else caretPositions t (i + 1)

/-- The index of the last `=` of a text that starts at index `i`, or `eq` when
the text has none. -/
def lastEquals : QString → Nat → Option Nat → Option Nat
  | [], _, eq => eq
  | c :: t, i, eq => lastEquals t (i + 1) (if c = '=' then some i else eq)

/-- Every `)` of the text has a `^` right before it; `quoted` says whether a
`^` stands right before the text. -/
def parensQuoted : Bool → QString → Bool
  | _, [] => true
  | quoted, c :: t => (c != ')' || quoted) && parensQuoted (c == '^') t

/-- The text ends with `^`; `quoted` says whether a `^` stands right before
the text. -/
def endsQuoted : Bool → QString → Bool
  | quoted, [] => quoted
  | _, c :: t => endsQuoted (c == '^') t

/-- The makefile with the time stamp of the block `k` set to `v`. -/
def Makefile.stamp (mf : Makefile) (k : QString) (v : Option Nat) : Makefile :=
  mf.modify k fun b => { b with m_timeStamp := v }

/-- The blocks that have no valid time stamp. -/
def Makefile.unstamped (mf : Makefile) : Finset QString :=
  (mf.m_targets.map Prod.fst).toFinset.filter fun k => mf.timeStamp k = none

/-- What a run of `updateTimeStamp` does to the state, the blocks of `X`
apart: the blocks are the same ones, nothing but time stamps is written, a
valid time stamp stays valid, the valid time stamp of a block outside `X` is
kept, and the clock does not go back. -/
structure TimeStampState.Grown (X : Finset QString) (s s1 : TimeStampState) : Prop where
  target : ∀ k, s1.makefile.target k = s.makefile.target k
  only : ∀ k, s1.makefile.block k
    = { s.makefile.block k with m_timeStamp := s1.makefile.timeStamp k }
  valid : ∀ k, (s.makefile.timeStamp k).isSome = true → (s1.makefile.timeStamp k).isSome = true
  keep : ∀ k, k ∉ X → (s.makefile.timeStamp k).isSome = true →
    s1.makefile.timeStamp k = s.makefile.timeStamp k
  clock : s.clockCalls ≤ s1.clockCalls

/-- What a call `update` gives to the blocks that it stamps, when `S` holds
the blocks of the calls in progress, from each of which the block of this call
can be reached: a block without a cycle below it has its time stamp from its
dependents, and none of its dependents is in progress. -/
def StampsPropagated (clock : Nat → Nat)
    (update : TimeStampState → QString → Except Error TimeStampState) : Prop :=
  ∀ (s : TimeStampState) (x : QString) (s1 : TimeStampState) (S : Finset QString),
    s.makefile.target x = some x → update s x = .ok s1 →
    (∀ a ∈ S, Relation.ReflTransGen s.makefile.Dep a x) →
    ∀ k, s.makefile.target k = some k → s.makefile.timeStamp k = none →
      (s1.makefile.timeStamp k).isSome = true → s.makefile.Acyclic k →
      Makefile.Propagated clock s1.makefile k ∧
        ∀ d ∈ (s.makefile.block k).m_dependents, s.makefile.target d = some d → d ∉ S

/-- What the preselection of inference rules does to the parser: the list of
rules stays, the blocks stay, with their names, commands, dependents and
suffixes, a block that is new has no dependents, and the rules of a block are
what they were or, for a block without commands, what
`preselectInferenceRules` selects for its name and its suffixes. -/
structure Parser.Selecting (p0 p : Parser) : Prop where
  rules : p.m_makefile.m_inferenceRules = p0.m_makefile.m_inferenceRules
  target : ∀ k, p0.m_makefile.target k = some k → p.m_makefile.target k = some k
  fields : ∀ k, p0.m_makefile.target k = some k →
    (p.m_makefile.block k).m_target = (p0.m_makefile.block k).m_target ∧
    (p.m_makefile.block k).m_commands = (p0.m_makefile.block k).m_commands ∧
    (p.m_makefile.block k).m_dependents = (p0.m_makefile.block k).m_dependents ∧
    (p.m_makefile.block k).m_suffixes = (p0.m_makefile.block k).m_suffixes
  fresh : ∀ k, p0.m_makefile.target k = none → (p.m_makefile.block k).m_dependents = []
  selected : ∀ k, p0.m_makefile.target k = some k →
    (p.m_makefile.block k).m_inferenceRules = (p0.m_makefile.block k).m_inferenceRules ∨
    ((p0.m_makefile.block k).m_commands = [] ∧
      (p.m_makefile.block k).m_inferenceRules
        = p0.m_makefile.preselectInferenceRules k [] (p0.m_makefile.block k).m_suffixes)

/-- The blocks that have dependents. -/
def Makefile.withDependents (mf : Makefile) : Finset QString :=
  (mf.m_targets.map Prod.fst).toFinset.filter fun k => (mf.block k).m_dependents ≠ []

/-- A result that is the cycle exception for a macro with the property `P`. -/
def IsCycleOf {α : Type} (P : QString → Prop) (res : Except Error α) : Prop :=
  ∃ name, res = .error (.exception (cycleMessage name)) ∧ P name

/-- The recursive call `recur` behaves alike with `U1` and with `U2` in
progress, up to cycle exceptions whose macro is known: where the call returns
under `U1` it returns the same under `U2` or raises the cycle exception for a
macro in `B`, and where it raises the cycle exception for `n` under `U1` it
raises the one for a macro related to `n` by `R` under `U2`. -/
structure CycleSimNamed (mt : MacroTable) (B : QString → Prop) (R : QString → QString → Prop)
    (U1 U2 : Finset QString) (recur : QString → Finset QString → Expansion) : Prop where
  weak : ∀ n b, B b → R n b
  inProgress : ∀ m, m ∈ U1 → (m ∈ U2 ∧ R m m) ∨
    (m ∉ U2 ∧ IsCycleOf (R m) (recur (macroValue mt m) (insert m U2)))
  fresh : ∀ m, m ∉ U1 → m ∈ U2 → B m
  restores : ∀ m, m ∉ U1 → ∀ r W, recur (macroValue mt m) (insert m U1) = .ok (r, W) →
    W = insert m U1
  returns : ∀ m, m ∉ U1 → m ∉ U2 → ∀ r,
    recur (macroValue mt m) (insert m U1) = .ok (r, insert m U1) →
      recur (macroValue mt m) (insert m U2) = .ok (r, insert m U2) ∨
        IsCycleOf B (recur (macroValue mt m) (insert m U2))
  raises : ∀ m, m ∉ U1 → m ∉ U2 → ∀ n,
    recur (macroValue mt m) (insert m U1) = .error (.exception (cycleMessage n)) →
      IsCycleOf (R n) (recur (macroValue mt m) (insert m U2))

/-- The lines the parser has before it: the current line, with the macro
table that goes with it, and the lines that the preprocessor still has; none
at the end of the input. -/
def Parser.pending (p : Parser) : List (QString × MacroTable) :=
  match p.m_line with
  | none => []
  | some l => (l, p.macroTable) :: p.m_preprocessor.m_lines

/-- The null string stands for the end of the input: the preprocessor has no
line left then. -/
def Parser.AtInput (p : Parser) : Prop := p.m_line = none → p.m_preprocessor.m_lines = []

/-- The text that the first pass makes of a marked line of `commandBlock`: a
line of an inline file is expanded, and so is a command line unless it belongs
to an inference rule. -/
def expansionOf (inferenceRule : Bool) (x : Bool × (QString × MacroTable)) : Except Error QString :=
  if x.1 = true ∧ inferenceRule = true then .ok (QString.trimmed x.2.1)
  else expandMacros x.2.2 (QString.trimmed x.2.1) false

/-- A table with the cycle `A = $(B)`, `B = $(A)` and a macro `C`. -/
def cyclicTable : MacroTable :=
  { m_macros := [("A".toList, { value := "$(B)".toList }), ("B".toList, { value := "$(A)".toList }),
                 ("C".toList, { value := "c".toList })],
    m_environment := [] }

/-- The table after `A = 1`. -/
def tableA1 : MacroTable :=
  { m_macros := [("A".toList, { value := "1".toList })], m_environment := [] }

/-- The table after `A = 1` and `A = $(A) 2`. -/
def tableA12 : MacroTable :=
  { m_macros := [("A".toList, { value := "1 2".toList })], m_environment := [] }

/-- A table with the read-only macro `CC = cl`, as a command-line definition leaves it. -/
def tableReadOnly : MacroTable :=
  { m_macros := [("CC".toList,
      { value := "cl".toList, source := MacroSource.CommandLine, isReadOnly := true })],
    m_environment := [] }

/-- A table with the macro `N = FOO`. -/
def tableN : MacroTable :=
  { m_macros := [("N".toList, { value := "FOO".toList })], m_environment := [] }

/-- The table after `defineEnvironmentMacroValue("PATH", "a")` on an empty table. -/
def tableEnvPath : MacroTable :=
  { m_macros := [("PATH".toList,
      { value := "a".toList, source := MacroSource.Environment, isReadOnly := false })],
    m_environment := [("PATH".toList, "a".toList)] }

/-- The table that `setMacroValue("PATH", "b")` makes of `tableEnvPath`. -/
def tableEnvPathSet : MacroTable :=
  { m_macros := [("PATH".toList,
      { value := "b".toList, source := MacroSource.MakeFile, isReadOnly := false })],
    m_environment := [("PATH".toList, "a".toList)] }

/-- A table with `X = aaa` and `Y = x$(X)y`. -/
def tableXY : MacroTable :=
  { m_macros := [("X".toList, { value := "aaa".toList }), ("Y".toList, { value := "x$(X)y".toList })],
    m_environment := [] }

/-- A table with `X = a=b`. -/
def tableEquals : MacroTable :=
  { m_macros := [("X".toList, { value := "a=b".toList })], m_environment := [] }

/-- A table with `X = a^=b`. -/
def tableCaretEquals : MacroTable :=
  { m_macros := [("X".toList, { value := "a^=b".toList })], m_environment := [] }

/-- A parser that stands at the line `first`, with the lines `rest` still to
come; the macro table is empty throughout. -/
def parserAt (first : QString) (rest : List QString) : Parser :=
  { m_line := some first
    m_preprocessor := { m_lines := rest.map fun l => (l, MacroTable.empty) } }

/-- A file system without files. -/
def noFiles : FileSystem := fun _ => none

/-- The makefile with the one target `all`, declared with `::`, that has no
dependents and the given command lines. -/
def makefileAll (commandLines : List QString) : Makefile :=
  { m_targets := [("all".toList,
      { m_target := "all".toList
        m_commands := commandLines.map fun (l : QString) => ({ m_commandLine := l } : Command)
        m_canAddCommands := AddCommandsState.ACSEnabled })]
    m_firstTarget := some "all".toList }

/-- The parser of `parserAt` with the makefile `makefileAll`. -/
def parserAtAll (commandLines : List QString) (first : QString) (rest : List QString) : Parser :=
  { parserAt first rest with m_makefile := makefileAll commandLines }

/-- The makefile of `all: a` and `a: all`. -/
def makefileCycle : Makefile :=
  { m_targets :=
      [("all".toList, { m_target := "all".toList, m_dependents := ["a".toList] }),
       ("a".toList, { m_target := "a".toList, m_dependents := ["all".toList] })]
    m_firstTarget := some "all".toList }

/-- The makefile of `all: a b x`, `a: c`, `b: c` and `c:`: the block `c` is
reached along two paths, and `x` has no block. -/
def makefileDiamond : Makefile :=
  { m_targets :=
      [("all".toList,
          { m_target := "all".toList, m_dependents := ["a".toList, "b".toList, "x".toList] }),
       ("a".toList, { m_target := "a".toList, m_dependents := ["c".toList] }),
       ("b".toList, { m_target := "b".toList, m_dependents := ["c".toList] }),
       ("c".toList, { m_target := "c".toList })]
    m_firstTarget := some "all".toList }

/-- The makefile with the inference rules `.c.obj:` and `.cpp.obj:`, each with
the one command `old`. -/
def makefileTwoRules : Makefile :=
  { m_inferenceRules :=
      [{ m_fromSearchPath := ".".toList, m_fromExtension := ".c".toList,
         m_toSearchPath := ".".toList, m_toExtension := ".obj".toList,
         m_commands := [{ m_commandLine := "old".toList }] },
       { m_fromSearchPath := ".".toList, m_fromExtension := ".cpp".toList,
         m_toSearchPath := ".".toList, m_toExtension := ".obj".toList,
         m_commands := [{ m_commandLine := "old".toList }] }] }

/-- The table after `A = x`. -/
def tableAx : MacroTable :=
  { m_macros := [("A".toList, { value := "x".toList })], m_environment := [] }

/-- A parser that stands at the line `first`, with the lines `rest` still to
come; the macro table is `mt` throughout. -/
def parserAtTable (mt : MacroTable) (first : QString) (rest : List QString) : Parser :=
  { m_line := some first
    m_preprocessor := { m_lines := rest.map fun l => (l, mt), m_macroTable := mt } }

/-- The makefile of `all: a b x`, `a: c`, `b: c`, `c:`, `p: q` and `q: p`: the
file of `a` has the time stamp 5, and `p` and `q`, which cannot be reached from
`all`, lie on a cycle. -/
def makefileHiddenCycle : Makefile :=
  { m_targets :=
      [("all".toList,
          { m_target := "all".toList, m_dependents := ["a".toList, "b".toList, "x".toList] }),
       ("a".toList,
          { m_target := "a".toList, m_dependents := ["c".toList], m_timeStamp := some 5,
            m_bFileExists := true }),
       ("b".toList, { m_target := "b".toList, m_dependents := ["c".toList] }),
       ("c".toList, { m_target := "c".toList }),
       ("p".toList, { m_target := "p".toList, m_dependents := ["q".toList] }),
       ("q".toList, { m_target := "q".toList, m_dependents := ["p".toList] })]
    m_firstTarget := some "all".toList }

/-- A clock that shows the year 2024 and moves on with every reading. -/
def clock2024 (n : Nat) : Nat := 2460311 * 86400000 + n

/-- The parser after `{src}.foo{obj}.bar:` and `obj/thing.bar:`, a target
without commands and without dependents whose block has the suffix list
`suffixes`; `obj/thing.bar` is the active target. -/
def parserThingBar (suffixes : List QString) : Parser :=
  { m_makefile :=
      { m_targets := [("obj/thing.bar".toList,
          { m_target := "obj/thing.bar".toList, m_suffixes := suffixes,
            m_canAddCommands := AddCommandsState.ACSDisabled })]
        m_firstTarget := some "obj/thing.bar".toList
        m_inferenceRules :=
          [{ m_fromSearchPath := "src".toList, m_fromExtension := ".foo".toList,
             m_toSearchPath := "obj".toList, m_toExtension := ".bar".toList,
             m_commands := [{ m_commandLine := "build".toList }] }] }
    m_suffixes := suffixes
    m_activeTargets := ["obj/thing.bar".toList] }

/-- A table with the cycle `A = $(C)$(B)`, `B = $(A)`, in which `A` invokes
`B` after the macro `C`. -/
def cyclicTableLate : MacroTable :=
  { m_macros := [("A".toList, { value := "$(C)$(B)".toList }),
                 ("B".toList, { value := "$(A)".toList }),
                 ("C".toList, { value := "c".toList })],
    m_environment := [] }

/-- The lines behind `all: dep` in the example of the two passes: a command
with an inline file, a blank line, a second command, a blank line and the
next description line. -/
def linesTwoPasses : List QString :=
  ["\techo $$(A) <<".toList, "text $(A)".toList, "<<".toList, "".toList,
   "\t-@echo $(A)".toList, "".toList, "next:".toList]

/-- A parser at the rule line `.c.obj:` of a makefile that has the rules
`.c.obj:` and `.cpp.obj:`; behind the line come a command with an inline
file, a blank line, a second command and a description line. -/
def parserNewRule : Parser :=
  { parserAt ".c.obj:".toList
      ["\tcl $< <<".toList, "text".toList, "<<".toList, "".toList, "\t@echo done".toList,
       "all: x".toList] with
    m_makefile := makefileTwoRules }

theorem scanInvocation_le (rest : QString) :
    ∀ (k : Nat) (ne ne1 : Option Nat) (e : Nat) (b : Bool),
      scanInvocation rest k ne = (ne1, e, b) → k ≤ e ∧ (b = true → e < k + rest.length) := by
  induction rest with
  | nil =>
    intro k ne ne1 e b h
    simp only [scanInvocation, Prod.mk.injEq] at h
    refine ⟨by omega, fun hb => ?_⟩
    rw [hb] at h; simp at h
  | cons ch rest ih =>
    intro k ne ne1 e b h
    unfold scanInvocation at h
    split at h
    · have := ih _ _ _ _ _ h
      simp only [List.length_cons]; exact ⟨by omega, fun hb => by have := this.2 hb; omega⟩
    · split at h
      · simp only [Prod.mk.injEq] at h
        simp only [List.length_cons]; exact ⟨by omega, fun _ => by omega⟩
      · have := ih _ _ _ _ _ h
        simp only [List.length_cons]; exact ⟨by omega, fun hb => by have := this.2 hb; omega⟩

theorem scanInvocation_bounds (rest : QString) (k : Nat) (ne ne1 : Option Nat) (e : Nat)
    (h : scanInvocation rest k ne = (ne1, e, true)) : k ≤ e ∧ e < k + rest.length :=
  ⟨(scanInvocation_le rest k ne ne1 e true h).1, (scanInvocation_le rest k ne ne1 e true h).2 rfl⟩

theorem scanInvocation_nameEnd (rest : QString) :
    ∀ (k : Nat) (ne ne1 : Option Nat) (e : Nat) (b : Bool),
      scanInvocation rest k ne = (ne1, e, b) →
        ∀ x, ne1 = some x → ne = some x ∨ (k ≤ x ∧ x < e) := by
  induction rest with
  | nil =>
    intro k ne ne1 e b h x hx
    simp only [scanInvocation, Prod.mk.injEq] at h
    left; rw [h.1, hx]
  | cons ch rest ih =>
    intro k ne ne1 e b h x hx
    unfold scanInvocation at h
    split at h
    · rcases ih _ _ _ _ _ h x hx with h1 | h1
      · cases ne with
        | none =>
          simp only [Option.isNone_none, if_true, Option.some.injEq] at h1
          have hb : k + 1 ≤ e := (scanInvocation_le _ _ _ _ _ _ h).1
          right; omega
        | some y => left; simpa using h1
      · right; omega
    · split at h
      · simp only [Prod.mk.injEq] at h
        left; rw [h.1, hx]
      · rcases ih _ _ _ _ _ h x hx with h1 | h1
        · left; exact h1
        · right; omega

theorem parseSubstitutionScan_bounds (rest : QString) :
    ∀ (i : Nat) (eq : Option Nat) (quoted : Bool) (qp : List Nat) (eq1 : Option Nat) (e : Nat)
      (qp1 : List Nat),
      parseSubstitutionScan rest i eq quoted qp = (eq1, some e, qp1) →
        i ≤ e ∧ e < i + rest.length := by
  induction rest with
  | nil => intro i eq quoted qp eq1 e qp1 h; simp [parseSubstitutionScan] at h
  | cons ch rest ih =>
    intro i eq quoted qp eq1 e qp1 h
    unfold parseSubstitutionScan at h
    split at h
    · have := ih _ _ _ _ _ _ _ h
      simp only [List.length_cons]; omega
    · split at h
      · simp only [Prod.mk.injEq, Option.some.injEq] at h
        simp only [List.length_cons]; omega
      · split at h
        · have := ih _ _ _ _ _ _ _ h
          simp only [List.length_cons]; omega
        · have := ih _ _ _ _ _ _ _ h
          simp only [List.length_cons]; omega

theorem parseSubstitutionStatement_bounds (str : QString) (start : Nat) (s : Substitution)
    (e : Nat) (h : parseSubstitutionStatement str start = .ok (s, e)) : start ≤ e := by
  unfold parseSubstitutionStatement at h
  split at h
  · next eqi ei qp hscan =>
    simp only [Except.ok.injEq, Prod.mk.injEq] at h
    have := parseSubstitutionScan_bounds _ _ _ _ _ _ _ _ hscan
    omega
  · simp at h

theorem parseSubstitutionStatement_error (str : QString) (start : Nat) (e : Error)
    (h : parseSubstitutionStatement str start = .error e) : ∃ msg, e = .exception msg := by
  unfold parseSubstitutionStatement at h
  split at h
  · simp at h
  · simp only [Except.error.injEq] at h
    exact ⟨_, h.symm⟩

/-! ## Every expansion ends, with the set of macros in progress restored -/

theorem expandInvocation_agree (mt : MacroTable) (U : Finset QString)
    (rec1 rec2 : QString → Finset QString → Expansion) (h : RecAgree mt U rec1 rec2)
    (str : QString) (i : Nat) (ret : QString) :
    expandInvocation mt rec1 str i ret U = expandInvocation mt rec2 str i ret U ∧
    ((∃ i1 ret1, expandInvocation mt rec1 str i ret U = .ok (i1, ret1, U) ∧ i ≤ i1) ∨
      (∃ msg, expandInvocation mt rec1 str i ret U = .error (.exception msg))) := by
  rcases hscan : scanInvocation (str.drop (i + 1)) (i + 1) none with ⟨ne, e, b⟩
  cases b
  · simp [expandInvocation, hscan]
  · have hb := scanInvocation_bounds _ _ _ _ _ hscan
    simp only [expandInvocation, hscan]
    by_cases hname : QString.mid str (i + 1) (ne.getD e - i - 1) = []
    · simp [hname]
    · simp only [hname, if_false]
      by_cases hfile : isFileNameMacroChar (QString.charAt (QString.mid str (i + 1) (ne.getD e - i - 1)) 0) = true
      · simp only [hfile, if_true, true_and]
        exact Or.inl ⟨_, _, ⟨rfl, by omega⟩⟩
      · simp only [hfile, Bool.false_eq_true, if_false]
        generalize QString.mid str (i + 1) (ne.getD e - i - 1) = name
        by_cases hm : name ∈ U
        · simp [cycleCheckedMacroValue, hm]
        · obtain ⟨hEq, hS⟩ := h _ hm
          simp only [cycleCheckedMacroValue, hm, if_false, ← hEq, true_and]
          rcases hS with ⟨r, hr⟩ | ⟨msg, hmsg⟩
          · simp only [hr, Finset.erase_insert hm]
            by_cases hsub : ne.getD e = e
            · simp only [hsub, ne_eq, not_true_eq_false, if_false]
              exact Or.inl ⟨_, _, ⟨rfl, by omega⟩⟩
            · simp only [ne_eq, hsub, not_false_eq_true, if_true]
              rcases hp : parseSubstitutionStatement str (ne.getD e + 1) with e1 | ⟨s, newEnd⟩
              · obtain ⟨msg, rfl⟩ := parseSubstitutionStatement_error _ _ _ hp
                exact Or.inr ⟨_, rfl⟩
              · have := parseSubstitutionStatement_bounds _ _ _ _ hp
                have hne : i + 1 ≤ ne.getD e := by
                  cases ne with
                  | none => simpa using hb.1
                  | some x =>
                    rcases scanInvocation_nameEnd _ _ _ _ _ _ hscan x rfl with h1 | h1
                    · simp at h1
                    · simpa using h1.1
                exact Or.inl ⟨newEnd, _, ⟨rfl, by omega⟩⟩
          · simp only [hmsg]
            exact Or.inr ⟨_, rfl⟩

theorem expandDollar_le (inDependentsLine : Bool) (str : QString) (i : Nat) (ret : QString) :
    i ≤ (expandDollar inDependentsLine str i ret).1 := by
  unfold expandDollar
  simp only []
  split_ifs <;> simp only <;> omega

theorem expandStep_agree (mt : MacroTable) (inDependentsLine : Bool) (U : Finset QString)
    (rec1 rec2 : QString → Finset QString → Expansion) (h : RecAgree mt U rec1 rec2)
    (str : QString) (st : LoopState) (hU : st.usedMacros = U) :
    expandStep mt inDependentsLine rec1 str st = expandStep mt inDependentsLine rec2 str st ∧
    StepSettled U st.i (expandStep mt inDependentsLine rec1 str st) := by
  obtain ⟨i, ret, appendStart, appendLength, used⟩ := st
  simp only at hU
  subst hU
  unfold StepSettled
  by_cases hd : QString.charAt str i = '$' ∧ i + 1 < str.length
  · simp only [expandStep, hd, and_self, if_true]
    generalize (match appendStart with
      | some appendStart => ret ++ QString.mid str appendStart appendLength
      | none => ret) = ret1
    by_cases hp : QString.charAt str (i + 1) = '('
    · simp only [hp, if_true]
      obtain ⟨hEq, hS⟩ := expandInvocation_agree mt used rec1 rec2 h str (i + 1) ret1
      rw [← hEq]
      refine ⟨rfl, ?_⟩
      rcases hS with ⟨i1, ret2, hr, hi⟩ | ⟨msg, hmsg⟩
      · rw [hr]; exact Or.inl ⟨_, rfl, rfl, by simp only; omega⟩
      · rw [hmsg]; exact Or.inr ⟨_, rfl⟩
    · simp only [hp, if_false]
      by_cases hdd : QString.charAt str (i + 1) = '$'
      · simp only [hdd, if_true, true_and]
        have := expandDollar_le inDependentsLine str (i + 1) ret1
        exact Or.inl ⟨_, rfl, rfl, by simp only; omega⟩
      · simp only [hdd, if_false]
        by_cases hl : isLetterOrNumber (QString.charAt str (i + 1)) = true
        · simp only [hl, if_true]
          generalize ([QString.charAt str (i + 1)] : QString) = name
          by_cases hm : name ∈ used
          · simp only [cycleCheckedMacroValue, hm, if_true, true_and]
            exact Or.inr ⟨_, rfl⟩
          · obtain ⟨hEq, hS⟩ := h _ hm
            simp only [cycleCheckedMacroValue, hm, if_false, ← hEq, true_and]
            rcases hS with ⟨r, hr⟩ | ⟨msg, hmsg⟩
            · simp only [hr, Finset.erase_insert hm]
              exact Or.inl ⟨_, rfl, rfl, by simp only; omega⟩
            · simp only [hmsg]
              exact Or.inr ⟨_, rfl⟩
        · simp only [hl, Bool.false_eq_true, if_false]
          by_cases hf : isFileNameMacroChar (QString.charAt str (i + 1)) = true
          · simp only [hf, if_true, true_and]
            exact Or.inl ⟨_, rfl, rfl, by simp only; omega⟩
          · simp only [hf, Bool.false_eq_true, if_false, true_and]
            exact Or.inr ⟨_, rfl⟩
  · simp only [expandStep, hd, if_false, true_and]
    cases appendStart with
    | none => exact Or.inl ⟨_, rfl, rfl, le_refl _⟩
    | some a => exact Or.inl ⟨_, rfl, rfl, le_refl _⟩

theorem expandLoop_agree (mt : MacroTable) (inDependentsLine : Bool) (U : Finset QString)
    (rec1 rec2 : QString → Finset QString → Expansion) (h : RecAgree mt U rec1 rec2)
    (str : QString) :
    ∀ (fuel : Nat) (st : LoopState), st.usedMacros = U → str.length ≤ fuel + st.i →
      expandLoop mt inDependentsLine rec1 str fuel st
        = expandLoop mt inDependentsLine rec2 str fuel st ∧
      ((∃ st1, expandLoop mt inDependentsLine rec1 str fuel st = .ok st1 ∧ st1.usedMacros = U) ∨
        (∃ msg, expandLoop mt inDependentsLine rec1 str fuel st = .error (.exception msg))) := by
  intro fuel
  induction fuel with
  | zero =>
    intro st hU hf
    have : ¬ st.i < str.length := by omega
    simp only [expandLoop, this, if_false, true_and]
    exact Or.inl ⟨_, rfl, hU⟩
  | succ fuel ih =>
    intro st hU hf
    by_cases hi : st.i < str.length
    · simp only [expandLoop, hi, if_true]
      obtain ⟨hEq, hS⟩ := expandStep_agree mt inDependentsLine U rec1 rec2 h str st hU
      rw [← hEq]
      rcases hS with ⟨st1, hr, hU1, hi1⟩ | ⟨msg, hmsg⟩
      · rw [hr]
        exact ih { st1 with i := st1.i + 1 } hU1 (by simp only; omega)
      · rw [hmsg]
        exact ⟨rfl, Or.inr ⟨_, rfl⟩⟩
    · simp only [expandLoop, hi, if_false, true_and]
      exact Or.inl ⟨_, rfl, hU⟩

theorem expandBody_agree (mt : MacroTable) (inDependentsLine : Bool) (U : Finset QString)
    (rec1 rec2 : QString → Finset QString → Expansion) (h : RecAgree mt U rec1 rec2)
    (str : QString) :
    expandBody mt inDependentsLine rec1 str U = expandBody mt inDependentsLine rec2 str U ∧
    Settled U (expandBody mt inDependentsLine rec1 str U) := by
  obtain ⟨hEq, hS⟩ := expandLoop_agree mt inDependentsLine U rec1 rec2 h str str.length
    { i := 0, ret := [], appendStart := none, appendLength := 0, usedMacros := U } rfl
    (by simp)
  unfold expandBody
  rw [← hEq]
  refine ⟨rfl, ?_⟩
  rcases hS with ⟨st1, hr, hU1⟩ | ⟨msg, hmsg⟩
  · rw [hr]
    simp only [hU1]
    cases st1.appendStart with
    | none => exact Or.inl ⟨_, rfl⟩
    | some a =>
      simp only
      split
      · exact Or.inl ⟨_, rfl⟩
      · exact Or.inl ⟨_, rfl⟩
  · rw [hmsg]
    exact Or.inr ⟨_, rfl⟩

theorem expandBody_nil (mt : MacroTable) (inDependentsLine : Bool)
    (recur : QString → Finset QString → Expansion) (U : Finset QString) :
    expandBody mt inDependentsLine recur [] U = .ok ([], U) := by
  simp [expandBody, expandLoop]

theorem expandMacrosDepth_nil (mt : MacroTable) (inDependentsLine : Bool) (depth : Nat)
    (U : Finset QString) : expandMacrosDepth mt inDependentsLine depth [] U = .ok ([], U) := by
  cases depth <;> simp [expandMacrosDepth, expandBody_nil]

theorem StringMap.find_eq_none {β : Type} (m : StringMap β) (key : QString)
    (h : key ∉ m.map Prod.fst) : StringMap.find m key = none := by
  induction m with
  | nil => rfl
  | cons e rest ih =>
    obtain ⟨k, v⟩ := e
    simp only [List.map_cons, List.mem_cons, not_or] at h
    simp only [StringMap.find]
    rw [if_neg (fun hk => h.1 hk.symm)]
    exact ih h.2

theorem macroValue_undefined (mt : MacroTable) (m : QString)
    (h : m ∉ mt.m_macros.map Prod.fst) : macroValue mt m = [] := by
  simp [macroValue, macroData, StringMap.find_eq_none _ _ h]

theorem freeCount_insert (mt : MacroTable) (U : Finset QString) (m : QString)
    (hm : m ∉ U) (hdef : m ∈ mt.m_macros.map Prod.fst) :
    freeCount mt (insert m U) + 1 ≤ freeCount mt U := by
  unfold freeCount
  have hmem : m ∈ (mt.m_macros.map Prod.fst).toFinset \ U := by
    simp only [Finset.mem_sdiff, List.mem_toFinset]
    exact ⟨hdef, hm⟩
  have : (mt.m_macros.map Prod.fst).toFinset \ insert m U
      = ((mt.m_macros.map Prod.fst).toFinset \ U).erase m := by
    ext x
    simp only [Finset.mem_sdiff, Finset.mem_insert, Finset.mem_erase, not_or]
    tauto
  rw [this, Finset.card_erase_of_mem hmem]
  have := Finset.card_pos.mpr ⟨m, hmem⟩
  omega

theorem freeCount_empty (mt : MacroTable) : freeCount mt ∅ = definedCount mt := by
  simp [freeCount, definedCount]

/-- With a budget above the number of defined macros not in progress, one more
level changes nothing, and the result is a text or an exception. -/
theorem expandMacrosDepth_succ (mt : MacroTable) (inDependentsLine : Bool) :
    ∀ (depth : Nat) (U : Finset QString) (str : QString), freeCount mt U + 1 ≤ depth →
      expandMacrosDepth mt inDependentsLine depth str U
        = expandMacrosDepth mt inDependentsLine (depth + 1) str U ∧
      Settled U (expandMacrosDepth mt inDependentsLine depth str U) := by
  intro depth
  induction depth with
  | zero => intro U str h; omega
  | succ d ih =>
    intro U str h
    have hrec : RecAgree mt U (expandMacrosDepth mt inDependentsLine d)
        (expandMacrosDepth mt inDependentsLine (d + 1)) := by
      intro m hm
      by_cases hdef : m ∈ mt.m_macros.map Prod.fst
      · have := freeCount_insert mt U m hm hdef
        exact ih (insert m U) (macroValue mt m) (by omega)
      · rw [macroValue_undefined mt m hdef, expandMacrosDepth_nil, expandMacrosDepth_nil]
        exact ⟨rfl, Or.inl ⟨_, rfl⟩⟩
    exact expandBody_agree mt inDependentsLine U _ _ hrec str

theorem expandMacrosDepth_stable (mt : MacroTable) (inDependentsLine : Bool)
    (U : Finset QString) (str : QString) :
    ∀ (depth : Nat), freeCount mt U + 1 ≤ depth →
      expandMacrosDepth mt inDependentsLine depth str U
        = expandMacrosDepth mt inDependentsLine (freeCount mt U + 1) str U := by
  intro depth h
  induction depth with
  | zero => omega
  | succ d ih =>
    by_cases hd : freeCount mt U + 1 ≤ d
    · rw [← (expandMacrosDepth_succ mt inDependentsLine d U str hd).1]
      exact ih hd
    · have : d = freeCount mt U := by omega
      rw [this]

theorem expandMacrosDepth_settled (mt : MacroTable) (inDependentsLine : Bool) (str : QString)
    (depth : Nat) (h : definedCount mt + 1 ≤ depth) :
    (∃ ret, expandMacrosDepth mt inDependentsLine depth str ∅ = .ok (ret, ∅) ∧
        expandMacros mt str inDependentsLine = .ok ret) ∨
    (∃ msg, expandMacrosDepth mt inDependentsLine depth str ∅ = .error (.exception msg) ∧
        expandMacros mt str inDependentsLine = .error (.exception msg)) := by
  have hst := expandMacrosDepth_stable mt inDependentsLine ∅ str depth
    (by rw [freeCount_empty]; exact h)
  rw [freeCount_empty] at hst
  have hS := (expandMacrosDepth_succ mt inDependentsLine (definedCount mt + 1) ∅ str
    (by rw [freeCount_empty])).2
  unfold expandMacros
  rw [hst]
  rcases hS with ⟨r, hr⟩ | ⟨msg, hmsg⟩
  · exact Or.inl ⟨r, hr, by rw [hr]⟩
  · exact Or.inr ⟨msg, hmsg, by rw [hmsg]⟩

/-- C5: `expandMacros` is total, and the nesting of recursive calls stays
within the number of defined macros plus one: with any budget of at least that
many levels the expansion ends with a text or with an exception, never at a
bound of the embedding, and the outcome is the one `expandMacros` reports. -/
theorem expandMacros_total (mt : MacroTable) (inDependentsLine : Bool) (str : QString)
    (depth : Nat) (h : definedCount mt + 1 ≤ depth) :
    (∃ ret, expandMacrosDepth mt inDependentsLine depth str ∅ = .ok (ret, ∅) ∧
        expandMacros mt str inDependentsLine = .ok ret) ∨
    (∃ msg, expandMacrosDepth mt inDependentsLine depth str ∅ = .error (.exception msg) ∧
        expandMacros mt str inDependentsLine = .error (.exception msg)) :=
  expandMacrosDepth_settled mt inDependentsLine str depth h

/-- The witness of C5: the cyclic table has three macros, and a budget of four levels. -/
theorem expandMacros_total_witness :
    definedCount cyclicTable + 1 ≤ 4 ∧
    ((∃ ret, expandMacrosDepth cyclicTable false 4 "$(C) $(A)".toList ∅ = .ok (ret, ∅) ∧
        expandMacros cyclicTable "$(C) $(A)".toList false = .ok ret) ∨
    (∃ msg, expandMacrosDepth cyclicTable false 4 "$(C) $(A)".toList ∅
          = .error (.exception msg) ∧
        expandMacros cyclicTable "$(C) $(A)".toList false = .error (.exception msg))) :=
  ⟨by decide, expandMacros_total cyclicTable false "$(C) $(A)".toList 4 (by decide)⟩

/-! ## Runs of plain characters -/

theorem charAt_append_mid (a m b : QString) (x : Nat) (h1 : a.length ≤ x)
    (h2 : x < a.length + m.length) :
    QString.charAt (a ++ m ++ b) x = QString.charAt m (x - a.length) := by
  unfold QString.charAt
  rw [List.append_assoc, List.getD_append_right _ _ _ _ h1,
    List.getD_append _ _ _ _ (by omega)]

theorem charAt_mem (m : QString) (x : Nat) (h : x < m.length) : QString.charAt m x ∈ m := by
  unfold QString.charAt
  rw [List.getD_eq_getElem _ _ h]
  exact List.getElem_mem h

theorem expandStep_plain (mt : MacroTable) (inDependentsLine : Bool)
    (recur : QString → Finset QString → Expansion) (str : QString) (st : LoopState)
    (h : QString.charAt str st.i ≠ '$') :
    expandStep mt inDependentsLine recur str st = .ok
      (match st.appendStart with
        | none => { st with appendStart := some st.i, appendLength := 1 }
        | some _ => { st with appendLength := st.appendLength + 1 }) := by
  simp only [expandStep, h, false_and, if_false]
  cases st.appendStart <;> rfl

/-- A run of `k` plain characters that continues text already pending. -/
theorem expandLoop_plain_run (mt : MacroTable) (inDependentsLine : Bool)
    (recur : QString → Finset QString → Expansion) (str : QString) (ret : QString) (p : Nat)
    (U : Finset QString) :
    ∀ (k fuel i al : Nat), (∀ x, i ≤ x → x < i + k → QString.charAt str x ≠ '$') →
      i + k ≤ str.length →
      expandLoop mt inDependentsLine recur str (fuel + k)
          { i := i, ret := ret, appendStart := some p, appendLength := al, usedMacros := U }
        = expandLoop mt inDependentsLine recur str fuel
          { i := i + k, ret := ret, appendStart := some p, appendLength := al + k,
            usedMacros := U } := by
  intro k
  induction k with
  | zero => intro fuel i al _ _; rfl
  | succ k ih =>
    intro fuel i al hplain hlen
    have hi : i < str.length := by omega
    rw [show fuel + (k + 1) = (fuel + k) + 1 by omega]
    simp only [expandLoop, hi, if_true]
    rw [expandStep_plain _ _ _ _ _ (hplain i (le_refl _) (by omega))]
    simp only
    rw [ih fuel (i + 1) (al + 1) (fun x h1 h2 => hplain x (by omega) (by omega)) (by omega)]
    congr 2 <;> omega

/-- A run of `k + 1` plain characters that starts with nothing pending. -/
theorem expandLoop_plain_start (mt : MacroTable) (inDependentsLine : Bool)
    (recur : QString → Finset QString → Expansion) (str : QString) (ret : QString)
    (U : Finset QString) (k fuel i al : Nat)
    (hplain : ∀ x, i ≤ x → x < i + (k + 1) → QString.charAt str x ≠ '$')
    (hlen : i + (k + 1) ≤ str.length) :
    expandLoop mt inDependentsLine recur str (fuel + (k + 1))
        { i := i, ret := ret, appendStart := none, appendLength := al, usedMacros := U }
      = expandLoop mt inDependentsLine recur str fuel
        { i := i + (k + 1), ret := ret, appendStart := some i, appendLength := k + 1,
          usedMacros := U } := by
  have hi : i < str.length := by omega
  rw [show fuel + (k + 1) = (fuel + k) + 1 by omega]
  simp only [expandLoop, hi, if_true]
  rw [expandStep_plain _ _ _ _ _ (hplain i (le_refl _) (by omega))]
  simp only
  rw [expandLoop_plain_run mt inDependentsLine recur str ret i U k fuel (i + 1) 1
    (fun x h1 h2 => hplain x (by omega) (by omega)) (by omega)]
  congr 2 <;> omega

theorem expandBody_plain (mt : MacroTable) (inDependentsLine : Bool)
    (recur : QString → Finset QString → Expansion) (str : QString) (U : Finset QString)
    (h : '$' ∉ str) : expandBody mt inDependentsLine recur str U = .ok (str, U) := by
  cases hs : str with
  | nil => exact expandBody_nil mt inDependentsLine recur U
  | cons c t =>
    rw [← hs]
    have hlen : str.length = 0 + (t.length + 1) := by rw [hs]; simp
    have hplain : ∀ x, 0 ≤ x → x < 0 + (t.length + 1) → QString.charAt str x ≠ '$' := by
      intro x _ hx heq
      exact h (heq ▸ charAt_mem str x (by omega))
    unfold expandBody
    have hrun := expandLoop_plain_start mt inDependentsLine recur str [] U t.length 0 0 0
      hplain (by omega)
    rw [show str.length = 0 + (t.length + 1) from hlen, hrun]
    simp only [expandLoop, ← hlen, lt_irrefl, if_false, true_and]
    rw [if_pos (by omega)]

theorem expandMacrosDepth_plain (mt : MacroTable) (inDependentsLine : Bool) (depth : Nat)
    (str : QString) (U : Finset QString) (h : '$' ∉ str) :
    expandMacrosDepth mt inDependentsLine depth str U = .ok (str, U) := by
  cases depth <;> simp only [expandMacrosDepth] <;> exact expandBody_plain _ _ _ _ _ h

theorem expandMacros_plain (mt : MacroTable) (inDependentsLine : Bool) (s : QString)
    (h : '$' ∉ s) : expandMacros mt s inDependentsLine = .ok s := by
  unfold expandMacros
  rw [expandMacrosDepth_plain mt inDependentsLine _ s ∅ h]

/-- C2: a string without `$` expands to itself, in every macro table and for
either value of `inDependentsLine`; in particular the empty string does. -/
theorem expandMacros_no_dollar (mt : MacroTable) (inDependentsLine : Bool) (s : QString)
    (h : '$' ∉ s) : expandMacros mt s inDependentsLine = .ok s :=
  expandMacros_plain mt inDependentsLine s h

/-- The witness of C2: `echo hello` expands to itself. -/
theorem expandMacros_no_dollar_witness :
    '$' ∉ "echo hello".toList ∧
      expandMacros cyclicTable "echo hello".toList true = .ok "echo hello".toList :=
  ⟨by decide, expandMacros_no_dollar cyclicTable true "echo hello".toList (by decide)⟩

/-! ## Regular expressions: the matcher decides the language -/

theorem RegExp.nullable_iff (r : RegExp) : r.nullable = true ↔ RegExp.Matches r [] := by
  induction r with
  | never => simp only [RegExp.nullable, Bool.false_eq_true, false_iff]; intro h; cases h
  | empty => exact ⟨fun _ => .empty, fun _ => rfl⟩
  | cls p => simp only [RegExp.nullable, Bool.false_eq_true, false_iff]; intro h; cases h
  | alt a b iha ihb =>
    simp only [RegExp.nullable, Bool.or_eq_true, iha, ihb]
    constructor
    · rintro (h | h)
      · exact .altLeft _ _ _ h
      · exact .altRight _ _ _ h
    · intro h
      cases h with
      | altLeft _ _ _ h => exact Or.inl h
      | altRight _ _ _ h => exact Or.inr h
  | seq a b iha ihb =>
    simp only [RegExp.nullable, Bool.and_eq_true, iha, ihb]
    constructor
    · rintro ⟨h1, h2⟩
      exact .seq a b [] [] h1 h2
    · intro h
      generalize hnil : ([] : QString) = u at h
      cases h with
      | seq _ _ s t h1 h2 =>
        obtain ⟨rfl, rfl⟩ := List.append_eq_nil.mp hnil.symm
        exact ⟨h1, h2⟩
  | star a _ => exact ⟨fun _ => .starNil a, fun _ => rfl⟩

theorem RegExp.star_cons_split (a : RegExp) (u : QString) (h : RegExp.Matches (.star a) u) :
    ∀ (c : Char) (s : QString), u = c :: s →
      ∃ s1 s2, s = s1 ++ s2 ∧ RegExp.Matches a (c :: s1) ∧ RegExp.Matches (.star a) s2 := by
  generalize hr : RegExp.star a = r at h
  induction h with
  | empty => cases hr
  | cls => cases hr
  | altLeft => cases hr
  | altRight => cases hr
  | seq => cases hr
  | starNil => intro c s hu; cases hu
  | starCons a1 s1 t h1 h2 _ ih2 =>
    cases hr
    intro c s hu
    cases s1 with
    | nil => exact ih2 rfl c s hu
    | cons d s1 =>
      simp only [List.cons_append, List.cons.injEq] at hu
      obtain ⟨rfl, rfl⟩ := hu
      exact ⟨s1, t, rfl, h1, h2⟩

theorem RegExp.deriv_iff (r : RegExp) :
    ∀ (c : Char) (s : QString), RegExp.Matches (r.deriv c) s ↔ RegExp.Matches r (c :: s) := by
  induction r with
  | never => intro c s; constructor <;> (intro h; cases h)
  | empty => intro c s; constructor <;> (intro h; cases h)
  | cls p =>
    intro c s
    simp only [RegExp.deriv]
    constructor
    · intro h
      by_cases hp : p c = true
      · rw [if_pos hp] at h
        cases h
        exact .cls p c hp
      · rw [if_neg hp] at h
        cases h
    · intro h
      cases h with
      | cls _ _ hp => rw [if_pos hp]; exact .empty
  | alt a b iha ihb =>
    intro c s
    simp only [RegExp.deriv]
    constructor
    · intro h
      cases h with
      | altLeft _ _ _ h => exact .altLeft _ _ _ ((iha c s).mp h)
      | altRight _ _ _ h => exact .altRight _ _ _ ((ihb c s).mp h)
    · intro h
      cases h with
      | altLeft _ _ _ h => exact .altLeft _ _ _ ((iha c s).mpr h)
      | altRight _ _ _ h => exact .altRight _ _ _ ((ihb c s).mpr h)
  | seq a b iha ihb =>
    intro c s
    have hfwd : ∀ u, RegExp.Matches (.seq (a.deriv c) b) u → RegExp.Matches (.seq a b) (c :: u) := by
      intro u h
      cases h with
      | seq _ _ s1 t h1 h2 => exact .seq a b (c :: s1) t ((iha c s1).mp h1) h2
    have hbwd : RegExp.Matches (.seq a b) (c :: s) →
        RegExp.Matches (.seq (a.deriv c) b) s ∨
          (RegExp.Matches a [] ∧ RegExp.Matches (b.deriv c) s) := by
      intro h
      generalize hu : c :: s = u at h
      cases h with
      | seq _ _ s1 t h1 h2 =>
        cases s1 with
        | nil =>
          simp only [List.nil_append] at hu
          subst hu
          exact Or.inr ⟨h1, (ihb c s).mpr h2⟩
        | cons d s1 =>
          simp only [List.cons_append, List.cons.injEq] at hu
          obtain ⟨rfl, rfl⟩ := hu
          exact Or.inl (.seq _ _ s1 t ((iha c s1).mpr h1) h2)
    simp only [RegExp.deriv]
    by_cases hn : a.nullable = true
    · rw [if_pos hn]
      constructor
      · intro h
        cases h with
        | altLeft _ _ _ h => exact hfwd s h
        | altRight _ _ _ h =>
          exact .seq a b [] (c :: s) ((RegExp.nullable_iff a).mp hn) ((ihb c s).mp h)
      · intro h
        rcases hbwd h with h1 | ⟨_, h2⟩
        · exact .altLeft _ _ _ h1
        · exact .altRight _ _ _ h2
    · rw [if_neg hn]
      constructor
      · exact hfwd s
      · intro h
        rcases hbwd h with h1 | ⟨h1, _⟩
        · exact h1
        · exact absurd ((RegExp.nullable_iff a).mpr h1) hn
  | star a iha =>
    intro c s
    simp only [RegExp.deriv]
    constructor
    · intro h
      cases h with
      | seq _ _ s1 t h1 h2 => exact .starCons a (c :: s1) t ((iha c s1).mp h1) h2
    · intro h
      obtain ⟨s1, s2, rfl, h1, h2⟩ := RegExp.star_cons_split a _ h c s rfl
      exact .seq _ _ s1 s2 ((iha c s1).mpr h1) h2

theorem RegExp.exactMatch_iff (s : QString) :
    ∀ r : RegExp, r.exactMatch s = true ↔ RegExp.Matches r s := by
  induction s with
  | nil => intro r; exact RegExp.nullable_iff r
  | cons c t ih =>
    intro r
    simp only [RegExp.exactMatch]
    rw [ih (r.deriv c), RegExp.deriv_iff]

/-! ## Valid macro names -/

theorem rexWordOrDot_iff (s : QString) :
    RegExp.Matches (.alt rexWord (.cls fun c => c == '.')) s ↔
      ∃ c, s = [c] ∧ isWordOrDot c = true := by
  constructor
  · intro h
    cases h with
    | altLeft _ _ _ h =>
      cases h with
      | cls _ c hc => exact ⟨c, rfl, by simp only [isWordOrDot, hc, Bool.true_or]⟩
    | altRight _ _ _ h =>
      cases h with
      | cls _ c hc => exact ⟨c, rfl, by simp only [isWordOrDot, hc, Bool.or_true]⟩
  · rintro ⟨c, rfl, hc⟩
    simp only [isWordOrDot, Bool.or_eq_true] at hc
    rcases hc with hc | hc
    · exact .altLeft _ _ _ (.cls _ c (by simpa using hc))
    · exact .altRight _ _ _ (.cls _ c hc)

theorem rexWordOrDot_star_iff (s : QString) :
    RegExp.Matches (.star (.alt rexWord (.cls fun c => c == '.'))) s ↔
      ∀ c ∈ s, isWordOrDot c = true := by
  constructor
  · intro h
    generalize hr : RegExp.star (.alt rexWord (.cls fun c => c == '.')) = r at h
    induction h with
    | empty => cases hr
    | cls => cases hr
    | altLeft => cases hr
    | altRight => cases hr
    | seq => cases hr
    | starNil => intro c hc; cases hc
    | starCons a s1 t h1 _ _ ih2 =>
      cases hr
      obtain ⟨d, rfl, hd⟩ := (rexWordOrDot_iff s1).mp h1
      intro c hc
      simp only [List.singleton_append, List.mem_cons] at hc
      rcases hc with rfl | hc
      · exact hd
      · exact ih2 rfl c hc
  · intro h
    induction s with
    | nil => exact .starNil _
    | cons c t ih =>
      exact .starCons _ [c] t ((rexWordOrDot_iff [c]).mpr ⟨c, rfl, h c (List.mem_cons_self _ _)⟩)
        (ih fun d hd => h d (List.mem_cons_of_mem _ hd))

theorem rexWordOrDot_plus_iff (s : QString) :
    RegExp.Matches (RegExp.plus (.alt rexWord (.cls fun c => c == '.'))) s ↔
      s ≠ [] ∧ ∀ c ∈ s, isWordOrDot c = true := by
  unfold RegExp.plus
  constructor
  · intro h
    cases h with
    | seq _ _ s1 t h1 h2 =>
      obtain ⟨d, rfl, hd⟩ := (rexWordOrDot_iff s1).mp h1
      refine ⟨by simp, ?_⟩
      intro c hc
      simp only [List.singleton_append, List.mem_cons] at hc
      rcases hc with rfl | hc
      · exact hd
      · exact (rexWordOrDot_star_iff t).mp h2 c hc
  · rintro ⟨hne, h⟩
    cases s with
    | nil => exact absurd rfl hne
    | cons c t =>
      exact .seq _ _ [c] t ((rexWordOrDot_iff [c]).mpr ⟨c, rfl, h c (List.mem_cons_self _ _)⟩)
        ((rexWordOrDot_star_iff t).mpr fun d hd => h d (List.mem_cons_of_mem _ hd))

theorem isWordOrDot_of_isAlpha (c : Char) (h : c.isAlpha = true) : isWordOrDot c = true := by
  simp [isWordOrDot, isLetterOrNumber, Char.isAlphanum, h]

theorem isWordOrDot_of_isLetter (c : Char) (h : isLetter c = true) : isWordOrDot c = true := by
  simp only [isLetter, Bool.or_eq_true] at h
  rcases h with h | h
  · exact isWordOrDot_of_isAlpha c h
  · simp only [isWordOrDot, isLetterOrNumber, h, Bool.or_true, Bool.true_or]

theorem isMacroNameValid_iff (name : QString) :
    isMacroNameValid name = true ↔ name ≠ [] ∧ ∀ c ∈ name, isWordOrDot c = true := by
  unfold isMacroNameValid
  rw [RegExp.exactMatch_iff]
  unfold rexMacroIdentifier
  constructor
  · intro h
    cases h with
    | seq _ _ g p hg hp =>
      obtain ⟨hne, hall⟩ := (rexWordOrDot_plus_iff p).mp hp
      refine ⟨by simp [hne], ?_⟩
      intro c hc
      rcases List.mem_append.mp hc with hc | hc
      · cases hg with
        | altLeft _ _ _ hg =>
          cases hg with
          | cls _ d hd =>
            simp only [List.mem_singleton] at hc
            subst hc
            exact isWordOrDot_of_isAlpha c hd
        | altRight _ _ _ hg =>
          cases hg with
          | altLeft _ _ _ hg =>
            cases hg with
            | cls _ d hd =>
              simp only [List.mem_singleton] at hc
              subst hc
              simp only [isWordOrDot, hd, Bool.or_true, Bool.true_or]
          | altRight _ _ _ hg =>
            cases hg
            cases hc
      · exact hall c hc
  · intro h
    exact .seq _ _ [] name (.altRight _ _ _ (.altRight _ _ _ .empty))
      ((rexWordOrDot_plus_iff name).mpr h)

/-- C9, as the code has it: a name is valid exactly when it is non-empty and
each of its characters is a letter, a number, a mark, an underscore or a dot.  The
leading letter or underscore of the pattern is optional, so every identifier
of the described form is valid, and so are names that start with a digit or a dot. -/
theorem isMacroNameValid_spec (name : QString) :
    (isMacroNameValid name = true ↔ name ≠ [] ∧ ∀ c ∈ name, isWordOrDot c = true) ∧
    (isLeadingLetterIdentifier name = true → isMacroNameValid name = true) := by
  refine ⟨isMacroNameValid_iff name, ?_⟩
  intro h
  rw [isMacroNameValid_iff]
  cases name with
  | nil => simp [isLeadingLetterIdentifier] at h
  | cons c t =>
    simp only [isLeadingLetterIdentifier, Bool.and_eq_true, Bool.or_eq_true, List.all_eq_true] at h
    refine ⟨by simp, ?_⟩
    intro d hd
    rcases List.mem_cons.mp hd with rfl | hd
    · rcases h.1 with h1 | h1
      · exact isWordOrDot_of_isLetter d h1
      · simp only [isWordOrDot, h1, Bool.or_true, Bool.true_or]
    · exact h.2 d hd

/-- C9 fails as stated: `1abc` and `.x` do not start with a letter or an
underscore, and `isMacroNameValid` accepts them. -/
theorem isMacroNameValid_leading_digit :
    isMacroNameValid "1abc".toList = true ∧ isLeadingLetterIdentifier "1abc".toList = false ∧
    isMacroNameValid ".x".toList = true ∧ isLeadingLetterIdentifier ".x".toList = false := by
  decide

/-! ## `replaceStringWithLazyValue` replaces every occurrence -/

theorem replaceSkip_skip (before after : QString) (x b : QString) :
    QString.replaceSkip before after x.length (x ++ b) = QString.replaceSkip before after 0 b := by
  induction x with
  | nil => rfl
  | cons c x ih => simpa [QString.replaceSkip] using ih

theorem replaceSkip_match (before after b : QString) (h : before ≠ []) :
    QString.replaceSkip before after 0 (before ++ b)
      = after ++ QString.replaceSkip before after 0 b := by
  cases before with
  | nil => exact absurd rfl h
  | cons c x =>
    have hp : (c :: x).isPrefixOf (c :: (x ++ b)) = true := by
      rw [List.isPrefixOf_iff_prefix]
      exact ⟨b, rfl⟩
    simp only [List.cons_append, QString.replaceSkip, hp, if_true, List.length_cons,
      Nat.add_sub_cancel, List.append_eq]
    rw [replaceSkip_skip]

theorem indexOfFrom_none (pat after : QString) (s : QString) :
    ∀ k, QString.indexOfFrom pat s k = none → QString.replaceSkip pat after 0 s = s := by
  induction s with
  | nil => intro k _; rfl
  | cons c t ih =>
    intro k hk
    unfold QString.indexOfFrom at hk
    split at hk
    · cases hk
    · next hp =>
      simp only [QString.replaceSkip, hp, Bool.false_eq_true, if_false]
      rw [ih (k + 1) hk]

theorem indexOfFrom_some (pat after : QString) (h : pat ≠ []) (s : QString) :
    ∀ k j, QString.indexOfFrom pat s k = some j →
      ∃ a b, s = a ++ pat ++ b ∧ j = k + a.length ∧
        QString.replaceSkip pat after 0 s = a ++ after ++ QString.replaceSkip pat after 0 b := by
  induction s with
  | nil =>
    intro k j hk
    simp only [QString.indexOfFrom, h, if_false] at hk
    cases hk
  | cons c t ih =>
    intro k j hk
    unfold QString.indexOfFrom at hk
    split at hk
    · next hp =>
      cases hk
      obtain ⟨b, hb⟩ := List.isPrefixOf_iff_prefix.mp hp
      refine ⟨[], b, by simpa using hb.symm, by simp, ?_⟩
      rw [← hb, replaceSkip_match pat after b h]
      rfl
    · next hp =>
      obtain ⟨a, b, hs, hj, hr⟩ := ih (k + 1) j hk
      refine ⟨c :: a, b, by simp [hs], by simp only [List.length_cons]; omega, ?_⟩
      simp only [QString.replaceSkip, hp, if_false]
      rw [hr]
      rfl

theorem replaceAt_append (pre pat rest new : QString) :
    QString.replaceAt (pre ++ pat ++ rest) pre.length pat.length new = pre ++ new ++ rest := by
  unfold QString.replaceAt
  have h1 : (pre ++ pat ++ rest).take pre.length = pre := by
    rw [List.append_assoc]; exact List.take_left' rfl
  have h2 : (pre ++ pat ++ rest).drop (pre.length + pat.length) = rest := by
    rw [← List.length_append]; exact List.drop_left' rfl
  rw [h1, h2]

theorem indexOf_append (pre rest pat : QString) :
    QString.indexOf (pre ++ rest) pat pre.length = QString.indexOfFrom pat rest pre.length := by
  unfold QString.indexOf
  rw [if_pos (by simp), List.drop_left']
  rfl

theorem replaceLazyLoop_eq (pat new : QString) (h : pat ≠ []) :
    ∀ (fuel : Nat) (pre rest : QString), rest.length + 1 ≤ fuel →
      replaceLazyLoop pat new fuel (pre ++ pat ++ rest) pre.length
        = some (pre ++ new ++ QString.replaceSkip pat new 0 rest) := by
  intro fuel
  induction fuel with
  | zero => intro pre rest hf; omega
  | succ fuel ih =>
    intro pre rest hf
    simp only [replaceLazyLoop]
    rw [replaceAt_append]
    have hidx : QString.indexOf (pre ++ new ++ rest) pat (pre.length + new.length)
        = QString.indexOfFrom pat rest (pre ++ new).length := by
      rw [← List.length_append]
      exact indexOf_append (pre ++ new) rest pat
    rw [hidx]
    cases hk : QString.indexOfFrom pat rest (pre ++ new).length with
    | none =>
      simp only
      rw [indexOfFrom_none pat new rest _ hk]
    | some j =>
      simp only
      obtain ⟨a, b, hs, hj, hr⟩ := indexOfFrom_some pat new h rest _ j hk
      have hlen : pat.length ≠ 0 := fun h0 => h (List.length_eq_zero.mp h0)
      have hb : b.length + 1 ≤ fuel := by
        have : rest.length = a.length + pat.length + b.length := by
          rw [hs]; simp only [List.length_append]
        omega
      have := ih (pre ++ new ++ a) b hb
      rw [hr, hj, hs]
      simp only [List.length_append, List.append_assoc, Nat.add_assoc] at this ⊢
      rw [this]

/-- The loop of `replaceStringWithLazyValue` ends, and computes the
replacement of every occurrence of a non-empty search string. -/
theorem replaceStringWithLazyValue_eq (str searchString : QString) (getValue : Unit → QString)
    (h : searchString ≠ []) :
    replaceStringWithLazyValue str searchString getValue
      = some (QString.replace str searchString (getValue ())) := by
  unfold replaceStringWithLazyValue QString.replace
  rw [if_neg h]
  have hidx : QString.indexOf str searchString 0 = QString.indexOfFrom searchString str 0 :=
    indexOf_append [] str searchString
  rw [hidx]
  cases hk : QString.indexOfFrom searchString str 0 with
  | none =>
    simp only
    rw [indexOfFrom_none searchString _ str 0 hk]
  | some j =>
    simp only
    obtain ⟨a, b, hs, hj, hr⟩ := indexOfFrom_some searchString (getValue ()) h str 0 j hk
    have := replaceLazyLoop_eq searchString (getValue ()) h str.length a b
      (by
        have hlen : searchString.length ≠ 0 := fun h0 => h (List.length_eq_zero.mp h0)
        rw [hs]; simp only [List.length_append]; omega)
    rw [hr, hj, Nat.zero_add]
    rw [hs] at this ⊢
    simpa using this

/-! ## Reading and writing the table -/

theorem StringMap.find_set_self {β : Type} (m : StringMap β) (key : QString) (v : β) :
    StringMap.find (StringMap.set m key v) key = some v := by
  induction m with
  | nil => simp [StringMap.set, StringMap.find]
  | cons e rest ih =>
    obtain ⟨k, w⟩ := e
    by_cases hk : k = key
    · simp [StringMap.set, StringMap.find, hk]
    · simp [StringMap.set, StringMap.find, hk, ih]

theorem StringMap.find_set_other {β : Type} (m : StringMap β) (key other : QString) (v : β)
    (h : other ≠ key) : StringMap.find (StringMap.set m key v) other = StringMap.find m other := by
  induction m with
  | nil => simp [StringMap.set, StringMap.find, Ne.symm h]
  | cons e rest ih =>
    obtain ⟨k, w⟩ := e
    by_cases hk : k = key
    · subst hk
      simp [StringMap.set, StringMap.find, Ne.symm h]
    · by_cases hko : k = other
      · subst hko
        simp [StringMap.set, StringMap.find, h]
      · simp [StringMap.set, StringMap.find, hk, hko, ih]

theorem macroData_modifyMacro_self (mt : MacroTable) (key : QString) (f : MacroData → MacroData) :
    macroData (modifyMacro mt key f) key = f (macroData mt key) := by
  simp [macroData, modifyMacro, StringMap.find_set_self]

theorem macroData_modifyMacro_other (mt : MacroTable) (key other : QString)
    (f : MacroData → MacroData) (h : other ≠ key) :
    macroData (modifyMacro mt key f) other = macroData mt other := by
  simp [macroData, modifyMacro, StringMap.find_set_other _ _ _ _ h]

theorem isMacroDefined_modifyMacro (mt : MacroTable) (key : QString) (f : MacroData → MacroData) :
    isMacroDefined (modifyMacro mt key f) key = true := by
  simp [isMacroDefined, StringMap.contains, modifyMacro, StringMap.find_set_self]

theorem modifyMacro_environment (mt : MacroTable) (key : QString) (f : MacroData → MacroData) :
    (modifyMacro mt key f).m_environment = mt.m_environment := rfl

theorem isWordOrDot_dollar : isWordOrDot '$' = false := by decide

theorem expandMacros_valid_name (mt : MacroTable) (inDependentsLine : Bool) (name : QString)
    (h : isMacroNameValid name = true) : expandMacros mt name inDependentsLine = .ok name := by
  apply expandMacros_plain
  intro hmem
  have := ((isMacroNameValid_iff name).mp h).2 '$' hmem
  rw [isWordOrDot_dollar] at this
  cases this

theorem instantiatedName_ne_nil (name : QString) : "$(".toList ++ name ++ ")".toList ≠ [] := by
  simp

/-- What `internalSetMacroValue` does once the name has been expanded to a
valid identifier `n`. -/
theorem internalSetMacroValue_expanded (mt : MacroTable) (name value n : QString)
    (ignoreReadOnly : Bool) (hexp : expandMacros mt name false = .ok n)
    (hvalid : isMacroNameValid n = true) :
    internalSetMacroValue mt name value ignoreReadOnly = .ok
      (modifyMacro mt n (fun result =>
          if ignoreReadOnly = true ∨ result.isReadOnly = false then
            { result with
              value := QString.replace value ("$(".toList ++ n ++ ")".toList) (macroValue mt n) }
          else result),
        some n) := by
  unfold internalSetMacroValue
  rw [hexp]
  simp only [hvalid, Bool.true_eq_false, if_false]
  rw [replaceStringWithLazyValue_eq _ _ _ (instantiatedName_ne_nil n)]

theorem internalSetMacroValue_invalid (mt : MacroTable) (name value n : QString)
    (ignoreReadOnly : Bool) (hexp : expandMacros mt name false = .ok n)
    (hvalid : isMacroNameValid n = false) :
    internalSetMacroValue mt name value ignoreReadOnly = .ok (mt, none) := by
  unfold internalSetMacroValue
  rw [hexp]
  simp only [hvalid, if_true]

theorem internalSetMacroValue_error (mt : MacroTable) (name value : QString)
    (ignoreReadOnly : Bool) (e : Error) (hexp : expandMacros mt name false = .error e) :
    internalSetMacroValue mt name value ignoreReadOnly = .error e := by
  unfold internalSetMacroValue
  rw [hexp]

/-- What `setMacroValueImpl` does, for a source other than `Environment`, once
the name has been expanded to a valid identifier `n`. -/
theorem setMacroValueImpl_expanded (mt : MacroTable) (name value n : QString)
    (source : MacroSource) (hsrc : source ≠ MacroSource.Environment)
    (hexp : expandMacros mt name false = .ok n) (hvalid : isMacroNameValid n = true) :
    setMacroValueImpl mt name value source =
      { table := modifyMacro
          (modifyMacro mt n (fun result =>
            if false = true ∨ result.isReadOnly = false then
              { result with
                value := QString.replace value ("$(".toList ++ n ++ ")".toList) (macroValue mt n) }
            else result))
          n (fun md => { md with source := source }),
        raised := none } := by
  unfold setMacroValueImpl
  rw [internalSetMacroValue_expanded mt name value n false hexp hvalid]
  simp only [macroData_modifyMacro_self, hsrc, if_false]

theorem expandMacros_error_exception (mt : MacroTable) (str : QString) (inDependentsLine : Bool)
    (e : Error) (h : expandMacros mt str inDependentsLine = .error e) :
    ∃ msg, e = .exception msg := by
  rcases expandMacrosDepth_settled mt inDependentsLine str _ (le_refl _) with
    ⟨r, _, hr⟩ | ⟨msg, _, hmsg⟩
  · rw [hr] at h; cases h
  · rw [hmsg] at h; cases h; exact ⟨msg, rfl⟩

/-! ## Assignments -/

theorem replaceSkip_no_occurrence (pat new : QString) (s : QString) (h : ¬ pat <:+: s) :
    QString.replaceSkip pat new 0 s = s := by
  induction s with
  | nil => rfl
  | cons c t ih =>
    have hp : ¬ pat.isPrefixOf (c :: t) = true := by
      intro hp
      exact h (List.isPrefixOf_iff_prefix.mp hp).isInfix
    simp only [QString.replaceSkip, hp, Bool.false_eq_true, if_false]
    rw [ih (fun ht => h (List.infix_cons ht))]

theorem replace_no_occurrence (s pat new : QString) (hpat : pat ≠ []) (h : ¬ pat <:+: s) :
    QString.replace s pat new = s := by
  unfold QString.replace
  rw [if_neg hpat, replaceSkip_no_occurrence pat new s h]

/-- C1: for a valid, not read-only macro name `N`, `setMacroValue(N, v)` raises
nothing and leaves as raw value of `N` the text `v` in which every occurrence
of `$(N)`, taken from left to right without overlap and without scanning
inserted text again, is replaced by the old raw value; so the value is `v`
itself when `$(N)` does not occur in it. -/
theorem setMacroValue_value (mt : MacroTable) (N v : QString)
    (hvalid : isMacroNameValid N = true) (hro : (macroData mt N).isReadOnly = false) :
    (setMacroValue mt N v).raised = none ∧
    macroValue (setMacroValue mt N v).table N
      = QString.replace v ("$(".toList ++ N ++ ")".toList) (macroValue mt N) ∧
    (¬ ("$(".toList ++ N ++ ")".toList) <:+: v →
      macroValue (setMacroValue mt N v).table N = v) := by
  have hset := setMacroValueImpl_expanded mt N v N MacroSource.MakeFile (by decide)
    (expandMacros_valid_name mt false N hvalid) hvalid
  have hval : macroValue (setMacroValue mt N v).table N
      = QString.replace v ("$(".toList ++ N ++ ")".toList) (macroValue mt N) := by
    unfold setMacroValue
    rw [hset]
    simp only [macroValue, macroData_modifyMacro_self, hro, or_true, if_true]
  refine ⟨?_, hval, ?_⟩
  · unfold setMacroValue
    rw [hset]
  · intro hno
    rw [hval, replace_no_occurrence _ _ _ (instantiatedName_ne_nil N) hno]

/-- The witness of C1: after `A = 1` and `A = $(A) 2` the value of `A` is `1 2`,
and `echo $(A)` expands to `echo 1 2`. -/
theorem setMacroValue_value_witness :
    isMacroNameValid "A".toList = true ∧ (macroData tableA1 "A".toList).isReadOnly = false ∧
    (setMacroValue MacroTable.empty "A".toList "1".toList).table = tableA1 ∧
    (setMacroValue tableA1 "A".toList "$(A) 2".toList).table = tableA12 ∧
    macroValue (setMacroValue tableA1 "A".toList "$(A) 2".toList).table "A".toList
      = "1 2".toList ∧
    expandMacros tableA12 "echo $(A)".toList false = .ok "echo 1 2".toList :=
  ⟨by decide, by decide, by decide, by decide,
    (setMacroValue_value tableA1 "A".toList "$(A) 2".toList (by decide) (by decide)).2.1.trans
      (by decide),
    by decide!⟩

/-! ## Read-only macros -/

theorem isMacroNameValid_of_defined (mt : MacroTable) (m : QString) (hkeys : ValidKeys mt)
    (hdef : isMacroDefined mt m = true) : isMacroNameValid m = true := by
  apply hkeys
  by_contra hmem
  rw [isMacroDefined, StringMap.contains, StringMap.find_eq_none _ _ hmem] at hdef
  cases hdef

/-- What `defineCommandLineMacroValueImpl` does once the name has been
expanded to a valid identifier `n`. -/
theorem defineCommandLineMacroValueImpl_expanded (mt : MacroTable) (name value n : QString)
    (source : MacroSource) (hexp : expandMacros mt name false = .ok n)
    (hvalid : isMacroNameValid n = true) :
    defineCommandLineMacroValueImpl mt name value source =
      { table := modifyMacro
          (modifyMacro mt n (fun result =>
            if true = true ∨ result.isReadOnly = false then
              { result with
                value := QString.replace value ("$(".toList ++ n ++ ")".toList) (macroValue mt n) }
            else result))
          n (fun md => { md with source := source, isReadOnly := true }),
        raised := none } := by
  unfold defineCommandLineMacroValueImpl
  rw [internalSetMacroValue_expanded mt name value n true hexp hvalid]

/-- C8: for a macro `m` of a table with valid keys that exists and is
read-only, `setMacroValue` and `predefineValue` raise nothing and leave the raw
value of `m` as it was, whereas `defineCommandLineMacroValue` and its implicit
variant store the new value (with `$(m)` replaced by the old value, as every
assignment does) and leave `m` read-only. -/
theorem readOnly_macro (mt : MacroTable) (m v : QString) (hkeys : ValidKeys mt)
    (hdef : isMacroDefined mt m = true) (hro : (macroData mt m).isReadOnly = true) :
    ((setMacroValue mt m v).raised = none ∧
      macroValue (setMacroValue mt m v).table m = macroValue mt m) ∧
    ((predefineValue mt m v).raised = none ∧
      macroValue (predefineValue mt m v).table m = macroValue mt m) ∧
    (macroValue (defineCommandLineMacroValue mt m v).table m
        = QString.replace v ("$(".toList ++ m ++ ")".toList) (macroValue mt m) ∧
      (macroData (defineCommandLineMacroValue mt m v).table m).isReadOnly = true) ∧
    (macroValue (defineImplicitCommandLineMacroValue mt m v).table m
        = QString.replace v ("$(".toList ++ m ++ ")".toList) (macroValue mt m) ∧
      (macroData (defineImplicitCommandLineMacroValue mt m v).table m).isReadOnly = true) := by
  have hvalid := isMacroNameValid_of_defined mt m hkeys hdef
  have hexp := expandMacros_valid_name mt false m hvalid
  refine ⟨?_, ?_, ?_, ?_⟩
  · unfold setMacroValue
    rw [setMacroValueImpl_expanded mt m v m MacroSource.MakeFile (by decide) hexp hvalid]
    simp [macroValue, macroData_modifyMacro_self, hro]
  · unfold predefineValue
    rw [setMacroValueImpl_expanded mt m v m MacroSource.Predefinition (by decide) hexp hvalid]
    simp [macroValue, macroData_modifyMacro_self, hro]
  · unfold defineCommandLineMacroValue
    rw [defineCommandLineMacroValueImpl_expanded mt m v m _ hexp hvalid]
    simp [macroValue, macroData_modifyMacro_self]
  · unfold defineImplicitCommandLineMacroValue
    rw [defineCommandLineMacroValueImpl_expanded mt m v m _ hexp hvalid]
    simp [macroValue, macroData_modifyMacro_self]

/-- The witness of C8: `CC = cl` is read-only; `setMacroValue` keeps `cl`, the
command-line definition stores `gcc`. -/
theorem readOnly_macro_witness :
    ValidKeys tableReadOnly ∧ isMacroDefined tableReadOnly "CC".toList = true ∧
    (macroData tableReadOnly "CC".toList).isReadOnly = true ∧
    macroValue (setMacroValue tableReadOnly "CC".toList "gcc".toList).table "CC".toList
      = "cl".toList ∧
    macroValue (defineCommandLineMacroValue tableReadOnly "CC".toList "gcc".toList).table
      "CC".toList = "gcc".toList :=
  have hkeys : ValidKeys tableReadOnly := by
    intro k hk
    simp only [tableReadOnly, List.map_cons, List.map_nil, List.mem_singleton] at hk
    subst hk
    decide
  have h := readOnly_macro tableReadOnly "CC".toList "gcc".toList hkeys (by decide) (by decide)
  ⟨hkeys, by decide, by decide, h.1.2.trans (by decide), h.2.2.1.1.trans (by decide)⟩

/-! ## Names that are expanded, names that are invalid -/

/-- C10: `setMacroValue(name, v)` validates and uses as key the expansion of
`name`.  When the expansion fails, or is not a valid identifier, the call
raises an exception and leaves the macros and the environment as they were;
when it is a valid identifier `n`, the call raises nothing, `n` is defined
afterwards, no other entry changes, and (unless `n` is read-only) the value of
`n` is the assigned one. -/
theorem setMacroValue_expanded_name (mt : MacroTable) (name v : QString) :
    (∀ e, expandMacros mt name false = .error e →
      (∃ msg, e = .exception msg) ∧ setMacroValue mt name v = { table := mt, raised := some e }) ∧
    (∀ n, expandMacros mt name false = .ok n → isMacroNameValid n = false →
      setMacroValue mt name v = Effect.mk mt
        (some (.exception ("macro name ".toList ++ name ++ " is invalid".toList)))) ∧
    (∀ n, expandMacros mt name false = .ok n → isMacroNameValid n = true →
      (setMacroValue mt name v).raised = none ∧
      isMacroDefined (setMacroValue mt name v).table n = true ∧
      (∀ k, k ≠ n → macroData (setMacroValue mt name v).table k = macroData mt k) ∧
      (setMacroValue mt name v).table.m_environment = mt.m_environment ∧
      ((macroData mt n).isReadOnly = false →
        macroValue (setMacroValue mt name v).table n
          = QString.replace v ("$(".toList ++ n ++ ")".toList) (macroValue mt n))) := by
  refine ⟨?_, ?_, ?_⟩
  · intro e he
    refine ⟨expandMacros_error_exception mt name false e he, ?_⟩
    unfold setMacroValue setMacroValueImpl
    rw [internalSetMacroValue_error mt name v false e he]
  · intro n hn hinvalid
    unfold setMacroValue setMacroValueImpl
    rw [internalSetMacroValue_invalid mt name v n false hn hinvalid]
  · intro n hn hvalid
    unfold setMacroValue
    rw [setMacroValueImpl_expanded mt name v n MacroSource.MakeFile (by decide) hn hvalid]
    refine ⟨rfl, isMacroDefined_modifyMacro _ _ _, ?_, rfl, ?_⟩
    · intro k hk
      simp only
      rw [macroData_modifyMacro_other _ _ _ _ hk, macroData_modifyMacro_other _ _ _ _ hk]
    · intro hro
      simp [macroValue, macroData_modifyMacro_self, hro]

/-- The witness of C10: the names `$(N` and `a b` raise and change nothing;
with `N = FOO` the name `$(N)` defines `FOO`. -/
theorem setMacroValue_expanded_name_witness :
    ((∃ msg, Error.exception "Macro invocation $( without closing ) found".toList
          = .exception msg) ∧
      setMacroValue tableN "$(N".toList "bar".toList = Effect.mk tableN
        (some (.exception "Macro invocation $( without closing ) found".toList))) ∧
    setMacroValue tableN "a b".toList "bar".toList = Effect.mk tableN
      (some (.exception ("macro name ".toList ++ "a b".toList ++ " is invalid".toList))) ∧
    ((setMacroValue tableN "$(N)".toList "bar".toList).raised = none ∧
      isMacroDefined (setMacroValue tableN "$(N)".toList "bar".toList).table "FOO".toList
        = true) :=
  ⟨(setMacroValue_expanded_name tableN "$(N".toList "bar".toList).1 _ (by decide!),
    (setMacroValue_expanded_name tableN "a b".toList "bar".toList).2.1 "a b".toList
      (by decide!) (by decide),
    ((setMacroValue_expanded_name tableN "$(N)".toList "bar".toList).2.2 "FOO".toList
      (by decide!) (by decide)).1,
    ((setMacroValue_expanded_name tableN "$(N)".toList "bar".toList).2.2 "FOO".toList
      (by decide!) (by decide)).2.1⟩

/-! ## Environment macros -/

/-- C7: when the upper-cased name is not yet a macro and the expansion of the
value fails, `defineEnvironmentMacroValue` raises nothing and leaves the macros
and the environment exactly as they were. -/
theorem defineEnvironmentMacroValue_failed (mt : MacroTable) (name value : QString)
    (readOnly : Bool) (hnew : isMacroDefined mt (QString.toUpper name) = false)
    (hfail : ∀ r, expandMacros mt value false ≠ .ok r) :
    defineEnvironmentMacroValue mt name value readOnly = { table := mt, raised := none } := by
  unfold defineEnvironmentMacroValue
  unfold isMacroDefined at hnew
  simp only [hnew, Bool.false_eq_true, if_false]
  cases hexp : expandMacros mt value false with
  | ok r => exact absurd hexp (hfail r)
  | error e =>
    obtain ⟨msg, rfl⟩ := expandMacros_error_exception mt value false e hexp
    rfl

/-- The witness of C7: the environment variable `PROMPT=$+$P$_$G` creates no macro. -/
theorem defineEnvironmentMacroValue_failed_witness :
    isMacroDefined MacroTable.empty (QString.toUpper "prompt".toList) = false ∧
    (∀ r, expandMacros MacroTable.empty "$+$P$_$G".toList false ≠ .ok r) ∧
    defineEnvironmentMacroValue MacroTable.empty "prompt".toList "$+$P$_$G".toList false
      = { table := MacroTable.empty, raised := none } :=
  have hfail : ∀ r, expandMacros MacroTable.empty "$+$P$_$G".toList false ≠ .ok r := by
    intro r hr
    have h : expandMacros MacroTable.empty "$+$P$_$G".toList false
        = .error (.exception "Invalid macro invocation found".toList) := by decide!
    rw [h] at hr
    cases hr
  ⟨by decide, hfail,
    defineEnvironmentMacroValue_failed MacroTable.empty "prompt".toList "$+$P$_$G".toList false
      (by decide) hfail⟩

/-- The functions `setMacroValue` and `predefineValue` never write the
environment: the source they store is never `Environment`. -/
theorem setMacroValueImpl_environment (mt : MacroTable) (name v : QString)
    (source : MacroSource) (hsrc : source ≠ MacroSource.Environment) :
    (setMacroValueImpl mt name v source).table.m_environment = mt.m_environment := by
  cases hexp : expandMacros mt name false with
  | error e =>
    unfold setMacroValueImpl
    rw [internalSetMacroValue_error mt name v false e hexp]
  | ok n =>
    by_cases hvalid : isMacroNameValid n = true
    · rw [setMacroValueImpl_expanded mt name v n source hsrc hexp hvalid]
      rfl
    · unfold setMacroValueImpl
      rw [internalSetMacroValue_invalid mt name v n false hexp (by simpa using hvalid)]

/-- C6 fails on the code: `PATH` is an environment macro, `setMacroValue` gives
it the value `b`, and the mirrored environment entry is still `a`, while `b`
expands to `b`.  The call has turned the source of `PATH` into `MakeFile`. -/
theorem setMacroValue_environment_stale :
    defineEnvironmentMacroValue MacroTable.empty "PATH".toList "a".toList false
      = { table := tableEnvPath, raised := none } ∧
    setMacroValue tableEnvPath "PATH".toList "b".toList
      = { table := tableEnvPathSet, raised := none } ∧
    macroValue tableEnvPathSet "PATH".toList = "b".toList ∧
    expandMacros tableEnvPathSet (macroValue tableEnvPathSet "PATH".toList) false
      = .ok "b".toList ∧
    StringMap.find tableEnvPathSet.m_environment "PATH".toList = some "a".toList ∧
    (∀ mt name v, (setMacroValue mt name v).table.m_environment = mt.m_environment) :=
  ⟨by decide, by decide, by decide, by decide, by decide,
    fun mt name v => setMacroValueImpl_environment mt name v MacroSource.MakeFile (by decide)⟩

/-! ## Symbolic execution of one invocation -/

theorem scanInvocation_skip (t rest : QString) (h1 : ':' ∉ t) (h2 : ')' ∉ t) :
    ∀ (k : Nat) (ne : Option Nat),
      scanInvocation (t ++ rest) k ne = scanInvocation rest (k + t.length) ne := by
  induction t with
  | nil => intro k ne; rfl
  | cons c t ih =>
    intro k ne
    have hc1 : c ≠ ':' := fun h => h1 (h ▸ List.mem_cons_self _ _)
    have hc2 : c ≠ ')' := fun h => h2 (h ▸ List.mem_cons_self _ _)
    simp only [List.cons_append, scanInvocation, hc1, hc2, if_false, List.length_cons,
      List.append_eq]
    rw [ih (fun h => h1 (List.mem_cons_of_mem _ h)) (fun h => h2 (List.mem_cons_of_mem _ h))]
    congr 1
    omega

theorem scanInvocation_named (t rest : QString) (h2 : ')' ∉ t) :
    ∀ (k x : Nat),
      scanInvocation (t ++ ')' :: rest) k (some x) = (some x, k + t.length, true) := by
  induction t with
  | nil => intro k x; simp [scanInvocation]
  | cons c t ih =>
    intro k x
    have hc2 : c ≠ ')' := fun h => h2 (h ▸ List.mem_cons_self _ _)
    by_cases hc1 : c = ':'
    · simp only [List.cons_append, scanInvocation, hc1, if_true, Option.isNone_some,
        Bool.false_eq_true, if_false, List.length_cons, List.append_eq]
      rw [ih (fun h => h2 (List.mem_cons_of_mem _ h))]
      simp only [Prod.mk.injEq, true_and, and_true]
      omega
    · simp only [List.cons_append, scanInvocation, hc1, hc2, if_false, List.length_cons,
        List.append_eq]
      rw [ih (fun h => h2 (List.mem_cons_of_mem _ h))]
      simp only [Prod.mk.injEq, true_and, and_true]
      omega

/-- The scan of a plain invocation `NAME)`. -/
theorem scanInvocation_plain (name rest : QString) (h1 : ':' ∉ name) (h2 : ')' ∉ name)
    (k : Nat) :
    scanInvocation (name ++ ')' :: rest) k none = (none, k + name.length, true) := by
  rw [scanInvocation_skip name _ h1 h2]
  simp [scanInvocation]

/-- The scan of an invocation with a substitution, `NAME:tail)`. -/
theorem scanInvocation_subst (name tail rest : QString) (h1 : ':' ∉ name) (h2 : ')' ∉ name)
    (h3 : ')' ∉ tail) (k : Nat) :
    scanInvocation (name ++ ':' :: (tail ++ ')' :: rest)) k none
      = (some (k + name.length), k + name.length + 1 + tail.length, true) := by
  rw [scanInvocation_skip name _ h1 h2]
  simp only [scanInvocation, if_true, Option.isNone_none]
  rw [scanInvocation_named tail rest h3]

theorem parseSubstitutionScan_skip (t rest : QString) (h1 : '=' ∉ t) (h2 : ')' ∉ t)
    (h3 : '^' ∉ t) :
    ∀ (k : Nat) (eq : Option Nat) (qp : List Nat),
      parseSubstitutionScan (t ++ rest) k eq false qp
        = parseSubstitutionScan rest (k + t.length) eq false qp := by
  induction t with
  | nil => intro k eq qp; rfl
  | cons c t ih =>
    intro k eq qp
    have hc1 : c ≠ '=' := fun h => h1 (h ▸ List.mem_cons_self _ _)
    have hc2 : c ≠ ')' := fun h => h2 (h ▸ List.mem_cons_self _ _)
    have hc3 : c ≠ '^' := fun h => h3 (h ▸ List.mem_cons_self _ _)
    simp only [List.cons_append, parseSubstitutionScan, hc1, hc2, hc3, if_false, false_and,
      List.length_cons, List.append_eq]
    rw [ih (fun h => h1 (List.mem_cons_of_mem _ h)) (fun h => h2 (List.mem_cons_of_mem _ h))
      (fun h => h3 (List.mem_cons_of_mem _ h))]
    congr 1
    omega

/-- The scan of a substitution `before=after)` without quote characters. -/
theorem parseSubstitutionScan_plain (before after rest : QString)
    (hb : ∀ c ∈ before, c ≠ '=' ∧ c ≠ ')' ∧ c ≠ '^')
    (ha : ∀ c ∈ after, c ≠ '=' ∧ c ≠ ')' ∧ c ≠ '^') (k : Nat) :
    parseSubstitutionScan (before ++ '=' :: (after ++ ')' :: rest)) k none false []
      = (some (k + before.length), some (k + before.length + 1 + after.length), []) := by
  rw [parseSubstitutionScan_skip before _ (fun h => (hb _ h).1 rfl) (fun h => (hb _ h).2.1 rfl)
    (fun h => (hb _ h).2.2 rfl)]
  simp only [parseSubstitutionScan, if_true]
  rw [parseSubstitutionScan_skip after _ (fun h => (ha _ h).1 rfl) (fun h => (ha _ h).2.1 rfl)
    (fun h => (ha _ h).2.2 rfl)]
  simp [parseSubstitutionScan]

theorem mid_append (a m b : QString) : QString.mid (a ++ m ++ b) a.length m.length = m := by
  unfold QString.mid
  rw [List.append_assoc, List.drop_left' rfl, List.take_left' rfl]

/-- The statement `before=after)` at the end of the prefix `a` parses to the
substitution of `before` by `after`, and ends at the parenthesis. -/
theorem parseSubstitutionStatement_plain (a before after rest : QString)
    (hb : ∀ c ∈ before, c ≠ '=' ∧ c ≠ ')' ∧ c ≠ '^')
    (ha : ∀ c ∈ after, c ≠ '=' ∧ c ≠ ')' ∧ c ≠ '^') :
    parseSubstitutionStatement (a ++ (before ++ '=' :: (after ++ ')' :: rest))) a.length
      = .ok ({ before := before, after := after },
          a.length + before.length + 1 + after.length) := by
  unfold parseSubstitutionStatement
  rw [List.drop_left' rfl, parseSubstitutionScan_plain before after rest hb ha]
  simp only [List.foldr_nil]
  have h1 : QString.mid (a ++ (before ++ '=' :: (after ++ ')' :: rest))) a.length
      (a.length + before.length - a.length) = before := by
    rw [Nat.add_sub_cancel_left]
    have := mid_append a before ('=' :: (after ++ ')' :: rest))
    rwa [List.append_assoc] at this
  have h2 : QString.mid (a ++ (before ++ '=' :: (after ++ ')' :: rest)))
      (a.length + before.length + 1)
      (a.length + before.length + 1 + after.length - (a.length + before.length) - 1)
        = after := by
    have hlen : a.length + before.length + 1 + after.length - (a.length + before.length) - 1
        = after.length := by omega
    rw [hlen]
    have := mid_append (a ++ before ++ ['=']) after (')' :: rest)
    simp only [List.length_append, List.length_singleton, List.append_assoc,
      List.singleton_append] at this
    exact this
  rw [h1, h2]

theorem isWordOrDot_not_special (c : Char) (h : isWordOrDot c = true) :
    c ≠ ':' ∧ c ≠ ')' ∧ isFileNameMacroChar c = false := by
  refine ⟨?_, ?_, ?_⟩
  · rintro rfl; revert h; decide
  · rintro rfl; revert h; decide
  · by_contra hf
    simp only [Bool.not_eq_false, isFileNameMacroChar, Bool.or_eq_true, beq_iff_eq] at hf
    rcases hf with ((rfl | rfl) | rfl) | rfl <;> revert h <;> decide

theorem isInvocableName_of_valid (name : QString) (h : isMacroNameValid name = true) :
    IsInvocableName name := by
  obtain ⟨hne, hall⟩ := (isMacroNameValid_iff name).mp h
  refine ⟨hne, fun hm => (isWordOrDot_not_special _ (hall _ hm)).1 rfl,
    fun hm => (isWordOrDot_not_special _ (hall _ hm)).2.1 rfl, ?_⟩
  cases name with
  | nil => exact absurd rfl hne
  | cons c t => exact (isWordOrDot_not_special c (hall c (List.mem_cons_self _ _))).2.2

/-- The branch `$(` on a plain invocation `$(NAME)`: the value is looked up
with the cycle check, expanded, and appended. -/
theorem expandInvocation_plain (mt : MacroTable) (recur : QString → Finset QString → Expansion)
    (a name post : QString) (hname : IsInvocableName name) (i : Nat) (hi : i + 1 = a.length)
    (ret : QString) (U : Finset QString) :
    expandInvocation mt recur (a ++ (name ++ ')' :: post)) i ret U =
      match cycleCheckedMacroValue mt name U with
      | .error e => .error e
      | .ok (rawValue, used1) =>
        match recur rawValue used1 with
        | .error e => .error e
        | .ok (macroValue, used2) =>
          .ok (a.length + name.length, ret ++ macroValue, used2.erase name) := by
  obtain ⟨hne, h1, h2, hf⟩ := hname
  unfold expandInvocation
  rw [hi, List.drop_left' rfl, scanInvocation_plain name post h1 h2]
  have hmid : QString.mid (a ++ (name ++ ')' :: post)) a.length
      (a.length + name.length - i - 1) = name := by
    have hlen : a.length + name.length - i - 1 = name.length := by omega
    rw [hlen]
    have := mid_append a name (')' :: post)
    rwa [List.append_assoc] at this
  simp only [Option.getD_none, hmid, hne, if_false, hf, Bool.false_eq_true, ne_eq,
    not_true_eq_false]

/-- The branch `$(` on an invocation `$(NAME:before=after)` without quote
characters: the expanded value has `before` replaced by `after`. -/
theorem expandInvocation_subst (mt : MacroTable) (recur : QString → Finset QString → Expansion)
    (a name before after post : QString) (hname : IsInvocableName name)
    (hb : ∀ c ∈ before, c ≠ '=' ∧ c ≠ ')' ∧ c ≠ '^')
    (ha : ∀ c ∈ after, c ≠ '=' ∧ c ≠ ')' ∧ c ≠ '^')
    (i : Nat) (hi : i + 1 = a.length) (ret : QString) (U : Finset QString) :
    expandInvocation mt recur
        (a ++ (name ++ ':' :: (before ++ '=' :: (after ++ ')' :: post)))) i ret U =
      match cycleCheckedMacroValue mt name U with
      | .error e => .error e
      | .ok (rawValue, used1) =>
        match recur rawValue used1 with
        | .error e => .error e
        | .ok (macroValue, used2) =>
          .ok (a.length + name.length + 1 + before.length + 1 + after.length,
            ret ++ QString.replace macroValue before after, used2.erase name) := by
  obtain ⟨hne, h1, h2, hf⟩ := hname
  unfold expandInvocation
  have h3 : ')' ∉ before ++ '=' :: after := by
    intro hm
    rcases List.mem_append.mp hm with hm | hm
    · exact (hb _ hm).2.1 rfl
    · rcases List.mem_cons.mp hm with hm | hm
      · cases hm
      · exact (ha _ hm).2.1 rfl
  have hscan := scanInvocation_subst name (before ++ '=' :: after) post h1 h2 h3 a.length
  simp only [List.append_assoc, List.cons_append] at hscan
  rw [hi, List.drop_left' rfl, hscan]
  have hmid : QString.mid (a ++ (name ++ ':' :: (before ++ '=' :: (after ++ ')' :: post))))
      a.length (a.length + name.length - i - 1) = name := by
    have hlen : a.length + name.length - i - 1 = name.length := by omega
    rw [hlen]
    have := mid_append a name (':' :: (before ++ '=' :: (after ++ ')' :: post)))
    rwa [List.append_assoc] at this
  have hparse := parseSubstitutionStatement_plain (a ++ name ++ [':']) before after post hb ha
  simp only [List.append_assoc, List.singleton_append, List.length_append,
    List.length_singleton] at hparse
  have hneq : a.length + name.length
      ≠ a.length + name.length + 1 + (before ++ '=' :: after).length := by omega
  simp only [Option.getD_some, hmid, hne, if_false, hf, Bool.false_eq_true, ne_eq, hneq,
    not_false_eq_true, if_true]
  have hidx : a.length + name.length + 1 = a.length + (name.length + 1) := by omega
  rw [hidx, hparse]
  simp only [applySubstitution]

theorem expandLoop_done (mt : MacroTable) (inDependentsLine : Bool)
    (recur : QString → Finset QString → Expansion) (str : QString) (fuel : Nat) (st : LoopState)
    (h : ¬ st.i < str.length) :
    expandLoop mt inDependentsLine recur str fuel st = .ok st := by
  cases fuel <;> simp only [expandLoop, h, if_false]

theorem charAt_append_cons (a : QString) (c : Char) (b : QString) :
    QString.charAt (a ++ c :: b) a.length = c := by
  unfold QString.charAt
  rw [List.getD_append_right _ _ _ _ (le_refl _)]
  simp

theorem charAt_append_cons_cons (a : QString) (c d : Char) (b : QString) :
    QString.charAt (a ++ c :: d :: b) (a.length + 1) = d := by
  have := charAt_append_cons (a ++ [c]) d b
  simpa using this

/-- The loop on a string that starts with plain text `pre` followed by `$(`:
the plain text is flushed and the invocation is expanded; the loop goes on
behind the invocation. -/
theorem expandLoop_reach_invocation (mt : MacroTable) (inDependentsLine : Bool)
    (recur : QString → Finset QString → Expansion) (pre tail : QString) (hpre : '$' ∉ pre)
    (U : Finset QString) :
    expandLoop mt inDependentsLine recur (pre ++ '$' :: '(' :: tail)
        (pre ++ '$' :: '(' :: tail).length
        { i := 0, ret := [], appendStart := none, appendLength := 0, usedMacros := U } =
      match expandInvocation mt recur (pre ++ '$' :: '(' :: tail) (pre.length + 1) pre U with
      | .error e => .error e
      | .ok (i, ret, usedMacros) =>
        expandLoop mt inDependentsLine recur (pre ++ '$' :: '(' :: tail) (tail.length + 1)
          { i := i + 1, ret := ret, appendStart := none, appendLength := pre.length,
            usedMacros := usedMacros } := by
  have hlen : (pre ++ '$' :: '(' :: tail).length = (tail.length + 1 + 1) + pre.length := by
    simp only [List.length_append, List.length_cons]; omega
  have hplain : ∀ x, 0 ≤ x → x < 0 + pre.length →
      QString.charAt (pre ++ '$' :: '(' :: tail) x ≠ '$' := by
    intro x _ hx heq
    have h1 := charAt_append_mid [] pre ('$' :: '(' :: tail) x (Nat.zero_le _)
      (by simpa using hx)
    simp only [List.nil_append, List.length_nil, Nat.sub_zero] at h1
    rw [h1] at heq
    exact hpre (heq ▸ charAt_mem pre x (by omega))
  have hsite : ∀ (appendStart : Option Nat),
      (match appendStart with
        | some s => ([] : QString) ++ QString.mid (pre ++ '$' :: '(' :: tail) s pre.length
        | none => []) = pre →
      expandLoop mt inDependentsLine recur (pre ++ '$' :: '(' :: tail) (tail.length + 1 + 1)
        { i := pre.length, ret := [], appendStart := appendStart, appendLength := pre.length,
          usedMacros := U } =
      match expandInvocation mt recur (pre ++ '$' :: '(' :: tail) (pre.length + 1) pre U with
      | .error e => .error e
      | .ok (i, ret, usedMacros) =>
        expandLoop mt inDependentsLine recur (pre ++ '$' :: '(' :: tail) (tail.length + 1)
          { i := i + 1, ret := ret, appendStart := none, appendLength := pre.length,
            usedMacros := usedMacros } := by
    intro appendStart hflush
    have hi : pre.length < (pre ++ '$' :: '(' :: tail).length := by rw [hlen]; omega
    have hi1 : pre.length + 1 < (pre ++ '$' :: '(' :: tail).length := by rw [hlen]; omega
    simp only [expandLoop, hi, if_true, expandStep, charAt_append_cons, hi1, and_self,
      charAt_append_cons_cons, hflush]
    cases expandInvocation mt recur (pre ++ '$' :: '(' :: tail) (pre.length + 1) pre U with
    | error e => rfl
    | ok r => rfl
  cases hp : pre with
  | nil =>
    subst hp
    simpa using hsite none rfl
  | cons c t =>
    rw [← hp, hlen]
    have hrun := expandLoop_plain_start mt inDependentsLine recur (pre ++ '$' :: '(' :: tail) []
      U t.length (tail.length + 1 + 1) 0 0
      (by intro x h1 h2; exact hplain x h1 (by rw [hp]; simpa using h2))
      (by rw [hp]; simp only [List.length_append, List.length_cons]; omega)
    have hpl : pre.length = t.length + 1 := by rw [hp]; rfl
    rw [hpl] at hsite ⊢
    rw [hrun]
    simp only [Nat.zero_add]
    apply hsite (some 0)
    rw [← hpl]
    have := mid_append [] pre ('$' :: '(' :: tail)
    simpa using this

/-! ## Two expansions side by side -/

theorem expandInvocation_sim (mt : MacroTable) (Q : Prop) (U1 U2 : Finset QString)
    (rec1 rec2 : QString → Finset QString → Expansion) (h : RecSim mt Q U1 U2 rec1 rec2)
    (str : QString) (i : Nat) (ret : QString) (i1 : Nat) (ret1 : QString) (W : Finset QString)
    (hok : expandInvocation mt rec1 str i ret U1 = .ok (i1, ret1, W)) :
    W = U1 ∧ (expandInvocation mt rec2 str i ret U2 = .ok (i1, ret1, U2) ∨ Q) := by
  rcases hscan : scanInvocation (str.drop (i + 1)) (i + 1) none with ⟨ne, e, b⟩
  cases b
  · simp [expandInvocation, hscan] at hok
  · simp only [expandInvocation, hscan] at hok ⊢
    by_cases hname : QString.mid str (i + 1) (ne.getD e - i - 1) = []
    · simp [hname] at hok
    · simp only [hname, if_false] at hok ⊢
      by_cases hfile :
          isFileNameMacroChar (QString.charAt (QString.mid str (i + 1) (ne.getD e - i - 1)) 0)
            = true
      · simp only [hfile, if_true, Except.ok.injEq, Prod.mk.injEq] at hok ⊢
        obtain ⟨rfl, rfl, rfl⟩ := hok
        exact ⟨rfl, Or.inl ⟨rfl, rfl, trivial⟩⟩
      · simp only [hfile, Bool.false_eq_true, if_false] at hok ⊢
        revert hok
        generalize QString.mid str (i + 1) (ne.getD e - i - 1) = name
        intro hok
        by_cases hm : name ∈ U1
        · simp [cycleCheckedMacroValue, hm] at hok
        · simp only [cycleCheckedMacroValue, hm, if_false] at hok
          rcases hrec : rec1 (macroValue mt name) (insert name U1) with e1 | ⟨v, W1⟩
          · simp [hrec] at hok
          · obtain ⟨hW1, hsim⟩ := h name hm v W1 hrec
            subst hW1
            simp only [hrec, Finset.erase_insert hm] at hok
            have hW : W = U1 := by
              by_cases hsub : ne.getD e = e
              · simp only [hsub, ne_eq, not_true_eq_false, if_false, Except.ok.injEq,
                  Prod.mk.injEq] at hok
                exact hok.2.2.symm
              · simp only [ne_eq, hsub, not_false_eq_true, if_true] at hok
                rcases hp : parseSubstitutionStatement str (ne.getD e + 1) with e1 | ⟨s, newEnd⟩
                · simp [hp] at hok
                · simp only [hp, Except.ok.injEq, Prod.mk.injEq] at hok
                  exact hok.2.2.symm
            refine ⟨hW, ?_⟩
            subst hW
            rcases hsim with ⟨hm2, hrec2⟩ | hQ
            · left
              simp only [cycleCheckedMacroValue, hm2, if_false, hrec2, Finset.erase_insert hm2]
              by_cases hsub : ne.getD e = e
              · simp only [hsub, ne_eq, not_true_eq_false, if_false, Except.ok.injEq,
                  Prod.mk.injEq] at hok ⊢
                exact ⟨hok.1, hok.2.1, trivial⟩
              · simp only [ne_eq, hsub, not_false_eq_true, if_true] at hok ⊢
                rcases hp : parseSubstitutionStatement str (ne.getD e + 1) with e1 | ⟨s, newEnd⟩
                · simp [hp] at hok
                · simp only [hp, Except.ok.injEq, Prod.mk.injEq] at hok ⊢
                  exact ⟨hok.1, hok.2.1, trivial⟩
            · exact Or.inr hQ

theorem expandStep_sim (mt : MacroTable) (inDependentsLine : Bool) (Q : Prop)
    (U1 U2 : Finset QString) (rec1 rec2 : QString → Finset QString → Expansion)
    (h : RecSim mt Q U1 U2 rec1 rec2) (str : QString) (st st1 : LoopState)
    (hU : st.usedMacros = U1)
    (hok : expandStep mt inDependentsLine rec1 str st = .ok st1) :
    st1.usedMacros = U1 ∧
      (expandStep mt inDependentsLine rec2 str { st with usedMacros := U2 }
          = .ok { st1 with usedMacros := U2 } ∨ Q) := by
  obtain ⟨i, ret, appendStart, appendLength, used⟩ := st
  simp only at hU
  subst hU
  by_cases hd : QString.charAt str i = '$' ∧ i + 1 < str.length
  · simp only [expandStep, hd, and_self, if_true] at hok ⊢
    revert hok
    generalize (match appendStart with
      | some appendStart => ret ++ QString.mid str appendStart appendLength
      | none => ret) = ret1
    intro hok
    by_cases hp : QString.charAt str (i + 1) = '('
    · simp only [hp, if_true] at hok ⊢
      rcases hinv : expandInvocation mt rec1 str (i + 1) ret1 used with e1 | ⟨i2, ret2, W⟩
      · simp [hinv] at hok
      · obtain ⟨hW, hsim⟩ := expandInvocation_sim mt Q used U2 rec1 rec2 h str (i + 1) ret1
          i2 ret2 W hinv
        subst hW
        simp only [hinv, Except.ok.injEq] at hok
        subst hok
        refine ⟨rfl, ?_⟩
        rcases hsim with h2 | hQ
        · left; simp only [h2]
        · exact Or.inr hQ
    · simp only [hp, if_false] at hok ⊢
      by_cases hdd : QString.charAt str (i + 1) = '$'
      · simp only [hdd, if_true, Except.ok.injEq] at hok ⊢
        subst hok
        exact ⟨rfl, Or.inl rfl⟩
      · simp only [hdd, if_false] at hok ⊢
        by_cases hl : isLetterOrNumber (QString.charAt str (i + 1)) = true
        · simp only [hl, if_true] at hok ⊢
          revert hok
          generalize ([QString.charAt str (i + 1)] : QString) = name
          intro hok
          by_cases hm : name ∈ used
          · simp [cycleCheckedMacroValue, hm] at hok
          · simp only [cycleCheckedMacroValue, hm, if_false] at hok
            rcases hrec : rec1 (macroValue mt name) (insert name used) with e1 | ⟨v, W1⟩
            · simp [hrec] at hok
            · obtain ⟨hW1, hsim⟩ := h name hm v W1 hrec
              subst hW1
              simp only [hrec, Finset.erase_insert hm, Except.ok.injEq] at hok
              subst hok
              refine ⟨rfl, ?_⟩
              rcases hsim with ⟨hm2, hrec2⟩ | hQ
              · left
                simp only [cycleCheckedMacroValue, hm2, if_false, hrec2,
                  Finset.erase_insert hm2]
              · exact Or.inr hQ
        · simp only [hl, Bool.false_eq_true, if_false] at hok ⊢
          by_cases hf : isFileNameMacroChar (QString.charAt str (i + 1)) = true
          · simp only [hf, if_true, Except.ok.injEq] at hok ⊢
            subst hok
            exact ⟨rfl, Or.inl rfl⟩
          · simp [hf] at hok
  · simp only [expandStep, hd, if_false] at hok ⊢
    cases appendStart with
    | none =>
      simp only [Except.ok.injEq] at hok
      subst hok
      exact ⟨rfl, Or.inl rfl⟩
    | some a =>
      simp only [Except.ok.injEq] at hok
      subst hok
      exact ⟨rfl, Or.inl rfl⟩

theorem expandLoop_sim (mt : MacroTable) (inDependentsLine : Bool) (Q : Prop)
    (U1 U2 : Finset QString) (rec1 rec2 : QString → Finset QString → Expansion)
    (h : RecSim mt Q U1 U2 rec1 rec2) (str : QString) :
    ∀ (fuel : Nat) (st st1 : LoopState), st.usedMacros = U1 →
      expandLoop mt inDependentsLine rec1 str fuel st = .ok st1 →
      st1.usedMacros = U1 ∧
        (expandLoop mt inDependentsLine rec2 str fuel { st with usedMacros := U2 }
            = .ok { st1 with usedMacros := U2 } ∨ Q) := by
  intro fuel
  induction fuel with
  | zero =>
    intro st st1 hU hok
    by_cases hi : st.i < str.length
    · simp [expandLoop, hi] at hok
    · simp only [expandLoop, hi, if_false, Except.ok.injEq] at hok ⊢
      subst hok
      exact ⟨hU, Or.inl rfl⟩
  | succ fuel ih =>
    intro st st1 hU hok
    by_cases hi : st.i < str.length
    · simp only [expandLoop, hi, if_true] at hok ⊢
      rcases hstep : expandStep mt inDependentsLine rec1 str st with e1 | st2
      · simp [hstep] at hok
      · obtain ⟨hU2, hsim⟩ := expandStep_sim mt inDependentsLine Q U1 U2 rec1 rec2 h str st st2
          hU hstep
        simp only [hstep] at hok
        obtain ⟨hU1, hsim1⟩ := ih { st2 with i := st2.i + 1 } st1 hU2 hok
        refine ⟨hU1, ?_⟩
        rcases hsim with h2 | hQ
        · rcases hsim1 with h3 | hQ
          · left
            simp only [h2]
            exact h3
          · exact Or.inr hQ
        · exact Or.inr hQ
    · simp only [expandLoop, hi, if_false, Except.ok.injEq] at hok ⊢
      subst hok
      exact ⟨hU, Or.inl rfl⟩

theorem expandBody_sim (mt : MacroTable) (inDependentsLine : Bool) (Q : Prop)
    (U1 U2 : Finset QString) (rec1 rec2 : QString → Finset QString → Expansion)
    (h : RecSim mt Q U1 U2 rec1 rec2) (str r : QString) (W : Finset QString)
    (hok : expandBody mt inDependentsLine rec1 str U1 = .ok (r, W)) :
    W = U1 ∧ (expandBody mt inDependentsLine rec2 str U2 = .ok (r, U2) ∨ Q) := by
  unfold expandBody at hok ⊢
  rcases hloop : expandLoop mt inDependentsLine rec1 str str.length
      { i := 0, ret := [], appendStart := none, appendLength := 0, usedMacros := U1 }
    with e1 | st1
  · simp [hloop] at hok
  · obtain ⟨hU1, hsim⟩ := expandLoop_sim mt inDependentsLine Q U1 U2 rec1 rec2 h str str.length
      _ st1 rfl hloop
    simp only [hloop] at hok
    have hW : W = U1 := by
      cases hs : st1.appendStart with
      | none => simp only [hs, Except.ok.injEq, Prod.mk.injEq] at hok; rw [← hok.2, hU1]
      | some a =>
        simp only [hs] at hok
        split at hok <;>
          (simp only [Except.ok.injEq, Prod.mk.injEq] at hok; rw [← hok.2, hU1])
    refine ⟨hW, ?_⟩
    rcases hsim with h2 | hQ
    · left
      simp only at h2
      rw [h2]
      simp only
      cases hs : st1.appendStart with
      | none =>
        simp only [hs, Except.ok.injEq, Prod.mk.injEq] at hok ⊢
        exact ⟨hok.1, trivial⟩
      | some a =>
        simp only [hs] at hok ⊢
        split at hok
        · next hc =>
          simp only [Except.ok.injEq, Prod.mk.injEq] at hok
          rw [if_pos hc, hok.1]
        · next hc =>
          simp only [Except.ok.injEq, Prod.mk.injEq] at hok
          rw [if_neg hc, hok.1]
    · exact Or.inr hQ

/-! ## The set of macros in progress and the result -/

theorem expandMacrosDepth_eq (mt : MacroTable) (inDependentsLine : Bool) (depth : Nat) :
    expandMacrosDepth mt inDependentsLine depth
      = expandBody mt inDependentsLine (recurAt mt inDependentsLine depth) := by
  cases depth <;> rfl

/-- An expansion that returns leaves the set of macros in progress as it found it. -/
theorem expandMacrosDepth_restores (mt : MacroTable) (inDependentsLine : Bool) :
    ∀ (depth : Nat) (str : QString) (U : Finset QString) (r : QString) (W : Finset QString),
      expandMacrosDepth mt inDependentsLine depth str U = .ok (r, W) → W = U := by
  intro depth
  induction depth with
  | zero =>
    intro str U r W hok
    rw [expandMacrosDepth_eq] at hok
    refine (expandBody_sim mt inDependentsLine True U U _
      (recurAt mt inDependentsLine 0) ?_ str r W hok).1
    intro m _ r W h
    cases h
  | succ d ih =>
    intro str U r W hok
    rw [expandMacrosDepth_eq] at hok
    refine (expandBody_sim mt inDependentsLine True U U _
      (recurAt mt inDependentsLine (d + 1)) ?_ str r W hok).1
    intro m _ r W h
    exact ⟨ih _ _ _ _ h, Or.inr trivial⟩

/-- A text that is returned within some budget is returned within a larger one. -/
theorem expandMacrosDepth_ok_succ (mt : MacroTable) (inDependentsLine : Bool) :
    ∀ (depth : Nat) (str : QString) (U : Finset QString) (r : QString),
      expandMacrosDepth mt inDependentsLine depth str U = .ok (r, U) →
      expandMacrosDepth mt inDependentsLine (depth + 1) str U = .ok (r, U) := by
  intro depth
  induction depth with
  | zero =>
    intro str U r hok
    rw [expandMacrosDepth_eq] at hok ⊢
    refine (expandBody_sim mt inDependentsLine False U U _ _ ?_ str r U hok).2.resolve_right id
    intro m _ r W h
    cases h
  | succ d ih =>
    intro str U r hok
    rw [expandMacrosDepth_eq] at hok ⊢
    refine (expandBody_sim mt inDependentsLine False U U _ _ ?_ str r U hok).2.resolve_right id
    intro m hm r W h
    have hW := expandMacrosDepth_restores mt inDependentsLine d _ _ _ _ h
    subst hW
    exact ⟨rfl, Or.inl ⟨hm, ih _ _ _ h⟩⟩

theorem expandMacrosDepth_ok_le (mt : MacroTable) (inDependentsLine : Bool) (str : QString)
    (U : Finset QString) (r : QString) (d : Nat)
    (hok : expandMacrosDepth mt inDependentsLine d str U = .ok (r, U)) :
    ∀ k, expandMacrosDepth mt inDependentsLine (d + k) str U = .ok (r, U) := by
  intro k
  induction k with
  | zero => exact hok
  | succ k ih => exact expandMacrosDepth_ok_succ mt inDependentsLine (d + k) str U r ih

/-- An expansion that succeeds with more macros in progress succeeds, with the
same text, with fewer. -/
theorem expandMacrosDepth_subset (mt : MacroTable) (inDependentsLine : Bool) :
    ∀ (depth : Nat) (str : QString) (U W : Finset QString) (r : QString), U ⊆ W →
      expandMacrosDepth mt inDependentsLine depth str W = .ok (r, W) →
      expandMacrosDepth mt inDependentsLine depth str U = .ok (r, U) := by
  intro depth
  induction depth with
  | zero =>
    intro str U W r _ hok
    rw [expandMacrosDepth_eq] at hok ⊢
    refine (expandBody_sim mt inDependentsLine False W U _ _ ?_ str r W hok).2.resolve_right id
    intro m _ r W h
    cases h
  | succ d ih =>
    intro str U W r hsub hok
    rw [expandMacrosDepth_eq] at hok ⊢
    refine (expandBody_sim mt inDependentsLine False W U _ _ ?_ str r W hok).2.resolve_right id
    intro m hm r W1 h
    have hW := expandMacrosDepth_restores mt inDependentsLine d _ _ _ _ h
    subst hW
    exact ⟨rfl, Or.inl ⟨fun hmU => hm (hsub hmU),
      ih _ _ _ _ (Finset.insert_subset_insert m hsub) h⟩⟩

/-- An expansion that succeeds also succeeds, with the same text, while `X` is
in progress, unless the value of `X` itself expands while `X` is in progress. -/
theorem expandMacrosDepth_insert (mt : MacroTable) (inDependentsLine : Bool) (X : QString) :
    ∀ (depth : Nat) (str : QString) (U : Finset QString) (r : QString),
      expandMacrosDepth mt inDependentsLine depth str U = .ok (r, U) →
      expandMacrosDepth mt inDependentsLine depth str (insert X U) = .ok (r, insert X U) ∨
        ∃ d1 r1, expandMacrosDepth mt inDependentsLine d1 (macroValue mt X) {X}
          = .ok (r1, {X}) := by
  intro depth
  induction depth with
  | zero =>
    intro str U r hok
    rw [expandMacrosDepth_eq] at hok ⊢
    refine (expandBody_sim mt inDependentsLine _ U (insert X U) _ _ ?_ str r U hok).2
    intro m _ r W h
    cases h
  | succ d ih =>
    intro str U r hok
    rw [expandMacrosDepth_eq] at hok ⊢
    refine (expandBody_sim mt inDependentsLine _ U (insert X U) _ _ ?_ str r U hok).2
    intro m hm r W h
    have hW := expandMacrosDepth_restores mt inDependentsLine d _ _ _ _ h
    subst hW
    refine ⟨rfl, ?_⟩
    by_cases hmX : m = X
    · subst hmX
      right
      refine ⟨d, r, ?_⟩
      apply expandMacrosDepth_subset mt inDependentsLine d _ {m} (insert m U) r _ h
      intro x hx
      rw [Finset.mem_singleton] at hx
      subst hx
      exact Finset.mem_insert_self _ _
    · rcases ih _ _ _ h with h2 | hQ
      · left
        refine ⟨?_, ?_⟩
        · simp only [Finset.mem_insert, not_or]
          exact ⟨hmX, hm⟩
        · show expandMacrosDepth mt inDependentsLine d _ _ = _
          rw [Finset.Insert.comm m X U]
          exact h2
      · exact Or.inr hQ

/-- When the raw value of `X` expands to `e` on its own, it expands to `e` in
the recursive call that `$(X…)` makes, where `X` is in progress. -/
theorem expandMacrosDepth_value (mt : MacroTable) (inDependentsLine : Bool) (X e : QString)
    (h : expandMacros mt (macroValue mt X) inDependentsLine = .ok e) :
    expandMacrosDepth mt inDependentsLine (definedCount mt) (macroValue mt X) {X}
      = .ok (e, {X}) := by
  by_cases hdef : X ∈ mt.m_macros.map Prod.fst
  · have htop : expandMacrosDepth mt inDependentsLine (definedCount mt + 1) (macroValue mt X) ∅
        = .ok (e, ∅) := by
      unfold expandMacros at h
      rcases hr : expandMacrosDepth mt inDependentsLine (definedCount mt + 1)
          (macroValue mt X) ∅ with e1 | ⟨r, W⟩
      · rw [hr] at h; cases h
      · rw [hr] at h
        have hW := expandMacrosDepth_restores mt inDependentsLine _ _ _ _ _ hr
        subst hW
        simp only [Except.ok.injEq] at h
        rw [h]
    have hfree : freeCount mt {X} + 1 ≤ definedCount mt := by
      have := freeCount_insert mt ∅ X (Finset.not_mem_empty _) hdef
      rw [freeCount_empty] at this
      simpa using this
    have hstable : ∀ k, expandMacrosDepth mt inDependentsLine (definedCount mt + k)
        (macroValue mt X) {X}
          = expandMacrosDepth mt inDependentsLine (definedCount mt) (macroValue mt X) {X} := by
      intro k
      rw [expandMacrosDepth_stable mt inDependentsLine {X} (macroValue mt X) (definedCount mt + k)
          (by omega),
        expandMacrosDepth_stable mt inDependentsLine {X} (macroValue mt X) (definedCount mt) hfree]
    rcases expandMacrosDepth_insert mt inDependentsLine X _ _ ∅ e htop with h1 | ⟨d1, r1, h1⟩
    · rw [← hstable 1]
      simpa using h1
    · have h2 := expandMacrosDepth_ok_le mt inDependentsLine _ _ _ d1 h1 (definedCount mt)
      rw [Nat.add_comm, hstable d1] at h2
      have h3 := expandMacrosDepth_subset mt inDependentsLine _ _ ∅ {X} r1
        (Finset.empty_subset _) h2
      have h4 := expandMacrosDepth_ok_succ mt inDependentsLine _ _ _ _ h3
      rw [htop] at h4
      simp only [Except.ok.injEq, Prod.mk.injEq, and_true] at h4
      rw [h2, h4]
  · have hv := macroValue_undefined mt X hdef
    rw [hv, expandMacros_plain mt inDependentsLine [] (List.not_mem_nil _)] at h
    simp only [Except.ok.injEq] at h
    rw [hv, expandMacrosDepth_nil, ← h]

/-! ## Substitution invocations -/

theorem expandBody_substitution (mt : MacroTable) (inDependentsLine : Bool)
    (recur : QString → Finset QString → Expansion) (X before after e : QString)
    (hX : IsInvocableName X) (hb : ∀ c ∈ before, c ≠ '=' ∧ c ≠ ')' ∧ c ≠ '^')
    (ha : ∀ c ∈ after, c ≠ '=' ∧ c ≠ ')' ∧ c ≠ '^')
    (hrec : recur (macroValue mt X) {X} = .ok (e, {X})) :
    expandBody mt inDependentsLine recur
        ('$' :: '(' :: (X ++ ':' :: (before ++ '=' :: (after ++ ')' :: [])))) ∅
      = .ok (QString.replace e before after, ∅) := by
  have hreach := expandLoop_reach_invocation mt inDependentsLine recur []
    (X ++ ':' :: (before ++ '=' :: (after ++ ')' :: []))) (List.not_mem_nil _) ∅
  have hinv := expandInvocation_subst mt recur ['$', '('] X before after [] hX hb ha 1 rfl [] ∅
  simp only [List.nil_append, List.length_nil, Nat.zero_add] at hreach
  simp only [List.cons_append, List.nil_append] at hinv
  unfold expandBody
  rw [hreach, hinv]
  simp only [cycleCheckedMacroValue, Finset.not_mem_empty, if_false, insert_emptyc_eq, hrec,
    Finset.erase_singleton]
  rw [expandLoop_done]
  simp only [List.length_cons, List.length_append, List.length_nil, not_lt]
  omega

/-- C3: when the raw value of the macro `X` expands to `e`, and `before`
(non-empty) and `after` contain none of `^`, `=` and `)`, the invocation
`$(X:before=after)` expands to `e` in which the occurrences of `before`, taken
from left to right without overlap, are replaced by `after`. -/
theorem expandMacros_substitution (mt : MacroTable) (inDependentsLine : Bool)
    (X before after e : QString) (hX : isMacroNameValid X = true)
    (hval : expandMacros mt (macroValue mt X) inDependentsLine = .ok e)
    (hne : before ≠ [])
    (hb : ∀ c ∈ before, c ≠ '$' ∧ c ≠ '^' ∧ c ≠ '=' ∧ c ≠ ')')
    (ha : ∀ c ∈ after, c ≠ '$' ∧ c ≠ '^' ∧ c ≠ '=' ∧ c ≠ ')') :
    expandMacros mt
        ("$(".toList ++ X ++ ":".toList ++ before ++ "=".toList ++ after ++ ")".toList)
        inDependentsLine
      = .ok (QString.replaceSkip before after 0 e) := by
  have hrec := expandMacrosDepth_value mt inDependentsLine X e hval
  have hbody := expandBody_substitution mt inDependentsLine
    (expandMacrosDepth mt inDependentsLine (definedCount mt)) X before after e
    (isInvocableName_of_valid X hX)
    (fun c hc => ⟨(hb c hc).2.2.1, (hb c hc).2.2.2, (hb c hc).2.1⟩)
    (fun c hc => ⟨(ha c hc).2.2.1, (ha c hc).2.2.2, (ha c hc).2.1⟩) hrec
  have hstr : "$(".toList ++ X ++ ":".toList ++ before ++ "=".toList ++ after ++ ")".toList
      = '$' :: '(' :: (X ++ ':' :: (before ++ '=' :: (after ++ ')' :: []))) := by
    simp
  rw [hstr]
  unfold expandMacros
  simp only [expandMacrosDepth, hbody, QString.replace, hne, if_false]

/-- The witness of C3: with `X = aaa` and `Y = x$(X)y`, `$(X:a=b)` expands to
`bbb` and `$(Y:a=b)` to `xbbby`: the substitution works on the expanded value. -/
theorem expandMacros_substitution_witness :
    isMacroNameValid "Y".toList = true ∧
    expandMacros tableXY (macroValue tableXY "Y".toList) false = .ok "xaaay".toList ∧
    expandMacros tableXY "$(X:a=b)".toList false = .ok "bbb".toList ∧
    expandMacros tableXY "$(Y:a=b)".toList false = .ok "xbbby".toList :=
  ⟨by decide, by decide!,
    (expandMacros_substitution tableXY false "X".toList "a".toList "b".toList "aaa".toList
      (by decide) (by decide!) (by decide) (by decide) (by decide)).trans (by decide),
    (expandMacros_substitution tableXY false "Y".toList "a".toList "b".toList "xaaay".toList
      (by decide) (by decide!) (by decide) (by decide) (by decide)).trans (by decide)⟩

/-! ## Cycles -/

/-- The body on a text whose first `$` starts the plain invocation `$(a)`:
the cycle check of `a` and the expansion of its value come first, and their
exception leaves the body. -/
theorem expandBody_first_invocation (mt : MacroTable) (inDependentsLine : Bool)
    (recur : QString → Finset QString → Expansion) (pre a post : QString) (hpre : '$' ∉ pre)
    (ha : IsInvocableName a) (U : Finset QString) :
    (a ∈ U → expandBody mt inDependentsLine recur (pre ++ '$' :: '(' :: (a ++ ')' :: post)) U
      = .error (.exception (cycleMessage a))) ∧
    (∀ e, a ∉ U → recur (macroValue mt a) (insert a U) = .error e →
      expandBody mt inDependentsLine recur (pre ++ '$' :: '(' :: (a ++ ')' :: post)) U
        = .error e) := by
  have hreach := expandLoop_reach_invocation mt inDependentsLine recur pre (a ++ ')' :: post)
    hpre U
  have hinv := expandInvocation_plain mt recur (pre ++ ['$', '(']) a post ha (pre.length + 1)
    (by simp) pre U
  have hstr : pre ++ ['$', '('] ++ (a ++ ')' :: post) = pre ++ '$' :: '(' :: (a ++ ')' :: post) := by
    simp
  rw [hstr] at hinv
  constructor
  · intro hmem
    unfold expandBody
    rw [hreach, hinv]
    simp only [cycleCheckedMacroValue, hmem, if_true]
  · intro e hmem hrec
    unfold expandBody
    rw [hreach, hinv]
    simp only [cycleCheckedMacroValue, hmem, if_false, hrec]

/-- A chain of macros, each invoking the next first, whose last one invokes a
macro that is in progress or on the chain: the expansion raises the cycle
exception for that macro. -/
theorem expandMacrosDepth_chain (mt : MacroTable) (inDependentsLine : Bool) (target : QString)
    (htarget : IsInvocableName target) :
    ∀ (l : List QString) (a : QString) (U : Finset QString) (d : Nat), l.length + 1 ≤ d →
      List.Chain (InvokesFirst mt) a l →
      InvokesFirst mt ((a :: l).getLast (List.cons_ne_nil a l)) target →
      (target ∈ U ∨ target ∈ a :: l) → (a :: l).Nodup → (∀ x ∈ a :: l, x ∉ U) →
      (∀ x ∈ a :: l, IsInvocableName x) →
      ∀ pre post, '$' ∉ pre →
        expandMacrosDepth mt inDependentsLine d (pre ++ '$' :: '(' :: (a ++ ')' :: post)) U
          = .error (.exception (cycleMessage target)) := by
  intro l
  induction l with
  | nil =>
    intro a U d hd _ hback hmem _ hU hinv pre post hpre
    obtain ⟨d1, rfl⟩ : ∃ d1, d = d1 + 1 := ⟨d - 1, by omega⟩
    obtain ⟨pre1, post1, hpre1, hval⟩ := hback
    simp only [List.getLast_singleton] at hval
    have hin : target ∈ insert a U := by
      rcases hmem with h | h
      · exact Finset.mem_insert_of_mem h
      · rw [List.mem_singleton] at h
        rw [h]; exact Finset.mem_insert_self _ _
    have hnested : expandMacrosDepth mt inDependentsLine d1 (macroValue mt a) (insert a U)
        = .error (.exception (cycleMessage target)) := by
      rw [expandMacrosDepth_eq, hval]
      exact (expandBody_first_invocation mt inDependentsLine _ pre1 target post1 hpre1 htarget
        (insert a U)).1 hin
    simp only [expandMacrosDepth]
    exact (expandBody_first_invocation mt inDependentsLine _ pre a post hpre
      (hinv a (List.mem_cons_self _ _)) U).2 _ (hU a (List.mem_cons_self _ _)) hnested
  | cons b l ih =>
    intro a U d hd hchain hback hmem hnodup hU hinv pre post hpre
    obtain ⟨d1, rfl⟩ : ∃ d1, d = d1 + 1 := ⟨d - 1, by omega⟩
    rw [List.chain_cons] at hchain
    obtain ⟨⟨pre1, post1, hpre1, hval⟩, hchain1⟩ := hchain
    have hnd := List.nodup_cons.mp hnodup
    have hnested : expandMacrosDepth mt inDependentsLine d1 (macroValue mt a) (insert a U)
        = .error (.exception (cycleMessage target)) := by
      rw [hval]
      apply ih b (insert a U) d1 (by simp only [List.length_cons] at hd; omega) hchain1
      · rw [List.getLast_cons (List.cons_ne_nil b l)] at hback
        exact hback
      · rcases hmem with h | h
        · exact Or.inl (Finset.mem_insert_of_mem h)
        · rcases List.mem_cons.mp h with h | h
          · left; rw [h]; exact Finset.mem_insert_self _ _
          · exact Or.inr h
      · exact hnd.2
      · intro x hx hxin
        rcases Finset.mem_insert.mp hxin with h | h
        · subst h; exact hnd.1 hx
        · exact hU x (List.mem_cons_of_mem _ hx) h
      · intro x hx
        exact hinv x (List.mem_cons_of_mem _ hx)
      · exact hpre1
    simp only [expandMacrosDepth]
    exact (expandBody_first_invocation mt inDependentsLine _ pre a post hpre
      (hinv a (List.mem_cons_self _ _)) U).2 _ (hU a (List.mem_cons_self _ _)) hnested

/-- Let the first `$` of `s` start the plain invocation of a macro `a`, and let
`a` lead through a chain of distinct macros, each invoking the next one before
anything else in its value, back to a macro `target` of the chain.  Then
`expandMacros(s)` raises the cycle exception for `target`. -/
theorem expandMacros_chain (mt : MacroTable) (inDependentsLine : Bool) (a : QString)
    (l : List QString) (target pre post : QString)
    (hchain : List.Chain (InvokesFirst mt) a l)
    (hback : InvokesFirst mt ((a :: l).getLast (List.cons_ne_nil a l)) target)
    (htarget : target ∈ a :: l) (hnodup : (a :: l).Nodup)
    (hvalid : ∀ x ∈ a :: l, isMacroNameValid x = true) (hpre : '$' ∉ pre) :
    expandMacros mt (pre ++ "$(".toList ++ a ++ ")".toList ++ post) inDependentsLine
      = .error (.exception (cycleMessage target)) := by
  have hstr : pre ++ "$(".toList ++ a ++ ")".toList ++ post
      = pre ++ '$' :: '(' :: (a ++ ')' :: post) := by simp
  have hinv : ∀ x ∈ a :: l, IsInvocableName x :=
    fun x hx => isInvocableName_of_valid x (hvalid x hx)
  have hstable := expandMacrosDepth_stable mt inDependentsLine ∅
    (pre ++ '$' :: '(' :: (a ++ ')' :: post)) (definedCount mt + 1 + l.length)
    (by rw [freeCount_empty]; omega)
  rw [freeCount_empty] at hstable
  have hcycle := expandMacrosDepth_chain mt inDependentsLine target (hinv target htarget) l a ∅
    (definedCount mt + 1 + l.length) (by omega) hchain hback (Or.inr htarget) hnodup
    (fun _ _ => Finset.not_mem_empty _) hinv pre post hpre
  unfold expandMacros
  rw [hstr, ← hstable, hcycle]

/-! ## The member functions keep the keys valid -/

theorem StringMap.mem_keys_set {β : Type} (m : StringMap β) (key : QString) (v : β)
    (k : QString) (h : k ∈ (StringMap.set m key v).map Prod.fst) :
    k = key ∨ k ∈ m.map Prod.fst := by
  induction m with
  | nil =>
    simp only [StringMap.set, List.map_cons, List.map_nil, List.mem_singleton] at h
    exact Or.inl h
  | cons e rest ih =>
    obtain ⟨k1, w⟩ := e
    by_cases hk : k1 = key
    · simp only [StringMap.set, hk, if_true, List.map_cons, List.mem_cons] at h ⊢
      rcases h with h | h
      · exact Or.inl h
      · exact Or.inr (Or.inr h)
    · simp only [StringMap.set, hk, if_false, List.map_cons, List.mem_cons] at h ⊢
      rcases h with h | h
      · exact Or.inr (Or.inl h)
      · rcases ih h with h1 | h1
        · exact Or.inl h1
        · exact Or.inr (Or.inr h1)

theorem validKeys_empty : ValidKeys MacroTable.empty := by
  intro k hk
  cases hk

theorem validKeys_modifyMacro (mt : MacroTable) (key : QString) (f : MacroData → MacroData)
    (h : ValidKeys mt) (hkey : isMacroNameValid key = true) : ValidKeys (modifyMacro mt key f) := by
  intro k hk
  rcases StringMap.mem_keys_set _ _ _ _ hk with h1 | h1
  · rw [h1]; exact hkey
  · exact h k h1

theorem validKeys_internalSetMacroValue (mt mt1 : MacroTable) (name value : QString)
    (ignoreReadOnly : Bool) (key : Option QString) (h : ValidKeys mt)
    (hset : internalSetMacroValue mt name value ignoreReadOnly = .ok (mt1, key)) :
    ValidKeys mt1 ∧ ∀ k, key = some k → isMacroNameValid k = true := by
  cases hexp : expandMacros mt name false with
  | error e =>
    rw [internalSetMacroValue_error mt name value ignoreReadOnly e hexp] at hset
    cases hset
  | ok n =>
    by_cases hvalid : isMacroNameValid n = true
    · rw [internalSetMacroValue_expanded mt name value n ignoreReadOnly hexp hvalid] at hset
      simp only [Except.ok.injEq, Prod.mk.injEq] at hset
      obtain ⟨rfl, rfl⟩ := hset
      exact ⟨validKeys_modifyMacro mt n _ h hvalid, fun k hk => by cases hk; exact hvalid⟩
    · rw [internalSetMacroValue_invalid mt name value n ignoreReadOnly hexp
        (by simpa using hvalid)] at hset
      simp only [Except.ok.injEq, Prod.mk.injEq] at hset
      obtain ⟨rfl, rfl⟩ := hset
      exact ⟨h, fun k hk => by cases hk⟩

/-- Every member function that writes the table keeps its keys valid macro
names; the table of the constructor has none. -/
theorem validKeys_preserved (mt : MacroTable) (name value : QString) (h : ValidKeys mt) :
    (∀ source, ValidKeys (setMacroValueImpl mt name value source).table) ∧
    (∀ source, ValidKeys (defineCommandLineMacroValueImpl mt name value source).table) ∧
    (∀ readOnly, ValidKeys (defineEnvironmentMacroValue mt name value readOnly).table) ∧
    ValidKeys (undefineMacro mt name) := by
  refine ⟨?_, ?_, ?_, ?_⟩
  · intro source
    unfold setMacroValueImpl
    rcases hset : internalSetMacroValue mt name value false with e | ⟨mt1, key⟩
    · exact h
    · obtain ⟨h1, hkey⟩ := validKeys_internalSetMacroValue mt mt1 name value false key h hset
      cases key with
      | none => exact h1
      | some k =>
        simp only
        have h2 := validKeys_modifyMacro mt1 k (fun md => { md with source := source }) h1
          (hkey k rfl)
        split
        · split
          · exact h2
          · exact h2
        · exact h2
  · intro source
    unfold defineCommandLineMacroValueImpl
    rcases hset : internalSetMacroValue mt name value true with e | ⟨mt1, key⟩
    · exact h
    · obtain ⟨h1, hkey⟩ := validKeys_internalSetMacroValue mt mt1 name value true key h hset
      cases key with
      | none => exact h1
      | some k => exact validKeys_modifyMacro mt1 k _ h1 (hkey k rfl)
  · intro readOnly
    unfold defineEnvironmentMacroValue
    simp only
    split
    · next hc =>
      have hvalid : isMacroNameValid (QString.toUpper name) = true :=
        isMacroNameValid_of_defined mt _ h hc
      have h2 := validKeys_modifyMacro mt (QString.toUpper name)
        (fun md => { md with source := MacroSource.Environment }) h hvalid
      split
      · split
        · exact h2
        · exact h2
      · exact h
    · split
      · exact h
      · exact h
      · rcases hset : internalSetMacroValue mt (QString.toUpper name) value false
          with e | ⟨mt1, key⟩
        · exact h
        · obtain ⟨h1, hkey⟩ := validKeys_internalSetMacroValue mt mt1 _ value false key h hset
          cases key with
          | none => exact h1
          | some k =>
            exact validKeys_modifyMacro mt1 k
              (fun md => { md with source := MacroSource.Environment, isReadOnly := readOnly })
              h1 (hkey k rfl)
  · intro k hk
    apply h
    simp only [undefineMacro, StringMap.erase, List.mem_map, List.mem_filter] at hk
    obtain ⟨e, ⟨he, _⟩, rfl⟩ := hk
    exact List.mem_map_of_mem _ he

/-! ## Two expansions side by side, up to cycle exceptions -/

theorem isCycle_error {α : Type} (name : QString) :
    IsCycle (.error (.exception (cycleMessage name)) : Except Error α) := ⟨name, rfl⟩

theorem not_isCycle_ok {α : Type} (a : α) : ¬ IsCycle (.ok a : Except Error α) := by
  rintro ⟨n, h⟩
  cases h

theorem isCycle_map {α β : Type} (res : Except Error α) (e : Error) (h : res = .error e)
    (hc : IsCycle res) : IsCycle (.error e : Except Error β) := by
  obtain ⟨n, hn⟩ := hc
  rw [h] at hn
  cases hn
  exact ⟨n, rfl⟩

theorem expandInvocation_cycleSim (mt : MacroTable) (U1 U2 : Finset QString)
    (recur : QString → Finset QString → Expansion) (h : CycleSim mt U1 U2 recur)
    (str : QString) (i : Nat) (ret : QString) :
    (∀ i1 ret1 W, expandInvocation mt recur str i ret U1 = .ok (i1, ret1, W) →
      W = U1 ∧ (expandInvocation mt recur str i ret U2 = .ok (i1, ret1, U2) ∨
        IsCycle (expandInvocation mt recur str i ret U2))) ∧
    (IsCycle (expandInvocation mt recur str i ret U1) →
      IsCycle (expandInvocation mt recur str i ret U2)) := by
  rcases hscan : scanInvocation (str.drop (i + 1)) (i + 1) none with ⟨ne, e, b⟩
  cases b
  · simp only [expandInvocation, hscan]
    exact ⟨fun _ _ _ hok => (by cases hok), id⟩
  · simp only [expandInvocation, hscan]
    by_cases hname : QString.mid str (i + 1) (ne.getD e - i - 1) = []
    · simp only [hname, if_true]
      exact ⟨fun _ _ _ hok => (by cases hok), id⟩
    · simp only [hname, if_false]
      by_cases hfile :
          isFileNameMacroChar (QString.charAt (QString.mid str (i + 1) (ne.getD e - i - 1)) 0)
            = true
      · simp only [hfile, if_true]
        refine ⟨?_, fun hc => absurd hc (not_isCycle_ok _)⟩
        intro i1 ret1 W hok
        simp only [Except.ok.injEq, Prod.mk.injEq] at hok
        obtain ⟨rfl, rfl, rfl⟩ := hok
        exact ⟨rfl, Or.inl rfl⟩
      · simp only [hfile, Bool.false_eq_true, if_false]
        generalize QString.mid str (i + 1) (ne.getD e - i - 1) = name
        by_cases hm1 : name ∈ U1
        · simp only [cycleCheckedMacroValue, hm1, if_true]
          refine ⟨fun _ _ _ hok => (by cases hok), fun _ => ?_⟩
          by_cases hm2 : name ∈ U2
          · simp only [hm2, if_true]
            exact isCycle_error name
          · simp only [hm2, if_false]
            rcases h.inProgress name hm1 with h2 | ⟨n, hn⟩
            · exact absurd h2 hm2
            · simp only [hn]
              exact isCycle_error n
        · simp only [cycleCheckedMacroValue, hm1, if_false]
          by_cases hm2 : name ∈ U2
          · simp only [hm2, if_true]
            refine ⟨?_, fun _ => isCycle_error name⟩
            intro i1 ret1 W hok
            refine ⟨?_, Or.inr (isCycle_error name)⟩
            rcases hrec : recur (macroValue mt name) (insert name U1) with e1 | ⟨v, W1⟩
            · simp [hrec] at hok
            · have hW1 := h.restores name hm1 v W1 hrec
              subst hW1
              simp only [hrec, Finset.erase_insert hm1] at hok
              split at hok
              · split at hok
                · cases hok
                · simp only [Except.ok.injEq, Prod.mk.injEq] at hok
                  exact hok.2.2.symm
              · simp only [Except.ok.injEq, Prod.mk.injEq] at hok
                exact hok.2.2.symm
          · simp only [hm2, if_false]
            rcases hrec : recur (macroValue mt name) (insert name U1) with e1 | ⟨v, W1⟩
            · simp only
              refine ⟨fun _ _ _ hok => (by cases hok), fun hc => ?_⟩
              obtain ⟨n, hn⟩ := h.raises name hm1 hm2
                (hrec ▸ isCycle_map (.error e1 : Except Error (Nat × QString × Finset QString))
                  e1 rfl hc)
              simp only [hn]
              exact isCycle_error n
            · have hW1 := h.restores name hm1 v W1 hrec
              subst hW1
              simp only [Finset.erase_insert hm1]
              rcases h.returns name hm1 hm2 v hrec with hrec2 | ⟨n, hn⟩
              · simp only [hrec2, Finset.erase_insert hm2]
                by_cases hsub : ne.getD e = e
                · simp only [hsub, ne_eq, not_true_eq_false, if_false]
                  refine ⟨?_, fun hc => absurd hc (not_isCycle_ok _)⟩
                  intro i1 ret1 W hok
                  simp only [Except.ok.injEq, Prod.mk.injEq] at hok
                  obtain ⟨rfl, rfl, rfl⟩ := hok
                  exact ⟨rfl, Or.inl rfl⟩
                · simp only [ne_eq, hsub, not_false_eq_true, if_true]
                  rcases hp : parseSubstitutionStatement str (ne.getD e + 1)
                    with e1 | ⟨s, newEnd⟩
                  · simp only
                    exact ⟨fun _ _ _ hok => (by cases hok), id⟩
                  · simp only
                    refine ⟨?_, fun hc => absurd hc (not_isCycle_ok _)⟩
                    intro i1 ret1 W hok
                    simp only [Except.ok.injEq, Prod.mk.injEq] at hok
                    obtain ⟨rfl, rfl, rfl⟩ := hok
                    exact ⟨rfl, Or.inl rfl⟩
              · simp only [hn]
                refine ⟨?_, fun _ => isCycle_error n⟩
                intro i1 ret1 W hok
                refine ⟨?_, Or.inr (isCycle_error n)⟩
                split at hok
                · split at hok
                  · cases hok
                  · simp only [Except.ok.injEq, Prod.mk.injEq] at hok
                    exact hok.2.2.symm
                · simp only [Except.ok.injEq, Prod.mk.injEq] at hok
                  exact hok.2.2.symm

theorem expandStep_cycleSim (mt : MacroTable) (inDependentsLine : Bool)
    (U1 U2 : Finset QString) (recur : QString → Finset QString → Expansion)
    (h : CycleSim mt U1 U2 recur) (str : QString) (st : LoopState) (hU : st.usedMacros = U1) :
    (∀ st1, expandStep mt inDependentsLine recur str st = .ok st1 →
      st1.usedMacros = U1 ∧
        (expandStep mt inDependentsLine recur str { st with usedMacros := U2 }
            = .ok { st1 with usedMacros := U2 } ∨
          IsCycle (expandStep mt inDependentsLine recur str { st with usedMacros := U2 }))) ∧
    (IsCycle (expandStep mt inDependentsLine recur str st) →
      IsCycle (expandStep mt inDependentsLine recur str { st with usedMacros := U2 })) := by
  obtain ⟨i, ret, appendStart, appendLength, used⟩ := st
  simp only at hU
  subst hU
  by_cases hd : QString.charAt str i = '$' ∧ i + 1 < str.length
  · simp only [expandStep, hd, and_self, if_true]
    generalize (match appendStart with
      | some appendStart => ret ++ QString.mid str appendStart appendLength
      | none => ret) = ret1
    by_cases hp : QString.charAt str (i + 1) = '('
    · simp only [hp, if_true]
      obtain ⟨hok, hcyc⟩ := expandInvocation_cycleSim mt used U2 recur h str (i + 1) ret1
      rcases hinv : expandInvocation mt recur str (i + 1) ret1 used with e1 | ⟨i2, ret2, W⟩
      · simp only
        refine ⟨fun _ hc => (by cases hc), fun hc => ?_⟩
        obtain ⟨n, hn⟩ := hcyc (hinv ▸ isCycle_map (.error e1 : Except Error LoopState) e1 rfl hc)
        simp only [hn]
        exact isCycle_error n
      · simp only
        refine ⟨?_, fun hc => absurd hc (not_isCycle_ok _)⟩
        intro st1 hst
        simp only [Except.ok.injEq] at hst
        subst hst
        obtain ⟨hW, h2⟩ := hok i2 ret2 W hinv
        refine ⟨hW, ?_⟩
        rcases h2 with h2 | ⟨n, hn⟩
        · left; simp only [h2]
        · right; simp only [hn]; exact isCycle_error n
    · simp only [hp, if_false]
      by_cases hdd : QString.charAt str (i + 1) = '$'
      · simp only [hdd, if_true]
        refine ⟨?_, fun hc => absurd hc (not_isCycle_ok _)⟩
        intro st1 hst
        simp only [Except.ok.injEq] at hst
        subst hst
        exact ⟨rfl, Or.inl rfl⟩
      · simp only [hdd, if_false]
        by_cases hl : isLetterOrNumber (QString.charAt str (i + 1)) = true
        · simp only [hl, if_true]
          generalize ([QString.charAt str (i + 1)] : QString) = name
          by_cases hm1 : name ∈ used
          · simp only [cycleCheckedMacroValue, hm1, if_true]
            refine ⟨fun _ hc => (by cases hc), fun _ => ?_⟩
            by_cases hm2 : name ∈ U2
            · simp only [hm2, if_true]
              exact isCycle_error name
            · simp only [hm2, if_false]
              rcases h.inProgress name hm1 with h2 | ⟨n, hn⟩
              · exact absurd h2 hm2
              · simp only [hn]
                exact isCycle_error n
          · simp only [cycleCheckedMacroValue, hm1, if_false]
            rcases hrec : recur (macroValue mt name) (insert name used) with e1 | ⟨v, W1⟩
            · simp only
              refine ⟨fun _ hc => (by cases hc), fun hc => ?_⟩
              by_cases hm2 : name ∈ U2
              · simp only [hm2, if_true]
                exact isCycle_error name
              · simp only [hm2, if_false]
                obtain ⟨n, hn⟩ := h.raises name hm1 hm2
                  (hrec ▸ isCycle_map (.error e1 : Except Error LoopState) e1 rfl hc)
                simp only [hn]
                exact isCycle_error n
            · have hW1 := h.restores name hm1 v W1 hrec
              subst hW1
              simp only [Finset.erase_insert hm1]
              refine ⟨?_, fun hc => absurd hc (not_isCycle_ok _)⟩
              intro st1 hst
              simp only [Except.ok.injEq] at hst
              subst hst
              refine ⟨rfl, ?_⟩
              by_cases hm2 : name ∈ U2
              · right
                simp only [hm2, if_true]
                exact isCycle_error name
              · simp only [hm2, if_false]
                rcases h.returns name hm1 hm2 v hrec with hrec2 | ⟨n, hn⟩
                · left
                  simp only [hrec2, Finset.erase_insert hm2]
                · right
                  simp only [hn]
                  exact isCycle_error n
        · simp only [hl, Bool.false_eq_true, if_false]
          by_cases hf : isFileNameMacroChar (QString.charAt str (i + 1)) = true
          · simp only [hf, if_true]
            refine ⟨?_, fun hc => absurd hc (not_isCycle_ok _)⟩
            intro st1 hst
            simp only [Except.ok.injEq] at hst
            subst hst
            exact ⟨rfl, Or.inl rfl⟩
          · simp only [hf, Bool.false_eq_true, if_false]
            exact ⟨fun _ hc => (by cases hc), id⟩
  · simp only [expandStep, hd, if_false]
    cases appendStart with
    | none =>
      simp only
      refine ⟨?_, fun hc => absurd hc (not_isCycle_ok _)⟩
      intro st1 hst
      simp only [Except.ok.injEq] at hst
      subst hst
      exact ⟨rfl, Or.inl rfl⟩
    | some a =>
      simp only
      refine ⟨?_, fun hc => absurd hc (not_isCycle_ok _)⟩
      intro st1 hst
      simp only [Except.ok.injEq] at hst
      subst hst
      exact ⟨rfl, Or.inl rfl⟩

theorem expandLoop_cycleSim (mt : MacroTable) (inDependentsLine : Bool)
    (U1 U2 : Finset QString) (recur : QString → Finset QString → Expansion)
    (h : CycleSim mt U1 U2 recur) (str : QString) :
    ∀ (fuel : Nat) (st : LoopState), st.usedMacros = U1 →
      (∀ st1, expandLoop mt inDependentsLine recur str fuel st = .ok st1 →
        st1.usedMacros = U1 ∧
          (expandLoop mt inDependentsLine recur str fuel { st with usedMacros := U2 }
              = .ok { st1 with usedMacros := U2 } ∨
            IsCycle (expandLoop mt inDependentsLine recur str fuel
              { st with usedMacros := U2 }))) ∧
      (IsCycle (expandLoop mt inDependentsLine recur str fuel st) →
        IsCycle (expandLoop mt inDependentsLine recur str fuel { st with usedMacros := U2 })) := by
  intro fuel
  induction fuel with
  | zero =>
    intro st hU
    by_cases hi : st.i < str.length
    · simp only [expandLoop, hi, if_true]
      refine ⟨fun _ hc => (by cases hc), fun hc => ?_⟩
      obtain ⟨n, hn⟩ := hc
      cases hn
    · simp only [expandLoop, hi, if_false]
      refine ⟨?_, fun hc => absurd hc (not_isCycle_ok _)⟩
      intro st1 hst
      simp only [Except.ok.injEq] at hst
      subst hst
      exact ⟨hU, Or.inl rfl⟩
  | succ fuel ih =>
    intro st hU
    by_cases hi : st.i < str.length
    · simp only [expandLoop, hi, if_true]
      obtain ⟨hok, hcyc⟩ := expandStep_cycleSim mt inDependentsLine U1 U2 recur h str st hU
      rcases hstep : expandStep mt inDependentsLine recur str st with e1 | st2
      · simp only
        refine ⟨fun _ hc => (by cases hc), fun hc => ?_⟩
        obtain ⟨n, hn⟩ := hcyc (hstep ▸ hc)
        simp only [hn]
        exact isCycle_error n
      · obtain ⟨hU2, h2⟩ := hok st2 hstep
        obtain ⟨hok1, hcyc1⟩ := ih { st2 with i := st2.i + 1 } hU2
        simp only
        rcases h2 with h2 | ⟨n, hn⟩
        · simp only [h2]
          exact ⟨hok1, hcyc1⟩
        · simp only [hn]
          refine ⟨fun st1 hst => ⟨(hok1 st1 hst).1, Or.inr (isCycle_error n)⟩,
            fun _ => isCycle_error n⟩
    · simp only [expandLoop, hi, if_false]
      refine ⟨?_, fun hc => absurd hc (not_isCycle_ok _)⟩
      intro st1 hst
      simp only [Except.ok.injEq] at hst
      subst hst
      exact ⟨hU, Or.inl rfl⟩

theorem expandBody_cycleSim (mt : MacroTable) (inDependentsLine : Bool)
    (U1 U2 : Finset QString) (recur : QString → Finset QString → Expansion)
    (h : CycleSim mt U1 U2 recur) (str : QString) :
    (∀ r W, expandBody mt inDependentsLine recur str U1 = .ok (r, W) →
      W = U1 ∧ (expandBody mt inDependentsLine recur str U2 = .ok (r, U2) ∨
        IsCycle (expandBody mt inDependentsLine recur str U2))) ∧
    (IsCycle (expandBody mt inDependentsLine recur str U1) →
      IsCycle (expandBody mt inDependentsLine recur str U2)) := by
  obtain ⟨hok, hcyc⟩ := expandLoop_cycleSim mt inDependentsLine U1 U2 recur h str str.length
    { i := 0, ret := [], appendStart := none, appendLength := 0, usedMacros := U1 } rfl
  unfold expandBody
  rcases hloop : expandLoop mt inDependentsLine recur str str.length
      { i := 0, ret := [], appendStart := none, appendLength := 0, usedMacros := U1 }
    with e1 | st1
  · simp only
    refine ⟨fun _ _ hc => (by cases hc), fun hc => ?_⟩
    obtain ⟨n, hn⟩ := hcyc (hloop ▸ isCycle_map (.error e1 : Except Error (QString × Finset QString))
      e1 rfl hc)
    simp only at hn
    simp only [hn]
    exact isCycle_error n
  · obtain ⟨hU1, h2⟩ := hok st1 hloop
    simp only at h2
    simp only
    rcases h2 with h2 | ⟨n, hn⟩
    · simp only [h2]
      cases hs : st1.appendStart with
      | none =>
        simp only
        refine ⟨?_, fun hc => absurd hc (not_isCycle_ok _)⟩
        intro r W hr
        simp only [Except.ok.injEq, Prod.mk.injEq] at hr
        obtain ⟨rfl, rfl⟩ := hr
        exact ⟨hU1, Or.inl rfl⟩
      | some a =>
        simp only
        by_cases hc : a = 0 ∧ st1.appendLength = str.length
        · simp only [hc, and_self, if_true]
          refine ⟨?_, fun hc => absurd hc (not_isCycle_ok _)⟩
          intro r W hr
          simp only [Except.ok.injEq, Prod.mk.injEq] at hr
          obtain ⟨rfl, rfl⟩ := hr
          exact ⟨hU1, Or.inl rfl⟩
        · simp only [hc, if_false]
          refine ⟨?_, fun hc => absurd hc (not_isCycle_ok _)⟩
          intro r W hr
          simp only [Except.ok.injEq, Prod.mk.injEq] at hr
          obtain ⟨rfl, rfl⟩ := hr
          exact ⟨hU1, Or.inl rfl⟩
    · simp only [hn]
      refine ⟨?_, fun _ => isCycle_error n⟩
      intro r W hr
      refine ⟨?_, Or.inr (isCycle_error n)⟩
      cases hs : st1.appendStart with
      | none =>
        simp only [hs, Except.ok.injEq, Prod.mk.injEq] at hr
        rw [← hr.2, hU1]
      | some a =>
        simp only [hs] at hr
        split at hr <;>
          (simp only [Except.ok.injEq, Prod.mk.injEq] at hr; rw [← hr.2, hU1])

/-! ## Re-entering a macro -/

/-- With more macros in progress, an expansion returns the same text or
raises the cycle exception, and a cycle exception stays one. -/
theorem expandMacrosDepth_mono (mt : MacroTable) (inDependentsLine : Bool) :
    ∀ (depth : Nat) (str : QString) (U1 U2 : Finset QString), U1 ⊆ U2 →
      (∀ r, expandMacrosDepth mt inDependentsLine depth str U1 = .ok (r, U1) →
        expandMacrosDepth mt inDependentsLine depth str U2 = .ok (r, U2) ∨
          IsCycle (expandMacrosDepth mt inDependentsLine depth str U2)) ∧
      (IsCycle (expandMacrosDepth mt inDependentsLine depth str U1) →
        IsCycle (expandMacrosDepth mt inDependentsLine depth str U2)) := by
  intro depth
  induction depth with
  | zero =>
    intro str U1 U2 hsub
    have hsim : CycleSim mt U1 U2 (recurAt mt inDependentsLine 0) :=
      { inProgress := fun m hm => Or.inl (hsub hm)
        restores := fun m _ r W h => by cases h
        returns := fun m _ _ r h => by cases h
        raises := fun m _ _ h => by obtain ⟨n, hn⟩ := h; cases hn }
    obtain ⟨hok, hcyc⟩ := expandBody_cycleSim mt inDependentsLine U1 U2 _ hsim str
    rw [expandMacrosDepth_eq]
    exact ⟨fun r hr => (hok r U1 hr).2, hcyc⟩
  | succ d ih =>
    intro str U1 U2 hsub
    have hsim : CycleSim mt U1 U2 (recurAt mt inDependentsLine (d + 1)) :=
      { inProgress := fun m hm => Or.inl (hsub hm)
        restores := fun m _ r W h => expandMacrosDepth_restores mt inDependentsLine d _ _ _ _ h
        returns := fun m _ _ r h =>
          (ih (macroValue mt m) _ _ (Finset.insert_subset_insert m hsub)).1 r h
        raises := fun m _ _ h =>
          (ih (macroValue mt m) _ _ (Finset.insert_subset_insert m hsub)).2 h }
    obtain ⟨hok, hcyc⟩ := expandBody_cycleSim mt inDependentsLine U1 U2 _ hsim str
    rw [expandMacrosDepth_eq]
    exact ⟨fun r hr => (hok r U1 hr).2, hcyc⟩

/-- Let the value of `X` re-enter `X`.  Then an expansion that stops at an
invocation of `X` when `X` is taken to be in progress raises a cycle
exception when it is not, and one that returns then returns or raises a cycle
exception. -/
theorem expandMacrosDepth_unmark (mt : MacroTable) (inDependentsLine : Bool) (X : QString)
    (hdef : X ∈ mt.m_macros.map Prod.fst)
    (hX : ∀ k, IsCycle (expandMacrosDepth mt inDependentsLine (definedCount mt + k)
      (macroValue mt X) {X})) :
    ∀ (depth : Nat) (str : QString) (U : Finset QString), X ∉ U → freeCount mt U + 1 ≤ depth →
      (∀ r, expandMacrosDepth mt inDependentsLine depth str (insert X U) = .ok (r, insert X U) →
        expandMacrosDepth mt inDependentsLine depth str U = .ok (r, U) ∨
          IsCycle (expandMacrosDepth mt inDependentsLine depth str U)) ∧
      (IsCycle (expandMacrosDepth mt inDependentsLine depth str (insert X U)) →
        IsCycle (expandMacrosDepth mt inDependentsLine depth str U)) := by
  intro depth
  induction depth with
  | zero => intro str U _ h; omega
  | succ d ih =>
    intro str U hXU hd
    have hfreeX : freeCount mt (insert X U) + 1 ≤ d := by
      have := freeCount_insert mt U X hXU hdef
      omega
    have hsim : CycleSim mt (insert X U) U (recurAt mt inDependentsLine (d + 1)) :=
      { inProgress := by
          intro m hm
          rcases Finset.mem_insert.mp hm with rfl | hm
          · right
            have h1 := (expandMacrosDepth_mono mt inDependentsLine (definedCount mt + d)
              (macroValue mt m) {m} (insert m U) (by
                intro x hx
                rw [Finset.mem_singleton] at hx
                rw [hx]
                exact Finset.mem_insert_self _ _)).2 (hX d)
            rw [expandMacrosDepth_stable mt inDependentsLine (insert m U) (macroValue mt m)
              (definedCount mt + d) (by omega)] at h1
            show IsCycle (expandMacrosDepth mt inDependentsLine d _ _)
            rw [expandMacrosDepth_stable mt inDependentsLine (insert m U) (macroValue mt m) d
              hfreeX]
            exact h1
          · exact Or.inl hm
        restores := fun m _ r W h => expandMacrosDepth_restores mt inDependentsLine d _ _ _ _ h
        returns := by
          intro m hm1 hm2 r h
          show expandMacrosDepth mt inDependentsLine d _ _ = _ ∨
            IsCycle (expandMacrosDepth mt inDependentsLine d _ _)
          by_cases hmdef : m ∈ mt.m_macros.map Prod.fst
          · have hne : X ∉ insert m U := by
              simp only [Finset.mem_insert, not_or] at hm1 ⊢
              exact ⟨fun h => hm1.1 h.symm, hXU⟩
            have hfree := freeCount_insert mt U m hm2 hmdef
            have h3 : expandMacrosDepth mt inDependentsLine d (macroValue mt m)
                (insert X (insert m U)) = .ok (r, insert X (insert m U)) := by
              rw [Finset.Insert.comm X m U]
              exact h
            exact (ih (macroValue mt m) (insert m U) hne (by omega)).1 r h3
          · have h3 : expandMacrosDepth mt inDependentsLine d (macroValue mt m)
                (insert m (insert X U)) = .ok (r, insert m (insert X U)) := h
            rw [macroValue_undefined mt m hmdef, expandMacrosDepth_nil] at h3 ⊢
            simp only [Except.ok.injEq, Prod.mk.injEq, and_true] at h3
            left; rw [h3]
        raises := by
          intro m hm1 hm2 h
          show IsCycle (expandMacrosDepth mt inDependentsLine d _ _)
          by_cases hmdef : m ∈ mt.m_macros.map Prod.fst
          · have hne : X ∉ insert m U := by
              simp only [Finset.mem_insert, not_or] at hm1 ⊢
              exact ⟨fun h => hm1.1 h.symm, hXU⟩
            have hfree := freeCount_insert mt U m hm2 hmdef
            have h3 : IsCycle (expandMacrosDepth mt inDependentsLine d (macroValue mt m)
                (insert X (insert m U))) := by
              rw [Finset.Insert.comm X m U]
              exact h
            exact (ih (macroValue mt m) (insert m U) hne (by omega)).2 h3
          · have h3 : IsCycle (expandMacrosDepth mt inDependentsLine d (macroValue mt m)
                (insert m (insert X U))) := h
            rw [macroValue_undefined mt m hmdef, expandMacrosDepth_nil] at h3
            exact absurd h3 (not_isCycle_ok _) }
    obtain ⟨hok, hcyc⟩ := expandBody_cycleSim mt inDependentsLine (insert X U) U _ hsim str
    rw [expandMacrosDepth_eq]
    exact ⟨fun r hr => (hok r _ hr).2, hcyc⟩

/-- An expansion that reaches an invocation of a macro whose value re-enters
it raises a cycle exception. -/
theorem expandMacros_reenter (mt : MacroTable) (inDependentsLine : Bool) (s X : QString)
    (hX : IsCycle (expandMacrosDepth mt inDependentsLine (definedCount mt)
      (macroValue mt X) {X}))
    (hs : IsCycle (expandMacrosDepth mt inDependentsLine (definedCount mt + 1) s {X})) :
    ∃ name, expandMacros mt s inDependentsLine = .error (.exception (cycleMessage name)) := by
  have hdef : X ∈ mt.m_macros.map Prod.fst := by
    by_contra hdef
    rw [macroValue_undefined mt X hdef, expandMacrosDepth_nil] at hX
    exact not_isCycle_ok _ hX
  have hfree : freeCount mt {X} + 1 ≤ definedCount mt := by
    have := freeCount_insert mt ∅ X (Finset.not_mem_empty _) hdef
    rw [freeCount_empty] at this
    simpa using this
  have hXk : ∀ k, IsCycle (expandMacrosDepth mt inDependentsLine (definedCount mt + k)
      (macroValue mt X) {X}) := by
    intro k
    rw [expandMacrosDepth_stable mt inDependentsLine {X} (macroValue mt X) (definedCount mt + k)
      (by omega),
      ← expandMacrosDepth_stable mt inDependentsLine {X} (macroValue mt X) (definedCount mt)
        hfree]
    exact hX
  have hun := (expandMacrosDepth_unmark mt inDependentsLine X hdef hXk (definedCount mt + 1) s ∅
    (Finset.not_mem_empty _) (by rw [freeCount_empty])).2
  rw [insert_emptyc_eq] at hun
  obtain ⟨n, hn⟩ := hun hs
  exact ⟨n, by unfold expandMacros; rw [hn]⟩

/-! ## One `$` site between plain texts -/

/-- The loop on a string that starts with plain text `pre` followed by a `$`
that is not the last character: the plain text is flushed, the body of the
loop handles the site, and the loop goes on behind it. -/
theorem expandLoop_reach_dollar (mt : MacroTable) (inDependentsLine : Bool)
    (recur : QString → Finset QString → Expansion) (pre : QString) (c : Char) (tail : QString)
    (hpre : '$' ∉ pre) (U : Finset QString) :
    expandLoop mt inDependentsLine recur (pre ++ '$' :: c :: tail)
        (pre ++ '$' :: c :: tail).length
        { i := 0, ret := [], appendStart := none, appendLength := 0, usedMacros := U } =
      match expandStep mt inDependentsLine recur (pre ++ '$' :: c :: tail)
          { i := pre.length, ret := pre, appendStart := none, appendLength := pre.length,
            usedMacros := U } with
      | .error e => .error e
      | .ok st1 =>
        expandLoop mt inDependentsLine recur (pre ++ '$' :: c :: tail) (tail.length + 1)
          { st1 with i := st1.i + 1 } := by
  have hlen : (pre ++ '$' :: c :: tail).length = (tail.length + 1 + 1) + pre.length := by
    simp only [List.length_append, List.length_cons]; omega
  have hplain : ∀ x, 0 ≤ x → x < 0 + pre.length →
      QString.charAt (pre ++ '$' :: c :: tail) x ≠ '$' := by
    intro x _ hx heq
    have h1 := charAt_append_mid [] pre ('$' :: c :: tail) x (Nat.zero_le _)
      (by simpa using hx)
    simp only [List.nil_append, List.length_nil, Nat.sub_zero] at h1
    rw [h1] at heq
    exact hpre (heq ▸ charAt_mem pre x (by omega))
  have hsite : ∀ (appendStart : Option Nat),
      (match appendStart with
        | some s => ([] : QString) ++ QString.mid (pre ++ '$' :: c :: tail) s pre.length
        | none => []) = pre →
      expandLoop mt inDependentsLine recur (pre ++ '$' :: c :: tail) (tail.length + 1 + 1)
        { i := pre.length, ret := [], appendStart := appendStart, appendLength := pre.length,
          usedMacros := U } =
      match expandStep mt inDependentsLine recur (pre ++ '$' :: c :: tail)
          { i := pre.length, ret := pre, appendStart := none, appendLength := pre.length,
            usedMacros := U } with
      | .error e => .error e
      | .ok st1 =>
        expandLoop mt inDependentsLine recur (pre ++ '$' :: c :: tail) (tail.length + 1)
          { st1 with i := st1.i + 1 } := by
    intro appendStart hflush
    have hi : pre.length < (pre ++ '$' :: c :: tail).length := by rw [hlen]; omega
    have hi1 : pre.length + 1 < (pre ++ '$' :: c :: tail).length := by rw [hlen]; omega
    have hstep : expandStep mt inDependentsLine recur (pre ++ '$' :: c :: tail)
        { i := pre.length, ret := [], appendStart := appendStart, appendLength := pre.length,
          usedMacros := U } =
        expandStep mt inDependentsLine recur (pre ++ '$' :: c :: tail)
          { i := pre.length, ret := pre, appendStart := none, appendLength := pre.length,
            usedMacros := U } := by
      simp only [expandStep, charAt_append_cons, hi1, and_self, if_true, hflush]
    simp only [expandLoop, hi, if_true, hstep]
  cases hp : pre with
  | nil =>
    subst hp
    simpa using hsite none rfl
  | cons d t =>
    rw [← hp, hlen]
    have hrun := expandLoop_plain_start mt inDependentsLine recur (pre ++ '$' :: c :: tail) []
      U t.length (tail.length + 1 + 1) 0 0
      (by intro x h1 h2; exact hplain x h1 (by rw [hp]; simpa using h2))
      (by rw [hp]; simp only [List.length_append, List.length_cons]; omega)
    have hpl : pre.length = t.length + 1 := by rw [hp]; rfl
    rw [hpl] at hsite ⊢
    rw [hrun]
    simp only [Nat.zero_add]
    apply hsite (some 0)
    rw [← hpl]
    have := mid_append [] pre ('$' :: c :: tail)
    simpa using this

/-- The end of an expansion: once the loop stands behind the last `$` site,
with nothing pending, the rest of the string is appended as it is. -/
theorem expandBody_finish (mt : MacroTable) (inDependentsLine : Bool)
    (recur : QString → Finset QString → Expansion) (str : QString) (i al fuel : Nat)
    (ret : QString) (U U1 : Finset QString) (hi0 : 0 < i) (hi : i ≤ str.length)
    (hfuel : str.length - i ≤ fuel) (hplain : '$' ∉ str.drop i)
    (hloop : expandLoop mt inDependentsLine recur str str.length
        { i := 0, ret := [], appendStart := none, appendLength := 0, usedMacros := U } =
      expandLoop mt inDependentsLine recur str fuel
        { i := i, ret := ret, appendStart := none, appendLength := al, usedMacros := U1 }) :
    expandBody mt inDependentsLine recur str U = .ok (ret ++ str.drop i, U1) := by
  unfold expandBody
  rw [hloop]
  rcases Nat.eq_zero_or_pos (str.length - i) with h0 | hpos
  · have hil : i = str.length := by omega
    rw [expandLoop_done _ _ _ _ _ _ (by simp only [hil, lt_irrefl, not_false_eq_true])]
    simp only [hil, List.drop_length, List.append_nil]
  · obtain ⟨k, hk⟩ : ∃ k, str.length - i = k + 1 := ⟨str.length - i - 1, by omega⟩
    obtain ⟨f, hf⟩ : ∃ f, fuel = f + (k + 1) := ⟨fuel - (k + 1), by omega⟩
    have hpl : ∀ x, i ≤ x → x < i + (k + 1) → QString.charAt str x ≠ '$' := by
      intro x h1 h2 heq
      apply hplain
      have hx : x < str.length := by omega
      have hlt : x - i < (str.drop i).length := by simp only [List.length_drop]; omega
      have hc : QString.charAt str x = (str.drop i)[x - i] := by
        unfold QString.charAt
        rw [List.getD_eq_getElem _ _ hx, List.getElem_drop]
        congr 1
        omega
      rw [← heq, hc]
      exact List.getElem_mem hlt
    rw [hf, expandLoop_plain_start mt inDependentsLine recur str ret U1 k f i al hpl (by omega),
      expandLoop_done _ _ _ _ _ _ (by simp only [not_lt]; omega)]
    have hne : ¬ (i = 0 ∧ k + 1 = str.length) := by omega
    simp only [hne, if_false]
    unfold QString.mid
    rw [← hk, List.take_of_length_le (by simp only [List.length_drop]; exact le_refl _)]

theorem charAt_append_right (a b : QString) (k : Nat) :
    QString.charAt (a ++ b) (a.length + k) = QString.charAt b k := by
  unfold QString.charAt
  rw [List.getD_append_right _ _ _ _ (by omega)]
  congr 1
  omega

theorem drop_append_cons_cons (p : QString) (c d : Char) (q : QString) :
    (p ++ c :: d :: q).drop (p.length + 2) = q := by
  have h := @List.drop_left' Char (p ++ [c, d]) q (p.length + 2) (by simp)
  simp only [List.append_assoc, List.cons_append, List.nil_append] at h
  exact h

/-- The site `$$` between plain texts, where it is not a `$$@` or `$$(@` of a
dependents line: one `$` is written. -/
theorem expandBody_dollar_dollar (mt : MacroTable) (inDependentsLine : Bool)
    (recur : QString → Finset QString → Expansion) (p q : QString) (U : Finset QString)
    (hp : '$' ∉ p) (hq : '$' ∉ q)
    (hsite : expandDollar inDependentsLine (p ++ '$' :: '$' :: q) (p.length + 1) p
      = (p.length + 1, p ++ ['$'])) :
    expandBody mt inDependentsLine recur (p ++ '$' :: '$' :: q) U
      = .ok (p ++ '$' :: q, U) := by
  have hreach := expandLoop_reach_dollar mt inDependentsLine recur p '$' q hp U
  have hi1 : p.length + 1 < (p ++ '$' :: '$' :: q).length := by
    simp only [List.length_append, List.length_cons]; omega
  have hstep : expandStep mt inDependentsLine recur (p ++ '$' :: '$' :: q)
      { i := p.length, ret := p, appendStart := none, appendLength := p.length,
        usedMacros := U } =
      .ok { i := p.length + 1, ret := p ++ ['$'], appendStart := none,
            appendLength := p.length, usedMacros := U } := by
    simp only [expandStep, charAt_append_cons, hi1, and_self, if_true, charAt_append_cons_cons,
      hsite, show ('$' : Char) ≠ '(' by decide, if_false]
  rw [hstep] at hreach
  have hfin := expandBody_finish mt inDependentsLine recur (p ++ '$' :: '$' :: q)
    (p.length + 1 + 1) p.length (q.length + 1) (p ++ ['$']) U U (by omega)
    (by simp only [List.length_append, List.length_cons]; omega)
    (by simp only [List.length_append, List.length_cons]; omega)
    (by rw [drop_append_cons_cons]; exact hq) hreach
  rw [hfin, drop_append_cons_cons]
  simp

theorem expandDollar_makefile (str : QString) (i : Nat) (ret : QString) :
    expandDollar false str i ret = (i, ret ++ ['$']) := by
  simp only [expandDollar, Bool.false_eq_true, if_false]

/-- In a dependents line, `$$` that is followed neither by `@` nor by `(@`. -/
theorem expandDollar_other (p q ret : QString) (h1 : ¬ ['@'] <+: q) (h2 : ¬ ['(', '@'] <+: q) :
    expandDollar true (p ++ '$' :: '$' :: q) (p.length + 1) ret
      = (p.length + 1, ret ++ ['$']) := by
  have hc : ∀ k, QString.charAt (p ++ '$' :: '$' :: q) (p.length + 1 + (k + 1))
      = QString.charAt q k := by
    intro k
    have h := charAt_append_right (p ++ ['$', '$']) q k
    have e : (p ++ ['$', '$']).length + k = p.length + 1 + (k + 1) := by
      simp only [List.length_append, List.length_cons, List.length_nil]; omega
    rw [e] at h
    simpa using h
  have hc1 := hc 0
  have hc2 := hc 1
  have hlen : (p ++ '$' :: '$' :: q).length = p.length + 2 + q.length := by
    simp only [List.length_append, List.length_cons]; omega
  simp only [expandDollar, if_true]
  by_cases hpf : p.length + 1 + 1 < (p ++ '$' :: '$' :: q).length
      ∧ QString.charAt (p ++ '$' :: '$' :: q) (p.length + 1 + 1) = '('
  · simp only [hpf, and_self, decide_True, if_true]
    rw [if_neg]
    rintro ⟨hl, hat⟩
    rw [hc2] at hat
    rw [hc1] at hpf
    apply h2
    match q, hl, hat, hpf with
    | [], hl, _, _ => simp only [hlen, List.length_nil] at hl; omega
    | [_], hl, _, _ => simp only [hlen, List.length_singleton] at hl; omega
    | c :: d :: t, _, hat, hpf =>
      have e1 : c = '(' := hpf.2
      have e2 : d = '@' := hat
      rw [e1, e2]
      exact ⟨t, rfl⟩
  · simp only [hpf, decide_False, Bool.false_eq_true, if_false]
    rw [if_neg]
    rintro ⟨hl, hat⟩
    rw [hc1] at hat
    apply h1
    match q, hl, hat with
    | [], hl, _ => simp only [hlen, List.length_nil] at hl; omega
    | c :: t, _, hat =>
      have e1 : c = '@' := hat
      rw [e1]
      exact ⟨t, rfl⟩

/-- In a dependents line, `$$@`. -/
theorem expandBody_dollar_at (mt : MacroTable)
    (recur : QString → Finset QString → Expansion) (p q : QString) (U : Finset QString)
    (hp : '$' ∉ p) (hq : '$' ∉ q) :
    expandBody mt true recur (p ++ '$' :: '$' :: '@' :: q) U
      = .ok (p ++ fileNameMacroMagicEscape :: '@' :: q, U) := by
  have hreach := expandLoop_reach_dollar mt true recur p '$' ('@' :: q) hp U
  have hlen : (p ++ '$' :: '$' :: '@' :: q).length = p.length + 3 + q.length := by
    simp only [List.length_append, List.length_cons]; omega
  have hi1 : p.length + 1 < (p ++ '$' :: '$' :: '@' :: q).length := by omega
  have hc2 : QString.charAt (p ++ '$' :: '$' :: '@' :: q) (p.length + 1 + 1) = '@' := by
    have := charAt_append_right (p ++ ['$', '$']) ('@' :: q) 0
    simpa [Nat.add_assoc, QString.charAt] using this
  have hsite : expandDollar true (p ++ '$' :: '$' :: '@' :: q) (p.length + 1) p
      = (p.length + 1 + 1, p ++ [fileNameMacroMagicEscape] ++ [] ++ ['@']) := by
    have h3 : p.length + 1 + 1 < p.length + 3 + q.length := by omega
    simp [expandDollar, hc2, hlen, h3]
  have hstep : expandStep mt true recur (p ++ '$' :: '$' :: '@' :: q)
      { i := p.length, ret := p, appendStart := none, appendLength := p.length,
        usedMacros := U } =
      .ok { i := p.length + 1 + 1, ret := p ++ [fileNameMacroMagicEscape] ++ [] ++ ['@'],
            appendStart := none, appendLength := p.length, usedMacros := U } := by
    simp only [expandStep, charAt_append_cons, hi1, and_self, if_true, charAt_append_cons_cons,
      hsite, show ('$' : Char) ≠ '(' by decide, if_false]
  rw [hstep] at hreach
  have hdrop : (p ++ '$' :: '$' :: '@' :: q).drop (p.length + 1 + 1 + 1) = q := by
    have h := @List.drop_left' Char (p ++ ['$', '$', '@']) q (p.length + 1 + 1 + 1) (by simp)
    simpa using h
  have hfin := expandBody_finish mt true recur (p ++ '$' :: '$' :: '@' :: q)
    (p.length + 1 + 1 + 1) p.length (q.length + 1 + 1) (p ++ [fileNameMacroMagicEscape] ++ [] ++ ['@'])
    U U (by omega) (by omega) (by omega) (by rw [hdrop]; exact hq) hreach
  rw [hfin, hdrop]
  simp

/-- In a dependents line, `$$(@`. -/
theorem expandBody_dollar_paren_at (mt : MacroTable)
    (recur : QString → Finset QString → Expansion) (p q : QString) (U : Finset QString)
    (hp : '$' ∉ p) (hq : '$' ∉ q) :
    expandBody mt true recur (p ++ '$' :: '$' :: '(' :: '@' :: q) U
      = .ok (p ++ fileNameMacroMagicEscape :: '(' :: '@' :: q, U) := by
  have hreach := expandLoop_reach_dollar mt true recur p '$' ('(' :: '@' :: q) hp U
  have hlen : (p ++ '$' :: '$' :: '(' :: '@' :: q).length = p.length + 4 + q.length := by
    simp only [List.length_append, List.length_cons]; omega
  have hi1 : p.length + 1 < (p ++ '$' :: '$' :: '(' :: '@' :: q).length := by omega
  have hc2 : QString.charAt (p ++ '$' :: '$' :: '(' :: '@' :: q) (p.length + 1 + 1) = '(' := by
    have := charAt_append_right (p ++ ['$', '$']) ('(' :: '@' :: q) 0
    simpa [Nat.add_assoc, QString.charAt] using this
  have hc3 : QString.charAt (p ++ '$' :: '$' :: '(' :: '@' :: q) (p.length + 1 + 2) = '@' := by
    have := charAt_append_right (p ++ ['$', '$']) ('(' :: '@' :: q) 1
    simpa [Nat.add_assoc, QString.charAt] using this
  have hsite : expandDollar true (p ++ '$' :: '$' :: '(' :: '@' :: q) (p.length + 1) p
      = (p.length + 1 + 2, p ++ [fileNameMacroMagicEscape] ++ ['('] ++ ['@']) := by
    have h3 : p.length + 1 + 1 < p.length + 4 + q.length := by omega
    have h4 : p.length + 1 + 2 < p.length + 4 + q.length := by omega
    simp [expandDollar, hc2, hc3, hlen, h3, h4]
  have hstep : expandStep mt true recur (p ++ '$' :: '$' :: '(' :: '@' :: q)
      { i := p.length, ret := p, appendStart := none, appendLength := p.length,
        usedMacros := U } =
      .ok { i := p.length + 1 + 2, ret := p ++ [fileNameMacroMagicEscape] ++ ['('] ++ ['@'],
            appendStart := none, appendLength := p.length, usedMacros := U } := by
    simp only [expandStep, charAt_append_cons, hi1, and_self, if_true, charAt_append_cons_cons,
      hsite, show ('$' : Char) ≠ '(' by decide, if_false]
  rw [hstep] at hreach
  have hdrop : (p ++ '$' :: '$' :: '(' :: '@' :: q).drop (p.length + 1 + 2 + 1) = q := by
    have h := @List.drop_left' Char (p ++ ['$', '$', '(', '@']) q (p.length + 1 + 2 + 1)
      (by simp)
    simpa using h
  have hfin := expandBody_finish mt true recur (p ++ '$' :: '$' :: '(' :: '@' :: q)
    (p.length + 1 + 2 + 1) p.length (q.length + 1 + 1 + 1)
    (p ++ [fileNameMacroMagicEscape] ++ ['('] ++ ['@'])
    U U (by omega) (by omega) (by omega) (by rw [hdrop]; exact hq) hreach
  rw [hfin, hdrop]
  simp

theorem expandMacros_of_body (mt : MacroTable) (inDependentsLine : Bool) (str : QString) :
    expandMacros mt str inDependentsLine =
      match expandBody mt inDependentsLine
          (expandMacrosDepth mt inDependentsLine (definedCount mt)) str ∅ with
      | .error e => .error e
      | .ok (ret, _) => .ok ret := by
  unfold expandMacros
  simp only [expandMacrosDepth]

/-- C11: between texts `p` and `q` without `$`, `$$` is written as one `$`
when the string is not a dependents line; in a dependents line `$$@` is
written as the escape character followed by `@`, `$$(@` as the escape
character followed by `(@`, and `$$` followed by neither `@` nor `(@` is still
written as one `$`. -/
theorem expandMacros_dollar_dollar (mt : MacroTable) (p q : QString)
    (hp : '$' ∉ p) (hq : '$' ∉ q) :
    expandMacros mt (p ++ "$$".toList ++ q) false = .ok (p ++ "$".toList ++ q) ∧
    expandMacros mt (p ++ "$$@".toList ++ q) true
      = .ok (p ++ [fileNameMacroMagicEscape] ++ "@".toList ++ q) ∧
    expandMacros mt (p ++ "$$(@".toList ++ q) true
      = .ok (p ++ [fileNameMacroMagicEscape] ++ "(@".toList ++ q) ∧
    (¬ "@".toList <+: q → ¬ "(@".toList <+: q →
      expandMacros mt (p ++ "$$".toList ++ q) true = .ok (p ++ "$".toList ++ q)) := by
  have e1 : p ++ "$$".toList ++ q = p ++ '$' :: '$' :: q := by simp
  have e2 : p ++ "$$@".toList ++ q = p ++ '$' :: '$' :: '@' :: q := by simp
  have e3 : p ++ "$$(@".toList ++ q = p ++ '$' :: '$' :: '(' :: '@' :: q := by simp
  have r1 : p ++ "$".toList ++ q = p ++ '$' :: q := by simp
  have r2 : p ++ [fileNameMacroMagicEscape] ++ "@".toList ++ q
      = p ++ fileNameMacroMagicEscape :: '@' :: q := by simp
  have r3 : p ++ [fileNameMacroMagicEscape] ++ "(@".toList ++ q
      = p ++ fileNameMacroMagicEscape :: '(' :: '@' :: q := by simp
  rw [e1, e2, e3, r1, r2, r3]
  refine ⟨?_, ?_, ?_, ?_⟩
  · rw [expandMacros_of_body, expandBody_dollar_dollar mt false _ p q ∅ hp hq
      (expandDollar_makefile _ _ _)]
  · rw [expandMacros_of_body, expandBody_dollar_at mt _ p q ∅ hp hq]
  · rw [expandMacros_of_body, expandBody_dollar_paren_at mt _ p q ∅ hp hq]
  · intro h1 h2
    rw [expandMacros_of_body, expandBody_dollar_dollar mt true _ p q ∅ hp hq
      (expandDollar_other p q p h1 h2)]

/-- The witness of C11: `a$$b`, `a$$@b`, `a$$(@b` and, in a dependents line,
`a$$b` once more. -/
theorem expandMacros_dollar_dollar_witness :
    '$' ∉ "a".toList ∧ '$' ∉ "b".toList ∧
    expandMacros tableA1 ("a".toList ++ "$$".toList ++ "b".toList) false
      = .ok ("a".toList ++ "$".toList ++ "b".toList) ∧
    expandMacros tableA1 ("a".toList ++ "$$@".toList ++ "b".toList) true
      = .ok ("a".toList ++ [fileNameMacroMagicEscape] ++ "@".toList ++ "b".toList) ∧
    expandMacros tableA1 ("a".toList ++ "$$(@".toList ++ "b".toList) true
      = .ok ("a".toList ++ [fileNameMacroMagicEscape] ++ "(@".toList ++ "b".toList) ∧
    expandMacros tableA1 ("a".toList ++ "$$".toList ++ "b".toList) true
      = .ok ("a".toList ++ "$".toList ++ "b".toList) :=
  have h := expandMacros_dollar_dollar tableA1 "a".toList "b".toList (by decide) (by decide)
  ⟨by decide, by decide, h.1, h.2.1, h.2.2.1, h.2.2.2 (by decide) (by decide)⟩

/-! ## Filename macros -/

theorem isFileNameMacroChar_cases (c : Char) (h : isFileNameMacroChar c = true) :
    c = '<' ∨ c = '*' ∨ c = '@' ∨ c = '?' := by
  simp only [isFileNameMacroChar, Bool.or_eq_true, beq_iff_eq] at h
  tauto

theorem isFileNameMacroChar_not_other (c : Char) (h : isFileNameMacroChar c = true) :
    c ≠ '(' ∧ c ≠ '$' ∧ c ≠ ':' ∧ c ≠ ')' ∧ isLetterOrNumber c = false := by
  rcases isFileNameMacroChar_cases c h with h | h | h | h <;> subst h <;> decide

/-- The loop body at a `$(` site is the branch `expandInvocation`. -/
theorem expandStep_invocation (mt : MacroTable) (inDependentsLine : Bool)
    (recur : QString → Finset QString → Expansion) (p tail : QString) (U : Finset QString) :
    expandStep mt inDependentsLine recur (p ++ '$' :: '(' :: tail)
      { i := p.length, ret := p, appendStart := none, appendLength := p.length,
        usedMacros := U } =
      match expandInvocation mt recur (p ++ '$' :: '(' :: tail) (p.length + 1) p U with
      | .error e => .error e
      | .ok (i, ret, usedMacros) =>
        .ok { i := i, ret := ret, appendStart := none, appendLength := p.length,
              usedMacros := usedMacros } := by
  have hi1 : p.length + 1 < (p ++ '$' :: '(' :: tail).length := by
    simp only [List.length_append, List.length_cons]; omega
  simp only [expandStep, charAt_append_cons, hi1, and_self, if_true, charAt_append_cons_cons]

/-- The site `$c` of a one-character filename macro between plain texts. -/
theorem expandBody_filename_char (mt : MacroTable) (inDependentsLine : Bool)
    (recur : QString → Finset QString → Expansion) (p q : QString) (c : Char)
    (U : Finset QString) (hp : '$' ∉ p) (hq : '$' ∉ q) (hc : isFileNameMacroChar c = true) :
    expandBody mt inDependentsLine recur (p ++ '$' :: c :: q) U
      = .ok (p ++ fileNameMacroMagicEscape :: c :: q, U) := by
  obtain ⟨h1, h2, _, _, h5⟩ := isFileNameMacroChar_not_other c hc
  have hreach := expandLoop_reach_dollar mt inDependentsLine recur p c q hp U
  have hi1 : p.length + 1 < (p ++ '$' :: c :: q).length := by
    simp only [List.length_append, List.length_cons]; omega
  have hstep : expandStep mt inDependentsLine recur (p ++ '$' :: c :: q)
      { i := p.length, ret := p, appendStart := none, appendLength := p.length,
        usedMacros := U } =
      .ok { i := p.length + 1, ret := p ++ [fileNameMacroMagicEscape] ++ [c],
            appendStart := none, appendLength := p.length, usedMacros := U } := by
    simp only [expandStep, charAt_append_cons, hi1, and_self, if_true, charAt_append_cons_cons,
      h1, h2, h5, hc, if_false, Bool.false_eq_true]
  rw [hstep] at hreach
  have hfin := expandBody_finish mt inDependentsLine recur (p ++ '$' :: c :: q)
    (p.length + 1 + 1) p.length (q.length + 1) (p ++ [fileNameMacroMagicEscape] ++ [c]) U U
    (by omega)
    (by simp only [List.length_append, List.length_cons]; omega)
    (by simp only [List.length_append, List.length_cons]; omega)
    (by rw [drop_append_cons_cons]; exact hq) hreach
  rw [hfin, drop_append_cons_cons]
  simp

/-- The scan of an invocation up to its closing parenthesis. -/
theorem scanInvocation_closed (t rest : QString) (h : ')' ∉ t) :
    ∀ (k : Nat) (ne : Option Nat),
      ∃ ne1, scanInvocation (t ++ ')' :: rest) k ne = (ne1, k + t.length, true) := by
  induction t with
  | nil => intro k ne; exact ⟨ne, by simp [scanInvocation]⟩
  | cons c t ih =>
    intro k ne
    have hc2 : c ≠ ')' := fun h1 => h (h1 ▸ List.mem_cons_self _ _)
    have ht : ')' ∉ t := fun h1 => h (List.mem_cons_of_mem _ h1)
    by_cases hc1 : c = ':'
    · obtain ⟨ne1, h1⟩ := ih ht (k + 1) (if ne.isNone = true then some k else ne)
      refine ⟨ne1, ?_⟩
      simp only [List.cons_append, scanInvocation, hc1, if_true, List.length_cons,
        List.append_eq, h1, Prod.mk.injEq, true_and, and_true]
      omega
    · obtain ⟨ne1, h1⟩ := ih ht (k + 1) ne
      refine ⟨ne1, ?_⟩
      simp only [List.cons_append, scanInvocation, hc1, hc2, if_false, List.length_cons,
        List.append_eq, h1, Prod.mk.injEq, true_and, and_true]
      omega

/-- The branch `$(` on a filename macro `$(c t)`: nothing is looked up; the
escape character and the text from the parenthesis on are written. -/
theorem expandInvocation_filename (mt : MacroTable)
    (recur : QString → Finset QString → Expansion) (p t q : QString) (c : Char)
    (ret : QString) (U : Finset QString) (hc : isFileNameMacroChar c = true) (ht : ')' ∉ t) :
    expandInvocation mt recur (p ++ '$' :: '(' :: c :: (t ++ ')' :: q)) (p.length + 1) ret U
      = .ok (p.length + 3 + t.length,
          ret ++ fileNameMacroMagicEscape :: '(' :: c :: (t ++ [')']), U) := by
  obtain ⟨_, _, h3, h4, _⟩ := isFileNameMacroChar_not_other c hc
  have hdrop : (p ++ '$' :: '(' :: c :: (t ++ ')' :: q)).drop (p.length + 1 + 1)
      = c :: (t ++ ')' :: q) := drop_append_cons_cons p '$' '(' _
  obtain ⟨ne1, hscan⟩ := scanInvocation_closed t q ht (p.length + 1 + 1 + 1) none
  have hne := scanInvocation_nameEnd _ _ _ _ _ _ hscan
  have hscan1 : scanInvocation (c :: (t ++ ')' :: q)) (p.length + 1 + 1) none
      = (ne1, p.length + 1 + 1 + 1 + t.length, true) := by
    simp only [scanInvocation, h3, h4, if_false, hscan]
  unfold expandInvocation
  rw [hdrop, hscan1]
  have hge : p.length + 1 + 1 + 1 ≤ ne1.getD (p.length + 1 + 1 + 1 + t.length) := by
    cases hn : ne1 with
    | none => simp only [Option.getD_none]; omega
    | some x =>
      rcases hne x hn with h | h
      · cases h
      · simp only [Option.getD_some]; omega
  obtain ⟨n, hn⟩ : ∃ n, ne1.getD (p.length + 1 + 1 + 1 + t.length) - (p.length + 1) - 1 = n + 1 :=
    ⟨ne1.getD (p.length + 1 + 1 + 1 + t.length) - (p.length + 1) - 1 - 1, by omega⟩
  have hname : QString.mid (p ++ '$' :: '(' :: c :: (t ++ ')' :: q)) (p.length + 1 + 1) (n + 1)
      = c :: (t ++ ')' :: q).take n := by
    unfold QString.mid
    rw [hdrop]
    rfl
  have hall : QString.mid (p ++ '$' :: '(' :: c :: (t ++ ')' :: q)) (p.length + 1 + 1)
      (p.length + 1 + 1 + 1 + t.length - (p.length + 1)) = c :: (t ++ [')']) := by
    unfold QString.mid
    rw [hdrop, show p.length + 1 + 1 + 1 + t.length - (p.length + 1) = (t.length + 1) + 1 by omega]
    simp only [List.take_succ_cons, List.cons.injEq, true_and]
    rw [show t ++ ')' :: q = (t ++ [')']) ++ q by simp]
    exact List.take_left' (by simp)
  simp only [hn, hname, hall, reduceCtorEq, if_false, QString.charAt, List.getD_cons_zero, hc,
    if_true, Except.ok.injEq, Prod.mk.injEq, and_true]
  simp

/-- The site `$(c t)` of a filename macro between plain texts. -/
theorem expandBody_filename_paren (mt : MacroTable) (inDependentsLine : Bool)
    (recur : QString → Finset QString → Expansion) (p t q : QString) (c : Char)
    (U : Finset QString) (hp : '$' ∉ p) (hq : '$' ∉ q) (hc : isFileNameMacroChar c = true)
    (ht : ')' ∉ t) :
    expandBody mt inDependentsLine recur (p ++ '$' :: '(' :: c :: (t ++ ')' :: q)) U
      = .ok (p ++ fileNameMacroMagicEscape :: '(' :: c :: (t ++ ')' :: q), U) := by
  have hreach := expandLoop_reach_dollar mt inDependentsLine recur p '(' (c :: (t ++ ')' :: q))
    hp U
  rw [expandStep_invocation, expandInvocation_filename mt recur p t q c p U hc ht] at hreach
  simp only at hreach
  have hlen : (p ++ '$' :: '(' :: c :: (t ++ ')' :: q)).length
      = p.length + 3 + t.length + 1 + q.length := by
    simp only [List.length_append, List.length_cons]; omega
  have hdrop : (p ++ '$' :: '(' :: c :: (t ++ ')' :: q)).drop (p.length + 3 + t.length + 1)
      = q := by
    have h := @List.drop_left' Char (p ++ '$' :: '(' :: c :: (t ++ [')'])) q
      (p.length + 3 + t.length + 1)
      (by simp only [List.length_append, List.length_cons, List.length_nil]; omega)
    simpa using h
  have hfin := expandBody_finish mt inDependentsLine recur
    (p ++ '$' :: '(' :: c :: (t ++ ')' :: q)) (p.length + 3 + t.length + 1) p.length
    ((c :: (t ++ ')' :: q)).length + 1)
    (p ++ fileNameMacroMagicEscape :: '(' :: c :: (t ++ [')'])) U U
    (by omega) (by omega)
    (by simp only [hlen, List.length_append, List.length_cons]; omega)
    (by rw [hdrop]; exact hq) hreach
  rw [hfin, hdrop]
  simp

theorem fileNameMacroMagicEscape_ne_dollar : fileNameMacroMagicEscape ≠ '$' := by decide

/-- C12: for a filename character `c` (one of `<`, `*`, `@`, `?`) between
texts `p` and `q` without `$`, `$c` is written as the escape character
followed by `c`, and `$(c t)`, where `t` has no `)`, as the escape character
followed by `(c t)`: the macro table is not consulted.  The `$` is dropped, so
the results (the second one when `t` has no `$`) are left as they are by a
second expansion. -/
theorem expandMacros_filename (mt : MacroTable) (inDependentsLine : Bool) (p q t : QString)
    (c : Char) (hc : c = '<' ∨ c = '*' ∨ c = '@' ∨ c = '?')
    (hp : '$' ∉ p) (hq : '$' ∉ q) (ht : ')' ∉ t) :
    expandMacros mt (p ++ "$".toList ++ [c] ++ q) inDependentsLine
      = .ok (p ++ [fileNameMacroMagicEscape] ++ [c] ++ q) ∧
    expandMacros mt (p ++ "$(".toList ++ [c] ++ t ++ ")".toList ++ q) inDependentsLine
      = .ok (p ++ [fileNameMacroMagicEscape] ++ "(".toList ++ [c] ++ t ++ ")".toList ++ q) ∧
    (∀ again : Bool,
      expandMacros mt (p ++ [fileNameMacroMagicEscape] ++ [c] ++ q) again
        = .ok (p ++ [fileNameMacroMagicEscape] ++ [c] ++ q)) ∧
    ('$' ∉ t → ∀ again : Bool,
      expandMacros mt
          (p ++ [fileNameMacroMagicEscape] ++ "(".toList ++ [c] ++ t ++ ")".toList ++ q) again
        = .ok (p ++ [fileNameMacroMagicEscape] ++ "(".toList ++ [c] ++ t ++ ")".toList ++ q)) := by
  have hfc : isFileNameMacroChar c = true := by
    rcases hc with h | h | h | h <;> subst h <;> decide
  have hcd : c ≠ '$' := (isFileNameMacroChar_not_other c hfc).2.1
  have e1 : p ++ "$".toList ++ [c] ++ q = p ++ '$' :: c :: q := by simp
  have e2 : p ++ "$(".toList ++ [c] ++ t ++ ")".toList ++ q
      = p ++ '$' :: '(' :: c :: (t ++ ')' :: q) := by simp
  refine ⟨?_, ?_, ?_, ?_⟩
  · rw [e1, expandMacros_of_body, expandBody_filename_char mt _ _ p q c ∅ hp hq hfc]
    simp
  · rw [e2, expandMacros_of_body, expandBody_filename_paren mt _ _ p t q c ∅ hp hq hfc ht]
    simp
  · intro again
    apply expandMacros_plain
    intro hm
    simp only [List.mem_append, List.mem_singleton] at hm
    rcases hm with ((hm | hm) | hm) | hm
    · exact hp hm
    · exact fileNameMacroMagicEscape_ne_dollar hm.symm
    · exact hcd hm.symm
    · exact hq hm
  · intro htd again
    apply expandMacros_plain
    intro hm
    simp only [List.mem_append, List.mem_singleton, String.toList, List.mem_cons,
      List.not_mem_nil, or_false] at hm
    rcases hm with (((((hm | hm) | hm) | hm) | hm) | hm) | hm
    · exact hp hm
    · exact fileNameMacroMagicEscape_ne_dollar hm.symm
    · exact absurd hm (by decide)
    · exact hcd hm.symm
    · exact htd hm
    · exact absurd hm (by decide)
    · exact hq hm

/-- The witness of C12: `a$@b` and `a$(@D)b`. -/
theorem expandMacros_filename_witness :
    '$' ∉ "a".toList ∧ '$' ∉ "b".toList ∧ ')' ∉ "D".toList ∧
    expandMacros tableA1 ("a".toList ++ "$".toList ++ ['@'] ++ "b".toList) false
      = .ok ("a".toList ++ [fileNameMacroMagicEscape] ++ ['@'] ++ "b".toList) ∧
    expandMacros tableA1
        ("a".toList ++ "$(".toList ++ ['@'] ++ "D".toList ++ ")".toList ++ "b".toList) false
      = .ok ("a".toList ++ [fileNameMacroMagicEscape] ++ "(".toList ++ ['@'] ++ "D".toList
          ++ ")".toList ++ "b".toList) :=
  have h := expandMacros_filename tableA1 false "a".toList "b".toList "D".toList '@'
    (by decide) (by decide) (by decide) (by decide)
  ⟨by decide, by decide, by decide, h.1, h.2.1⟩

/-! ## Malformed `$` sites -/

/-- C13: a `^` in the before part of a substitution statement makes
`parseSubstitutionStatement` remove a character of the after part that is not
a `^`: in `$(X:^a=bcd)` the after part comes out as `cd`.  In
`$(X:a=b^)c)`, where the only `^` stands behind the `=`, the statement ends at
the second `)` and the after part is `b)c`. -/
theorem parseSubstitutionStatement_quote_before :
    parseSubstitutionStatement "$(X:^a=bcd)".toList 4
      = .ok ({ before := "^a".toList, after := "cd".toList }, 10) ∧
    parseSubstitutionStatement "$(X:a=b^)c)".toList 4
      = .ok ({ before := "a".toList, after := "b)c".toList }, 10) := by
  constructor <;> decide

/-- The branch `$(` on an invocation `$(NAME:tail)` where `tail` has no `)`:
the value is expanded and the substitution that `parseSubstitutionStatement`
reads is applied. -/
theorem expandInvocation_statement (mt : MacroTable)
    (recur : QString → Finset QString → Expansion)
    (a name tail post : QString) (hname : IsInvocableName name) (h3 : ')' ∉ tail)
    (i : Nat) (hi : i + 1 = a.length) (ret : QString) (U : Finset QString) :
    expandInvocation mt recur (a ++ (name ++ ':' :: (tail ++ ')' :: post))) i ret U =
      match cycleCheckedMacroValue mt name U with
      | .error e => .error e
      | .ok (rawValue, used1) =>
        match recur rawValue used1 with
        | .error e => .error e
        | .ok (macroValue, used2) =>
          match parseSubstitutionStatement (a ++ (name ++ ':' :: (tail ++ ')' :: post)))
              (a.length + name.length + 1) with
          | .error e => .error e
          | .ok (s, newEnd) =>
            .ok (newEnd, ret ++ applySubstitution s macroValue, used2.erase name) := by
  obtain ⟨hne, h1, h2, hf⟩ := hname
  unfold expandInvocation
  have hscan := scanInvocation_subst name tail post h1 h2 h3 a.length
  rw [hi, List.drop_left' rfl, hscan]
  have hmid : QString.mid (a ++ (name ++ ':' :: (tail ++ ')' :: post)))
      a.length (a.length + name.length - i - 1) = name := by
    have hlen : a.length + name.length - i - 1 = name.length := by omega
    rw [hlen]
    have := mid_append a name (':' :: (tail ++ ')' :: post))
    rwa [List.append_assoc] at this
  have hneq : a.length + name.length ≠ a.length + name.length + 1 + tail.length := by omega
  simp only [Option.getD_some, hmid, hne, if_false, hf, Bool.false_eq_true, ne_eq, hneq,
    not_false_eq_true, if_true]

/-- The statement `^==r)`: the separator is the second `=`, the before part
is `^=`, and the quote position, which lies before the separator, is
subtracted from it. -/
theorem parseSubstitutionStatement_caret_equals (a r rest : QString)
    (hr : ∀ c ∈ r, c ≠ '=' ∧ c ≠ ')' ∧ c ≠ '^') :
    parseSubstitutionStatement (a ++ ('^' :: '=' :: '=' :: (r ++ ')' :: rest))) a.length
      = .ok ({ before := ['^', '='], after := QString.remove r (-3) 1 },
          a.length + 3 + r.length) := by
  unfold parseSubstitutionStatement
  rw [List.drop_left' rfl]
  have hscan : parseSubstitutionScan ('^' :: '=' :: '=' :: (r ++ ')' :: rest)) a.length none
      false [] = (some (a.length + 2), some (a.length + 3 + r.length), [a.length]) := by
    simp only [parseSubstitutionScan, show ('^' : Char) ≠ '=' by decide,
      show ('^' : Char) ≠ ')' by decide, if_false, if_true, false_and, List.nil_append]
    rw [parseSubstitutionScan_skip r _ (fun h => (hr _ h).1 rfl) (fun h => (hr _ h).2.1 rfl)
      (fun h => (hr _ h).2.2 rfl)]
    simp only [parseSubstitutionScan, show (')' : Char) ≠ '=' by decide, if_false, and_self,
      if_true, Prod.mk.injEq, Option.some.injEq, true_and, and_true]
  rw [hscan]
  have h1 : QString.mid (a ++ ('^' :: '=' :: '=' :: (r ++ ')' :: rest))) a.length
      (a.length + 2 - a.length) = ['^', '='] := by
    rw [Nat.add_sub_cancel_left]
    have := mid_append a ['^', '='] ('=' :: (r ++ ')' :: rest))
    simpa using this
  have h2 : QString.mid (a ++ ('^' :: '=' :: '=' :: (r ++ ')' :: rest))) (a.length + 2 + 1)
      (a.length + 3 + r.length - (a.length + 2) - 1) = r := by
    have hlen : a.length + 3 + r.length - (a.length + 2) - 1 = r.length := by omega
    rw [hlen]
    have := mid_append (a ++ ['^', '=', '=']) r (')' :: rest)
    simpa using this
  have h3 : ((a.length : Nat) : Int) - ((a.length + 2 : Nat) : Int) - 1 = -3 := by
    push_cast
    omega
  simp only [h1, h2, List.foldr_cons, List.foldr_nil, h3]

theorem remove_short (r : QString) (h : r.length ≤ 2) : QString.remove r (-3) 1 = r := by
  unfold QString.remove
  have h1 : ((-3 : Int) + (r.length : Int)) < 0 := by omega
  simp only [show ((-3 : Int) < 0) by decide, if_true, h1, true_or]

theorem expandBody_caret_equals (mt : MacroTable) (inDependentsLine : Bool)
    (recur : QString → Finset QString → Expansion) (X r e : QString)
    (hX : IsInvocableName X) (hr : ∀ c ∈ r, c ≠ '=' ∧ c ≠ ')' ∧ c ≠ '^')
    (hrec : recur (macroValue mt X) {X} = .ok (e, {X})) :
    expandBody mt inDependentsLine recur
        ('$' :: '(' :: (X ++ ':' :: ('^' :: '=' :: '=' :: (r ++ ')' :: [])))) ∅
      = .ok (QString.replace e ['^', '='] (QString.remove r (-3) 1), ∅) := by
  have hreach := expandLoop_reach_invocation mt inDependentsLine recur []
    (X ++ ':' :: ('^' :: '=' :: '=' :: (r ++ ')' :: []))) (List.not_mem_nil _) ∅
  have h3 : ')' ∉ '^' :: '=' :: '=' :: r := by
    intro hm
    simp only [List.mem_cons] at hm
    rcases hm with hm | hm | hm | hm
    · exact absurd hm (by decide)
    · exact absurd hm (by decide)
    · exact absurd hm (by decide)
    · exact (hr _ hm).2.1 rfl
  have hinv := expandInvocation_statement mt recur ['$', '('] X ('^' :: '=' :: '=' :: r) [] hX h3
    1 rfl [] ∅
  have hparse := parseSubstitutionStatement_caret_equals ('$' :: '(' :: (X ++ [':'])) r [] hr
  simp only [List.nil_append, List.length_nil, Nat.zero_add] at hreach
  simp only [List.cons_append, List.nil_append, List.append_assoc, List.length_cons,
    List.length_append, List.length_nil, List.singleton_append] at hinv hparse
  unfold expandBody
  rw [hreach, hinv]
  have hidx : X.length + 0 + 1 + 1 + 1 = 0 + 1 + 1 + X.length + 1 := by omega
  rw [hidx] at hparse
  simp only [cycleCheckedMacroValue, Finset.not_mem_empty, if_false, insert_emptyc_eq, hrec,
    Finset.erase_singleton, hparse, applySubstitution]
  rw [expandLoop_done]
  simp only [List.length_cons, List.length_append, List.length_nil, not_lt]
  omega

/-- C14, as the code has it: an `=` is a separator whether or not a `^` stands
before it, and the last `=` before the closing parenthesis separates the
before part from the after part.  For a macro `X` whose value `v` has no `$`,
and a replacement `r` of at most two characters without `=`, `^` and `)`,
`$(X:^==r)` expands to `v` with every occurrence of the two characters `^=`
replaced by `r`; an `=` of `v` that has no `^` before it stays. -/
theorem expandMacros_caret_equals (mt : MacroTable) (inDependentsLine : Bool)
    (X r : QString) (hX : isMacroNameValid X = true) (hv : '$' ∉ macroValue mt X)
    (hr : ∀ c ∈ r, c ≠ '=' ∧ c ≠ '^' ∧ c ≠ ')') (hlen : r.length ≤ 2) :
    expandMacros mt ("$(".toList ++ X ++ ":^==".toList ++ r ++ ")".toList) inDependentsLine
      = .ok (QString.replaceSkip "^=".toList r 0 (macroValue mt X)) := by
  have hval := expandMacros_plain mt inDependentsLine (macroValue mt X) hv
  have hrec := expandMacrosDepth_value mt inDependentsLine X (macroValue mt X) hval
  have hbody := expandBody_caret_equals mt inDependentsLine
    (expandMacrosDepth mt inDependentsLine (definedCount mt)) X r (macroValue mt X)
    (isInvocableName_of_valid X hX)
    (fun c hc => ⟨(hr c hc).1, (hr c hc).2.2, (hr c hc).2.1⟩) hrec
  have hstr : "$(".toList ++ X ++ ":^==".toList ++ r ++ ")".toList
      = '$' :: '(' :: (X ++ ':' :: ('^' :: '=' :: '=' :: (r ++ ')' :: []))) := by
    simp
  rw [hstr, expandMacros_of_body, hbody, remove_short r hlen]
  simp only [QString.replace, reduceCtorEq, if_false]
  rfl

/-- The witness of C14: with `X = a^=b`, `$(X:^==-)` expands to `a-b`. -/
theorem expandMacros_caret_equals_witness :
    isMacroNameValid "X".toList = true ∧ '$' ∉ macroValue tableCaretEquals "X".toList ∧
    expandMacros tableCaretEquals "$(X:^==-)".toList false = .ok "a-b".toList :=
  ⟨by decide, by decide,
    (expandMacros_caret_equals tableCaretEquals false "X".toList "-".toList (by decide)
      (by decide) (by decide) (by decide)).trans (by decide)⟩

/-- The counterexample of C14: with `X = a=b`, `$(X:^==-)` expands to `a=b`,
not to `a-b`; the `=` of the value is not replaced. -/
theorem expandMacros_caret_equals_literal :
    expandMacros tableEquals "$(X:^==-)".toList false = .ok "a=b".toList := by
  decide!

/-! ## Commands -/

theorem indexOfChar_append (ds rest : QString) (c : Char) (h : c ∉ ds) :
    QString.indexOfChar (ds ++ c :: rest) c = some ds.length := by
  induction ds with
  | nil => simp [QString.indexOfChar]
  | cons d t ih =>
    have hd : d ≠ c := fun h1 => h (h1 ▸ List.mem_cons_self _ _)
    simp only [List.cons_append, QString.indexOfChar, hd, if_false, List.append_eq,
      ih (fun h1 => h (List.mem_cons_of_mem _ h1)), Option.map_some', List.length_cons]

/-- A command line `-` number, space, rest: the number is read from the text
up to the space, and the text stays on the command line. -/
theorem parseCommandPrefix_number (cmd : Command) (ds rest : QString) (v : Int)
    (hds : ' ' ∉ ds) (hv : QString.toInt (ds ++ [' ']) = some v) :
    Parser.parseCommandPrefix { cmd with m_commandLine := '-' :: (ds ++ ' ' :: rest) }
      = { cmd with m_commandLine := ds ++ ' ' :: rest, m_maxExitCode := (v % 256).toNat } := by
  have hleft : QString.left (ds ++ ' ' :: rest) (ds.length + 1) = ds ++ [' '] := by
    unfold QString.left
    have h := @List.take_left' Char (ds ++ [' ']) rest (ds.length + 1) (by simp)
    simp only [List.append_assoc, List.singleton_append] at h
    exact h
  simp only [Parser.parseCommandPrefix, QString.startsWithChar, beq_self_eq_true, if_true,
    QString.right, List.length_cons, Nat.add_sub_cancel, show ∀ n : Nat, n + 1 - n = 1 from
      fun n => by omega, List.drop_one, List.tail_cons, indexOfChar_append ds rest ' ' hds,
    hleft, hv]

theorem toInt_repr : ∀ N : Fin 256,
    ' ' ∉ (Nat.repr N.val).toList ∧
      QString.toInt ((Nat.repr N.val).toList ++ [' ']) = some (N.val : Int) := by
  decide!

/-- C19: of the prefix `-number` of a command only the `-` is taken off the
command line; the number stays in front of the command.  For every number `N`
from 0 to 255, written in decimal and followed by a space, the largest exit
code of the command is `N`.  The line `-3 rm -f x` gives the largest exit code
3 and the command line `3 rm -f x`.  When a tab stands behind the number and a
space further on, the number is not read (`-3<tab>rm -f x` gives 255), and so
it is with no number (`-rm -f x`). -/
theorem parseCommand_exit_code :
    (∀ (cmd : Command) (text : QString),
      (Parser.parseCommandPrefix { cmd with m_commandLine := '-' :: text }).m_commandLine
        = text) ∧
    (∀ (cmd : Command) (N : Fin 256) (rest : QString),
      (Parser.parseCommandPrefix
        { cmd with m_commandLine := '-' :: ((Nat.repr N.val).toList ++ ' ' :: rest) }).m_maxExitCode
        = N.val) ∧
    Parser.parseCommand (parserAt "\t-3 rm -f x".toList []) [] false
      = (parserAt "\t-3 rm -f x".toList [],
          .ok (true, [{ m_commandLine := "3 rm -f x".toList, m_maxExitCode := 3 }])) ∧
    Parser.parseCommand (parserAt "\t-3\trm -f x".toList []) [] false
      = (parserAt "\t-3\trm -f x".toList [],
          .ok (true, [{ m_commandLine := "3\trm -f x".toList, m_maxExitCode := 255 }])) ∧
    Parser.parseCommand (parserAt "\t-rm -f x".toList []) [] false
      = (parserAt "\t-rm -f x".toList [],
          .ok (true, [{ m_commandLine := "rm -f x".toList, m_maxExitCode := 255 }])) := by
  refine ⟨?_, ?_, ?_, ?_, ?_⟩
  · intro cmd text
    simp [Parser.parseCommandPrefix, QString.startsWithChar, QString.right]
  · intro cmd N rest
    rw [parseCommandPrefix_number cmd _ rest _ (toInt_repr N).1 (toInt_repr N).2]
    simp only
    omega
  · decide!
  · decide!
  · decide!

/-! ## Inline files -/

theorem indexOfFrom_marker (pre tail : QString) (h : '<' ∉ pre) :
    ∀ k, QString.indexOfFrom "<<".toList (pre ++ '<' :: '<' :: tail) k = some (k + pre.length) := by
  induction pre with
  | nil =>
    intro k
    simp [QString.indexOfFrom, List.isPrefixOf]
  | cons c t ih =>
    intro k
    have hc : c ≠ '<' := fun h1 => h (h1 ▸ List.mem_cons_self _ _)
    have hpre : List.isPrefixOf "<<".toList (c :: (t ++ '<' :: '<' :: tail)) = false := by
      simp [List.isPrefixOf, Ne.symm hc]
    simp only [List.cons_append, QString.indexOfFrom, hpre, Bool.false_eq_true, if_false,
      List.append_eq]
    rw [ih (fun h1 => h (List.mem_cons_of_mem _ h1))]
    simp only [List.length_cons, Option.some.injEq]
    omega

/-- The tag of an inline file: the characters behind `<<` and the white space
that follows it, up to the next white space. -/
theorem inlineMarkerOption_tag (pre ws tag post : QString) (hpre : '<' ∉ pre)
    (hws : ∀ c ∈ ws, isSpace c = true) (htag : ∀ c ∈ tag, isSpace c = false)
    (hpost : ∀ c t, post = c :: t → isSpace c = true ∧ tag ≠ []) :
    inlineMarkerOption (pre ++ "<<".toList ++ ws ++ tag ++ post) = some tag := by
  have hstr : pre ++ "<<".toList ++ ws ++ tag ++ post
      = pre ++ '<' :: '<' :: (ws ++ tag ++ post) := by simp
  have hidx : QString.indexOf (pre ++ '<' :: '<' :: (ws ++ tag ++ post)) "<<".toList 0
      = some pre.length := by
    unfold QString.indexOf
    rw [if_pos (Nat.zero_le _), List.drop_zero, indexOfFrom_marker pre _ hpre 0]
    simp
  have hdrop : (pre ++ '<' :: '<' :: (ws ++ tag ++ post)).drop (pre.length + 2)
      = ws ++ tag ++ post := drop_append_cons_cons pre '<' '<' _
  have hdw : ∀ (w : QString), (∀ c ∈ w, isSpace c = true) →
      (w ++ tag ++ post).dropWhile isSpace = (tag ++ post).dropWhile isSpace := by
    intro w hw
    induction w with
    | nil => rfl
    | cons c t ih =>
      simp only [List.cons_append, List.dropWhile, hw c (List.mem_cons_self _ _)]
      exact ih (fun d hd => hw d (List.mem_cons_of_mem _ hd))
  have htw : ∀ (u : QString), (∀ c ∈ u, isSpace c = false) →
      (∀ c t, post = c :: t → isSpace c = true) →
      (u ++ post).takeWhile (fun c => !isSpace c) = u := by
    intro u hu hp
    induction u with
    | nil =>
      cases hpo : post with
      | nil => rfl
      | cons c t => simp [List.takeWhile, hp c t hpo]
    | cons c t ih =>
      simp only [List.cons_append, List.takeWhile, hu c (List.mem_cons_self _ _), Bool.not_false,
        List.append_eq]
      rw [ih (fun d hd => hu d (List.mem_cons_of_mem _ hd))]
  rw [hstr]
  unfold inlineMarkerOption
  rw [hidx]
  simp only [hdrop, hdw ws hws, Option.some.injEq]
  cases htg : tag with
  | nil =>
    cases hpo : post with
    | nil => rfl
    | cons c t => exact absurd htg (hpost c t hpo).2
  | cons c t =>
    have hc : isSpace c = false := htag c (htg ▸ List.mem_cons_self _ _)
    rw [← htg]
    have hdw2 : (tag ++ post).dropWhile isSpace = tag ++ post := by
      rw [htg]
      simp only [List.cons_append, List.dropWhile, hc, List.append_eq]
    rw [hdw2]
    exact htw tag htag (fun c t h => (hpost c t h).1)

theorem Parser.readLine_standAt (p : Parser) (e e1 : QString × MacroTable)
    (rest : List (QString × MacroTable)) :
    (Parser.standAt p e (e1 :: rest)).readLine = Parser.standAt p e1 rest := rfl

/-- The loop of `parseInlineFile` over the body lines and the terminator. -/
theorem parseInlineFileLoop_body (p : Parser) (term : QString) (tT : MacroTable)
    (rest : List (QString × MacroTable)) (hterm : QString.startsWith term "<<".toList = true) :
    ∀ (bodies : List (QString × MacroTable)) (texts : List QString),
      List.Forall₂ (fun (b : QString × MacroTable) (e : QString) =>
        QString.startsWith b.1 "<<".toList = false ∧
          expandMacros b.2 (QString.trimmed b.1) false = .ok e) bodies texts →
      ∀ (e : QString × MacroTable) (more : List (QString × MacroTable)),
        bodies ++ [(term, tT)] = e :: more →
      ∀ (fuel : Nat) (inlineFile : InlineFile), bodies.length + 1 ≤ fuel →
      Parser.parseInlineFileLoop fuel (Parser.standAt p e (more ++ rest)) inlineFile
        = (Parser.standAt p (term, tT) rest, .ok
            { inlineFile with
              m_content := inlineFile.m_content ++ (texts.map (· ++ "\n".toList)).flatten
              m_keep := inlineFile.m_keep
                || decide ("KEEP".toList ∈ QString.splitSpace (term.drop 2))
              m_unicode := inlineFile.m_unicode
                || decide ("UNICODE".toList ∈ QString.splitSpace (term.drop 2)) }) := by
  intro bodies texts h
  induction h with
  | nil =>
    intro e more he fuel inlineFile hfuel
    simp only [List.nil_append, List.cons.injEq] at he
    obtain ⟨he1, he2⟩ := he
    subst he1 he2
    obtain ⟨f, rfl⟩ : ∃ f, fuel = f + 1 := ⟨fuel - 1, by simp at hfuel; omega⟩
    have hlen : 2 ≤ term.length := by
      have := List.IsPrefix.length_le (List.isPrefixOf_iff_prefix.mp hterm)
      simpa using this
    have hright : QString.right term (term.length - 2) = term.drop 2 := by
      unfold QString.right
      congr 1
      omega
    simp only [Parser.parseInlineFileLoop, Parser.standAt, hterm, if_true, hright,
      List.map_nil, List.flatten_nil, List.append_nil, List.nil_append, Prod.mk.injEq, true_and,
      Except.ok.injEq]
    cases inlineFile
    by_cases hk : "KEEP".toList ∈ QString.splitSpace (term.drop 2) <;>
      by_cases hu : "UNICODE".toList ∈ QString.splitSpace (term.drop 2) <;>
      simp only [hk, hu, if_true, if_false, decide_True, decide_False, Bool.or_true,
        Bool.or_false]
  | @cons b text bodies texts hb _ ih =>
    intro e more he fuel inlineFile hfuel
    simp only [List.cons_append, List.cons.injEq] at he
    obtain ⟨he1, he2⟩ := he
    subst he1
    obtain ⟨f, rfl⟩ : ∃ f, fuel = f + 1 := ⟨fuel - 1, by simp at hfuel; omega⟩
    obtain ⟨hstart, hexp⟩ := hb
    have hmt : (Parser.standAt p b (more ++ rest)).macroTable = b.2 := rfl
    have hline : (Parser.standAt p b (more ++ rest)).m_line = some b.1 := rfl
    unfold Parser.parseInlineFileLoop
    simp only [hline, hstart, Bool.false_eq_true, if_false, hmt, hexp]
    cases hm : bodies ++ [(term, tT)] with
    | nil => simp at hm
    | cons e1 more1 =>
      rw [hm] at he2
      subst he2
      rw [List.cons_append, Parser.readLine_standAt,
        ih e1 more1 hm f _ (by simp only [List.length_cons] at hfuel; omega)]
      simp only [List.map_cons, List.flatten_cons, List.append_assoc]

/-- The function `parseInlineFile` on a command line with `<<`, white space
and a tag, body lines and a last line that starts with `<<`. -/
theorem Parser.parseInlineFile_body (p : Parser) (cmd : Command) (pre ws tag post : QString)
    (bodies : List (QString × MacroTable)) (texts : List QString)
    (term : QString) (tT : MacroTable) (rest : List (QString × MacroTable))
    (hline : p.m_line = some (pre ++ "<<".toList ++ ws ++ tag ++ post))
    (hpre : '<' ∉ pre) (hws : ∀ c ∈ ws, isSpace c = true)
    (htag : ∀ c ∈ tag, isSpace c = false)
    (hpost : ∀ c t, post = c :: t → isSpace c = true ∧ tag ≠ [])
    (hlines : p.m_preprocessor.m_lines = bodies ++ (term, tT) :: rest)
    (hbodies : List.Forall₂ (fun (b : QString × MacroTable) (e : QString) =>
        QString.startsWith b.1 "<<".toList = false ∧
          expandMacros b.2 (QString.trimmed b.1) false = .ok e) bodies texts)
    (hterm : QString.startsWith term "<<".toList = true) :
    Parser.parseInlineFile p cmd
      = ({ p with m_line := some term, m_preprocessor := { m_lines := rest, m_macroTable := tT } },
          .ok { cmd with m_inlineFile := some (InlineFile.mk
            (decide ("KEEP".toList ∈ QString.splitSpace (term.drop 2)))
            (decide ("UNICODE".toList ∈ QString.splitSpace (term.drop 2)))
            tag (texts.map (· ++ "\n".toList)).flatten) }) := by
  have htagc : inlineMarkerOption p.line = some tag := by
    unfold Parser.line
    rw [hline]
    exact inlineMarkerOption_tag pre ws tag post hpre hws htag hpost
  cases hm : bodies ++ [(term, tT)] with
  | nil => simp at hm
  | cons e more =>
    have hl2 : p.m_preprocessor.m_lines = e :: (more ++ rest) := by
      rw [hlines, ← List.cons_append, ← hm]
      simp
    have hread : p.readLine = Parser.standAt p e (more ++ rest) := by
      simp only [Parser.readLine, Preprocessor.readLine, hl2, Parser.standAt]
    have hfuel : bodies.length + 1 ≤ p.remaining + 1 := by
      simp only [Parser.remaining, hlines, List.length_append, List.length_cons]
      omega
    have hloop := parseInlineFileLoop_body p term tT rest hterm bodies texts hbodies e more hm
      (p.remaining + 1) (InlineFile.mk false false tag []) hfuel
    unfold Parser.parseInlineFile
    simp only [htagc, hread, Option.getD_some, hloop]
    simp [Parser.standAt]

theorem dropWhile_isSpace_head (s : QString) (h : ∃ c ∈ s, isSpace c = false) :
    ∃ d t, s.dropWhile isSpace = d :: t ∧ isSpace d = false := by
  induction s with
  | nil =>
    obtain ⟨c, hc, _⟩ := h
    exact absurd hc (List.not_mem_nil _)
  | cons a t ih =>
    by_cases ha : isSpace a = true
    · obtain ⟨c, hc, hcs⟩ := h
      have hct : c ∈ t := by
        rcases List.mem_cons.mp hc with h1 | h1
        · rw [h1, ha] at hcs; cases hcs
        · exact h1
      obtain ⟨d, u, hd, hds⟩ := ih ⟨c, hct, hcs⟩
      exact ⟨d, u, by simp only [List.dropWhile, ha]; exact hd, hds⟩
    · have ha2 : isSpace a = false := by
        cases hb : isSpace a
        · rfl
        · exact absurd hb ha
      exact ⟨a, t, by simp only [List.dropWhile, ha2], ha2⟩

/-- A line with a character that is not white space is not an empty line. -/
theorem trimmed_isEmpty_false (s : QString) (h : ∃ c ∈ s, isSpace c = false) :
    (QString.trimmed s).isEmpty = false := by
  obtain ⟨d, t, hd, hds⟩ := dropWhile_isSpace_head s h
  obtain ⟨d2, t2, hd2, _⟩ := dropWhile_isSpace_head (d :: t).reverse
    ⟨d, by simp, hds⟩
  unfold QString.trimmed
  rw [hd, hd2]
  simp

/-- C20, as the code has it: a command whose line has `<<`, white space (if
any) and a tag, followed by body lines, none of which starts with `<<`, and
by a line that starts with `<<`, gets an inline file.  Its filename is the
tag.  Its content is the concatenation of the body lines, each with the white
space at its two ends removed, then expanded, then followed by a newline.
The keep flag says whether the rest of the last line, split at every white
space character, contains `KEEP`, and the unicode flag whether it contains
`UNICODE`.  The parser is left at the last line.  This is what
`parseInlineFile` does, and what `parseCommand` does with it when the line
starts with a space or a tab and expands. -/
theorem parseInlineFile_content (p : Parser) (pre ws tag post : QString)
    (bodies : List (QString × MacroTable)) (texts : List QString)
    (term : QString) (tT : MacroTable) (rest : List (QString × MacroTable))
    (hline : p.m_line = some (pre ++ "<<".toList ++ ws ++ tag ++ post))
    (hpre : '<' ∉ pre) (hws : ∀ c ∈ ws, isSpace c = true)
    (htag : ∀ c ∈ tag, isSpace c = false)
    (hpost : ∀ c t, post = c :: t → isSpace c = true ∧ tag ≠ [])
    (hlines : p.m_preprocessor.m_lines = bodies ++ (term, tT) :: rest)
    (hbodies : List.Forall₂ (fun (b : QString × MacroTable) (e : QString) =>
        QString.startsWith b.1 "<<".toList = false ∧
          expandMacros b.2 (QString.trimmed b.1) false = .ok e) bodies texts)
    (hterm : QString.startsWith term "<<".toList = true) :
    (∀ cmd : Command, Parser.parseInlineFile p cmd
      = ({ p with m_line := some term, m_preprocessor := { m_lines := rest, m_macroTable := tT } },
          .ok { cmd with m_inlineFile := some (InlineFile.mk
            (decide ("KEEP".toList ∈ QString.splitSpace (term.drop 2)))
            (decide ("UNICODE".toList ∈ QString.splitSpace (term.drop 2)))
            tag (texts.map (· ++ "\n".toList)).flatten) })) ∧
    (∀ (commands : List Command) (e : QString),
      QString.startsWithChar p.line ' ' = true ∨ QString.startsWithChar p.line '\t' = true →
      expandMacros p.macroTable (QString.trimmed p.line) false = .ok e →
      Parser.parseCommand p commands false
        = ({ p with m_line := some term,
                    m_preprocessor := { m_lines := rest, m_macroTable := tT } },
            .ok (true, commands ++ [{ (Parser.parseCommandPrefix
              { m_commandLine := e
                m_maxExitCode := if p.m_ignoreExitCodes = true then 255 else 0
                m_silent := p.m_silentCommands }) with m_inlineFile := some (InlineFile.mk
              (decide ("KEEP".toList ∈ QString.splitSpace (term.drop 2)))
              (decide ("UNICODE".toList ∈ QString.splitSpace (term.drop 2)))
              tag (texts.map (· ++ "\n".toList)).flatten) }]))) := by
  have hbody := fun cmd => Parser.parseInlineFile_body p cmd pre ws tag post bodies texts term tT
    rest hline hpre hws htag hpost hlines hbodies hterm
  refine ⟨hbody, ?_⟩
  intro commands e hstart hexp
  have hlinev : p.line = pre ++ "<<".toList ++ ws ++ tag ++ post := by
    unfold Parser.line
    rw [hline]
    rfl
  have hne : (QString.trimmed p.line).isEmpty = false := by
    apply trimmed_isEmpty_false
    rw [hlinev]
    exact ⟨'<', by simp, by decide⟩
  have heat : Parser.eatEmptyLines (p.remaining + 1) p = some (p, true) := by
    simp only [Parser.eatEmptyLines, hne, Bool.false_eq_true, if_false]
  have hcmd : ¬ (QString.startsWithChar p.line ' ' = false ∧
      QString.startsWithChar p.line '\t' = false) := by
    rintro ⟨h1, h2⟩
    rcases hstart with h | h
    · rw [h1] at h; cases h
    · rw [h2] at h; cases h
  have htagc : (inlineMarkerOption p.line).isSome = true := by
    rw [hlinev, inlineMarkerOption_tag pre ws tag post hpre hws htag hpost]
    rfl
  unfold Parser.parseCommand
  simp only [heat, hcmd, if_false, if_true, hexp, htagc, hbody]

/-- The witness of C20: `cmd <<TAG`, `body1`, `body2`, `<< KEEP UNICODE`. -/
theorem parseInlineFile_content_witness :
    Parser.parseInlineFile
        (parserAt "\tcmd <<TAG".toList
          ["body1".toList, "body2".toList, "<< KEEP UNICODE".toList, "all:".toList]) {}
      = (parserAt "<< KEEP UNICODE".toList ["all:".toList],
          .ok { m_inlineFile :=
                  some (InlineFile.mk true true "TAG".toList "body1\nbody2\n".toList) }) ∧
    Parser.parseCommand
        (parserAt "\tcmd <<TAG".toList
          ["body1".toList, "body2".toList, "<< KEEP UNICODE".toList, "all:".toList]) [] false
      = (parserAt "<< KEEP UNICODE".toList ["all:".toList],
          .ok (true, [{ m_commandLine := "cmd <<TAG".toList,
                        m_inlineFile := some
                          (InlineFile.mk true true "TAG".toList "body1\nbody2\n".toList) }])) :=
  have h := parseInlineFile_content
    (parserAt "\tcmd <<TAG".toList
      ["body1".toList, "body2".toList, "<< KEEP UNICODE".toList, "all:".toList])
    "\tcmd ".toList [] "TAG".toList []
    [("body1".toList, MacroTable.empty), ("body2".toList, MacroTable.empty)]
    ["body1".toList, "body2".toList] "<< KEEP UNICODE".toList MacroTable.empty
    [("all:".toList, MacroTable.empty)]
    rfl (by decide) (by decide) (by decide) (by intro c t h; cases h) rfl
    (List.Forall₂.cons ⟨by decide, by decide⟩
      (List.Forall₂.cons ⟨by decide, by decide⟩ List.Forall₂.nil))
    (by decide)
  ⟨(h.1 {}).trans (by decide),
   (h.2 [] "cmd <<TAG".toList (Or.inr (by decide)) (by decide)).trans (by decide)⟩

/-- The counterexample of C20: the body line `  body1 `, with white space at
both ends, goes into the content as `body1`. -/
theorem parseCommand_inline_trimmed :
    Parser.parseCommand
        (parserAt "\tcmd <<TAG".toList ["  body1 ".toList, "<<".toList]) [] false
      = (parserAt "<<".toList [],
          .ok (true, [{ m_commandLine := "cmd <<TAG".toList,
                        m_inlineFile :=
                          some (InlineFile.mk false false "TAG".toList "body1\n".toList) }])) := by
  decide!

/-! ## Reading lines: the loops end, and the makefile stays -/

theorem Parser.Advanced.refl (p : Parser) : Parser.Advanced p p :=
  ⟨rfl, rfl, rfl, rfl, le_refl _, le_refl _⟩

theorem Parser.Advanced.trans {p p1 p2 : Parser} (h1 : Parser.Advanced p p1)
    (h2 : Parser.Advanced p1 p2) : Parser.Advanced p p2 :=
  ⟨h2.makefile.trans h1.makefile, h2.suffixes.trans h1.suffixes,
    h2.silentCommands.trans h1.silentCommands, h2.ignoreExitCodes.trans h1.ignoreExitCodes,
    le_trans h2.remaining h1.remaining, le_trans h2.linesLeft h1.linesLeft⟩

theorem Parser.linesLeft_readLine (p : Parser) :
    p.readLine.linesLeft ≤ p.remaining ∧ p.readLine.remaining ≤ p.remaining ∧
      (p.readLine.m_line.isSome = true → p.readLine.remaining + 1 = p.remaining) := by
  unfold Parser.linesLeft Parser.remaining Parser.readLine Preprocessor.readLine
  cases h : p.m_preprocessor.m_lines with
  | nil => simp [h]
  | cons e rest => simp

theorem Parser.advanced_readLine (p : Parser) : Parser.Advanced p p.readLine :=
  ⟨rfl, rfl, rfl, rfl, (Parser.linesLeft_readLine p).2.1, by
    have := (Parser.linesLeft_readLine p).1
    unfold Parser.linesLeft at this ⊢
    omega⟩

theorem Parser.eatEmptyLines_spec :
    ∀ (fuel : Nat) (p : Parser), p.remaining + 1 ≤ fuel →
      ∃ p1 b, Parser.eatEmptyLines fuel p = some (p1, b) ∧ Parser.Advanced p p1 ∧
        (b = true → (p1.m_line.isSome = true)) := by
  intro fuel
  induction fuel with
  | zero => intro p h; omega
  | succ f ih =>
    intro p h
    unfold Parser.eatEmptyLines
    by_cases hempty : (QString.trimmed p.line).isEmpty = true
    · simp only [hempty, if_true]
      by_cases hnull : p.readLine.m_line.isNone = true
      · simp only [hnull, if_true]
        exact ⟨_, _, rfl, Parser.advanced_readLine p, by simp⟩
      · simp only [hnull, Bool.false_eq_true, if_false]
        have hsome : p.readLine.m_line.isSome = true := by
          cases hl : p.readLine.m_line with
          | none => simp [hl] at hnull
          | some l => rfl
        have hrem := (Parser.linesLeft_readLine p).2.2 hsome
        obtain ⟨p1, b, h1, h2, h3⟩ := ih p.readLine (by omega)
        exact ⟨p1, b, h1, (Parser.advanced_readLine p).trans h2, h3⟩
    · simp only [hempty, Bool.false_eq_true, if_false]
      refine ⟨p, true, rfl, Parser.Advanced.refl p, fun _ => ?_⟩
      cases hl : p.m_line with
      | none => simp [Parser.line, hl, QString.trimmed] at hempty
      | some l => rfl

theorem thrown_expandMacros (mt : MacroTable) (str : QString) (inDependentsLine : Bool) :
    Thrown (expandMacros mt str inDependentsLine) :=
  fun e h => expandMacros_error_exception mt str inDependentsLine e h

theorem Parser.parseInlineFileLoop_spec :
    ∀ (fuel : Nat) (p : Parser) (inlineFile : InlineFile), p.linesLeft + 1 ≤ fuel →
      Thrown (Parser.parseInlineFileLoop fuel p inlineFile).2 ∧
        Parser.Advanced p (Parser.parseInlineFileLoop fuel p inlineFile).1 := by
  intro fuel
  induction fuel with
  | zero => intro p _ h; omega
  | succ f ih =>
    intro p inlineFile h
    unfold Parser.parseInlineFileLoop
    cases hl : p.m_line with
    | none => exact ⟨(fun e he => by cases he), Parser.Advanced.refl p⟩
    | some line =>
      simp only
      by_cases hstart : QString.startsWith line "<<".toList = true
      · simp only [hstart, if_true]
        exact ⟨(fun e he => by cases he), Parser.Advanced.refl p⟩
      · simp only [hstart, Bool.false_eq_true, if_false]
        cases hexp : expandMacros p.macroTable (QString.trimmed line) false with
        | error e =>
          refine ⟨fun e1 he => ?_, Parser.Advanced.refl p⟩
          cases he
          exact thrown_expandMacros _ _ _ e hexp
        | ok text =>
          simp only
          have hlines : p.readLine.linesLeft + 1 ≤ f := by
            have h1 := (Parser.linesLeft_readLine p).1
            unfold Parser.linesLeft at h
            simp only [hl, Option.isSome_some, if_true] at h
            omega
          obtain ⟨h1, h2⟩ := ih p.readLine
            { inlineFile with m_content := inlineFile.m_content ++ (text ++ "\n".toList) } hlines
          exact ⟨h1, (Parser.advanced_readLine p).trans h2⟩

theorem Parser.parseInlineFile_spec (p : Parser) (cmd : Command) :
    Thrown (Parser.parseInlineFile p cmd).2 ∧ Parser.Advanced p (Parser.parseInlineFile p cmd).1 := by
  have hfuel : p.readLine.linesLeft + 1 ≤ p.remaining + 1 := by
    have := (Parser.linesLeft_readLine p).1
    omega
  obtain ⟨h1, h2⟩ := Parser.parseInlineFileLoop_spec (p.remaining + 1) p.readLine
    { m_filename := (inlineMarkerOption p.line).getD [] } hfuel
  unfold Parser.parseInlineFile
  simp only
  rcases hr : Parser.parseInlineFileLoop (p.remaining + 1) p.readLine
      { m_filename := (inlineMarkerOption p.line).getD [] } with ⟨p1, r⟩
  rw [hr] at h1 h2
  simp only at h1 h2
  cases r with
  | error e =>
    exact ⟨(fun e1 he => by cases he; exact h1 e rfl), (Parser.advanced_readLine p).trans h2⟩
  | ok f => exact ⟨(fun e1 he => by cases he), (Parser.advanced_readLine p).trans h2⟩

theorem Parser.parseCommand_spec (p : Parser) (commands : List Command) (inferenceRule : Bool) :
    Thrown (Parser.parseCommand p commands inferenceRule).2 ∧
      Parser.Advanced p (Parser.parseCommand p commands inferenceRule).1 ∧
      (∀ cs, (Parser.parseCommand p commands inferenceRule).2 = .ok (true, cs) →
        (Parser.parseCommand p commands inferenceRule).1.remaining + 1 ≤ p.linesLeft) := by
  obtain ⟨p1, b, heat, hadv, hsome⟩ := Parser.eatEmptyLines_spec (p.remaining + 1) p (le_refl _)
  unfold Parser.parseCommand
  rw [heat]
  cases b with
  | false => exact ⟨(fun e he => by cases he), hadv, (fun cs h => by cases h)⟩
  | true =>
    have hpos : p1.remaining + 1 ≤ p.linesLeft := by
      have h1 := hadv.linesLeft
      have h2 := hsome rfl
      unfold Parser.linesLeft at h1 ⊢
      simp only [h2, if_true] at h1
      omega
    dsimp only
    split
    · exact ⟨(fun e he => by cases he), hadv, (fun cs h => by cases h)⟩
    · split
      · next e hexp =>
        refine ⟨fun e1 he => ?_, hadv, (fun cs h => by cases h)⟩
        cases he
        cases inferenceRule with
        | false => exact thrown_expandMacros _ _ _ e (by simpa using hexp)
        | true => simp at hexp
      · next commandLine _ =>
        split
        · obtain ⟨h1, h2⟩ := Parser.parseInlineFile_spec p1
            (Parser.parseCommandPrefix
              { m_commandLine := commandLine
                m_maxExitCode := if p1.m_ignoreExitCodes = true then 255 else 0
                m_silent := p1.m_silentCommands })
          split
          · next p2 e hr =>
            rw [hr] at h1 h2
            exact ⟨(fun e1 he => by cases he; exact h1 e rfl), hadv.trans h2,
              (fun cs h => by cases h)⟩
          · next p2 cmd2 hr =>
            rw [hr] at h2
            exact ⟨(fun e1 he => by cases he), hadv.trans h2,
              fun _ _ => le_trans (Nat.add_le_add_right h2.remaining 1) hpos⟩
        · exact ⟨(fun e he => by cases he), hadv, fun _ _ => hpos⟩

theorem Parser.parseCommands_spec (inferenceRule : Bool) :
    ∀ (fuel : Nat) (p : Parser) (commands : List Command), p.linesLeft + 1 ≤ fuel →
      Thrown (Parser.parseCommands inferenceRule fuel p commands).2 ∧
        Parser.Advanced p (Parser.parseCommands inferenceRule fuel p commands).1 := by
  intro fuel
  induction fuel with
  | zero => intro p _ h; omega
  | succ f ih =>
    intro p commands h
    obtain ⟨h1, h2, h3⟩ := Parser.parseCommand_spec p commands inferenceRule
    unfold Parser.parseCommands
    rcases hr : Parser.parseCommand p commands inferenceRule with ⟨p1, r⟩
    rw [hr] at h1 h2 h3
    simp only at h1 h2 h3
    cases r with
    | error e => exact ⟨(fun e1 he => by cases he; exact h1 e rfl), h2⟩
    | ok r =>
      obtain ⟨b, cs⟩ := r
      cases b with
      | false => exact ⟨(fun e he => by cases he), h2⟩
      | true =>
        simp only
        have hpos := h3 cs rfl
        have hrl := (Parser.linesLeft_readLine p1).1
        have hle : p1.readLine.linesLeft + 1 ≤ f := by omega
        obtain ⟨h4, h5⟩ := ih p1.readLine cs hle
        exact ⟨h4, (h2.trans (Parser.advanced_readLine p1)).trans h5⟩

/-- Reading the commands of a description block ends with the commands or
with an exception, and leaves the makefile as it is. -/
theorem Parser.readCommands_spec (p : Parser) :
    Thrown (Parser.readCommands p).2 ∧ Parser.Advanced p (Parser.readCommands p).1 := by
  unfold Parser.readCommands
  split
  · exact ⟨(fun e he => by cases he),
      (Parser.advanced_readLine p).trans (Parser.advanced_readLine p.readLine)⟩
  · have hfuel : p.readLine.linesLeft + 1 ≤ p.readLine.remaining + 2 := by
      unfold Parser.linesLeft
      split_ifs <;> omega
    obtain ⟨h1, h2⟩ := Parser.parseCommands_spec false (p.readLine.remaining + 2) p.readLine []
      hfuel
    exact ⟨h1, (Parser.advanced_readLine p).trans h2⟩

/-! ## Description blocks -/

theorem StringMap.set_set {β : Type} (m : StringMap β) (key : QString) (v w : β) :
    StringMap.set (StringMap.set m key v) key w = StringMap.set m key w := by
  induction m with
  | nil => simp [StringMap.set]
  | cons e rest ih =>
    obtain ⟨k, u⟩ := e
    by_cases hk : k = key
    · simp [StringMap.set, hk]
    · simp [StringMap.set, hk, ih]

theorem Makefile.block_modify (mf : Makefile) (key : QString)
    (f : DescriptionBlock → DescriptionBlock) (other : QString) :
    (mf.modify key f).block other = if other = key then f (mf.block key) else mf.block other := by
  unfold Makefile.modify Makefile.block
  by_cases h : other = key
  · subst h
    simp only [StringMap.find_set_self, Option.getD_some, if_true]
  · simp only [StringMap.find_set_other _ _ _ _ h, h, if_false]

theorem Makefile.modify_modify (mf : Makefile) (key : QString)
    (f g : DescriptionBlock → DescriptionBlock) :
    (mf.modify key f).modify key g = mf.modify key (fun b => g (f b)) := by
  have h := Makefile.block_modify mf key f key
  simp only [if_true] at h
  unfold Makefile.modify at h ⊢
  simp only [h, StringMap.set_set]

theorem Makefile.block_append (mf : Makefile) (b : DescriptionBlock) (other : QString) :
    (mf.append b).block other = if other = b.m_target then b else mf.block other := by
  unfold Makefile.append Makefile.block
  by_cases h : other = b.m_target
  · subst h
    simp only [StringMap.find_set_self, Option.getD_some, if_true]
  · simp only [StringMap.find_set_other _ _ _ _ h, h, if_false]

theorem StringMap.set_find {β : Type} (m : StringMap β) (key : QString) (v : β)
    (h : StringMap.find m key = some v) : StringMap.set m key v = m := by
  induction m with
  | nil => simp [StringMap.find] at h
  | cons e rest ih =>
    obtain ⟨k, w⟩ := e
    by_cases hk : k = key
    · simp only [StringMap.find, hk, if_true, Option.some.injEq] at h
      simp [StringMap.set, hk, h]
    · simp only [StringMap.find, hk, if_false] at h
      simp [StringMap.set, hk, ih h]

theorem Makefile.target_iff (mf : Makefile) (k : QString) :
    mf.target k = some k ↔ ∃ b, mf.m_targets.find k = some b := by
  unfold Makefile.target StringMap.contains
  cases mf.m_targets.find k <;> simp

theorem Makefile.target_modify (mf : Makefile) (key : QString)
    (f : DescriptionBlock → DescriptionBlock) (h : mf.target key = some key) (other : QString) :
    (mf.modify key f).target other = mf.target other := by
  unfold Makefile.target StringMap.contains Makefile.modify
  by_cases ho : other = key
  · subst ho
    obtain ⟨b, hb⟩ := (Makefile.target_iff mf other).mp h
    simp only [StringMap.find_set_self, hb, Option.isSome_some]
  · simp only [StringMap.find_set_other _ _ _ _ ho]

theorem Makefile.block_of_no_target (mf : Makefile) (t : QString) (h : mf.target t = none) :
    mf.block t = {} := by
  unfold Makefile.target StringMap.contains at h
  unfold Makefile.block
  cases hf : mf.m_targets.find t with
  | none => rfl
  | some b => simp [hf] at h

theorem Makefile.target_eq_some (mf : Makefile) (t d : QString) (h : mf.target t = some d) :
    d = t := by
  unfold Makefile.target at h
  split at h
  · exact (Option.some.inj h).symm
  · cases h

/-- The state `canAddCommands` of a separator of the given length. -/
theorem AddCommandsState.toBool_separator (separatorLength : Nat) :
    (if separatorLength > 1 then AddCommandsState.ACSEnabled
      else AddCommandsState.ACSDisabled).toBool = true := by
  split <;> rfl

/-- The body of the `foreach` loop on a target that has a block whose state
goes with the separator: the state, the dependents, the list of suffixes and
the commands of the block are assigned, and the commands are expanded. -/
theorem Parser.addTarget_existing (fs : FileSystem) (p : Parser) (separatorLength : Nat)
    (dependents : List QString) (commands : List Command) (t : QString)
    (hex : p.m_makefile.target t = some t)
    (hok : ¬ ((if separatorLength > 1 then AddCommandsState.ACSEnabled
          else AddCommandsState.ACSDisabled) ≠ (p.m_makefile.block t).m_canAddCommands ∧
        (p.m_makefile.block t).m_canAddCommands ≠ AddCommandsState.ACSUnknown)) :
    Parser.addTarget fs p separatorLength dependents commands t =
      ({ p with m_makefile := p.m_makefile.modify t fun b =>
          { b with
            m_canAddCommands := if separatorLength > 1 then AddCommandsState.ACSEnabled
              else AddCommandsState.ACSDisabled
            m_dependents := dependents
            m_suffixes := p.m_suffixes
            m_commands := (Parser.expandCommands p.macroTable commands).1 } },
        (Parser.expandCommands p.macroTable commands).2) := by
  unfold Parser.addTarget
  simp only [hex, hok, if_false, AddCommandsState.toBool_separator, if_true,
    Makefile.modify_modify, Makefile.block_modify, Parser.macroTable]

/-- The body of the `foreach` loop on a target that has a block whose state
does not go with the separator: the exception, and nothing is changed. -/
theorem Parser.addTarget_conflict (fs : FileSystem) (p : Parser) (separatorLength : Nat)
    (dependents : List QString) (commands : List Command) (t : QString)
    (hex : p.m_makefile.target t = some t)
    (hbad : (if separatorLength > 1 then AddCommandsState.ACSEnabled
          else AddCommandsState.ACSDisabled) ≠ (p.m_makefile.block t).m_canAddCommands ∧
        (p.m_makefile.block t).m_canAddCommands ≠ AddCommandsState.ACSUnknown) :
    Parser.addTarget fs p separatorLength dependents commands t =
      (p, some (.exception "cannot have : and :: dependents for same target".toList)) := by
  unfold Parser.addTarget
  simp only [hex, hbad, and_self, if_true, Parser.error, ne_eq, not_false_eq_true]

/-- The body of the `foreach` loop never changes a state that is fixed. -/
theorem Parser.addTarget_mode (fs : FileSystem) (p : Parser) (separatorLength : Nat)
    (dependents : List QString) (commands : List Command) (t : QString)
    (other : QString) (m : AddCommandsState) (hm : m ≠ AddCommandsState.ACSUnknown)
    (hmode : (p.m_makefile.block other).m_canAddCommands = m) :
    ((Parser.addTarget fs p separatorLength dependents commands t).1.m_makefile.block
      other).m_canAddCommands = m := by
  cases hex : p.m_makefile.target t with
  | some d =>
    have hd := Makefile.target_eq_some _ _ _ hex
    subst hd
    by_cases hbad : (if separatorLength > 1 then AddCommandsState.ACSEnabled
          else AddCommandsState.ACSDisabled) ≠ (p.m_makefile.block d).m_canAddCommands ∧
        (p.m_makefile.block d).m_canAddCommands ≠ AddCommandsState.ACSUnknown
    · rw [Parser.addTarget_conflict fs p separatorLength dependents commands d hex hbad]
      exact hmode
    · rw [Parser.addTarget_existing fs p separatorLength dependents commands d hex hbad]
      simp only [Makefile.block_modify]
      by_cases ho : other = d
      · subst ho
        simp only [if_true]
        rw [hmode] at hbad
        by_contra hne
        exact hbad ⟨hne, hm⟩
      · simp only [ho, if_false]
        exact hmode
  | none =>
    have hne : other ≠ t := by
      intro ho
      subst ho
      rw [Makefile.block_of_no_target _ _ hex] at hmode
      exact hm hmode.symm
    unfold Parser.addTarget
    simp only [hex, Parser.createTarget, Makefile.block_modify, Makefile.block_append, hne,
      if_false, hmode]
    split <;> simp only [Makefile.block_modify, Makefile.block_append, hne, if_false, hmode]

theorem Parser.addTargets_mode (fs : FileSystem) (separatorLength : Nat)
    (dependents : List QString) (commands : List Command)
    (other : QString) (m : AddCommandsState) (hm : m ≠ AddCommandsState.ACSUnknown) :
    ∀ (targets : List QString) (p : Parser),
      (p.m_makefile.block other).m_canAddCommands = m →
      ((Parser.addTargets fs separatorLength dependents commands targets p).1.m_makefile.block
        other).m_canAddCommands = m := by
  intro targets
  induction targets with
  | nil => intro p h; exact h
  | cons t rest ih =>
    intro p h
    have h1 := Parser.addTarget_mode fs p separatorLength dependents commands t other m hm h
    unfold Parser.addTargets
    rcases hr : Parser.addTarget fs p separatorLength dependents commands t with ⟨p1, e⟩
    rw [hr] at h1
    cases e with
    | some e => exact h1
    | none => exact ih p1 h1

/-- A description block never changes a state that is fixed. -/
theorem Parser.parseDescriptionBlock_mode (fs : FileSystem) (p : Parser)
    (separatorPos separatorLength : Nat)
    (other : QString) (m : AddCommandsState) (hm : m ≠ AddCommandsState.ACSUnknown)
    (hmode : (p.m_makefile.block other).m_canAddCommands = m) :
    ((Parser.parseDescriptionBlock fs p separatorPos separatorLength).1.m_makefile.block
      other).m_canAddCommands = m := by
  unfold Parser.parseDescriptionBlock
  split
  · exact hmode
  · split
    · exact hmode
    · have hadv := (Parser.readCommands_spec p).2
      split
      · next p2 e hr =>
        rw [hr] at hadv
        simp only at hadv ⊢
        rw [hadv.makefile]
        exact hmode
      · next p2 commands hr =>
        rw [hr] at hadv
        simp only at hadv
        apply Parser.addTargets_mode fs separatorLength _ commands other m hm
        rw [hadv.makefile]
        exact hmode

/-- A description block with a single target, up to the `foreach` loop. -/
theorem Parser.parseDescriptionBlock_first (fs : FileSystem) (p p2 : Parser)
    (separatorPos separatorLength : Nat) (target value : QString) (commands : List Command)
    (h1 : expandMacros p.macroTable (QString.trimmed (QString.left p.line separatorPos)) false
      = .ok target)
    (h2 : expandMacros p.macroTable
      (QString.trimmed (QString.right p.line (p.line.length - separatorPos - separatorLength)))
      false = .ok value)
    (h3 : Parser.readCommands p = (p2, .ok commands)) :
    Parser.parseDescriptionBlock fs p separatorPos separatorLength =
      Parser.addTargets fs separatorLength (QString.splitSpaceSkipEmpty value) commands
        (QString.splitSpace target) p2 := by
  unfold Parser.parseDescriptionBlock
  simp only [h1, h2, h3]

/-- The body of the `foreach` loop for one target leaves the blocks of the
other targets as they are. -/
theorem Parser.addTarget_frame (fs : FileSystem) (p : Parser) (separatorLength : Nat)
    (dependents : List QString) (commands : List Command) (t other : QString)
    (hne : other ≠ t) :
    (Parser.addTarget fs p separatorLength dependents commands t).1.m_makefile.block other
      = p.m_makefile.block other ∧
    ((Parser.addTarget fs p separatorLength dependents commands t).1.m_makefile.target other
        = some other ↔ p.m_makefile.target other = some other) := by
  have hfind : ∀ (mf : Makefile) (f : DescriptionBlock → DescriptionBlock),
      ((mf.modify t f).target other = some other ↔ mf.target other = some other) := by
    intro mf f
    simp only [Makefile.target_iff, Makefile.modify, StringMap.find_set_other _ _ _ _ hne]
  cases hex : p.m_makefile.target t with
  | some d =>
    have hd := Makefile.target_eq_some _ _ _ hex
    subst hd
    by_cases hbad : (if separatorLength > 1 then AddCommandsState.ACSEnabled
          else AddCommandsState.ACSDisabled) ≠ (p.m_makefile.block d).m_canAddCommands ∧
        (p.m_makefile.block d).m_canAddCommands ≠ AddCommandsState.ACSUnknown
    · rw [Parser.addTarget_conflict fs p separatorLength dependents commands d hex hbad]
      exact ⟨rfl, Iff.rfl⟩
    · rw [Parser.addTarget_existing fs p separatorLength dependents commands d hex hbad]
      exact ⟨by simp only [Makefile.block_modify, hne, if_false], hfind _ _⟩
  | none =>
    have happ : ∀ (b : DescriptionBlock), b.m_target = t →
        ((p.m_makefile.append b).target other = some other ↔
          p.m_makefile.target other = some other) := by
      intro b hb
      simp only [Makefile.target_iff, Makefile.append, hb,
        StringMap.find_set_other _ _ _ _ hne]
    unfold Parser.addTarget
    simp only [hex, Parser.createTarget]
    split <;>
      exact ⟨by simp only [Makefile.block_modify, Makefile.block_append, hne, if_false],
        by simp only [hfind]; exact happ _ rfl⟩

theorem Parser.addTargets_frame (fs : FileSystem) (separatorLength : Nat)
    (dependents : List QString) (commands : List Command) (other : QString) :
    ∀ (targets : List QString) (p : Parser), other ∉ targets →
      (Parser.addTargets fs separatorLength dependents commands targets p).1.m_makefile.block
          other = p.m_makefile.block other ∧
      ((Parser.addTargets fs separatorLength dependents commands targets p).1.m_makefile.target
          other = some other ↔ p.m_makefile.target other = some other) := by
  intro targets
  induction targets with
  | nil => intro p _; exact ⟨rfl, Iff.rfl⟩
  | cons t rest ih =>
    intro p hmem
    have hne : other ≠ t := fun h => hmem (h ▸ List.mem_cons_self _ _)
    have hrest : other ∉ rest := fun h => hmem (List.mem_cons_of_mem _ h)
    have h1 := Parser.addTarget_frame fs p separatorLength dependents commands t other hne
    unfold Parser.addTargets
    rcases hr : Parser.addTarget fs p separatorLength dependents commands t with ⟨p1, e⟩
    rw [hr] at h1
    simp only at h1
    cases e with
    | some e => exact h1
    | none =>
      have h2 := ih p1 hrest
      exact ⟨h2.1.trans h1.1, h2.2.trans h1.2⟩

theorem Parser.addTargets_append (fs : FileSystem) (separatorLength : Nat)
    (dependents : List QString) (commands : List Command) (rest : List QString) :
    ∀ (pre : List QString) (p : Parser),
      (Parser.addTargets fs separatorLength dependents commands pre p).2 = none →
      Parser.addTargets fs separatorLength dependents commands (pre ++ rest) p
        = Parser.addTargets fs separatorLength dependents commands rest
            (Parser.addTargets fs separatorLength dependents commands pre p).1 := by
  intro pre
  induction pre with
  | nil => intro p _; rfl
  | cons t pre ih =>
    intro p h
    rcases hr : Parser.addTarget fs p separatorLength dependents commands t with ⟨p1, e⟩
    cases e with
    | some e =>
      have hR : Parser.addTargets fs separatorLength dependents commands (t :: pre) p
          = (p1, some e) := by simp only [Parser.addTargets, hr]
      rw [hR] at h
      cases h
    | none =>
      have hL : Parser.addTargets fs separatorLength dependents commands (t :: pre ++ rest) p
          = Parser.addTargets fs separatorLength dependents commands (pre ++ rest) p1 := by
        simp only [List.cons_append, Parser.addTargets, hr, List.append_eq]
      have hR : Parser.addTargets fs separatorLength dependents commands (t :: pre) p
          = Parser.addTargets fs separatorLength dependents commands pre p1 := by
        simp only [Parser.addTargets, hr]
      rw [hR] at h
      rw [hL, hR]
      exact ih p1 h

/-- C17: the state `canAddCommands` of a block never changes once it is
`ACSEnabled` or `ACSDisabled`, whatever `parseDescriptionBlock` does.  When a
target of a description line has a block that was declared with `::` and the
line has `:`, or the other way round, and the targets before it on the line
raise nothing, the call raises the exception "cannot have : and ::
dependents for same target", and the state, the dependents and the commands
of that block are as they were; when it is the first target of the line, the
whole makefile is.  When the line has the separator of the block, its one
target is that block and the commands expand, the call raises nothing, the
state is kept, and the dependents and the commands are those of the line. -/
theorem parseDescriptionBlock_separator (fs : FileSystem) (p : Parser)
    (separatorPos separatorLength : Nat) :
    (∀ (t : QString) (m : AddCommandsState), m ≠ AddCommandsState.ACSUnknown →
      (p.m_makefile.block t).m_canAddCommands = m →
      ((Parser.parseDescriptionBlock fs p separatorPos separatorLength).1.m_makefile.block
        t).m_canAddCommands = m) ∧
    (∀ (p2 : Parser) (target value : QString) (commands : List Command),
      expandMacros p.macroTable (QString.trimmed (QString.left p.line separatorPos)) false
        = .ok target →
      expandMacros p.macroTable
        (QString.trimmed (QString.right p.line (p.line.length - separatorPos - separatorLength)))
        false = .ok value →
      Parser.readCommands p = (p2, .ok commands) →
      (∀ (before : List QString) (t : QString) (more : List QString),
        QString.splitSpace target = before ++ t :: more → t ∉ before →
        (Parser.addTargets fs separatorLength (QString.splitSpaceSkipEmpty value) commands before
          p2).2 = none →
        p.m_makefile.target t = some t →
        ((p.m_makefile.block t).m_canAddCommands = AddCommandsState.ACSEnabled ∧
            separatorLength = 1) ∨
          ((p.m_makefile.block t).m_canAddCommands = AddCommandsState.ACSDisabled ∧
            separatorLength = 2) →
        (Parser.parseDescriptionBlock fs p separatorPos separatorLength).2
          = some (.exception "cannot have : and :: dependents for same target".toList) ∧
        (Parser.parseDescriptionBlock fs p separatorPos separatorLength).1.m_makefile.block t
          = p.m_makefile.block t ∧
        (before = [] →
          (Parser.parseDescriptionBlock fs p separatorPos separatorLength).1.m_makefile
            = p.m_makefile)) ∧
      (∀ (t : QString), QString.splitSpace target = [t] →
        p.m_makefile.target t = some t →
        ((p.m_makefile.block t).m_canAddCommands = AddCommandsState.ACSEnabled ∧
            separatorLength = 2) ∨
          ((p.m_makefile.block t).m_canAddCommands = AddCommandsState.ACSDisabled ∧
            separatorLength = 1) →
        (Parser.expandCommands p2.macroTable commands).2 = none →
        (Parser.parseDescriptionBlock fs p separatorPos separatorLength).2 = none ∧
        ((Parser.parseDescriptionBlock fs p separatorPos separatorLength).1.m_makefile.block
          t).m_canAddCommands = (p.m_makefile.block t).m_canAddCommands ∧
        ((Parser.parseDescriptionBlock fs p separatorPos separatorLength).1.m_makefile.block
          t).m_dependents = QString.splitSpaceSkipEmpty value ∧
        ((Parser.parseDescriptionBlock fs p separatorPos separatorLength).1.m_makefile.block
          t).m_commands = (Parser.expandCommands p2.macroTable commands).1)) := by
  refine ⟨fun t m hm hmode =>
    Parser.parseDescriptionBlock_mode fs p separatorPos separatorLength t m hm hmode, ?_⟩
  intro p2 target value commands h1 h2 h3
  have hadv := (Parser.readCommands_spec p).2
  rw [h3] at hadv
  simp only at hadv
  have hfirst := Parser.parseDescriptionBlock_first fs p p2 separatorPos separatorLength target
    value commands h1 h2 h3
  constructor
  · intro before t more hsplit hnot hbefore hex hbad
    obtain ⟨hfb, hft⟩ := Parser.addTargets_frame fs separatorLength
      (QString.splitSpaceSkipEmpty value) commands t before p2 hnot
    rw [hadv.makefile] at hfb hft
    have hex3 := hft.mpr hex
    have hbad3 : (if separatorLength > 1 then AddCommandsState.ACSEnabled
          else AddCommandsState.ACSDisabled) ≠
          ((Parser.addTargets fs separatorLength (QString.splitSpaceSkipEmpty value) commands
            before p2).1.m_makefile.block t).m_canAddCommands ∧
        ((Parser.addTargets fs separatorLength (QString.splitSpaceSkipEmpty value) commands
            before p2).1.m_makefile.block t).m_canAddCommands ≠ AddCommandsState.ACSUnknown := by
      rw [hfb]
      rcases hbad with ⟨hm, hl⟩ | ⟨hm, hl⟩ <;> subst hl <;> rw [hm] <;> decide
    have hres : Parser.parseDescriptionBlock fs p separatorPos separatorLength
        = ((Parser.addTargets fs separatorLength (QString.splitSpaceSkipEmpty value) commands
            before p2).1,
          some (.exception "cannot have : and :: dependents for same target".toList)) := by
      rw [hfirst, hsplit, Parser.addTargets_append fs separatorLength _ commands _ before p2
        hbefore]
      simp only [Parser.addTargets,
        Parser.addTarget_conflict fs _ separatorLength _ commands t hex3 hbad3]
    rw [hres]
    refine ⟨rfl, hfb, fun hnil => ?_⟩
    subst hnil
    exact hadv.makefile
  · intro t hsplit hex hsame hexp
    have hex2 : p2.m_makefile.target t = some t := by rw [hadv.makefile]; exact hex
    have hcan : (if separatorLength > 1 then AddCommandsState.ACSEnabled
          else AddCommandsState.ACSDisabled) = (p.m_makefile.block t).m_canAddCommands := by
      rcases hsame with ⟨hm, hl⟩ | ⟨hm, hl⟩ <;> subst hl <;> rw [hm] <;> decide
    have hok2 : ¬ ((if separatorLength > 1 then AddCommandsState.ACSEnabled
          else AddCommandsState.ACSDisabled) ≠ (p2.m_makefile.block t).m_canAddCommands ∧
        (p2.m_makefile.block t).m_canAddCommands ≠ AddCommandsState.ACSUnknown) := by
      rw [hadv.makefile]
      exact fun h => h.1 hcan
    rw [hfirst, hsplit]
    unfold Parser.addTargets
    rw [Parser.addTarget_existing fs p2 separatorLength _ commands t hex2 hok2, hexp]
    simp only [Parser.addTargets, Makefile.block_modify, if_true, hcan, and_self]

/-- The witness of C17: the target `all` has a block that was declared with
`::`; the lines `all: x` and `new all: x` raise the exception, the line
`all:: x` does not. -/
theorem parseDescriptionBlock_separator_witness :
    ((Parser.parseDescriptionBlock noFiles
        (parserAtAll ["cmd1".toList] "all: x".toList ["\tcmd2".toList]) 3 1).2
      = some (.exception "cannot have : and :: dependents for same target".toList) ∧
     (Parser.parseDescriptionBlock noFiles
        (parserAtAll ["cmd1".toList] "all: x".toList ["\tcmd2".toList]) 3 1).1.m_makefile
      = makefileAll ["cmd1".toList]) ∧
    ((Parser.parseDescriptionBlock noFiles
        (parserAtAll ["cmd1".toList] "new all: x".toList ["\tcmd2".toList]) 7 1).2
      = some (.exception "cannot have : and :: dependents for same target".toList) ∧
     (Parser.parseDescriptionBlock noFiles
        (parserAtAll ["cmd1".toList] "new all: x".toList ["\tcmd2".toList]) 7
          1).1.m_makefile.block "all".toList
      = (makefileAll ["cmd1".toList]).block "all".toList) ∧
    (Parser.parseDescriptionBlock noFiles
        (parserAtAll ["cmd1".toList] "all:: x".toList ["\tcmd2".toList]) 3 2).2 = none ∧
    ((Parser.parseDescriptionBlock noFiles
        (parserAtAll ["cmd1".toList] "all:: x".toList ["\tcmd2".toList]) 3 2).1.m_makefile.block
          "all".toList).m_canAddCommands = AddCommandsState.ACSEnabled :=
  have hfirst := ((parseDescriptionBlock_separator noFiles
      (parserAtAll ["cmd1".toList] "all: x".toList ["\tcmd2".toList]) 3 1).2
      (parserAtAll ["cmd1".toList] "\tcmd2".toList [] |>.readLine) "all".toList "x".toList
      [{ m_commandLine := "cmd2".toList }] (by decide!) (by decide!) (by decide!)).1
      [] "all".toList [] (by decide) (by decide) (by decide!) (by decide)
      (Or.inl ⟨by decide, rfl⟩)
  have hsecond := ((parseDescriptionBlock_separator noFiles
      (parserAtAll ["cmd1".toList] "new all: x".toList ["\tcmd2".toList]) 7 1).2
      (parserAtAll ["cmd1".toList] "\tcmd2".toList [] |>.readLine) "new all".toList "x".toList
      [{ m_commandLine := "cmd2".toList }] (by decide!) (by decide!) (by decide!)).1
      ["new".toList] "all".toList [] (by decide) (by decide) (by decide!) (by decide)
      (Or.inl ⟨by decide, rfl⟩)
  ⟨⟨hfirst.1, hfirst.2.2 rfl⟩, ⟨hsecond.1, hsecond.2.1⟩,
   ((parseDescriptionBlock_separator noFiles
      (parserAtAll ["cmd1".toList] "all:: x".toList ["\tcmd2".toList]) 3 2).2
      (parserAtAll ["cmd1".toList] "\tcmd2".toList [] |>.readLine) "all".toList "x".toList
      [{ m_commandLine := "cmd2".toList }] (by decide!) (by decide!) (by decide!)).2
      "all".toList (by decide) (by decide) (Or.inl ⟨by decide, rfl⟩) (by decide!) |>.1,
   (parseDescriptionBlock_separator noFiles
      (parserAtAll ["cmd1".toList] "all:: x".toList ["\tcmd2".toList]) 3 2).1
      "all".toList AddCommandsState.ACSEnabled (by decide) (by decide)⟩

/-- C18, as the code has it: when a target that was declared with `::` is
declared with `::` once more, the commands of the later block take the place
of the commands that the target had (`descblock->m_commands = commands`); the
state stays `ACSEnabled`. -/
theorem parseDescriptionBlock_double_colon (fs : FileSystem) (p p2 : Parser)
    (separatorPos : Nat) (target value t : QString) (commands : List Command)
    (h1 : expandMacros p.macroTable (QString.trimmed (QString.left p.line separatorPos)) false
      = .ok target)
    (h2 : expandMacros p.macroTable
      (QString.trimmed (QString.right p.line (p.line.length - separatorPos - 2))) false
      = .ok value)
    (h3 : Parser.readCommands p = (p2, .ok commands))
    (hsplit : QString.splitSpace target = [t])
    (hex : p.m_makefile.target t = some t)
    (hmode : (p.m_makefile.block t).m_canAddCommands = AddCommandsState.ACSEnabled)
    (hexp : (Parser.expandCommands p2.macroTable commands).2 = none) :
    (Parser.parseDescriptionBlock fs p separatorPos 2).2 = none ∧
    ((Parser.parseDescriptionBlock fs p separatorPos 2).1.m_makefile.block t).m_commands
      = (Parser.expandCommands p2.macroTable commands).1 ∧
    ((Parser.parseDescriptionBlock fs p separatorPos 2).1.m_makefile.block t).m_canAddCommands
      = AddCommandsState.ACSEnabled := by
  have hadv := (Parser.readCommands_spec p).2
  rw [h3] at hadv
  simp only at hadv
  have hex2 : p2.m_makefile.target t = some t := by rw [hadv.makefile]; exact hex
  have hok2 : ¬ ((if 2 > 1 then AddCommandsState.ACSEnabled
        else AddCommandsState.ACSDisabled) ≠ (p2.m_makefile.block t).m_canAddCommands ∧
      (p2.m_makefile.block t).m_canAddCommands ≠ AddCommandsState.ACSUnknown) := by
    rw [hadv.makefile, hmode]
    decide
  rw [Parser.parseDescriptionBlock_first fs p p2 separatorPos 2 target value commands h1 h2 h3,
    hsplit]
  unfold Parser.addTargets
  rw [Parser.addTarget_existing fs p2 2 _ commands t hex2 hok2, hexp]
  simp only [Parser.addTargets, Makefile.block_modify, if_true, and_self]
  decide

/-- The witness of C18: the target `all` has the command `cmd1` from a first
`all::`; after a second `all::` with the command `cmd2` its only command is
`cmd2`. -/
theorem parseDescriptionBlock_double_colon_witness :
    (Parser.parseDescriptionBlock noFiles
        (parserAtAll ["cmd1".toList] "all::".toList ["\tcmd2".toList]) 3 2).2 = none ∧
    ((Parser.parseDescriptionBlock noFiles
        (parserAtAll ["cmd1".toList] "all::".toList ["\tcmd2".toList]) 3 2).1.m_makefile.block
          "all".toList).m_commands = [{ m_commandLine := "cmd2".toList }] ∧
    ((Parser.parseDescriptionBlock noFiles
        (parserAtAll ["cmd1".toList] "all::".toList ["\tcmd2".toList]) 3 2).1.m_makefile.block
          "all".toList).m_canAddCommands = AddCommandsState.ACSEnabled :=
  have h := parseDescriptionBlock_double_colon noFiles
    (parserAtAll ["cmd1".toList] "all::".toList ["\tcmd2".toList])
    (parserAtAll ["cmd1".toList] "\tcmd2".toList [] |>.readLine) 3
    "all".toList [] "all".toList [{ m_commandLine := "cmd2".toList }]
    (by decide!) (by decide!) (by decide!) (by decide) (by decide) (by decide) (by decide!)
  ⟨h.1, h.2.1.trans (by decide!), h.2.2⟩

/-- The counterexample of C18: `all::` with the command `cmd1`, then `all::`
with the command `cmd2`.  The first block leaves the target `all` with the
command `cmd1` and the parser at the second `all::`, which is a description
block with the separator `::` at index 3; the second block leaves the target
with the command `cmd2` alone. -/
theorem parseDescriptionBlock_double_colon_twice :
    Parser.parseDescriptionBlock noFiles
        (parserAt "all::".toList ["\tcmd1".toList, "all::".toList, "\tcmd2".toList]) 3 2
      = (parserAtAll ["cmd1".toList] "all::".toList ["\tcmd2".toList], none) ∧
    Parser.isDescriptionBlock (parserAtAll ["cmd1".toList] "all::".toList ["\tcmd2".toList])
      = some (3, 2) ∧
    Parser.parseDescriptionBlock noFiles
        (parserAtAll ["cmd1".toList] "all::".toList ["\tcmd2".toList]) 3 2
      = ({ m_makefile := makefileAll ["cmd2".toList] }, none) := by
  refine ⟨?_, ?_, ?_⟩ <;> decide!

/-! ## Cycles of targets -/

theorem Makefile.target_mark (mf : Makefile) (k : QString) (v : Bool)
    (h : mf.target k = some k) (other : QString) :
    (mf.mark k v).target other = mf.target other :=
  Makefile.target_modify mf k _ h other

theorem Makefile.mark_mark (mf : Makefile) (k : QString) (h : mf.target k = some k)
    (hflag : (mf.block k).m_bVisitedByCycleCheck = false) :
    (mf.mark k true).mark k false = mf := by
  unfold Makefile.mark
  rw [Makefile.modify_modify]
  obtain ⟨b, hb⟩ := (Makefile.target_iff mf k).mp h
  have hblock : mf.block k = b := by simp only [Makefile.block, hb, Option.getD_some]
  rw [hblock] at hflag
  unfold Makefile.modify
  rw [hblock]
  have hb2 : ({ b with m_bVisitedByCycleCheck := false } : DescriptionBlock) = b := by
    cases b
    simp only at hflag
    simp only [hflag]
  simp only [hb2, StringMap.set_find _ _ _ hb]

theorem Makefile.dep_mark (mf : Makefile) (k : QString) (v : Bool) (h : mf.target k = some k) :
    (mf.mark k v).Dep = mf.Dep := by
  funext a b
  unfold Makefile.Dep Makefile.mark
  simp only [Makefile.target_modify mf k _ h, Makefile.block_modify]
  by_cases ha : a = k
  · simp only [ha, if_true]
  · simp only [ha, if_false]

theorem Makefile.flag_mark (mf : Makefile) (k : QString) (v : Bool) (other : QString) :
    ((mf.mark k v).block other).m_bVisitedByCycleCheck
      = if other = k then v else (mf.block other).m_bVisitedByCycleCheck := by
  unfold Makefile.mark
  rw [Makefile.block_modify]
  by_cases ho : other = k <;> simp only [ho, if_true, if_false]

theorem Makefile.unmarked_mark (mf : Makefile) (K : Finset QString) (k : QString)
    (hk : k ∈ K) (h : mf.target k = some k)
    (hflag : (mf.block k).m_bVisitedByCycleCheck = false) :
    ((mf.mark k true).unmarked K).card + 1 ≤ (mf.unmarked K).card := by
  have hmem : k ∈ mf.unmarked K := by
    simp only [Makefile.unmarked, Finset.mem_filter]
    exact ⟨hk, h, hflag⟩
  have heq : (mf.mark k true).unmarked K = (mf.unmarked K).erase k := by
    ext x
    simp only [Makefile.unmarked, Finset.mem_filter, Finset.mem_erase, Makefile.flag_mark,
      Makefile.target_mark mf k true h]
    by_cases hx : x = k
    · simp [hx]
    · simp [hx]
  rw [heq, Finset.card_erase_of_mem hmem]
  have := Finset.card_pos.mpr ⟨k, hmem⟩
  omega

/-- A block that is not marked leads to a marked block or to a cycle exactly
when one of its dependents does, once the block itself is marked. -/
theorem Makefile.bad_iff (mf : Makefile) (k : QString) (h : mf.target k = some k)
    (hflag : (mf.block k).m_bVisitedByCycleCheck = false) :
    mf.Bad k ↔ ∃ x ∈ (mf.block k).m_dependents,
      (mf.mark k true).target x = some x ∧ (mf.mark k true).Bad x := by
  have hdep := Makefile.dep_mark mf k true h
  have htar : ∀ x, (mf.mark k true).target x = mf.target x :=
    fun x => Makefile.target_mark mf k true h x
  constructor
  · rintro ⟨u, hpath, hu⟩
    rcases Relation.ReflTransGen.cases_head hpath with heq | ⟨y, hky, hyu⟩
    · subst heq
      rcases hu with hu | hu
      · rw [hflag] at hu; cases hu
      · obtain ⟨y, hky, hyk⟩ := Relation.TransGen.head'_iff.mp hu
        refine ⟨y, hky.2.1, by rw [htar]; exact hky.2.2, k, by rw [hdep]; exact hyk, Or.inl ?_⟩
        rw [Makefile.flag_mark]
        simp
    · refine ⟨y, hky.2.1, by rw [htar]; exact hky.2.2, u, by rw [hdep]; exact hyu, ?_⟩
      rcases hu with hu | hu
      · left
        rw [Makefile.flag_mark]
        split
        · rfl
        · exact hu
      · right
        rw [hdep]
        exact hu
  · rintro ⟨x, hx, hxt, u, hpath, hu⟩
    rw [htar] at hxt
    rw [hdep] at hpath
    have hkx : mf.Dep k x := ⟨h, hx, hxt⟩
    rcases hu with hu | hu
    · rw [Makefile.flag_mark] at hu
      by_cases huk : u = k
      · subst huk
        exact ⟨u, Relation.ReflTransGen.refl,
          Or.inr (Relation.TransGen.head'_iff.mpr ⟨x, hkx, hpath⟩)⟩
      · simp only [huk, if_false] at hu
        exact ⟨u, Relation.ReflTransGen.head hkx hpath, Or.inl hu⟩
    · rw [hdep] at hu
      exact ⟨u, Relation.ReflTransGen.head hkx hpath, Or.inr hu⟩

theorem checkForCyclesDepth_null (depth : Nat) (mf : Makefile) :
    checkForCyclesDepth depth mf none = .ok mf := by
  cases depth <;> rfl

/-- The loop over the dependents, given what the nested calls do. -/
theorem checkDependents_spec (check : Makefile → Option QString → Except Error Makefile)
    (mf : Makefile) (hnull : check mf none = .ok mf)
    (hcheck : ∀ x, mf.target x = some x →
      (mf.Bad x → IsTargetCycle (check mf (some x))) ∧ (¬ mf.Bad x → check mf (some x) = .ok mf)) :
    ∀ (deps : List QString),
      ((∃ x ∈ deps, mf.target x = some x ∧ mf.Bad x) → IsTargetCycle (checkDependents check deps mf)) ∧
      ((¬ ∃ x ∈ deps, mf.target x = some x ∧ mf.Bad x) → checkDependents check deps mf = .ok mf) := by
  intro deps
  induction deps with
  | nil =>
    exact ⟨fun ⟨x, hx, _⟩ => absurd hx (List.not_mem_nil _), fun _ => rfl⟩
  | cons d rest ih =>
    unfold checkDependents
    cases ht : mf.target d with
    | none =>
      simp only [hnull]
      constructor
      · rintro ⟨x, hx, hxt, hbad⟩
        rcases List.mem_cons.mp hx with hxd | hxr
        · subst hxd; rw [ht] at hxt; cases hxt
        · exact ih.1 ⟨x, hxr, hxt, hbad⟩
      · intro hno
        exact ih.2 (fun ⟨x, hx, hxt, hbad⟩ => hno ⟨x, List.mem_cons_of_mem _ hx, hxt, hbad⟩)
    | some d1 =>
      have hd := Makefile.target_eq_some _ _ _ ht
      subst hd
      obtain ⟨hc1, hc2⟩ := hcheck d1 ht
      by_cases hbadd : mf.Bad d1
      · obtain ⟨name, hname⟩ := hc1 hbadd
        simp only [hname]
        exact ⟨fun _ => ⟨name, rfl⟩, fun hno => absurd ⟨d1, List.mem_cons_self _ _, ht, hbadd⟩ hno⟩
      · simp only [hc2 hbadd]
        constructor
        · rintro ⟨x, hx, hxt, hbad⟩
          rcases List.mem_cons.mp hx with hxd | hxr
          · subst hxd; exact absurd hbad hbadd
          · exact ih.1 ⟨x, hxr, hxt, hbad⟩
        · intro hno
          exact ih.2 (fun ⟨x, hx, hxt, hbad⟩ => hno ⟨x, List.mem_cons_of_mem _ hx, hxt, hbad⟩)

/-- The cycle check of a block raises its exception exactly when a marked
block or a cycle can be reached; otherwise it returns with the marks as they
were.  The budget for nested calls is never used up. -/
theorem checkForCyclesDepth_spec (K : Finset QString) :
    ∀ (depth : Nat) (mf : Makefile) (k : QString),
      (∀ x, mf.target x = some x → x ∈ K) → mf.target k = some k →
      (mf.unmarked K).card + 1 ≤ depth →
      (mf.Bad k → IsTargetCycle (checkForCyclesDepth depth mf (some k))) ∧
      (¬ mf.Bad k → checkForCyclesDepth depth mf (some k) = .ok mf) := by
  intro depth
  induction depth with
  | zero => intro mf k _ _ h; omega
  | succ d ih =>
    intro mf k hK hk hcard
    unfold checkForCyclesDepth
    by_cases hflag : (mf.block k).m_bVisitedByCycleCheck = true
    · simp only [hflag, if_true]
      exact ⟨fun _ => ⟨_, rfl⟩,
        fun hno => absurd ⟨k, Relation.ReflTransGen.refl, Or.inl hflag⟩ hno⟩
    · have hflag2 : (mf.block k).m_bVisitedByCycleCheck = false := by
        cases hb : (mf.block k).m_bVisitedByCycleCheck
        · rfl
        · exact absurd hb hflag
      simp only [hflag2, Bool.false_eq_true, if_false]
      have hK1 : ∀ x, (mf.mark k true).target x = some x → x ∈ K := by
        intro x hx
        rw [Makefile.target_mark mf k true hk] at hx
        exact hK x hx
      have hcard1 : ((mf.mark k true).unmarked K).card + 1 ≤ d := by
        have := Makefile.unmarked_mark mf K k (hK k hk) hk hflag2
        omega
      have hloop := checkDependents_spec (checkForCyclesDepth d) (mf.mark k true)
        (checkForCyclesDepth_null d _)
        (fun x hx => ih (mf.mark k true) x hK1 hx hcard1) (mf.block k).m_dependents
      have hiff := Makefile.bad_iff mf k hk hflag2
      constructor
      · intro hbad
        obtain ⟨name, hname⟩ := hloop.1 (hiff.mp hbad)
        unfold Makefile.mark at hname
        rw [hname]
        exact ⟨name, rfl⟩
      · intro hno
        have h1 := hloop.2 (fun h => hno (hiff.mpr h))
        have h2 := Makefile.mark_mark mf k hk hflag2
        unfold Makefile.mark at h1 h2
        rw [h1]
        simp only [h2]

theorem Makefile.marksClear_of_all (mf : Makefile)
    (h : mf.m_targets.all (fun e => !e.2.m_bVisitedByCycleCheck) = true) : mf.MarksClear := by
  intro t
  unfold Makefile.block
  have hall : ∀ (m : StringMap DescriptionBlock),
      m.all (fun e => !e.2.m_bVisitedByCycleCheck) = true →
      ((StringMap.find m t).getD {}).m_bVisitedByCycleCheck = false := by
    intro m
    induction m with
    | nil => intro _; rfl
    | cons e rest ih =>
      intro hm
      obtain ⟨k, b⟩ := e
      simp only [List.all_cons, Bool.and_eq_true, Bool.not_eq_true'] at hm
      by_cases hk : k = t
      · simp only [StringMap.find, hk, if_true, Option.getD_some]
        exact hm.1
      · simp only [StringMap.find, hk, if_false]
        exact ih hm.2
  exact hall _ h

theorem Makefile.no_dep_of_no_target (mf : Makefile) (t u : QString) (h : mf.target t = none)
    (hpath : Relation.ReflTransGen mf.Dep t u) : ¬ Relation.TransGen mf.Dep u u := by
  intro hcyc
  rcases Relation.ReflTransGen.cases_head hpath with heq | ⟨y, hty, _⟩
  · subst heq
    obtain ⟨y, hty, _⟩ := Relation.TransGen.head'_iff.mp hcyc
    have h1 := hty.1
    rw [h] at h1
    cases h1
  · have h1 := hty.1
    rw [h] at h1
    cases h1

/-- C16: in a makefile in which no block carries the mark of the cycle check,
`checkForCycles` on the target `t` raises the exception "cycle in targets
detected" exactly when a block that lies on a cycle of the dependents relation
can be reached from `t`; dependents without a block are skipped.  When there
is no such block, the call returns, with the marks clear again, however many
paths lead to a block. -/
theorem checkForCycles_cycle (mf : Makefile) (t : QString) (hclear : mf.MarksClear) :
    (IsTargetCycle (checkForCycles mf (mf.target t)) ↔
      ∃ u, Relation.ReflTransGen mf.Dep t u ∧ Relation.TransGen mf.Dep u u) ∧
    ((¬ ∃ u, Relation.ReflTransGen mf.Dep t u ∧ Relation.TransGen mf.Dep u u) →
      checkForCycles mf (mf.target t) = .ok mf) := by
  unfold checkForCycles
  cases ht : mf.target t with
  | none =>
    rw [checkForCyclesDepth_null]
    refine ⟨⟨(fun ⟨name, h⟩ => by cases h), fun ⟨u, hpath, hcyc⟩ =>
      absurd hcyc (Makefile.no_dep_of_no_target mf t u ht hpath)⟩, fun _ => rfl⟩
  | some d =>
    have hd := Makefile.target_eq_some _ _ _ ht
    subst hd
    have hK : ∀ x, mf.target x = some x → x ∈ (mf.m_targets.map Prod.fst).toFinset := by
      intro x hx
      by_contra hmem
      obtain ⟨b, hb⟩ := (Makefile.target_iff mf x).mp hx
      rw [StringMap.find_eq_none _ _ (fun h => hmem (List.mem_toFinset.mpr h))] at hb
      cases hb
    have hcard : (mf.unmarked (mf.m_targets.map Prod.fst).toFinset).card + 1
        ≤ mf.m_targets.length + 1 := by
      have h1 : (mf.unmarked (mf.m_targets.map Prod.fst).toFinset).card
          ≤ (mf.m_targets.map Prod.fst).toFinset.card := Finset.card_filter_le _ _
      have h2 := List.toFinset_card_le (mf.m_targets.map Prod.fst)
      simp only [List.length_map] at h2
      omega
    obtain ⟨h1, h2⟩ := checkForCyclesDepth_spec _ (mf.m_targets.length + 1) mf d hK ht hcard
    have hbad : mf.Bad d ↔ ∃ u, Relation.ReflTransGen mf.Dep d u ∧ Relation.TransGen mf.Dep u u := by
      constructor
      · rintro ⟨u, hpath, hu | hu⟩
        · rw [hclear u] at hu; cases hu
        · exact ⟨u, hpath, hu⟩
      · rintro ⟨u, hpath, hu⟩
        exact ⟨u, hpath, Or.inr hu⟩
    refine ⟨⟨fun hcyc => ?_, fun h => h1 (hbad.mpr h)⟩, fun hno => h2 (fun h => hno (hbad.mp h))⟩
    by_contra hno
    obtain ⟨name, hname⟩ := hcyc
    rw [h2 (fun h => hno (hbad.mp h))] at hname
    cases hname

/-- The witness of C16: `all: a` and `a: all` raise the exception for `all`;
the diamond `all: a b x`, `a: c`, `b: c` returns, and has no cycle. -/
theorem checkForCycles_cycle_witness :
    makefileCycle.MarksClear ∧
    IsTargetCycle (checkForCycles makefileCycle (makefileCycle.target "all".toList)) ∧
    checkForCycles makefileCycle (makefileCycle.target "all".toList)
      = .error (.exception "cycle in targets detected: all".toList) ∧
    makefileDiamond.MarksClear ∧
    checkForCycles makefileDiamond (makefileDiamond.target "all".toList) = .ok makefileDiamond ∧
    ¬ ∃ u, Relation.ReflTransGen makefileDiamond.Dep "all".toList u ∧
      Relation.TransGen makefileDiamond.Dep u u :=
  have hc : makefileCycle.MarksClear := Makefile.marksClear_of_all _ (by decide)
  have hd : makefileDiamond.MarksClear := Makefile.marksClear_of_all _ (by decide)
  have hok : checkForCycles makefileDiamond (makefileDiamond.target "all".toList)
      = .ok makefileDiamond := by decide!
  ⟨hc,
   (checkForCycles_cycle makefileCycle "all".toList hc).1.mpr
     ⟨"all".toList, Relation.ReflTransGen.refl,
       Relation.TransGen.head (b := "a".toList) ⟨by decide, by decide, by decide⟩
         (Relation.TransGen.single ⟨by decide, by decide, by decide⟩)⟩,
   by decide!, hd, hok,
   fun h => by
     obtain ⟨name, hname⟩ := (checkForCycles_cycle makefileDiamond "all".toList hd).1.mpr h
     rw [hok] at hname
     cases hname⟩

/-! ## Substitution statements with quote characters -/

theorem parseSubstitutionScan_decomp (rest : QString) :
    ∀ (i : Nat) (eq0 : Option Nat) (quoted : Bool) (qp0 : List Nat) (eq1 : Option Nat)
      (e : Nat) (qp1 : List Nat),
      parseSubstitutionScan rest i eq0 quoted qp0 = (eq1, some e, qp1) →
      ∃ body post, rest = body ++ ')' :: post ∧ e = i + body.length ∧
        qp1 = qp0 ++ caretPositions body i ∧ eq1 = lastEquals body i eq0 ∧
        parensQuoted quoted body = true ∧ endsQuoted quoted body = false := by
  induction rest with
  | nil => intro i eq0 quoted qp0 eq1 e qp1 h; simp [parseSubstitutionScan] at h
  | cons ch rest ih =>
    intro i eq0 quoted qp0 eq1 e qp1 h
    unfold parseSubstitutionScan at h
    by_cases h1 : ch = '='
    · subst h1
      simp only [if_true] at h
      obtain ⟨body, post, hr, he, hq, heq, hp, hend⟩ := ih _ _ _ _ _ _ _ h
      refine ⟨'=' :: body, post, by rw [hr]; rfl, by simp only [List.length_cons]; omega, ?_, ?_,
        ?_, ?_⟩
      · simp only [caretPositions, show ('=' : Char) ≠ '^' by decide, if_false]
        exact hq
      · simp only [lastEquals, if_true]
        exact heq
      · simp only [parensQuoted, show (('=' : Char) != ')') = true by decide, Bool.true_or,
          Bool.true_and, show (('=' : Char) == '^') = false by decide]
        exact hp
      · simp only [endsQuoted, show (('=' : Char) == '^') = false by decide]
        exact hend
    · simp only [h1, if_false] at h
      by_cases h2 : ch = ')' ∧ quoted = false
      · simp only [h2, and_self, if_true, Prod.mk.injEq, Option.some.injEq] at h
        obtain ⟨h21, h22⟩ := h2
        subst h21
        refine ⟨[], rest, rfl, by simp only [List.length_nil]; omega, ?_, ?_, rfl, h22⟩
        · simp only [caretPositions, List.append_nil]
          exact h.2.2.symm
        · simp only [lastEquals]
          exact h.1.symm
      · simp only [h2, if_false] at h
        by_cases h3 : ch = '^'
        · subst h3
          simp only [if_true] at h
          obtain ⟨body, post, hr, he, hq, heq, hp, hend⟩ := ih _ _ _ _ _ _ _ h
          refine ⟨'^' :: body, post, by rw [hr]; rfl, by simp only [List.length_cons]; omega,
            ?_, ?_, ?_, ?_⟩
          · simp only [caretPositions, if_true]
            rw [hq]
            simp
          · simp only [lastEquals, show ('^' : Char) ≠ '=' by decide, if_false]
            exact heq
          · simp only [parensQuoted, show (('^' : Char) != ')') = true by decide, Bool.true_or,
              Bool.true_and, show (('^' : Char) == '^') = true by decide]
            exact hp
          · simp only [endsQuoted, show (('^' : Char) == '^') = true by decide]
            exact hend
        · simp only [h3, if_false] at h
          obtain ⟨body, post, hr, he, hq, heq, hp, hend⟩ := ih _ _ _ _ _ _ _ h
          have hcq : (ch == '^') = false := by simpa using h3
          have hpq : (ch != ')' || quoted) = true := by
            by_cases hc : ch = ')'
            · have hqd : quoted = true := by
                cases quoted
                · exact absurd ⟨hc, rfl⟩ h2
                · rfl
              simp [hqd]
            · simp [hc]
          refine ⟨ch :: body, post, by rw [hr]; rfl, by simp only [List.length_cons]; omega,
            ?_, ?_, ?_, ?_⟩
          · simp only [caretPositions, h3, if_false]
            exact hq
          · simp only [lastEquals, h1, if_false]
            exact heq
          · simp only [parensQuoted, hpq, hcq, Bool.true_and]
            exact hp
          · simp only [endsQuoted, hcq]
            exact hend

theorem lastEquals_decomp (body : QString) :
    ∀ (i : Nat) (eq0 : Option Nat) (eq : Nat), lastEquals body i eq0 = some eq →
      (eq0 = some eq ∧ '=' ∉ body) ∨
      ∃ before raw, body = before ++ '=' :: raw ∧ eq = i + before.length ∧ '=' ∉ raw := by
  induction body with
  | nil =>
    intro i eq0 eq h
    exact Or.inl ⟨h, List.not_mem_nil _⟩
  | cons c t ih =>
    intro i eq0 eq h
    unfold lastEquals at h
    rcases ih _ _ _ h with ⟨h1, h2⟩ | ⟨before, raw, h1, h2, h3⟩
    · by_cases hc : c = '='
      · simp only [hc, if_true, Option.some.injEq] at h1
        exact Or.inr ⟨[], t, by rw [hc]; rfl, by simp only [List.length_nil]; omega, h2⟩
      · simp only [hc, if_false] at h1
        refine Or.inl ⟨h1, ?_⟩
        intro hm
        rcases List.mem_cons.mp hm with hm | hm
        · exact hc hm.symm
        · exact h2 hm
    · exact Or.inr ⟨c :: before, raw, by rw [h1]; rfl,
        by simp only [List.length_cons]; omega, h3⟩

theorem caretPositions_append (a b : QString) :
    ∀ i, caretPositions (a ++ b) i = caretPositions a i ++ caretPositions b (i + a.length) := by
  induction a with
  | nil => intro i; rfl
  | cons c t ih =>
    intro i
    have e : i + 1 + t.length = i + (c :: t).length := by simp only [List.length_cons]; omega
    by_cases hc : c = '^'
    · simp only [List.cons_append, caretPositions, hc, if_true, ih, List.append_eq, e]
    · simp only [List.cons_append, caretPositions, hc, if_false, ih, List.append_eq, e]

theorem caretPositions_none (a : QString) (h : '^' ∉ a) : ∀ i, caretPositions a i = [] := by
  induction a with
  | nil => intro i; rfl
  | cons c t ih =>
    intro i
    have hc : c ≠ '^' := fun h1 => h (h1 ▸ List.mem_cons_self _ _)
    simp only [caretPositions, hc, if_false]
    exact ih (fun h1 => h (List.mem_cons_of_mem _ h1)) _

theorem remove_at (pre rest : QString) (c : Char) :
    QString.remove (pre ++ c :: rest) (pre.length : Int) 1 = pre ++ rest := by
  unfold QString.remove
  have h0 : ¬ ((pre.length : Int) < 0) := by omega
  have h1 : ¬ ((((pre ++ c :: rest).length : Nat) : Int) ≤ (pre.length : Int)) := by
    simp only [List.length_append, List.length_cons]
    push_cast
    omega
  simp only [h0, if_false, h1, or_self, Int.toNat_ofNat]
  have htake : (pre ++ c :: rest).take pre.length = pre := List.take_left' rfl
  by_cases hr : rest = []
  · subst hr
    simp [htake]
  · have hlen : ¬ ((((pre ++ c :: rest).length : Nat) : Int) - (pre.length : Int) ≤ 1) := by
      have : 0 < rest.length := List.length_pos.mpr hr
      simp only [List.length_append, List.length_cons]
      push_cast
      omega
    have hdrop : (pre ++ c :: rest).drop (pre.length + 1) = rest := by
      have h := @List.drop_left' Char (pre ++ [c]) rest (pre.length + 1) (by simp)
      simp only [List.append_assoc, List.singleton_append] at h
      exact h
    simp only [hlen, if_false, show ((0 : Int) < 1) by decide, if_true, htake,
      show (1 : Int).toNat = 1 by rfl, hdrop]

/-- The removal loop of `parseSubstitutionStatement` over the quote positions
of the after part takes the characters `^` out of it, and nothing else. -/
theorem removeQuotes_filter (eq : Nat) (raw : QString) :
    ∀ (pre : QString),
      (caretPositions raw (eq + 1 + pre.length)).foldr
          (fun (q : Nat) (after : QString) =>
            QString.remove after ((q : Int) - (eq : Int) - 1) 1) (pre ++ raw)
        = pre ++ raw.filter (fun c => !decide (c = '^')) := by
  induction raw with
  | nil => intro pre; rfl
  | cons c t ih =>
    intro pre
    have hih := ih (pre ++ [c])
    simp only [List.length_append, List.length_singleton, List.append_assoc,
      List.singleton_append] at hih
    have e : eq + 1 + (pre.length + 1) = eq + 1 + pre.length + 1 := by omega
    rw [e] at hih
    by_cases hc : c = '^'
    · subst hc
      simp only [caretPositions, if_true, List.foldr_cons, hih]
      have hidx : ((eq + 1 + pre.length : Nat) : Int) - (eq : Int) - 1 = (pre.length : Int) := by
        push_cast
        omega
      rw [hidx, remove_at]
      simp
    · simp only [caretPositions, hc, if_false, hih]
      simp [hc]

/-- What `parseSubstitutionStatement` accepts, and what it returns.  The text
from `substitutionStartIdx` on is `before=raw)…`, where `raw` has no `=`,
every `)` of `before=raw` has a `^` right before it and `before=raw` does not
end with `^`: the statement ends at the first `)` that has no `^` right
before it, and the last `=` up to there separates.  The before part is
returned as it is.  When the before part has no `^`, the after part is `raw`
without its characters `^`. -/
theorem parseSubstitutionStatement_spec (str : QString) (start : Nat) (s : Substitution)
    (e : Nat) (h : parseSubstitutionStatement str start = .ok (s, e)) :
    ∃ before raw post, str.drop start = before ++ '=' :: (raw ++ ')' :: post) ∧
      e = start + before.length + 1 + raw.length ∧ s.before = before ∧ '=' ∉ raw ∧
      parensQuoted false (before ++ '=' :: raw) = true ∧
      endsQuoted false (before ++ '=' :: raw) = false ∧
      ('^' ∉ before → s.after = raw.filter fun c => !decide (c = '^')) := by
  unfold parseSubstitutionStatement at h
  split at h
  · next eq e1 qp hscan =>
    simp only [Except.ok.injEq, Prod.mk.injEq] at h
    obtain ⟨hs, he⟩ := h
    subst he
    obtain ⟨body, post, hr, he1, hq, heq, hp, hend⟩ :=
      parseSubstitutionScan_decomp _ _ _ _ _ _ _ _ hscan
    rcases lastEquals_decomp body start none eq heq.symm with ⟨h1, _⟩ | ⟨before, raw, hb, heqi, hraw⟩
    · cases h1
    · subst hb
      refine ⟨before, raw, post, by rw [hr]; simp, ?_, ?_, hraw, hp, hend, ?_⟩
      · rw [he1]
        simp only [List.length_append, List.length_cons]
        omega
      · rw [← hs]
        simp only [QString.mid, hr, heqi, Nat.add_sub_cancel_left]
        rw [List.append_assoc]
        exact List.take_left' rfl
      · intro hcaret
        have hmid : QString.mid str (eq + 1) (e1 - eq - 1) = raw := by
          unfold QString.mid
          have hdd : str.drop (eq + 1) = (str.drop start).drop (before.length + 1) := by
            rw [List.drop_drop]
            congr 1
            omega
          rw [hdd, hr]
          have hd2 : (before ++ '=' :: raw ++ ')' :: post).drop (before.length + 1)
              = raw ++ ')' :: post := by
            have h := @List.drop_left' Char (before ++ ['=']) (raw ++ ')' :: post)
              (before.length + 1) (by simp)
            simp only [List.append_assoc, List.singleton_append] at h
            simp only [List.append_assoc, List.cons_append]
            exact h
          rw [hd2]
          have hlen : e1 - eq - 1 = raw.length := by
            rw [he1, heqi]
            simp only [List.length_append, List.length_cons]
            omega
          rw [hlen]
          exact List.take_left' rfl
        have hqp : qp = caretPositions raw (eq + 1 + ([] : QString).length) := by
          rw [hq, caretPositions_append, caretPositions_none before hcaret]
          simp only [List.nil_append, caretPositions, show ('=' : Char) ≠ '^' by decide,
            if_false, List.length_nil, heqi, Nat.add_zero]
        rw [← hs]
        simp only [hmid]
        rw [hqp]
        have := removeQuotes_filter eq raw []
        simpa using this
  · cases h

/-! ## Sibling invocations of one macro -/

theorem expandStep_at_invocation (mt : MacroTable) (inDependentsLine : Bool)
    (recur : QString → Finset QString → Expansion) (str : QString) (st : LoopState)
    (hnone : st.appendStart = none) (h1 : QString.charAt str st.i = '$')
    (h2 : st.i + 1 < str.length) (h3 : QString.charAt str (st.i + 1) = '(') :
    expandStep mt inDependentsLine recur str st =
      match expandInvocation mt recur str (st.i + 1) st.ret st.usedMacros with
      | .error e => .error e
      | .ok (i, ret, usedMacros) =>
        .ok { st with i := i, ret := ret, appendStart := none, usedMacros := usedMacros } := by
  unfold expandStep
  simp only [h1, h2, and_self, if_true, hnone, h3]

theorem expandBody_siblings (mt : MacroTable) (inDependentsLine : Bool)
    (recur : QString → Finset QString → Expansion) (A e : QString) (hA : IsInvocableName A)
    (hrec : recur (macroValue mt A) {A} = .ok (e, {A})) :
    expandBody mt inDependentsLine recur
        ('$' :: '(' :: (A ++ ')' :: '$' :: '(' :: (A ++ ')' :: []))) ∅
      = .ok (e ++ e, ∅) := by
  have hreach := expandLoop_reach_invocation mt inDependentsLine recur []
    (A ++ ')' :: '$' :: '(' :: (A ++ ')' :: [])) (List.not_mem_nil _) ∅
  have hinv := expandInvocation_plain mt recur ['$', '('] A ('$' :: '(' :: (A ++ ')' :: [])) hA 1
    rfl [] ∅
  have hinv2 := expandInvocation_plain mt recur ('$' :: '(' :: (A ++ ')' :: '$' :: '(' :: [])) A []
    hA (A.length + 4) (by simp) e ∅
  simp only [List.nil_append, List.length_nil, Nat.zero_add] at hreach
  simp only [List.cons_append, List.nil_append] at hinv
  simp only [List.cons_append, List.nil_append, List.append_assoc] at hinv2
  have hcyc : cycleCheckedMacroValue mt A ∅ = .ok (macroValue mt A, {A}) := by
    simp [cycleCheckedMacroValue]
  rw [hcyc] at hinv hinv2
  simp only [hrec, Finset.erase_singleton] at hinv hinv2
  set str : QString := '$' :: '(' :: (A ++ ')' :: '$' :: '(' :: (A ++ ')' :: [])) with hstr
  have hlen : str.length = 2 * A.length + 6 := by
    simp only [hstr, List.length_cons, List.length_append, List.length_nil]; omega
  have hc1 : QString.charAt str (A.length + 3) = '$' := by
    have := charAt_append_cons ('$' :: '(' :: (A ++ [')'])) '$' ('(' :: (A ++ ')' :: []))
    simp only [List.cons_append, List.append_assoc, List.length_cons, List.length_append,
      List.length_nil, List.nil_append] at this
    exact this
  have hc2 : QString.charAt str (A.length + 3 + 1) = '(' := by
    have := charAt_append_cons_cons ('$' :: '(' :: (A ++ [')'])) '$' '(' (A ++ ')' :: [])
    simp only [List.cons_append, List.append_assoc, List.length_cons, List.length_append,
      List.length_nil, List.nil_append] at this
    exact this
  unfold expandBody
  rw [hreach, hinv]
  simp only [List.length_cons, List.length_append, List.length_nil, Nat.zero_add]
  have hfuel : A.length + (A.length + 0 + 1 + 1 + 1 + 1) + 1 = (2 * A.length + 4) + 1 := by omega
  rw [hfuel]
  unfold expandLoop
  have hlt : 2 + A.length + 1 < str.length := by omega
  have hi : 2 + A.length + 1 = A.length + 3 := by omega
  simp only [hlt, if_true]
  rw [expandStep_at_invocation mt inDependentsLine recur str _ rfl (by simpa [hi] using hc1)
    (by simp only [hi]; omega) (by simpa [hi] using hc2)]
  simp only [hi]
  rw [hinv2]
  simp only [List.length_cons, List.length_append, List.length_nil]
  rw [expandLoop_done]
  simp only [hlen, not_lt]
  omega

theorem expandMacros_siblings (mt : MacroTable) (inDependentsLine : Bool) (A e : QString)
    (hA : isMacroNameValid A = true)
    (hval : expandMacros mt (macroValue mt A) inDependentsLine = .ok e) :
    expandMacros mt ("$(".toList ++ A ++ ")$(".toList ++ A ++ ")".toList) inDependentsLine
      = .ok (e ++ e) := by
  have hrec := expandMacrosDepth_value mt inDependentsLine A e hval
  have hbody := expandBody_siblings mt inDependentsLine
    (expandMacrosDepth mt inDependentsLine (definedCount mt)) A e (isInvocableName_of_valid A hA)
    hrec
  rw [expandMacros_of_body]
  have hs : "$(".toList ++ A ++ ")$(".toList ++ A ++ ")".toList
      = '$' :: '(' :: (A ++ ')' :: '$' :: '(' :: (A ++ ')' :: [])) := by
    simp
  rw [hs, hbody]

/-- C24: the three-argument `expandMacros` restores the set of macros in
progress: a call that returns leaves in `usedMacros` exactly the names it found
there, whatever the nesting budget, and with a budget above the number of
defined macros that are not in progress the call returns with that set or
throws.  Hence two invocations of one macro side by side are legal: for a
macro `A` whose value `v` has no `$`, `$(A)$(A)` expands to `v ++ v`, and for
a macro whose value expands to `e`, to `e ++ e`. -/
theorem expandMacros_restores_usedMacros (mt : MacroTable) (inDependentsLine : Bool) :
    (∀ (depth : Nat) (str : QString) (usedMacros : Finset QString) (r : QString)
        (W : Finset QString),
      expandMacrosDepth mt inDependentsLine depth str usedMacros = .ok (r, W) →
        W = usedMacros) ∧
    (∀ (depth : Nat) (str : QString) (usedMacros : Finset QString),
      freeCount mt usedMacros + 1 ≤ depth →
        (∃ r, expandMacrosDepth mt inDependentsLine depth str usedMacros = .ok (r, usedMacros)) ∨
        (∃ msg, expandMacrosDepth mt inDependentsLine depth str usedMacros
          = .error (.exception msg))) ∧
    (∀ A : QString, isMacroNameValid A = true → '$' ∉ macroValue mt A →
      expandMacros mt ("$(".toList ++ A ++ ")$(".toList ++ A ++ ")".toList) inDependentsLine
        = .ok (macroValue mt A ++ macroValue mt A)) ∧
    (∀ A e : QString, isMacroNameValid A = true →
      expandMacros mt (macroValue mt A) inDependentsLine = .ok e →
      expandMacros mt ("$(".toList ++ A ++ ")$(".toList ++ A ++ ")".toList) inDependentsLine
        = .ok (e ++ e)) :=
  ⟨expandMacrosDepth_restores mt inDependentsLine,
    fun depth str U h => (expandMacrosDepth_succ mt inDependentsLine depth U str h).2,
    fun A hA hv => expandMacros_siblings mt inDependentsLine A _ hA
      (expandMacros_plain mt inDependentsLine _ hv),
    fun A e hA hval => expandMacros_siblings mt inDependentsLine A e hA hval⟩

theorem expandMacros_restores_usedMacros_witness :
    expandMacrosDepth tableXY false 3 "$(Y)".toList ∅ = .ok ("xaaay".toList, ∅) ∧
    freeCount tableXY {"X".toList} + 1 ≤ 2 ∧
    ((∃ r, expandMacrosDepth tableXY false 2 "$(Y)".toList {"X".toList}
        = .ok (r, {"X".toList})) ∨
      (∃ msg, expandMacrosDepth tableXY false 2 "$(Y)".toList {"X".toList}
        = .error (.exception msg))) ∧
    isMacroNameValid "X".toList = true ∧ '$' ∉ macroValue tableXY "X".toList ∧
    expandMacros tableXY "$(X)$(X)".toList false = .ok "aaaaaa".toList ∧
    expandMacros tableXY (macroValue tableXY "Y".toList) false = .ok "xaaay".toList ∧
    expandMacros tableXY "$(Y)$(Y)".toList false = .ok "xaaayxaaay".toList :=
  have h := expandMacros_restores_usedMacros tableXY false
  have h0 : ∃ W, expandMacrosDepth tableXY false 3 "$(Y)".toList ∅
      = .ok ("xaaay".toList, W) := ⟨∅, by decide!⟩
  have hY : expandMacros tableXY (macroValue tableXY "Y".toList) false = .ok "xaaay".toList := by
    decide!
  ⟨by obtain ⟨W, hW⟩ := h0; rw [hW, h.1 _ _ _ _ _ hW],
    by decide, h.2.1 2 "$(Y)".toList {"X".toList} (by decide),
    by decide, by decide, h.2.2.1 "X".toList (by decide) (by decide), hY,
    h.2.2.2 "Y".toList _ (by decide) hY⟩

/-! ## The suffix list gates the preselection -/

theorem InferenceRule.equals_comm (a b : InferenceRule) : a.equals b = b.equals a := by
  unfold InferenceRule.equals
  simp only [eq_comm]

theorem InferenceRule.equals_trans (a b c : InferenceRule) (h1 : a.equals b = true)
    (h2 : b.equals c = true) : a.equals c = true := by
  unfold InferenceRule.equals at *
  simp only [Bool.and_eq_true, decide_eq_true_eq] at *
  obtain ⟨⟨⟨e1, e2⟩, e3⟩, e4⟩ := h1
  obtain ⟨⟨⟨f1, f2⟩, f3⟩, f4⟩ := h2
  exact ⟨⟨⟨e1.trans f1, e2.trans f2⟩, e3.trans f3⟩, e4.trans f4⟩

theorem InferenceRule.equals_commands (rule : InferenceRule) (commands : List Command)
    (r : InferenceRule) :
    r.equals { rule with m_commands := commands } = r.equals rule := rfl

theorem Parser.replaceRule_spec (rule : InferenceRule) :
    ∀ rules : List InferenceRule, RulesDistinct rules →
      Parser.replaceRule rules rule = (rules.filter fun r => !r.equals rule) ++ [rule] := by
  intro rules
  induction rules with
  | nil => intro _; rfl
  | cons x xs ih =>
    intro hd
    obtain ⟨hx, hxs⟩ := List.pairwise_cons.mp hd
    have ih1 := ih hxs
    unfold Parser.replaceRule at ih1 ⊢
    rw [List.findIdx?_cons]
    by_cases hp : x.equals rule = true
    · have hnone : ∀ r ∈ xs, (!r.equals rule) = true := by
        intro r hr
        cases hreq : r.equals rule with
        | false => rfl
        | true =>
          have := InferenceRule.equals_trans x rule r hp (by rw [InferenceRule.equals_comm]; exact hreq)
          rw [hx r hr] at this
          cases this
      simp only [hp, if_true, List.eraseIdx_cons_zero, List.filter_cons, Bool.not_true,
        Bool.false_eq_true, if_false]
      rw [List.filter_eq_self.mpr hnone]
    · simp only [hp, Bool.false_eq_true, if_false, List.filter_cons, Bool.not_eq_true] at ih1 ⊢
      simp only [Bool.not_eq_true] at hp
      cases hf : List.findIdx? (fun r => r.equals rule) xs with
      | none =>
        rw [hf] at ih1
        rw [List.findIdx?_succ, hf]
        simp only [Option.map_none', hp, Bool.not_false, if_true, List.cons_append] at ih1 ⊢
        rw [← ih1]
      | some i =>
        rw [hf] at ih1
        rw [List.findIdx?_succ, hf]
        simp only [Option.map_some', List.eraseIdx_cons_succ, hp, Bool.not_false, if_true,
          List.cons_append] at ih1 ⊢
        rw [← ih1]

theorem rulesDistinct_replace (rule : InferenceRule) (rules : List InferenceRule)
    (h : RulesDistinct rules) :
    RulesDistinct ((rules.filter fun r => !r.equals rule) ++ [rule]) := by
  unfold RulesDistinct at *
  rw [List.pairwise_append]
  refine ⟨h.filter _, List.pairwise_singleton _ _, ?_⟩
  intro a ha b hb
  rw [List.mem_singleton] at hb
  subst hb
  have := (List.mem_filter.mp ha).2
  simpa using this

/-! ## The two expansions of a command line -/

theorem Parser.parseCommandPrefix_commandLine (cmd : Command) :
    (Parser.parseCommandPrefix cmd).m_commandLine = stripCommandPrefix cmd.m_commandLine := by
  have hright : ∀ s : QString, s ≠ [] → QString.right s (s.length - 1) = s.drop 1 := by
    intro s hs
    cases s with
    | nil => exact absurd rfl hs
    | cons c t => simp [QString.right]
  unfold Parser.parseCommandPrefix stripCommandPrefix
  cases h1 : QString.startsWithChar cmd.m_commandLine '-' with
  | true =>
    have hne : cmd.m_commandLine ≠ [] := by
      intro h; rw [h] at h1; cases h1
    simp only [if_true, true_or, hright _ hne]
  | false =>
    cases h2 : QString.startsWithChar cmd.m_commandLine '@' with
    | true =>
      have hne : cmd.m_commandLine ≠ [] := by
        intro h; rw [h] at h2; cases h2
      simp only [Bool.false_eq_true, if_true, if_false, or_true, hright _ hne]
    | false => simp only [Bool.false_eq_true, if_false, or_self]

theorem Parser.expandCommands_all (mt : MacroTable) :
    ∀ (commands : List Command) (ss : List QString),
      List.Forall₂ (fun (c : Command) (s : QString) =>
        expandMacros mt c.m_commandLine false = .ok s) commands ss →
      (Parser.expandCommands mt commands).2 = none ∧
        (Parser.expandCommands mt commands).1.map (·.m_commandLine) = ss := by
  intro commands ss h
  induction h with
  | nil => exact ⟨rfl, rfl⟩
  | cons h0 _ ih =>
    unfold Parser.expandCommands
    simp only [h0, ih.1, List.map_cons, ih.2, and_self]

theorem Parser.addTarget_new (fs : FileSystem) (p : Parser) (separatorLength : Nat)
    (dependents : List QString) (commands : List Command) (t : QString)
    (hnew : p.m_makefile.target t = none) :
    (Parser.addTarget fs p separatorLength dependents commands t).2
        = (Parser.expandCommands p.macroTable commands).2 ∧
      ((Parser.addTarget fs p separatorLength dependents commands t).1.m_makefile.block
        t).m_commands = (Parser.expandCommands p.macroTable commands).1 ∧
      (Parser.addTarget fs p separatorLength dependents commands t).1.m_makefile.target t
        = some t := by
  have htarget : ∀ (mf : Makefile) (b : DescriptionBlock), b.m_target = t →
      (mf.append b).target t = some t := by
    intro mf b hb
    rw [Makefile.target_iff]
    exact ⟨b, by simp only [Makefile.append, hb, StringMap.find_set_self]⟩
  refine ⟨?_, ?_, ?_⟩
  · unfold Parser.addTarget
    simp only [hnew, Parser.createTarget, AddCommandsState.toBool, if_true,
      Makefile.modify_modify, Makefile.block_modify, Parser.macroTable]
  · unfold Parser.addTarget
    simp only [hnew, Parser.createTarget, AddCommandsState.toBool, if_true,
      Makefile.modify_modify, Makefile.block_modify, Parser.macroTable]
  · unfold Parser.addTarget
    simp only [hnew, Parser.createTarget, AddCommandsState.toBool, if_true,
      Makefile.modify_modify, Makefile.block_modify, Parser.macroTable]
    rw [Makefile.target_modify _ _ _ (htarget _ _ rfl)]
    exact htarget _ _ rfl

theorem Parser.addTarget_preprocessor (fs : FileSystem) (p : Parser) (separatorLength : Nat)
    (dependents : List QString) (commands : List Command) (t : QString) :
    (Parser.addTarget fs p separatorLength dependents commands t).1.m_preprocessor
      = p.m_preprocessor := by
  cases hex : p.m_makefile.target t with
  | some d =>
    have hd := Makefile.target_eq_some _ _ _ hex
    subst hd
    by_cases hbad : (if separatorLength > 1 then AddCommandsState.ACSEnabled
          else AddCommandsState.ACSDisabled) ≠ (p.m_makefile.block d).m_canAddCommands ∧
        (p.m_makefile.block d).m_canAddCommands ≠ AddCommandsState.ACSUnknown
    · rw [Parser.addTarget_conflict fs p separatorLength dependents commands d hex hbad]
    · rw [Parser.addTarget_existing fs p separatorLength dependents commands d hex hbad]
  | none =>
    unfold Parser.addTarget
    simp only [hex, Parser.createTarget]

theorem Parser.addTargets_preprocessor (fs : FileSystem) (separatorLength : Nat)
    (dependents : List QString) (commands : List Command) :
    ∀ (targets : List QString) (p : Parser),
      (Parser.addTargets fs separatorLength dependents commands targets p).1.m_preprocessor
        = p.m_preprocessor := by
  intro targets
  induction targets with
  | nil => intro p; rfl
  | cons t rest ih =>
    intro p
    have h1 := Parser.addTarget_preprocessor fs p separatorLength dependents commands t
    unfold Parser.addTargets
    rcases hr : Parser.addTarget fs p separatorLength dependents commands t with ⟨p1, e⟩
    rw [hr] at h1
    simp only at h1
    cases e with
    | some e => exact h1
    | none => exact (ih p1).trans h1
/-! ## Time stamps: what a call leaves alone -/

theorem TimeStampState.Grown.grown_refl (X : Finset QString) (s : TimeStampState) :
    TimeStampState.Grown X s s :=
  ⟨fun _ => rfl, fun _ => rfl, fun _ h => h, fun _ _ _ => rfl, le_refl _⟩

theorem TimeStampState.Grown.grown_trans {X : Finset QString} {s s1 s2 : TimeStampState}
    (h1 : TimeStampState.Grown X s s1) (h2 : TimeStampState.Grown X s1 s2) :
    TimeStampState.Grown X s s2 := by
  refine ⟨fun k => (h2.target k).trans (h1.target k), fun k => ?_, fun k h => h2.valid k (h1.valid k h),
    fun k hk h => (h2.keep k hk (h1.valid k h)).trans (h1.keep k hk h),
    le_trans h1.clock h2.clock⟩
  rw [h2.only k, h1.only k]

theorem TimeStampState.Grown.mono {X Y : Finset QString} {s s1 : TimeStampState}
    (h : TimeStampState.Grown X s s1) (hXY : X ⊆ Y) : TimeStampState.Grown Y s s1 :=
  ⟨h.target, h.only, h.valid, fun k hk hv => h.keep k (fun hx => hk (hXY hx)) hv, h.clock⟩

theorem TimeStampState.Grown.dependents {X : Finset QString} {s s1 : TimeStampState}
    (h : TimeStampState.Grown X s s1) (k : QString) :
    (s1.makefile.block k).m_dependents = (s.makefile.block k).m_dependents := by
  rw [h.only k]

theorem TimeStampState.Grown.dep {X : Finset QString} {s s1 : TimeStampState}
    (h : TimeStampState.Grown X s s1) : s1.makefile.Dep = s.makefile.Dep := by
  funext a b
  unfold Makefile.Dep
  rw [h.target a, h.target b, h.dependents a]

theorem Makefile.timeStamp_stamp (mf : Makefile) (k : QString) (v : Option Nat) (other : QString) :
    (mf.stamp k v).timeStamp other = if other = k then v else mf.timeStamp other := by
  unfold Makefile.stamp Makefile.timeStamp
  rw [Makefile.block_modify]
  by_cases ho : other = k <;> simp only [ho, if_true, if_false]

theorem Makefile.target_stamp (mf : Makefile) (k : QString) (v : Option Nat)
    (h : mf.target k = some k) (other : QString) :
    (mf.stamp k v).target other = mf.target other :=
  Makefile.target_modify mf k _ h other

/-- Writing a valid time stamp into a block is a step that leaves the other
blocks alone. -/
theorem TimeStampState.grown_stamp (X : Finset QString) (s : TimeStampState) (k : QString)
    (v : Nat) (n : Nat) (hk : s.makefile.target k = some k)
    (hX : k ∈ X ∨ s.makefile.timeStamp k = none) (hn : s.clockCalls ≤ n) :
    TimeStampState.Grown X s { makefile := s.makefile.stamp k (some v), clockCalls := n } := by
  refine ⟨fun x => Makefile.target_stamp _ _ _ hk x, fun x => ?_, fun x hx => ?_,
    fun x hxX hx => ?_, hn⟩
  · simp only [Makefile.timeStamp, Makefile.stamp, Makefile.block_modify]
    by_cases hxk : x = k
    · simp only [hxk, if_true]
    · simp only [hxk, if_false]
  · simp only [Makefile.timeStamp_stamp]
    by_cases hxk : x = k
    · simp only [hxk, if_true, Option.isSome_some]
    · simp only [hxk, if_false]; exact hx
  · simp only [Makefile.timeStamp_stamp]
    by_cases hxk : x = k
    · subst hxk
      rcases hX with hX | hX
      · exact absurd hX hxX
      · rw [hX] at hx; cases hx
    · simp only [hxk, if_false]

/-- The loop over the dependents of `db`, given what the nested calls do. -/
theorem updateDependentsTimeStamp_grown
    (update : TimeStampState → QString → Except Error TimeStampState) (db : QString)
    (hupdate : ∀ s x s1, s.makefile.target x = some x → update s x = .ok s1 →
      TimeStampState.Grown ∅ s s1 ∧ (s1.makefile.timeStamp x).isSome = true) :
    ∀ (deps : List QString) (s s1 : TimeStampState), s.makefile.target db = some db →
      updateDependentsTimeStamp update db deps s = .ok s1 → TimeStampState.Grown {db} s s1 := by
  intro deps
  induction deps with
  | nil =>
    intro s s1 _ h
    simp only [updateDependentsTimeStamp, Except.ok.injEq] at h
    subst h
    exact TimeStampState.Grown.grown_refl _ _
  | cons d rest ih =>
    intro s s1 hdb h
    unfold updateDependentsTimeStamp at h
    cases ht : s.makefile.target d with
    | none =>
      simp only [ht] at h
      exact ih s s1 hdb h
    | some d1 =>
      have hd := Makefile.target_eq_some _ _ _ ht
      subst hd
      simp only [ht] at h
      cases hu : update s d1 with
      | error e => simp only [hu] at h; cases h
      | ok s2 =>
        simp only [hu] at h
        obtain ⟨hg, hv⟩ := hupdate s d1 s2 ht hu
        have hg1 : TimeStampState.Grown {db} s s2 := hg.mono (Finset.empty_subset _)
        have hdb2 : s2.makefile.target db = some db := by rw [hg.target]; exact hdb
        split at h
        · obtain ⟨v, hvv⟩ := Option.isSome_iff_exists.mp hv
          have hvv1 : (s2.makefile.block d1).m_timeStamp = some v := hvv
          rw [hvv1] at h
          have hstep := TimeStampState.grown_stamp {db} s2 db v s2.clockCalls hdb2
            (Or.inl (Finset.mem_singleton_self _)) (le_refl _)
          exact hg1.grown_trans (hstep.grown_trans (ih _ s1
            ((Makefile.target_stamp _ _ _ hdb2 db).trans hdb2) h))
        · exact hg1.grown_trans (ih s2 s1 hdb2 h)

theorem updateTimeStampBody_grown (clock : Nat → Nat)
    (update : TimeStampState → QString → Except Error TimeStampState)
    (hupdate : ∀ s x s1, s.makefile.target x = some x → update s x = .ok s1 →
      TimeStampState.Grown ∅ s s1 ∧ (s1.makefile.timeStamp x).isSome = true)
    (s : TimeStampState) (db : QString) (s1 : TimeStampState)
    (hdb : s.makefile.target db = some db)
    (h : updateTimeStampBody clock update s db = .ok s1) :
    TimeStampState.Grown ∅ s s1 ∧ (s1.makefile.timeStamp db).isSome = true := by
  unfold updateTimeStampBody at h
  cases hv : (s.makefile.block db).m_timeStamp.isSome with
  | true =>
    simp only [hv, if_true, Except.ok.injEq] at h
    subst h
    exact ⟨TimeStampState.Grown.grown_refl _ _, hv⟩
  | false =>
    have hnone : s.makefile.timeStamp db = none := by
      unfold Makefile.timeStamp
      cases hts : (s.makefile.block db).m_timeStamp with
      | none => rfl
      | some v => rw [hts] at hv; cases hv
    simp only [hv, Bool.false_eq_true, if_false] at h
    cases hleaf : (s.makefile.block db).m_dependents.isEmpty with
    | true =>
      simp only [hleaf, if_true, Except.ok.injEq] at h
      subst h
      refine ⟨TimeStampState.grown_stamp ∅ s db _ _ hdb (Or.inr hnone) (Nat.le_succ _), ?_⟩
      simp only [Makefile.timeStamp, Makefile.block_modify, if_true, Option.isSome_some]
    | false =>
      simp only [hleaf, Bool.false_eq_true, if_false] at h
      have hstep := TimeStampState.grown_stamp ∅ s db sentinelTimeStamp s.clockCalls hdb
        (Or.inr hnone) (le_refl _)
      have hdb1 : (s.makefile.stamp db (some sentinelTimeStamp)).target db = some db :=
        (Makefile.target_stamp _ _ _ hdb db).trans hdb
      have hloop := updateDependentsTimeStamp_grown update db hupdate _ _ s1 hdb1 h
      have hv1 : ((s.makefile.stamp db (some sentinelTimeStamp)).timeStamp db).isSome = true := by
        simp only [Makefile.timeStamp_stamp, if_true, Option.isSome_some]
      have hall := (hstep.mono (Finset.empty_subset {db})).grown_trans hloop
      refine ⟨⟨hall.target, hall.only, hall.valid, fun k _ hk => hall.keep k ?_ hk, hall.clock⟩,
        hloop.valid db hv1⟩
      rw [Finset.mem_singleton]
      rintro rfl
      rw [hnone] at hk
      cases hk

/-- A call of `updateTimeStamp` that returns has given the block a valid time
stamp, and has written nothing but time stamps that were not valid. -/
theorem updateTimeStampDepth_grown (clock : Nat → Nat) :
    ∀ (depth : Nat) (s : TimeStampState) (db : QString) (s1 : TimeStampState),
      s.makefile.target db = some db → updateTimeStampDepth clock depth s db = .ok s1 →
      TimeStampState.Grown ∅ s s1 ∧ (s1.makefile.timeStamp db).isSome = true := by
  intro depth
  induction depth with
  | zero =>
    intro s db s1 hdb h
    exact updateTimeStampBody_grown clock _ (fun _ _ _ _ hu => by cases hu) s db s1 hdb h
  | succ d ih =>
    intro s db s1 hdb h
    exact updateTimeStampBody_grown clock _ ih s db s1 hdb h
/-! ## Time stamps: every call returns -/

theorem Makefile.mem_keys_iff (mf : Makefile) (k : QString) :
    k ∈ (mf.m_targets.map Prod.fst).toFinset ↔ mf.target k = some k := by
  rw [List.mem_toFinset, Makefile.target_iff]
  constructor
  · intro hmem
    have hfind : ∀ (m : StringMap DescriptionBlock), k ∈ m.map Prod.fst →
        ∃ b, StringMap.find m k = some b := by
      intro m
      induction m with
      | nil => intro h; cases h
      | cons e rest ih =>
        intro h
        obtain ⟨k1, b1⟩ := e
        by_cases hk : k1 = k
        · exact ⟨b1, by simp only [StringMap.find, hk, if_true]⟩
        · simp only [List.map_cons, List.mem_cons] at h
          rcases h with h | h
          · exact absurd h.symm hk
          · obtain ⟨b, hb⟩ := ih h
            exact ⟨b, by simp only [StringMap.find, hk, if_false, hb]⟩
    exact hfind _ hmem
  · rintro ⟨b, hb⟩
    by_contra hmem
    rw [StringMap.find_eq_none _ _ hmem] at hb
    cases hb

theorem Makefile.mem_unstamped (mf : Makefile) (k : QString) :
    k ∈ mf.unstamped ↔ mf.target k = some k ∧ mf.timeStamp k = none := by
  unfold Makefile.unstamped
  rw [Finset.mem_filter, Makefile.mem_keys_iff]

theorem Makefile.unstamped_stamp (mf : Makefile) (k : QString) (v : Nat)
    (h : mf.target k = some k) (hnone : mf.timeStamp k = none) :
    (mf.stamp k (some v)).unstamped.card + 1 ≤ mf.unstamped.card := by
  have hmem : k ∈ mf.unstamped := (Makefile.mem_unstamped mf k).mpr ⟨h, hnone⟩
  have hsub : (mf.stamp k (some v)).unstamped ⊆ mf.unstamped.erase k := by
    intro x hx
    rw [Makefile.mem_unstamped, Makefile.timeStamp_stamp, Makefile.target_stamp mf k _ h] at hx
    rw [Finset.mem_erase, Makefile.mem_unstamped]
    by_cases hxk : x = k
    · simp [hxk] at hx
    · simp only [hxk, if_false] at hx
      exact ⟨hxk, hx⟩
  have := Finset.card_le_card hsub
  rw [Finset.card_erase_of_mem hmem] at this
  have := Finset.card_pos.mpr ⟨k, hmem⟩
  omega

theorem TimeStampState.Grown.unstamped {X : Finset QString} {s s1 : TimeStampState}
    (h : TimeStampState.Grown X s s1) : s1.makefile.unstamped.card ≤ s.makefile.unstamped.card := by
  apply Finset.card_le_card
  intro x hx
  rw [Makefile.mem_unstamped] at hx ⊢
  refine ⟨by rw [← h.target]; exact hx.1, ?_⟩
  cases hts : s.makefile.timeStamp x with
  | none => rfl
  | some v =>
    have := h.valid x (by rw [hts]; rfl)
    rw [hx.2] at this
    cases this

theorem Makefile.unstamped_card_le (mf : Makefile) : mf.unstamped.card ≤ mf.m_targets.length := by
  have h1 : mf.unstamped.card ≤ (mf.m_targets.map Prod.fst).toFinset.card :=
    Finset.card_filter_le _ _
  have h2 := List.toFinset_card_le (mf.m_targets.map Prod.fst)
  simp only [List.length_map] at h2
  omega

theorem updateDependentsTimeStamp_total (d : Nat)
    (update : TimeStampState → QString → Except Error TimeStampState) (db : QString)
    (hupdate : ∀ s x s1, s.makefile.target x = some x → update s x = .ok s1 →
      TimeStampState.Grown ∅ s s1 ∧ (s1.makefile.timeStamp x).isSome = true)
    (htotal : ∀ s x, s.makefile.target x = some x → s.makefile.unstamped.card ≤ d →
      ∃ s1, update s x = .ok s1) :
    ∀ (deps : List QString) (s : TimeStampState), s.makefile.target db = some db →
      s.makefile.unstamped.card ≤ d →
      ∃ s1, updateDependentsTimeStamp update db deps s = .ok s1 := by
  intro deps
  induction deps with
  | nil => intro s _ _; exact ⟨s, rfl⟩
  | cons x rest ih =>
    intro s hdb hcard
    unfold updateDependentsTimeStamp
    cases ht : s.makefile.target x with
    | none => exact ih s hdb hcard
    | some x1 =>
      have hd := Makefile.target_eq_some _ _ _ ht
      subst hd
      obtain ⟨s2, hu⟩ := htotal s x1 ht hcard
      obtain ⟨hg, hv⟩ := hupdate s x1 s2 ht hu
      have hdb2 : s2.makefile.target db = some db := by rw [hg.target]; exact hdb
      have hcard2 := le_trans hg.unstamped hcard
      simp only [hu]
      split
      · obtain ⟨v, hvv⟩ := Option.isSome_iff_exists.mp hv
        have hvv1 : (s2.makefile.block x1).m_timeStamp = some v := hvv
        rw [hvv1]
        have hstep := TimeStampState.grown_stamp {db} s2 db v s2.clockCalls hdb2
          (Or.inl (Finset.mem_singleton_self _)) (le_refl _)
        exact ih _ ((Makefile.target_stamp _ _ _ hdb2 db).trans hdb2)
          (le_trans hstep.unstamped hcard2)
      · exact ih s2 hdb2 hcard2

/-- A call of `updateTimeStamp` returns, whatever the dependents relation is:
a budget of as many nested calls as there are blocks without a valid time
stamp is never used up. -/
theorem updateTimeStampDepth_total (clock : Nat → Nat) :
    ∀ (depth : Nat) (s : TimeStampState) (db : QString),
      s.makefile.target db = some db → s.makefile.unstamped.card ≤ depth →
      ∃ s1, updateTimeStampDepth clock depth s db = .ok s1 := by
  have hbody : ∀ (d : Nat) (update : TimeStampState → QString → Except Error TimeStampState),
      (∀ s x s1, s.makefile.target x = some x → update s x = .ok s1 →
        TimeStampState.Grown ∅ s s1 ∧ (s1.makefile.timeStamp x).isSome = true) →
      (∀ s x, s.makefile.target x = some x → s.makefile.unstamped.card + 1 ≤ d →
        ∃ s1, update s x = .ok s1) →
      ∀ (s : TimeStampState) (db : QString), s.makefile.target db = some db →
        s.makefile.unstamped.card ≤ d →
        ∃ s1, updateTimeStampBody clock update s db = .ok s1 := by
    intro d update hupdate htotal s db hdb hcard
    unfold updateTimeStampBody
    cases hv : (s.makefile.block db).m_timeStamp.isSome with
    | true => simp only [if_true]; exact ⟨s, rfl⟩
    | false =>
      have hnone : s.makefile.timeStamp db = none := by
        unfold Makefile.timeStamp
        cases hts : (s.makefile.block db).m_timeStamp with
        | none => rfl
        | some v => rw [hts] at hv; cases hv
      simp only [Bool.false_eq_true, if_false]
      cases hleaf : (s.makefile.block db).m_dependents.isEmpty with
      | true => simp only [if_true]; exact ⟨_, rfl⟩
      | false =>
        simp only [Bool.false_eq_true, if_false]
        have hstamp := Makefile.unstamped_stamp s.makefile db sentinelTimeStamp hdb hnone
        obtain ⟨d1, rfl⟩ : ∃ d1, d = d1 + 1 := ⟨d - 1, by omega⟩
        exact updateDependentsTimeStamp_total d1 update db hupdate
          (fun s2 x hx hc => htotal s2 x hx (by omega)) _ _
          ((Makefile.target_stamp _ _ _ hdb db).trans hdb) (by
            show (s.makefile.stamp db (some sentinelTimeStamp)).unstamped.card ≤ d1
            omega)
  intro depth
  induction depth with
  | zero =>
    intro s db hdb hcard
    exact hbody 0 _ (fun _ _ _ _ hu => by cases hu) (fun _ _ _ h => by omega) s db hdb hcard
  | succ d ih =>
    intro s db hdb hcard
    exact hbody (d + 1) _ (updateTimeStampDepth_grown clock d)
      (fun s2 x hx hc => ih s2 x hx (by omega)) s db hdb hcard

theorem updateTimeStamp_total (clock : Nat → Nat) (s : TimeStampState) (db : QString)
    (hdb : s.makefile.target db = some db) :
    ∃ s1, updateTimeStamp clock s db = .ok s1 ∧ TimeStampState.Grown ∅ s s1 ∧
      (s1.makefile.timeStamp db).isSome = true := by
  obtain ⟨s1, h1⟩ := updateTimeStampDepth_total clock s.makefile.m_targets.length s db hdb
    (Makefile.unstamped_card_le _)
  exact ⟨s1, h1, updateTimeStampDepth_grown clock _ s db s1 hdb h1⟩

theorem updateTimeStampsLoop_total (clock : Nat → Nat) :
    ∀ (dbs : List QString) (s : TimeStampState),
      (∀ db ∈ dbs, s.makefile.target db = some db) →
      ∃ s1, updateTimeStampsLoop clock dbs s = .ok s1 ∧ TimeStampState.Grown ∅ s s1 ∧
        ∀ db ∈ dbs, (s1.makefile.timeStamp db).isSome = true := by
  intro dbs
  induction dbs with
  | nil => intro s _; exact ⟨s, rfl, TimeStampState.Grown.grown_refl _ _, fun _ h => by cases h⟩
  | cons db rest ih =>
    intro s hall
    obtain ⟨s1, h1, hg1, hv1⟩ := updateTimeStamp_total clock s db (hall db (List.mem_cons_self _ _))
    obtain ⟨s2, h2, hg2, hv2⟩ := ih s1 (fun x hx => by
      rw [hg1.target]; exact hall x (List.mem_cons_of_mem _ hx))
    refine ⟨s2, by simp only [updateTimeStampsLoop, h1, h2], hg1.grown_trans hg2, ?_⟩
    intro x hx
    rcases List.mem_cons.mp hx with rfl | hx
    · exact hg2.valid _ hv1
    · exact hv2 x hx

/-- The function `updateTimeStamps` returns, whatever the dependents relation
is; afterwards every block has a valid time stamp, and a time stamp that was
valid is what it was. -/
theorem updateTimeStamps_total (clock : Nat → Nat) (s : TimeStampState) :
    ∃ s1, updateTimeStamps clock s = .ok s1 ∧ TimeStampState.Grown ∅ s s1 ∧
      ∀ k, s.makefile.target k = some k → (s1.makefile.timeStamp k).isSome = true := by
  obtain ⟨s1, h1, hg, hv⟩ := updateTimeStampsLoop_total clock (s.makefile.m_targets.map Prod.fst) s
    (fun db hdb => (Makefile.mem_keys_iff _ _).mp (List.mem_toFinset.mpr hdb))
  exact ⟨s1, h1, hg, fun k hk =>
    hv k (List.mem_toFinset.mp ((Makefile.mem_keys_iff _ _).mpr hk))⟩

/-! ## Time stamps: the latest of the dependents -/

theorem TimeStampState.Grown.acyclic {X : Finset QString} {s s1 : TimeStampState}
    (h : TimeStampState.Grown X s s1) (k : QString) :
    s1.makefile.Acyclic k ↔ s.makefile.Acyclic k := by
  unfold Makefile.Acyclic
  rw [h.dep]

/-- A block keeps its time stamp from its dependents through a run that leaves
the block and its dependents alone. -/
theorem Makefile.propagated_grown (clock : Nat → Nat) {X : Finset QString}
    {s s1 : TimeStampState} (h : TimeStampState.Grown X s s1) (k : QString)
    (hv : (s.makefile.timeStamp k).isSome = true) (hk : k ∉ X)
    (hdeps : ∀ d ∈ (s.makefile.block k).m_dependents, s.makefile.target d = some d → d ∉ X)
    (hp : Makefile.Propagated clock s.makefile k) :
    Makefile.Propagated clock s1.makefile k := by
  unfold Makefile.Propagated at hp ⊢
  rw [h.dependents k, h.keep k hk hv]
  by_cases hleaf : (s.makefile.block k).m_dependents = []
  · simp only [hleaf, if_true] at hp ⊢
    exact hp
  · simp only [hleaf, if_false] at hp ⊢
    obtain ⟨hp1, hp2⟩ := hp
    refine ⟨fun d hd ht => h.valid d (hp1 d hd (by rw [← h.target]; exact ht)), ?_⟩
    rw [hp2]
    congr 2
    unfold Makefile.dependentStamps
    apply List.filterMap_congr
    intro d hd
    rw [h.target d]
    by_cases ht : s.makefile.target d = some d
    · simp only [ht, if_true]
      exact (h.keep d (hdeps d hd ht) (hp1 d hd ht)).symm
    · simp only [ht, if_false]

theorem foldl_max_le (l : List Nat) : ∀ m : Nat, m ≤ l.foldl max m ∧ ∀ v ∈ l, v ≤ l.foldl max m := by
  induction l with
  | nil => intro m; exact ⟨le_refl _, fun _ h => by cases h⟩
  | cons a t ih =>
    intro m
    obtain ⟨h1, h2⟩ := ih (max m a)
    simp only [List.foldl_cons]
    refine ⟨le_trans (le_max_left _ _) h1, fun v hv => ?_⟩
    rcases List.mem_cons.mp hv with rfl | hv
    · exact le_trans (le_max_right _ _) h1
    · exact h2 v hv

/-- The loop over the dependents of `db`: what it gives to the blocks that the
nested calls stamp, and to `db`. -/
theorem updateDependentsTimeStamp_propagated (clock : Nat → Nat)
    (update : TimeStampState → QString → Except Error TimeStampState) (db : QString)
    (S : Finset QString)
    (hupdate : ∀ s x s1, s.makefile.target x = some x → update s x = .ok s1 →
      TimeStampState.Grown ∅ s s1 ∧ (s1.makefile.timeStamp x).isSome = true)
    (hprop : StampsPropagated clock update) :
    ∀ (todo : List QString) (s s1 : TimeStampState) (m : Nat),
      s.makefile.target db = some db → s.makefile.timeStamp db = some m →
      (∀ a ∈ S, Relation.ReflTransGen s.makefile.Dep a db) →
      (∀ x ∈ todo, x ∈ (s.makefile.block db).m_dependents) →
      updateDependentsTimeStamp update db todo s = .ok s1 →
      (∀ k, k ≠ db → s.makefile.target k = some k → s.makefile.timeStamp k = none →
        (s1.makefile.timeStamp k).isSome = true → s.makefile.Acyclic k →
        Makefile.Propagated clock s1.makefile k ∧
          ∀ d ∈ (s.makefile.block k).m_dependents, s.makefile.target d = some d →
            d ∉ insert db S) ∧
      (s.makefile.Acyclic db →
        s1.makefile.timeStamp db = some ((s1.makefile.dependentStamps todo).foldl max m) ∧
          ∀ d ∈ todo, s.makefile.target d = some d → (s1.makefile.timeStamp d).isSome = true) := by
  intro todo
  induction todo with
  | nil =>
    intro s s1 m hdb hm hS htodo h
    simp only [updateDependentsTimeStamp, Except.ok.injEq] at h
    subst h
    refine ⟨fun k _ _ hn hv _ => ?_, fun _ => ⟨hm, fun _ hd => by cases hd⟩⟩
    rw [hn] at hv
    cases hv
  | cons x rest ih =>
    intro s s1 m hdb hm hS htodo h
    have hrest : ∀ y ∈ rest, y ∈ (s.makefile.block db).m_dependents :=
      fun y hy => htodo y (List.mem_cons_of_mem _ hy)
    unfold updateDependentsTimeStamp at h
    cases ht : s.makefile.target x with
    | none =>
      simp only [ht] at h
      have hloop := updateDependentsTimeStamp_grown update db hupdate rest s s1 hdb h
      obtain ⟨ihA, ihB⟩ := ih s s1 m hdb hm hS hrest h
      refine ⟨ihA, fun hac => ?_⟩
      obtain ⟨hB1, hB2⟩ := ihB hac
      have hx1 : s1.makefile.target x ≠ some x := by rw [hloop.target, ht]; exact fun h => by cases h
      refine ⟨?_, fun d hd htd => ?_⟩
      · rw [hB1]
        simp only [Makefile.dependentStamps, List.filterMap_cons, hx1, if_false]
      · rcases List.mem_cons.mp hd with rfl | hd
        · rw [ht] at htd; cases htd
        · exact hB2 d hd htd
    | some x1 =>
      have hd := Makefile.target_eq_some _ _ _ ht
      subst hd
      simp only [ht] at h
      cases hu : update s x1 with
      | error e => simp only [hu] at h; cases h
      | ok s2 =>
        simp only [hu] at h
        obtain ⟨hg, hvx⟩ := hupdate s x1 s2 ht hu
        obtain ⟨v, hv⟩ := Option.isSome_iff_exists.mp hvx
        have hv1 : (s2.makefile.block x1).m_timeStamp = some v := hv
        have hdb2 : s2.makefile.target db = some db := by rw [hg.target]; exact hdb
        have hm2 : s2.makefile.timeStamp db = some m := by
          rw [hg.keep db (Finset.not_mem_empty _) (by rw [hm]; rfl), hm]
        have hm2b : (s2.makefile.block db).m_timeStamp = some m := hm2
        have hdepx : s.makefile.Dep db x1 := ⟨hdb, htodo x1 (List.mem_cons_self _ _), ht⟩
        have hS1 : ∀ a ∈ insert db S, Relation.ReflTransGen s.makefile.Dep a x1 := by
          intro a ha
          rcases Finset.mem_insert.mp ha with rfl | ha
          · exact Relation.ReflTransGen.single hdepx
          · exact (hS a ha).tail hdepx
        obtain ⟨s3, hs3, h3, hg3, hm3, hother⟩ : ∃ s3 : TimeStampState,
            updateDependentsTimeStamp update db rest s3 = .ok s1 ∧
            s3.makefile.target db = some db ∧ TimeStampState.Grown {db} s2 s3 ∧
            s3.makefile.timeStamp db = some (max m v) ∧
            ∀ k, k ≠ db → s3.makefile.timeStamp k = s2.makefile.timeStamp k := by
          rw [hv1, hm2b] at h
          by_cases hgt : v > m
          · simp only [timeStampGreater, hgt, decide_True, if_true] at h
            refine ⟨_, h, (Makefile.target_stamp _ _ _ hdb2 db).trans hdb2,
              TimeStampState.grown_stamp {db} s2 db v s2.clockCalls hdb2
                (Or.inl (Finset.mem_singleton_self _)) (le_refl _), ?_, ?_⟩
            · show (s2.makefile.stamp db (some v)).timeStamp db = some (max m v)
              rw [Makefile.timeStamp_stamp, if_pos rfl, max_eq_right (le_of_lt hgt)]
            · intro k hk
              show (s2.makefile.stamp db (some v)).timeStamp k = s2.makefile.timeStamp k
              rw [Makefile.timeStamp_stamp, if_neg hk]
          · simp only [timeStampGreater, hgt, decide_False, Bool.false_eq_true, if_false] at h
            exact ⟨s2, h, hdb2, TimeStampState.Grown.grown_refl _ _, by
              rw [hm2, max_eq_left (not_lt.mp hgt)], fun _ _ => rfl⟩
        have hg13 : TimeStampState.Grown {db} s s3 := (hg.mono (Finset.empty_subset _)).grown_trans hg3
        have hloop := updateDependentsTimeStamp_grown update db hupdate rest s3 s1 h3 hs3
        have hdep3 : s3.makefile.Dep = s.makefile.Dep := hg13.dep
        obtain ⟨ihA, ihB⟩ := ih s3 s1 (max m v) h3 hm3 (by rw [hdep3]; exact hS)
          (fun y hy => by rw [hg13.dependents]; exact hrest y hy) hs3
        constructor
        · intro k hkdb hkt hkn hkv hkac
          cases hk2 : s2.makefile.timeStamp k with
          | some w =>
            obtain ⟨hp, hdis⟩ := hprop s x1 s2 (insert db S) ht hu hS1 k hkt hkn
              (by rw [hk2]; rfl) hkac
            refine ⟨?_, hdis⟩
            have hg21 : TimeStampState.Grown {db} s2 s1 := hg3.grown_trans hloop
            refine Makefile.propagated_grown clock hg21 k (by rw [hk2]; rfl)
              (by simpa using hkdb) ?_ hp
            intro d hd htd
            rw [hg.dependents] at hd
            rw [hg.target] at htd
            have := hdis d hd htd
            simp only [Finset.mem_insert, not_or] at this
            simpa using this.1
          | none =>
            have hk3 : s3.makefile.timeStamp k = none := by rw [hother k hkdb, hk2]
            obtain ⟨hp, hdis⟩ := ihA k hkdb (by rw [hg13.target]; exact hkt) hk3 hkv
              ((hg13.acyclic k).mpr hkac)
            refine ⟨hp, fun d hd htd => ?_⟩
            exact hdis d (by rw [hg13.dependents]; exact hd) (by rw [hg13.target]; exact htd)
        · intro hac
          have hx1db : x1 ≠ db := by
            rintro rfl
            exact hac x1 Relation.ReflTransGen.refl (Relation.TransGen.single hdepx)
          obtain ⟨hB1, hB2⟩ := ihB ((hg13.acyclic db).mpr hac)
          have hg21 : TimeStampState.Grown {db} s2 s1 := hg3.grown_trans hloop
          have hx1v : s1.makefile.timeStamp x1 = some v := by
            rw [hg21.keep x1 (by simpa using hx1db) hvx]
            exact hv
          have hx1t : s1.makefile.target x1 = some x1 := by
            rw [hloop.target, hg13.target]; exact ht
          refine ⟨?_, fun d hd htd => ?_⟩
          · rw [hB1]
            simp only [Makefile.dependentStamps, List.filterMap_cons, hx1t, if_true, hx1v,
              List.foldl_cons]
          · rcases List.mem_cons.mp hd with rfl | hd
            · rw [hx1v]; rfl
            · exact hB2 d hd (by rw [hg13.target]; exact htd)

theorem updateTimeStampBody_propagated (clock : Nat → Nat)
    (update : TimeStampState → QString → Except Error TimeStampState)
    (hupdate : ∀ s x s1, s.makefile.target x = some x → update s x = .ok s1 →
      TimeStampState.Grown ∅ s s1 ∧ (s1.makefile.timeStamp x).isSome = true)
    (hprop : StampsPropagated clock update) :
    StampsPropagated clock (updateTimeStampBody clock update) := by
  intro s db s1 S hdb h hS k hkt hkn hkv hkac
  unfold updateTimeStampBody at h
  cases hv : (s.makefile.block db).m_timeStamp.isSome with
  | true =>
    simp only [hv, if_true, Except.ok.injEq] at h
    subst h
    rw [hkn] at hkv
    cases hkv
  | false =>
    have hnone : s.makefile.timeStamp db = none := by
      unfold Makefile.timeStamp
      cases hts : (s.makefile.block db).m_timeStamp with
      | none => rfl
      | some v => rw [hts] at hv; cases hv
    simp only [hv, Bool.false_eq_true, if_false] at h
    have hcycle : ∀ d ∈ (s.makefile.block db).m_dependents, s.makefile.target d = some d →
        s.makefile.Acyclic db → d ∉ S := by
      intro d hd htd hac hdS
      exact hac db Relation.ReflTransGen.refl
        (Relation.TransGen.head' ⟨hdb, hd, htd⟩ (hS d hdS))
    cases hleaf : (s.makefile.block db).m_dependents.isEmpty with
    | true =>
      simp only [hleaf, if_true, Except.ok.injEq] at h
      subst h
      have hnil : (s.makefile.block db).m_dependents = [] := List.isEmpty_iff.mp hleaf
      have hkdb : k = db := by
        by_contra hne
        have : (s.makefile.stamp db (some (clock s.clockCalls))).timeStamp k = none := by
          rw [Makefile.timeStamp_stamp, if_neg hne, hkn]
        have hkv1 : ((s.makefile.stamp db (some (clock s.clockCalls))).timeStamp k).isSome
            = true := hkv
        rw [this] at hkv1
        cases hkv1
      subst hkdb
      refine ⟨?_, fun d hd => by rw [hnil] at hd; cases hd⟩
      unfold Makefile.Propagated
      simp only [Makefile.block_modify, if_true, hnil]
      exact ⟨s.clockCalls, by simp only [Makefile.timeStamp, Makefile.block_modify, if_true]⟩
    | false =>
      simp only [hleaf, Bool.false_eq_true, if_false] at h
      have hne : (s.makefile.block db).m_dependents ≠ [] := by
        intro hnil
        rw [hnil] at hleaf
        cases hleaf
      have hstep := TimeStampState.grown_stamp ∅ s db sentinelTimeStamp s.clockCalls hdb
        (Or.inr hnone) (le_refl _)
      have hdb0 : (s.makefile.stamp db (some sentinelTimeStamp)).target db = some db :=
        (Makefile.target_stamp _ _ _ hdb db).trans hdb
      have hm0 : (s.makefile.stamp db (some sentinelTimeStamp)).timeStamp db
          = some sentinelTimeStamp := by
        rw [Makefile.timeStamp_stamp, if_pos rfl]
      have hloopg := updateDependentsTimeStamp_grown update db hupdate _ _ s1 hdb0 h
      obtain ⟨hA, hB⟩ := updateDependentsTimeStamp_propagated clock update db S hupdate hprop
        (s.makefile.block db).m_dependents
        { s with makefile := s.makefile.stamp db (some sentinelTimeStamp) } s1 sentinelTimeStamp
        hdb0 hm0 (by rw [hstep.dep]; exact hS)
        (fun x hx => by rw [hstep.dependents]; exact hx) h
      have hall := (hstep.mono (Finset.empty_subset {db})).grown_trans hloopg
      by_cases hkdb : k = db
      · subst hkdb
        obtain ⟨hB1, hB2⟩ := hB ((hstep.acyclic k).mpr hkac)
        refine ⟨?_, fun d hd htd => hcycle d hd htd hkac⟩
        unfold Makefile.Propagated
        rw [hall.dependents k]
        simp only [hne, if_false]
        exact ⟨fun d hd htd => hB2 d hd (by
          rw [hstep.target]; rw [hall.target] at htd; exact htd), hB1⟩
      · have hkn0 : (s.makefile.stamp db (some sentinelTimeStamp)).timeStamp k = none := by
          rw [Makefile.timeStamp_stamp, if_neg hkdb, hkn]
        obtain ⟨hp, hdis⟩ := hA k hkdb (by rw [hstep.target]; exact hkt) hkn0 hkv
          ((hstep.acyclic k).mpr hkac)
        refine ⟨hp, fun d hd htd => ?_⟩
        have := hdis d (by rw [hstep.dependents]; exact hd) (by rw [hstep.target]; exact htd)
        simp only [Finset.mem_insert, not_or] at this
        exact this.2

/-- A call of `updateTimeStamp` gives every block that it stamps, and that has
no cycle below it, the latest time stamp of its dependents. -/
theorem updateTimeStampDepth_propagated (clock : Nat → Nat) :
    ∀ depth : Nat, StampsPropagated clock (updateTimeStampDepth clock depth) := by
  intro depth
  induction depth with
  | zero =>
    exact updateTimeStampBody_propagated clock _ (fun _ _ _ _ hu => by cases hu)
      (fun _ _ _ _ _ hu => by cases hu)
  | succ d ih =>
    exact updateTimeStampBody_propagated clock _ (updateTimeStampDepth_grown clock d) ih

theorem updateTimeStampsLoop_propagated (clock : Nat → Nat) :
    ∀ (dbs : List QString) (s s1 : TimeStampState),
      (∀ db ∈ dbs, s.makefile.target db = some db) →
      updateTimeStampsLoop clock dbs s = .ok s1 →
      ∀ k, s.makefile.target k = some k → s.makefile.timeStamp k = none →
        (s1.makefile.timeStamp k).isSome = true → s.makefile.Acyclic k →
        Makefile.Propagated clock s1.makefile k := by
  intro dbs
  induction dbs with
  | nil =>
    intro s s1 _ h k _ hkn hkv _
    simp only [updateTimeStampsLoop, Except.ok.injEq] at h
    subst h
    rw [hkn] at hkv
    cases hkv
  | cons db rest ih =>
    intro s s1 hall h k hkt hkn hkv hkac
    have hdb := hall db (List.mem_cons_self _ _)
    obtain ⟨s2, h2, hg2, _⟩ := updateTimeStamp_total clock s db hdb
    have hall2 : ∀ x ∈ rest, s2.makefile.target x = some x := fun x hx => by
      rw [hg2.target]; exact hall x (List.mem_cons_of_mem _ hx)
    simp only [updateTimeStampsLoop, h2] at h
    obtain ⟨s1a, h1a, hg1, _⟩ := updateTimeStampsLoop_total clock rest s2 hall2
    rw [h] at h1a
    simp only [Except.ok.injEq] at h1a
    subst h1a
    cases hk2 : s2.makefile.timeStamp k with
    | some w =>
      have hp := (updateTimeStampDepth_propagated clock _ s db s2 ∅ hdb h2
        (fun _ ha => absurd ha (Finset.not_mem_empty _)) k hkt hkn (by rw [hk2]; rfl) hkac).1
      exact Makefile.propagated_grown clock hg1 k (by rw [hk2]; rfl) (Finset.not_mem_empty _)
        (fun _ _ _ => Finset.not_mem_empty _) hp
    | none =>
      exact ih s2 s1 hall2 h k (by rw [hg2.target]; exact hkt) hk2 hkv ((hg2.acyclic k).mpr hkac)

/-- A block whose time stamp comes from its dependents is not older than any
of them. -/
theorem Makefile.Propagated.le (clock : Nat → Nat) (mf : Makefile) (k : QString)
    (h : Makefile.Propagated clock mf k) (d : QString) (hd : d ∈ (mf.block k).m_dependents)
    (htd : mf.target d = some d) :
    ∃ vk vd, mf.timeStamp k = some vk ∧ mf.timeStamp d = some vd ∧ vd ≤ vk ∧
      sentinelTimeStamp ≤ vk := by
  unfold Makefile.Propagated at h
  have hne : (mf.block k).m_dependents ≠ [] := fun hnil => by rw [hnil] at hd; cases hd
  simp only [hne, if_false] at h
  obtain ⟨h1, h2⟩ := h
  obtain ⟨vd, hvd⟩ := Option.isSome_iff_exists.mp (h1 d hd htd)
  have hmem : vd ∈ mf.dependentStamps (mf.block k).m_dependents := by
    unfold Makefile.dependentStamps
    rw [List.mem_filterMap]
    exact ⟨d, hd, by simp only [htd, if_true, hvd]⟩
  have hle := foldl_max_le (mf.dependentStamps (mf.block k).m_dependents) sentinelTimeStamp
  exact ⟨_, vd, h2, hvd, hle.2 vd hmem, hle.1⟩

theorem Makefile.Acyclic.of_reach (mf : Makefile) (a t : QString) (h : mf.Acyclic a)
    (hreach : Relation.ReflTransGen mf.Dep a t) : mf.Acyclic t :=
  fun u hu => h u (hreach.trans hu)

/-- Time stamps after `updateTimeStamps`: every block has a valid one, a valid
one is kept, and a block without one that has no cycle below it gets the
latest time stamp of its dependents. -/
theorem updateTimeStamps_spec (clock : Nat → Nat) (s : TimeStampState) :
    ∃ s1, updateTimeStamps clock s = .ok s1 ∧
      (∀ k, s1.makefile.target k = s.makefile.target k ∧
        (s1.makefile.block k).m_dependents = (s.makefile.block k).m_dependents) ∧
      ∀ t, s.makefile.target t = some t →
        (s1.makefile.timeStamp t).isSome = true ∧
        (∀ v, s.makefile.timeStamp t = some v → s1.makefile.timeStamp t = some v) ∧
        (s.makefile.timeStamp t = none → s.makefile.Acyclic t →
          Makefile.Propagated clock s1.makefile t) := by
  obtain ⟨s1, h1, hg, hv⟩ := updateTimeStamps_total clock s
  refine ⟨s1, h1, fun k => ⟨hg.target k, hg.dependents k⟩, fun t ht => ⟨hv t ht, fun v hvt => ?_,
    fun hn hac => ?_⟩⟩
  · rw [hg.keep t (Finset.not_mem_empty _) (by rw [hvt]; rfl), hvt]
  · exact updateTimeStampsLoop_propagated clock _ s s1
      (fun db hdb => (Makefile.mem_keys_iff _ _).mp (List.mem_toFinset.mpr hdb)) h1 t ht hn
      (hv t ht) hac

/-- Where the cycle check of a target returns, no block that can be reached
from the target lies on a cycle. -/
theorem Makefile.acyclic_of_checkForCycles (mf mf1 : Makefile) (t : QString)
    (h : checkForCycles mf (mf.target t) = .ok mf1) : mf.Acyclic t := by
  intro u hpath hcyc
  cases ht : mf.target t with
  | none => exact Makefile.no_dep_of_no_target mf t u ht hpath hcyc
  | some d =>
    have hd := Makefile.target_eq_some _ _ _ ht
    subst hd
    have hK : ∀ x, mf.target x = some x → x ∈ (mf.m_targets.map Prod.fst).toFinset :=
      fun x hx => (Makefile.mem_keys_iff mf x).mpr hx
    have hcard : (mf.unmarked (mf.m_targets.map Prod.fst).toFinset).card + 1
        ≤ mf.m_targets.length + 1 := by
      have h1 : (mf.unmarked (mf.m_targets.map Prod.fst).toFinset).card
          ≤ (mf.m_targets.map Prod.fst).toFinset.card := Finset.card_filter_le _ _
      have h2 := List.toFinset_card_le (mf.m_targets.map Prod.fst)
      simp only [List.length_map] at h2
      omega
    obtain ⟨name, hname⟩ := (checkForCyclesDepth_spec _ (mf.m_targets.length + 1) mf d hK ht
      hcard).1 ⟨u, hpath, Or.inr hcyc⟩
    unfold checkForCycles at h
    rw [ht, hname] at h
    cases h

/-- C22: time stamps after `updateTimeStamps`, when no block that can be
reached from an active target lies on a cycle of the dependents relation.
The call returns; the blocks and their dependents are the same.  Every block
`t` that can be reached from an active target has a valid time stamp.  When
`t` had one before, it is kept.  When `t` had none, and has no dependents, the
time stamp is a reading of the clock; when it has dependents, every dependent
that has a block has a valid time stamp, the time stamp of `t` is the latest
of these and of the first of January 1900, and so it is not earlier than any
of them. -/
theorem updateTimeStamps_propagates (clock : Nat → Nat) (s : TimeStampState)
    (activeTargets : List QString)
    (hacyclic : ∀ a ∈ activeTargets, ∀ u, Relation.ReflTransGen s.makefile.Dep a u →
      ¬ Relation.TransGen s.makefile.Dep u u) :
    ∃ s1, updateTimeStamps clock s = .ok s1 ∧
      (∀ k, s1.makefile.target k = s.makefile.target k ∧
        (s1.makefile.block k).m_dependents = (s.makefile.block k).m_dependents) ∧
      ∀ t, s.makefile.target t = some t →
        (∃ a ∈ activeTargets, Relation.ReflTransGen s.makefile.Dep a t) →
        (s1.makefile.timeStamp t).isSome = true ∧
        (∀ v, s.makefile.timeStamp t = some v → s1.makefile.timeStamp t = some v) ∧
        (s.makefile.timeStamp t = none →
          ((s1.makefile.block t).m_dependents = [] →
            ∃ n, s1.makefile.timeStamp t = some (clock n)) ∧
          ((s1.makefile.block t).m_dependents ≠ [] →
            s1.makefile.timeStamp t = some
              ((s1.makefile.dependentStamps (s1.makefile.block t).m_dependents).foldl max
                sentinelTimeStamp)) ∧
          ∀ d ∈ (s1.makefile.block t).m_dependents, s1.makefile.target d = some d →
            ∃ vt vd, s1.makefile.timeStamp t = some vt ∧ s1.makefile.timeStamp d = some vd ∧
              vd ≤ vt ∧ sentinelTimeStamp ≤ vt) := by
  obtain ⟨s1, h1, hsame, hspec⟩ := updateTimeStamps_spec clock s
  refine ⟨s1, h1, hsame, fun t ht ⟨a, ha, hreach⟩ => ?_⟩
  obtain ⟨hv, hkeep, hprop⟩ := hspec t ht
  refine ⟨hv, hkeep, fun hn => ?_⟩
  have hp := hprop hn (Makefile.Acyclic.of_reach _ a t (hacyclic a ha) hreach)
  refine ⟨fun hnil => ?_, fun hne => ?_, fun d hd htd => Makefile.Propagated.le clock _ t hp d hd htd⟩
  · unfold Makefile.Propagated at hp
    simpa only [hnil, if_true] using hp
  · unfold Makefile.Propagated at hp
    simp only [hne, if_false] at hp
    exact hp.2

/-- The witness of C22: `all: a b x`, `a: c`, `b: c`, `c:`, where the file of
`a` has the time stamp 5; the cycle of `p` and `q` is not below `all`. -/
theorem updateTimeStamps_propagates_witness :
    checkForCycles makefileHiddenCycle (makefileHiddenCycle.target "all".toList)
      = .ok makefileHiddenCycle ∧
    ∃ s1, updateTimeStamps clock2024 { makefile := makefileHiddenCycle, clockCalls := 0 }
        = .ok s1 ∧
      s1.makefile.timeStamp "all".toList = some (clock2024 0) ∧
      s1.makefile.timeStamp "a".toList = some 5 ∧
      s1.makefile.timeStamp "b".toList = some (clock2024 0) ∧
      s1.makefile.timeStamp "c".toList = some (clock2024 0) ∧
      (∀ d ∈ (s1.makefile.block "all".toList).m_dependents, s1.makefile.target d = some d →
        ∃ vt vd, s1.makefile.timeStamp "all".toList = some vt ∧
          s1.makefile.timeStamp d = some vd ∧ vd ≤ vt ∧ sentinelTimeStamp ≤ vt) :=
  have hcheck : checkForCycles makefileHiddenCycle (makefileHiddenCycle.target "all".toList)
      = .ok makefileHiddenCycle := by decide!
  have h := updateTimeStamps_propagates clock2024
    { makefile := makefileHiddenCycle, clockCalls := 0 } ["all".toList]
    (fun a ha => by
      rw [List.mem_singleton] at ha
      subst ha
      exact Makefile.acyclic_of_checkForCycles makefileHiddenCycle _ _ hcheck)
  ⟨hcheck, by
    obtain ⟨s1, h1, _, h3⟩ := h
    have hall := h3 "all".toList (by decide) ⟨"all".toList, List.mem_singleton_self _,
      Relation.ReflTransGen.refl⟩
    have hval : updateTimeStamps clock2024 { makefile := makefileHiddenCycle, clockCalls := 0 }
        = .ok
          { makefile :=
              ((((makefileHiddenCycle.stamp "all".toList (some (clock2024 0))).stamp "b".toList
                (some (clock2024 0))).stamp "c".toList (some (clock2024 0))).stamp "p".toList
                (some sentinelTimeStamp)).stamp "q".toList (some sentinelTimeStamp)
            clockCalls := 1 } := by decide!
    rw [hval] at h1
    simp only [Except.ok.injEq] at h1
    subst h1
    exact ⟨_, hval, by decide!, by decide!, by decide!, by decide!, (hall.2.2 (by decide!)).2.2⟩⟩

/-! ## Time stamps: termination -/

/-- C26: `updateTimeStamp` returns on every target map, with or without
cycles of the dependents relation.  A call on a block with a valid time stamp
returns at once and changes nothing.  A call on a block without one that has
dependents first gives the block the time stamp of the first of January 1900
and then visits the dependents.  Every call returns, within a budget of as
many nested calls as there are blocks; afterwards the block has a valid time
stamp, the blocks and their dependents are the same, and a time stamp that was
valid when the call was made is what it was, so no block is entered twice
without a valid time stamp.  `updateTimeStamps` returns as well, and leaves
every block with a valid time stamp. -/
theorem updateTimeStamp_terminates (clock : Nat → Nat) (s : TimeStampState) :
    (∀ db, (s.makefile.timeStamp db).isSome = true → updateTimeStamp clock s db = .ok s) ∧
    (∀ (db : QString) (depth : Nat), s.makefile.timeStamp db = none →
      (s.makefile.block db).m_dependents ≠ [] →
      updateTimeStampDepth clock (depth + 1) s db
        = updateDependentsTimeStamp (updateTimeStampDepth clock depth) db
            (s.makefile.block db).m_dependents
            { s with makefile := s.makefile.modify db fun b =>
                { b with m_timeStamp := some sentinelTimeStamp } }) ∧
    (∀ db, s.makefile.target db = some db →
      ∃ s1, updateTimeStamp clock s db = .ok s1 ∧
        (s1.makefile.timeStamp db).isSome = true ∧
        (∀ k, s1.makefile.target k = s.makefile.target k ∧
          (s1.makefile.block k).m_dependents = (s.makefile.block k).m_dependents) ∧
        (∀ k, (s.makefile.timeStamp k).isSome = true →
          s1.makefile.block k = s.makefile.block k)) ∧
    (∃ s1, updateTimeStamps clock s = .ok s1 ∧
      ∀ k, s.makefile.target k = some k → (s1.makefile.timeStamp k).isSome = true) := by
  refine ⟨fun db hv => ?_, fun db depth hn hne => ?_, fun db hdb => ?_, ?_⟩
  · have hv1 : (s.makefile.block db).m_timeStamp.isSome = true := hv
    unfold updateTimeStamp
    cases s.makefile.m_targets.length <;>
      simp only [updateTimeStampDepth, updateTimeStampBody, hv1, if_true]
  · have hn1 : (s.makefile.block db).m_timeStamp = none := hn
    have hleaf : (s.makefile.block db).m_dependents.isEmpty = false := by
      cases hd : (s.makefile.block db).m_dependents with
      | nil => exact absurd hd hne
      | cons _ _ => rfl
    simp only [updateTimeStampDepth, updateTimeStampBody, hn1, Option.isSome_none,
      Bool.false_eq_true, if_false, hleaf]
  · obtain ⟨s1, h1, hg, hv⟩ := updateTimeStamp_total clock s db hdb
    refine ⟨s1, h1, hv, fun k => ⟨hg.target k, hg.dependents k⟩, fun k hk => ?_⟩
    rw [hg.only k, hg.keep k (Finset.not_mem_empty _) hk]
    rfl
  · obtain ⟨s1, h1, _, hv⟩ := updateTimeStamps_total clock s
    exact ⟨s1, h1, hv⟩

/-- The witness of C26: in the makefile of `all`, `a`, `b`, `c`, `p` and `q`
the cycle check of `all` returns, since the cycle of `p` and `q` is not below
`all`; `updateTimeStamp` on `p` returns, and so does `updateTimeStamps`. -/
theorem updateTimeStamp_terminates_witness :
    checkForCycles makefileHiddenCycle (makefileHiddenCycle.target "all".toList)
      = .ok makefileHiddenCycle ∧
    Relation.TransGen makefileHiddenCycle.Dep "p".toList "p".toList ∧
    updateTimeStamp clock2024 { makefile := makefileHiddenCycle, clockCalls := 0 } "a".toList
      = .ok { makefile := makefileHiddenCycle, clockCalls := 0 } ∧
    updateTimeStamp clock2024 { makefile := makefileHiddenCycle, clockCalls := 0 } "p".toList
      = .ok { makefile := (makefileHiddenCycle.stamp "p".toList (some sentinelTimeStamp)).stamp
                "q".toList (some sentinelTimeStamp)
              clockCalls := 0 } ∧
    (∃ s1, updateTimeStamp clock2024 { makefile := makefileHiddenCycle, clockCalls := 0 }
        "p".toList = .ok s1 ∧ (s1.makefile.timeStamp "p".toList).isSome = true ∧
      s1.makefile.block "a".toList = makefileHiddenCycle.block "a".toList) ∧
    ∃ s1, updateTimeStamps clock2024 { makefile := makefileHiddenCycle, clockCalls := 0 }
        = .ok s1 ∧
      ∀ k, makefileHiddenCycle.target k = some k → (s1.makefile.timeStamp k).isSome = true :=
  have h := updateTimeStamp_terminates clock2024
    { makefile := makefileHiddenCycle, clockCalls := 0 }
  ⟨by decide!,
    Relation.TransGen.head (b := "q".toList) ⟨by decide, by decide, by decide⟩
      (Relation.TransGen.single ⟨by decide, by decide, by decide⟩),
    h.1 "a".toList (by decide), by decide!,
    (by
      obtain ⟨s1, h1, h2, _, h4⟩ := h.2.2.1 "p".toList (by decide)
      exact ⟨s1, h1, h2, h4 "a".toList (by decide)⟩),
    h.2.2.2⟩

/-! ## Preselection: what the recursion leaves alone -/

theorem Makefile.target_cases (mf : Makefile) (k : QString) :
    mf.target k = some k ∨ mf.target k = none := by
  unfold Makefile.target
  split
  · exact Or.inl rfl
  · exact Or.inr rfl

theorem Makefile.preselectInferenceRules_congr (mf mf1 : Makefile)
    (h : mf1.m_inferenceRules = mf.m_inferenceRules) (targetName : QString)
    (rules : List InferenceRule) (suffixes : List QString) :
    mf1.preselectInferenceRules targetName rules suffixes
      = mf.preselectInferenceRules targetName rules suffixes := by
  unfold Makefile.preselectInferenceRules Makefile.findRulesByTargetExtension
  rw [h]

theorem Parser.Selecting.selecting_refl (p : Parser) : Parser.Selecting p p :=
  ⟨rfl, fun _ h => h, fun _ _ => ⟨rfl, rfl, rfl, rfl⟩,
    fun k h => by rw [Makefile.block_of_no_target _ _ h], fun _ _ => Or.inl rfl⟩

theorem Parser.Selecting.selecting_trans {p0 p p2 : Parser} (h1 : Parser.Selecting p0 p)
    (h2 : Parser.Selecting p p2) : Parser.Selecting p0 p2 := by
  refine ⟨h2.rules.trans h1.rules, fun k hk => h2.target k (h1.target k hk), fun k hk => ?_,
    fun k hk => ?_, fun k hk => ?_⟩
  · obtain ⟨a1, a2, a3, a4⟩ := h1.fields k hk
    obtain ⟨b1, b2, b3, b4⟩ := h2.fields k (h1.target k hk)
    exact ⟨b1.trans a1, b2.trans a2, b3.trans a3, b4.trans a4⟩
  · rcases Makefile.target_cases p.m_makefile k with hp | hp
    · rw [(h2.fields k hp).2.2.1]
      exact h1.fresh k hk
    · exact h2.fresh k hp
  · obtain ⟨_, a2, _, a4⟩ := h1.fields k hk
    have hsel : p.m_makefile.preselectInferenceRules k [] (p.m_makefile.block k).m_suffixes
        = p0.m_makefile.preselectInferenceRules k [] (p0.m_makefile.block k).m_suffixes := by
      rw [a4]
      exact Makefile.preselectInferenceRules_congr _ _ h1.rules _ _ _
    rcases h1.selected k hk with s1 | ⟨c1, s1⟩
    · rcases h2.selected k (h1.target k hk) with s2 | ⟨c2, s2⟩
      · exact Or.inl (s2.trans s1)
      · exact Or.inr ⟨by rw [← a2]; exact c2, s2.trans hsel⟩
    · rcases h2.selected k (h1.target k hk) with s2 | ⟨_, s2⟩
      · exact Or.inr ⟨c1, s2.trans s1⟩
      · exact Or.inr ⟨c1, s2.trans hsel⟩

/-- The step that attaches the selected rules to a block without commands. -/
theorem Parser.selecting_select (p : Parser) (k : QString) (rules : List InferenceRule)
    (hk : p.m_makefile.target k = some k)
    (hrules : rules = (p.m_makefile.block k).m_inferenceRules ∨
      ((p.m_makefile.block k).m_commands = [] ∧
        rules = p.m_makefile.preselectInferenceRules k [] (p.m_makefile.block k).m_suffixes)) :
    Parser.Selecting p
      { p with m_makefile := p.m_makefile.modify k fun b => { b with m_inferenceRules := rules } } := by
  refine ⟨rfl, fun x hx => ?_, fun x _ => ?_, fun x hx => ?_, fun x _ => ?_⟩
  · show (p.m_makefile.modify k _).target x = some x
    rw [Makefile.target_modify _ _ _ hk]
    exact hx
  · show ((p.m_makefile.modify k _).block x).m_target = _ ∧ _
    rw [Makefile.block_modify]
    by_cases hxk : x = k
    · simp only [hxk, if_true, and_self]
    · simp only [hxk, if_false, and_self]
  · have hxk : x ≠ k := by
      rintro rfl
      rw [hk] at hx
      cases hx
    show ((p.m_makefile.modify k _).block x).m_dependents = []
    rw [Makefile.block_modify, if_neg hxk, Makefile.block_of_no_target _ _ hx]
  · show ((p.m_makefile.modify k _).block x).m_inferenceRules = _ ∨ _
    rw [Makefile.block_modify]
    by_cases hxk : x = k
    · subst hxk
      simp only [if_true]
      exact hrules
    · simp only [hxk, if_false, true_or]

theorem Makefile.target_append_other (mf : Makefile) (b : DescriptionBlock) (other : QString)
    (h : other ≠ b.m_target) : (mf.append b).target other = mf.target other := by
  unfold Makefile.target StringMap.contains Makefile.append
  simp only [StringMap.find_set_other _ _ _ _ h]

theorem Makefile.target_append_self (mf : Makefile) (b : DescriptionBlock) :
    (mf.append b).target b.m_target = some b.m_target := by
  rw [Makefile.target_iff]
  exact ⟨b, by simp only [Makefile.append, StringMap.find_set_self]⟩

/-- The step that creates a block for a dependent and attaches rules to it. -/
theorem Parser.selecting_create (fs : FileSystem) (p : Parser) (name : QString)
    (rules : List InferenceRule) (hnew : p.m_makefile.target name = none) :
    Parser.Selecting p
      { Parser.createTarget fs p name with
        m_makefile := (Parser.createTarget fs p name).m_makefile.modify name fun b =>
          { b with m_inferenceRules := rules } } := by
  have hne : ∀ x, p.m_makefile.target x = some x → x ≠ name := by
    rintro x hx rfl
    rw [hnew] at hx
    cases hx
  have hself : (Parser.createTarget fs p name).m_makefile.target name = some name :=
    Makefile.target_append_self p.m_makefile _
  have hblock : ∀ x, x ≠ name →
      ((Parser.createTarget fs p name).m_makefile.modify name fun b =>
        { b with m_inferenceRules := rules }).block x = p.m_makefile.block x := by
    intro x hx
    rw [Makefile.block_modify, if_neg hx]
    unfold Parser.createTarget
    rw [Makefile.block_append, if_neg hx]
  refine ⟨rfl, fun x hx => ?_, fun x hx => ?_, fun x hx => ?_, fun x hx => ?_⟩
  · show ((Parser.createTarget fs p name).m_makefile.modify name _).target x = some x
    rw [Makefile.target_modify _ _ _ hself]
    unfold Parser.createTarget
    rw [Makefile.target_append_other _ _ _ (hne x hx)]
    exact hx
  · show (((Parser.createTarget fs p name).m_makefile.modify name _).block x).m_target = _ ∧ _
    rw [hblock x (hne x hx)]
    exact ⟨rfl, rfl, rfl, rfl⟩
  · show (((Parser.createTarget fs p name).m_makefile.modify name _).block x).m_dependents = []
    by_cases hxn : x = name
    · subst hxn
      rw [Makefile.block_modify, if_pos rfl]
      unfold Parser.createTarget
      rw [Makefile.block_append, if_pos rfl]
    · rw [hblock x hxn, Makefile.block_of_no_target _ _ hx]
  · show (((Parser.createTarget fs p name).m_makefile.modify name _).block x).m_inferenceRules
      = _ ∨ _
    rw [hblock x (hne x hx)]
    exact Or.inl rfl

/-- The loop over the dependents of a block, given that the nested calls
leave the blocks as the preselection does. -/
theorem Parser.preselectDependents_selecting (fs : FileSystem)
    (recur : Parser → QString → Except Error Parser) (target : QString)
    (hrec : ∀ p x p1, recur p x = .ok p1 → Parser.Selecting p p1) :
    ∀ (deps : List QString) (p p1 : Parser),
      Parser.preselectDependents fs recur target deps p = .ok p1 → Parser.Selecting p p1 := by
  intro deps
  induction deps with
  | nil =>
    intro p p1 h
    simp only [Parser.preselectDependents, Except.ok.injEq] at h
    subst h
    exact Parser.Selecting.selecting_refl p
  | cons x rest ih =>
    intro p p1 h
    unfold Parser.preselectDependents at h
    cases ht : p.m_makefile.target x with
    | some d =>
      have hd := Makefile.target_eq_some _ _ _ ht
      subst hd
      simp only [ht] at h
      cases hc : (p.m_makefile.block d).m_commands.isEmpty with
      | false =>
        simp only [hc, if_true] at h
        cases hr : recur p d with
        | error e => simp only [hr] at h; cases h
        | ok p2 =>
          simp only [hr] at h
          exact (hrec _ _ _ hr).selecting_trans (ih p2 p1 h)
      | true =>
        simp only [hc, Bool.true_eq_false, if_false] at h
        have hstep := Parser.selecting_select p d
          (p.m_makefile.preselectInferenceRules d [] (p.m_makefile.block d).m_suffixes) ht
          (Or.inr ⟨List.isEmpty_iff.mp hc, rfl⟩)
        split at h
        · cases h
        · next p2 hr => exact hstep.selecting_trans ((hrec _ _ _ hr).selecting_trans (ih p2 p1 h))
    | none =>
      simp only [ht] at h
      split at h
      · exact ih p p1 h
      · have hstep := Parser.selecting_create fs p x
          (p.m_makefile.preselectInferenceRules x [] (p.m_makefile.block target).m_suffixes) ht
        split at h
        · cases h
        · next p2 hr => exact hstep.selecting_trans ((hrec _ _ _ hr).selecting_trans (ih p2 p1 h))

/-- A call of `preselectInferenceRulesRecursive` that returns has left the
blocks as the preselection does. -/
theorem Parser.preselectInferenceRulesRecursiveDepth_selecting (fs : FileSystem) :
    ∀ (depth : Nat) (p : Parser) (target : QString) (p1 : Parser),
      Parser.preselectInferenceRulesRecursiveDepth fs depth p target = .ok p1 →
      Parser.Selecting p p1 := by
  intro depth
  induction depth with
  | zero => intro p target p1 h; cases h
  | succ d ih =>
    intro p target p1 h
    exact Parser.preselectDependents_selecting fs _ target ih _ p p1 h

/-! ## Preselection: the recursion ends -/

theorem Makefile.mem_withDependents (mf : Makefile) (k : QString) :
    k ∈ mf.withDependents ↔ mf.target k = some k ∧ (mf.block k).m_dependents ≠ [] := by
  unfold Makefile.withDependents
  rw [Finset.mem_filter, Makefile.mem_keys_iff]

theorem Parser.Selecting.of_dependents {p0 p : Parser} (h : Parser.Selecting p0 p) (k : QString)
    (hne : (p.m_makefile.block k).m_dependents ≠ []) :
    p0.m_makefile.target k = some k ∧
      (p0.m_makefile.block k).m_dependents = (p.m_makefile.block k).m_dependents := by
  rcases Makefile.target_cases p0.m_makefile k with hk | hk
  · exact ⟨hk, (h.fields k hk).2.2.1.symm⟩
  · exact absurd (h.fresh k hk) hne

/-- The loop over the dependents of a block `t` that has no cycle below it,
given that the nested calls return. -/
theorem Parser.preselectDependents_total (fs : FileSystem) (p0 : Parser)
    (recur : Parser → QString → Except Error Parser) (t : QString)
    (ht : p0.m_makefile.target t = some t)
    (hrec : ∀ p x p1, recur p x = .ok p1 → Parser.Selecting p p1)
    (htotal : ∀ p x, Parser.Selecting p0 p →
      (p.m_makefile.block x).m_dependents = [] ∨ p0.m_makefile.Dep t x →
      ∃ p1, recur p x = .ok p1) :
    ∀ (deps : List QString) (p : Parser), Parser.Selecting p0 p →
      (∀ x ∈ deps, x ∈ (p0.m_makefile.block t).m_dependents) →
      ∃ p1, Parser.preselectDependents fs recur t deps p = .ok p1 := by
  intro deps
  induction deps with
  | nil => intro p _ _; exact ⟨p, rfl⟩
  | cons x rest ih =>
    intro p hsel hdeps
    have hrest : ∀ y ∈ rest, y ∈ (p0.m_makefile.block t).m_dependents :=
      fun y hy => hdeps y (List.mem_cons_of_mem _ hy)
    have hcall : ∀ p2, Parser.Selecting p0 p2 → ∃ p1, recur p2 x = .ok p1 := by
      intro p2 hsel2
      refine htotal p2 x hsel2 ?_
      by_cases hne : (p2.m_makefile.block x).m_dependents = []
      · exact Or.inl hne
      · exact Or.inr ⟨ht, hdeps x (List.mem_cons_self _ _), (hsel2.of_dependents x hne).1⟩
    unfold Parser.preselectDependents
    cases htx : p.m_makefile.target x with
    | some d =>
      have hd := Makefile.target_eq_some _ _ _ htx
      subst hd
      simp only
      cases hc : (p.m_makefile.block d).m_commands.isEmpty with
      | false =>
        simp only [if_true]
        obtain ⟨p1, h1⟩ := hcall p hsel
        simp only [h1]
        exact ih p1 (hsel.selecting_trans (hrec _ _ _ h1)) hrest
      | true =>
        simp only [Bool.true_eq_false, if_false]
        have hstep := Parser.selecting_select p d
          (p.m_makefile.preselectInferenceRules d [] (p.m_makefile.block d).m_suffixes) htx
          (Or.inr ⟨List.isEmpty_iff.mp hc, rfl⟩)
        obtain ⟨p1, h1⟩ := hcall _ (hsel.selecting_trans hstep)
        simp only [h1]
        exact ih p1 ((hsel.selecting_trans hstep).selecting_trans (hrec _ _ _ h1)) hrest
    | none =>
      simp only
      split
      · exact ih p hsel hrest
      · have hstep := Parser.selecting_create fs p x
          (p.m_makefile.preselectInferenceRules x [] (p.m_makefile.block t).m_suffixes) htx
        obtain ⟨p1, h1⟩ := hcall _ (hsel.selecting_trans hstep)
        simp only [h1]
        exact ih p1 ((hsel.selecting_trans hstep).selecting_trans (hrec _ _ _ h1)) hrest

/-- A call of `preselectInferenceRulesRecursive` on a block without a cycle
below it returns: a chain of nested calls goes through different blocks that
have dependents, and `A` holds those of the calls in progress. -/
theorem Parser.preselectInferenceRulesRecursiveDepth_total (fs : FileSystem) (p0 : Parser) :
    ∀ (depth : Nat) (p : Parser) (t : QString) (A : Finset QString), Parser.Selecting p0 p →
      ((p.m_makefile.block t).m_dependents = [] ∧ 1 ≤ depth) ∨
        (p0.m_makefile.Acyclic t ∧ (∀ a ∈ A, Relation.TransGen p0.m_makefile.Dep a t) ∧
          (p0.m_makefile.withDependents \ A).card + 1 ≤ depth) →
      ∃ p1, Parser.preselectInferenceRulesRecursiveDepth fs depth p t = .ok p1 := by
  intro depth
  induction depth with
  | zero =>
    intro p t A _ h
    rcases h with ⟨_, h⟩ | ⟨_, _, h⟩ <;> omega
  | succ d ih =>
    intro p t A hsel h
    unfold Parser.preselectInferenceRulesRecursiveDepth
    by_cases hnil : (p.m_makefile.block t).m_dependents = []
    · rw [hnil]
      exact ⟨p, rfl⟩
    · rcases h with ⟨h, _⟩ | ⟨hac, hA, hcard⟩
      · exact absurd h hnil
      · obtain ⟨ht, hdeps⟩ := hsel.of_dependents t hnil
        have hmem : t ∈ p0.m_makefile.withDependents \ A := by
          rw [Finset.mem_sdiff, Makefile.mem_withDependents]
          refine ⟨⟨ht, by rw [hdeps]; exact hnil⟩, fun htA => ?_⟩
          exact hac t Relation.ReflTransGen.refl (hA t htA)
        have hlt : (p0.m_makefile.withDependents \ insert t A).card + 1
            ≤ (p0.m_makefile.withDependents \ A).card := by
          have hsub : p0.m_makefile.withDependents \ insert t A
              ⊆ (p0.m_makefile.withDependents \ A).erase t := by
            intro x hx
            rw [Finset.mem_sdiff, Finset.mem_insert, not_or] at hx
            rw [Finset.mem_erase, Finset.mem_sdiff]
            exact ⟨hx.2.1, hx.1, hx.2.2⟩
          have := Finset.card_le_card hsub
          rw [Finset.card_erase_of_mem hmem] at this
          have := Finset.card_pos.mpr ⟨t, hmem⟩
          omega
        refine Parser.preselectDependents_total fs p0 _ t ht
          (Parser.preselectInferenceRulesRecursiveDepth_selecting fs d) ?_ _ p hsel
          (fun x hx => by rw [hdeps]; exact hx)
        intro p2 x hsel2 hx
        rcases hx with hx | hx
        · exact ih p2 x A hsel2 (Or.inl ⟨hx, by omega⟩)
        · refine ih p2 x (insert t A) hsel2 (Or.inr ⟨?_, ?_, by omega⟩)
          · exact Makefile.Acyclic.of_reach _ t x hac (Relation.ReflTransGen.single hx)
          · intro a ha
            rcases Finset.mem_insert.mp ha with rfl | ha
            · exact Relation.TransGen.single hx
            · exact (hA a ha).tail hx

/-! ## Preselection: the rules of the active targets -/

theorem filterRulesByTargetName_eq (targetName : QString) :
    ∀ rules : List InferenceRule,
      filterRulesByTargetName rules targetName = rules.filter fun rule =>
        QString.endsWith targetName rule.m_toExtension &&
          decide (targetDirectory targetName = rule.m_toSearchPath) := by
  intro rules
  induction rules with
  | nil => rfl
  | cons r rest ih =>
    unfold filterRulesByTargetName
    rw [ih, List.filter_cons]
    cases he : QString.endsWith targetName r.m_toExtension with
    | false => simp only [if_true, Bool.false_and, Bool.false_eq_true, if_false]
    | true =>
      by_cases hd : targetDirectory targetName = r.m_toSearchPath
      · simp [hd]
      · simp [hd]

theorem Makefile.preselectInferenceRules_eq (mf : Makefile) (targetName : QString)
    (rules : List InferenceRule) (suffixes : List QString) :
    mf.preselectInferenceRules targetName rules suffixes =
      if (suffixes.any fun suffix => QString.endsWith targetName suffix) = true then
        mf.fittingRules targetName
      else rules := by
  unfold Makefile.preselectInferenceRules Makefile.findRulesByTargetExtension Makefile.fittingRules
  cases hany : (suffixes.any fun suffix => QString.endsWith targetName suffix) with
  | false => simp only [if_true, Bool.false_eq_true, if_false]
  | true =>
    simp only [Bool.true_eq_false, if_false, if_true]
    rw [filterRulesByTargetName_eq, List.filter_filter]
    apply List.filter_congr
    intro r _
    cases QString.endsWith targetName r.m_toExtension <;> simp

theorem Makefile.modify_congr (mf : Makefile) (k : QString)
    (f g : DescriptionBlock → DescriptionBlock) (h : f (mf.block k) = g (mf.block k)) :
    mf.modify k f = mf.modify k g := by
  unfold Makefile.modify
  rw [h]

theorem Makefile.withDependents_card_le (p0 p : Parser) (h : Parser.Selecting p0 p) :
    p0.m_makefile.withDependents.card ≤ p.m_makefile.m_targets.length := by
  have hsub : p0.m_makefile.withDependents ⊆ (p.m_makefile.m_targets.map Prod.fst).toFinset := by
    intro x hx
    rw [Makefile.mem_withDependents] at hx
    exact (Makefile.mem_keys_iff _ _).mpr (h.target x hx.1)
  have h1 := Finset.card_le_card hsub
  have h2 := List.toFinset_card_le (p.m_makefile.m_targets.map Prod.fst)
  simp only [List.length_map] at h2
  omega

/-- The loop over the active targets: it returns, and every active target
without commands has the rules that `preselectInferenceRules` selects for its
name and its suffixes. -/
theorem Parser.preselectTargets_spec (fs : FileSystem) (p0 : Parser) :
    ∀ (todo : List QString) (p : Parser), Parser.Selecting p0 p →
      (∀ a ∈ todo, p0.m_makefile.target a = some a ∧ p0.m_makefile.Acyclic a ∧
        (p0.m_makefile.block a).m_target = a ∧ (p0.m_makefile.block a).m_inferenceRules = []) →
      ∃ p1, Parser.preselectTargets fs todo p = .ok p1 ∧ Parser.Selecting p p1 ∧
        ∀ a ∈ todo, (p0.m_makefile.block a).m_commands = [] →
          (p1.m_makefile.block a).m_inferenceRules
            = p0.m_makefile.preselectInferenceRules a [] (p0.m_makefile.block a).m_suffixes := by
  intro todo
  induction todo with
  | nil => intro p _ _; exact ⟨p, rfl, Parser.Selecting.selecting_refl p, fun _ h => by cases h⟩
  | cons a rest ih =>
    intro p hsel hall
    obtain ⟨hta, hac, hname, hnone⟩ := hall a (List.mem_cons_self _ _)
    have htp := hsel.target a hta
    obtain ⟨f1, f2, _, f4⟩ := hsel.fields a hta
    -- the state after the call for the target itself
    obtain ⟨q, hq, hselq, hrulesq⟩ : ∃ q : Parser,
        (∀ r, (match Parser.preselectInferenceRulesRecursive fs q a with
            | .error e => .error e
            | .ok p1 => Parser.preselectTargets fs rest p1) = r →
          Parser.preselectTargets fs (a :: rest) p = r) ∧
        Parser.Selecting p q ∧
        ((p0.m_makefile.block a).m_commands = [] →
          (q.m_makefile.block a).m_inferenceRules
            = p0.m_makefile.preselectInferenceRules a [] (p0.m_makefile.block a).m_suffixes) := by
      have hrew : p.m_makefile.preselectInferenceRules (p.m_makefile.block a).m_target
          (p.m_makefile.block a).m_inferenceRules (p.m_makefile.block a).m_suffixes
          = p.m_makefile.preselectInferenceRules a (p.m_makefile.block a).m_inferenceRules
              (p.m_makefile.block a).m_suffixes := by
        rw [f1, hname]
      have hsel0 : p.m_makefile.preselectInferenceRules a [] (p.m_makefile.block a).m_suffixes
          = p0.m_makefile.preselectInferenceRules a [] (p0.m_makefile.block a).m_suffixes := by
        rw [f4]
        exact Makefile.preselectInferenceRules_congr _ _ hsel.rules _ _ _
      cases hc : (p.m_makefile.block a).m_commands.isEmpty with
      | false =>
        refine ⟨p, fun r hr => ?_, Parser.Selecting.selecting_refl p, fun hc0 => ?_⟩
        · unfold Parser.preselectTargets
          simp only [htp, hc, Bool.false_eq_true, if_false]
          exact hr
        · rw [f2, hc0] at hc
          cases hc
      | true =>
        obtain ⟨rulesA, hrulesA⟩ : ∃ r, r = p.m_makefile.preselectInferenceRules a
            (p.m_makefile.block a).m_inferenceRules (p.m_makefile.block a).m_suffixes := ⟨_, rfl⟩
        have hcases : rulesA = (p.m_makefile.block a).m_inferenceRules ∨
            rulesA
              = p.m_makefile.preselectInferenceRules a [] (p.m_makefile.block a).m_suffixes := by
          rw [hrulesA, Makefile.preselectInferenceRules_eq, Makefile.preselectInferenceRules_eq]
          split
          · exact Or.inr rfl
          · exact Or.inl rfl
        have hmod : (p.m_makefile.modify a fun b =>
            { b with m_inferenceRules :=
                p.m_makefile.preselectInferenceRules b.m_target b.m_inferenceRules b.m_suffixes })
            = p.m_makefile.modify a fun b => { b with m_inferenceRules := rulesA } :=
          Makefile.modify_congr _ _ _ _ (by simp only [hrew, hrulesA])
        refine ⟨{ p with m_makefile := p.m_makefile.modify a fun b =>
              { b with m_inferenceRules := rulesA } },
          fun r hr => ?_, ?_, fun _ => ?_⟩
        · unfold Parser.preselectTargets
          simp only [htp, hc, if_true, hmod]
          exact hr
        · refine Parser.selecting_select p a _ htp ?_
          rcases hcases with h | h
          · exact Or.inl h
          · exact Or.inr ⟨List.isEmpty_iff.mp hc, h⟩
        · show ((p.m_makefile.modify a _).block a).m_inferenceRules = _
          rw [Makefile.block_modify, if_pos rfl]
          simp only
          rcases hcases with h | h
          · rw [h]
            rcases hsel.selected a hta with s | ⟨_, s⟩
            · -- the rules are the old ones, none: the suffix list does not let any in
              rw [s, hnone, ← hsel0]
              have h1 := h
              rw [hrulesA, Makefile.preselectInferenceRules_eq, s, hnone] at h1
              rw [Makefile.preselectInferenceRules_eq]
              split at h1
              · rw [if_pos (by assumption)]
                exact h1.symm
              · rw [if_neg (by assumption)]
            · exact s
          · rw [h, hsel0]
    have hsel0q : Parser.Selecting p0 q := hsel.selecting_trans hselq
    obtain ⟨p2, h2⟩ := Parser.preselectInferenceRulesRecursiveDepth_total fs p0
      (q.m_makefile.m_targets.length + 1) q a ∅ hsel0q
      (Or.inr ⟨hac, fun _ h => absurd h (Finset.not_mem_empty _), by
        rw [Finset.sdiff_empty]
        have := Makefile.withDependents_card_le p0 q hsel0q
        omega⟩)
    have hsel2 := Parser.preselectInferenceRulesRecursiveDepth_selecting fs _ q a p2 h2
    obtain ⟨p3, h3, hsel3, hrest⟩ := ih p2 (hsel0q.selecting_trans hsel2)
      (fun b hb => hall b (List.mem_cons_of_mem _ hb))
    refine ⟨p3, hq _ ?_, hselq.selecting_trans (hsel2.selecting_trans hsel3), fun b hb hcb => ?_⟩
    · unfold Parser.preselectInferenceRulesRecursive
      simp only [h2, h3]
    · by_cases hba : b ∈ rest
      · exact hrest b hba hcb
      · have hb' : b = a := by
          rcases List.mem_cons.mp hb with h | h
          · exact h
          · exact absurd h hba
        subst hb'
        have hq3 := hsel2.selecting_trans hsel3
        obtain ⟨_, _, _, g4⟩ := hsel0q.fields b hta
        rcases hq3.selected b (hsel0q.target b hta) with s | ⟨_, s⟩
        · rw [s]
          exact hrulesq hcb
        · rw [s, g4]
          exact Makefile.preselectInferenceRules_congr _ _ hsel0q.rules _ _ _

/-- C23, as the code has it: the suffix list of the block decides whether
rules are attached.  Every active target has a block, stored under its name,
to which no rules are attached yet, and no block that can be reached from an
active target lies on a cycle.  Then `preselectInferenceRules()` returns, the
list of inference rules and the commands of the blocks are what they were,
and for every active target without commands: when an entry of the suffix
list of its block is a suffix of its name, the rules attached to the block
are the inference rules, in the order of the rule list, whose `toExtension` is
a suffix of the name and whose `toSearchPath` is the directory of the target;
when no entry is, no rule is attached. -/
theorem preselectInferenceRules_attached (fs : FileSystem) (p : Parser)
    (hblocks : ∀ a ∈ p.m_activeTargets, p.m_makefile.target a = some a)
    (hacyclic : ∀ a ∈ p.m_activeTargets, ∀ u, Relation.ReflTransGen p.m_makefile.Dep a u →
      ¬ Relation.TransGen p.m_makefile.Dep u u)
    (hnames : ∀ a ∈ p.m_activeTargets, (p.m_makefile.block a).m_target = a)
    (hrules : ∀ a ∈ p.m_activeTargets, (p.m_makefile.block a).m_inferenceRules = []) :
    ∃ p1, p.preselectInferenceRules fs = .ok p1 ∧
      p1.m_makefile.m_inferenceRules = p.m_makefile.m_inferenceRules ∧
      ∀ a ∈ p.m_activeTargets, (p.m_makefile.block a).m_commands = [] →
        (p1.m_makefile.block a).m_commands = [] ∧
        (p1.m_makefile.block a).m_suffixes = (p.m_makefile.block a).m_suffixes ∧
        (((p.m_makefile.block a).m_suffixes.any fun suffix => QString.endsWith a suffix) = true →
          (p1.m_makefile.block a).m_inferenceRules = p.m_makefile.fittingRules a) ∧
        (((p.m_makefile.block a).m_suffixes.any fun suffix => QString.endsWith a suffix) = false →
          (p1.m_makefile.block a).m_inferenceRules = []) := by
  obtain ⟨p1, h1, hsel, hspec⟩ := Parser.preselectTargets_spec fs p p.m_activeTargets p
    (Parser.Selecting.selecting_refl p)
    (fun a ha => ⟨hblocks a ha, hacyclic a ha, hnames a ha, hrules a ha⟩)
  refine ⟨p1, h1, hsel.rules, fun a ha hc => ?_⟩
  obtain ⟨_, f2, _, f4⟩ := hsel.fields a (hblocks a ha)
  have hr := hspec a ha hc
  rw [Makefile.preselectInferenceRules_eq] at hr
  refine ⟨f2.trans hc, f4, fun happl => ?_, fun happl => ?_⟩
  · rw [hr, if_pos happl]
  · rw [hr, happl]
    rfl

/-- The witness of C23: with the suffix list `.foo .bar` the rule
`{src}.foo{obj}.bar:` is attached to the active target `obj/thing.bar`. -/
theorem preselectInferenceRules_attached_witness :
    ∃ p1, (parserThingBar [".foo".toList, ".bar".toList]).preselectInferenceRules noFiles
        = .ok p1 ∧
      (p1.m_makefile.block "obj/thing.bar".toList).m_inferenceRules
        = (parserThingBar [".foo".toList, ".bar".toList]).m_makefile.m_inferenceRules :=
  have hcheck : checkForCycles (parserThingBar [".foo".toList, ".bar".toList]).m_makefile
      ((parserThingBar [".foo".toList, ".bar".toList]).m_makefile.target "obj/thing.bar".toList)
      = .ok (parserThingBar [".foo".toList, ".bar".toList]).m_makefile := by decide!
  have h := preselectInferenceRules_attached noFiles
    (parserThingBar [".foo".toList, ".bar".toList])
    (fun a ha => by
      rw [show a = "obj/thing.bar".toList from List.mem_singleton.mp ha]
      decide)
    (fun a ha => by
      rw [show a = "obj/thing.bar".toList from List.mem_singleton.mp ha]
      exact Makefile.acyclic_of_checkForCycles _ _ _ hcheck)
    (fun a ha => by
      rw [show a = "obj/thing.bar".toList from List.mem_singleton.mp ha]
      decide)
    (fun a ha => by
      rw [show a = "obj/thing.bar".toList from List.mem_singleton.mp ha]
      decide)
  by
    obtain ⟨p1, h1, _, h3⟩ := h
    obtain ⟨_, _, h4, _⟩ := h3 "obj/thing.bar".toList (List.mem_singleton_self _) (by decide)
    exact ⟨p1, h1, (h4 (by decide)).trans (by decide)⟩

/-- C23 as stated fails: after `.SUFFIXES:` and `.SUFFIXES: .foo` the suffix
list is `.foo`; the rule `{src}.foo{obj}.bar:` has the extension and the
directory of the active target `obj/thing.bar`, which has no commands, and
yet no rule is attached to its block. -/
theorem preselectInferenceRules_without_suffix :
    (parserThingBar [".foo".toList]).m_makefile.fittingRules "obj/thing.bar".toList
      = (parserThingBar [".foo".toList]).m_makefile.m_inferenceRules ∧
    (parserThingBar [".foo".toList]).m_makefile.m_inferenceRules ≠ [] ∧
    ((parserThingBar [".foo".toList]).m_makefile.block "obj/thing.bar".toList).m_commands = [] ∧
    ∃ p1, (parserThingBar [".foo".toList]).preselectInferenceRules noFiles = .ok p1 ∧
      (p1.m_makefile.block "obj/thing.bar".toList).m_inferenceRules = [] :=
  ⟨by decide, by decide, by decide, parserThingBar [".foo".toList], by decide!, by decide⟩

/-! ## Two expansions side by side, with the macro of the cycle exception -/

theorem cycleMessage_take (n : QString) : (cycleMessage n).take 2 = ['C', 'y'] := rfl

theorem cycleMessage_injective (a b : QString) (h : cycleMessage a = cycleMessage b) : a = b := by
  unfold cycleMessage at h
  rw [List.append_assoc, List.append_assoc] at h
  exact List.append_cancel_right (List.append_cancel_left h)

theorem ne_cycleMessage {α : Type} (msg n : QString) (h : msg.take 2 ≠ ['C', 'y']) :
    (.error (.exception msg) : Except Error α) ≠ .error (.exception (cycleMessage n)) := by
  intro heq
  simp only [Except.error.injEq, Error.exception.injEq] at heq
  rw [heq, cycleMessage_take] at h
  exact h rfl

theorem isCycleOf_error {α : Type} (P : QString → Prop) (name : QString) (h : P name) :
    IsCycleOf P (.error (.exception (cycleMessage name)) : Except Error α) := ⟨name, rfl, h⟩

theorem not_isCycleOf_ok {α : Type} (P : QString → Prop) (a : α) :
    ¬ IsCycleOf P (.ok a : Except Error α) := by
  rintro ⟨n, h, _⟩
  cases h

theorem IsCycleOf.imp {α : Type} {P Q : QString → Prop} {res : Except Error α}
    (h : IsCycleOf P res) (hPQ : ∀ n, P n → Q n) : IsCycleOf Q res := by
  obtain ⟨n, hn, hp⟩ := h
  exact ⟨n, hn, hPQ n hp⟩

theorem parseSubstitutionStatement_message (str : QString) (start : Nat) (e : Error)
    (h : parseSubstitutionStatement str start = .error e) :
    e = .exception "Cannot find = after : in macro substitution.".toList := by
  unfold parseSubstitutionStatement at h
  split at h
  · simp at h
  · simp only [Except.error.injEq] at h
    exact h.symm

theorem expandInvocation_cycleSimNamed (mt : MacroTable) (B : QString → Prop)
    (R : QString → QString → Prop) (U1 U2 : Finset QString)
    (recur : QString → Finset QString → Expansion) (h : CycleSimNamed mt B R U1 U2 recur)
    (str : QString) (i : Nat) (ret : QString) :
    (∀ i1 ret1 W, expandInvocation mt recur str i ret U1 = .ok (i1, ret1, W) →
      W = U1 ∧ (expandInvocation mt recur str i ret U2 = .ok (i1, ret1, U2) ∨
        IsCycleOf B (expandInvocation mt recur str i ret U2))) ∧
    (∀ n, expandInvocation mt recur str i ret U1 = .error (.exception (cycleMessage n)) →
      IsCycleOf (R n) (expandInvocation mt recur str i ret U2)) := by
  rcases hscan : scanInvocation (str.drop (i + 1)) (i + 1) none with ⟨ne, e, b⟩
  cases b
  · simp only [expandInvocation, hscan]
    exact ⟨fun _ _ _ hok => (by cases hok),
      fun n hn => absurd hn (ne_cycleMessage _ n (by decide))⟩
  · simp only [expandInvocation, hscan]
    by_cases hname : QString.mid str (i + 1) (ne.getD e - i - 1) = []
    · simp only [hname, if_true]
      exact ⟨fun _ _ _ hok => (by cases hok),
        fun n hn => absurd hn (ne_cycleMessage _ n (by decide))⟩
    · simp only [hname, if_false]
      by_cases hfile :
          isFileNameMacroChar (QString.charAt (QString.mid str (i + 1) (ne.getD e - i - 1)) 0)
            = true
      · simp only [hfile, if_true]
        refine ⟨?_, fun n hn => (by cases hn)⟩
        intro i1 ret1 W hok
        simp only [Except.ok.injEq, Prod.mk.injEq] at hok
        obtain ⟨rfl, rfl, rfl⟩ := hok
        exact ⟨rfl, Or.inl rfl⟩
      · simp only [hfile, Bool.false_eq_true, if_false]
        generalize QString.mid str (i + 1) (ne.getD e - i - 1) = name
        by_cases hm1 : name ∈ U1
        · simp only [cycleCheckedMacroValue, hm1, if_true]
          refine ⟨fun _ _ _ hok => (by cases hok), fun n hn => ?_⟩
          simp only [Except.error.injEq, Error.exception.injEq] at hn
          have hnn := cycleMessage_injective _ _ hn
          subst hnn
          rcases h.inProgress name hm1 with ⟨hm2, hr⟩ | ⟨hm2, k, hk, hr⟩
          · simp only [hm2, if_true]
            exact isCycleOf_error _ name hr
          · simp only [hm2, if_false, hk]
            exact isCycleOf_error _ k hr
        · simp only [cycleCheckedMacroValue, hm1, if_false]
          by_cases hm2 : name ∈ U2
          · simp only [hm2, if_true]
            have hB := h.fresh name hm1 hm2
            refine ⟨?_, fun n _ => isCycleOf_error _ name (h.weak n name hB)⟩
            intro i1 ret1 W hok
            refine ⟨?_, Or.inr (isCycleOf_error _ name hB)⟩
            rcases hrec : recur (macroValue mt name) (insert name U1) with e1 | ⟨v, W1⟩
            · simp [hrec] at hok
            · have hW1 := h.restores name hm1 v W1 hrec
              subst hW1
              simp only [hrec, Finset.erase_insert hm1] at hok
              split at hok
              · split at hok
                · cases hok
                · simp only [Except.ok.injEq, Prod.mk.injEq] at hok
                  exact hok.2.2.symm
              · simp only [Except.ok.injEq, Prod.mk.injEq] at hok
                exact hok.2.2.symm
          · simp only [hm2, if_false]
            rcases hrec : recur (macroValue mt name) (insert name U1) with e1 | ⟨v, W1⟩
            · simp only
              refine ⟨fun _ _ _ hok => (by cases hok), fun n hn => ?_⟩
              simp only [Except.error.injEq] at hn
              subst hn
              obtain ⟨k, hk, hr⟩ := h.raises name hm1 hm2 n hrec
              simp only [hk]
              exact isCycleOf_error _ k hr
            · have hW1 := h.restores name hm1 v W1 hrec
              subst hW1
              simp only [Finset.erase_insert hm1]
              rcases h.returns name hm1 hm2 v hrec with hrec2 | ⟨k, hk, hb⟩
              · simp only [hrec2, Finset.erase_insert hm2]
                by_cases hsub : ne.getD e = e
                · simp only [hsub, ne_eq, not_true_eq_false, if_false]
                  refine ⟨?_, fun n hn => (by cases hn)⟩
                  intro i1 ret1 W hok
                  simp only [Except.ok.injEq, Prod.mk.injEq] at hok
                  obtain ⟨rfl, rfl, rfl⟩ := hok
                  exact ⟨rfl, Or.inl rfl⟩
                · simp only [ne_eq, hsub, not_false_eq_true, if_true]
                  rcases hp : parseSubstitutionStatement str (ne.getD e + 1)
                    with e1 | ⟨s, newEnd⟩
                  · simp only
                    refine ⟨fun _ _ _ hok => (by cases hok), fun n hn => ?_⟩
                    rw [parseSubstitutionStatement_message _ _ _ hp] at hn
                    exact absurd hn (ne_cycleMessage _ n (by decide))
                  · simp only
                    refine ⟨?_, fun n hn => (by cases hn)⟩
                    intro i1 ret1 W hok
                    simp only [Except.ok.injEq, Prod.mk.injEq] at hok
                    obtain ⟨rfl, rfl, rfl⟩ := hok
                    exact ⟨rfl, Or.inl rfl⟩
              · simp only [hk]
                refine ⟨?_, fun n hn => ?_⟩
                · intro i1 ret1 W hok
                  refine ⟨?_, Or.inr (isCycleOf_error _ k hb)⟩
                  split at hok
                  · split at hok
                    · cases hok
                    · simp only [Except.ok.injEq, Prod.mk.injEq] at hok
                      exact hok.2.2.symm
                  · simp only [Except.ok.injEq, Prod.mk.injEq] at hok
                    exact hok.2.2.symm
                · exact isCycleOf_error _ k (h.weak n k hb)

theorem expandStep_cycleSimNamed (mt : MacroTable) (inDependentsLine : Bool)
    (B : QString → Prop) (R : QString → QString → Prop)
    (U1 U2 : Finset QString) (recur : QString → Finset QString → Expansion)
    (h : CycleSimNamed mt B R U1 U2 recur) (str : QString) (st : LoopState)
    (hU : st.usedMacros = U1) :
    (∀ st1, expandStep mt inDependentsLine recur str st = .ok st1 →
      st1.usedMacros = U1 ∧
        (expandStep mt inDependentsLine recur str { st with usedMacros := U2 }
            = .ok { st1 with usedMacros := U2 } ∨
          IsCycleOf B (expandStep mt inDependentsLine recur str { st with usedMacros := U2 }))) ∧
    (∀ n, expandStep mt inDependentsLine recur str st = .error (.exception (cycleMessage n)) →
      IsCycleOf (R n) (expandStep mt inDependentsLine recur str { st with usedMacros := U2 })) := by
  obtain ⟨i, ret, appendStart, appendLength, used⟩ := st
  simp only at hU
  subst hU
  by_cases hd : QString.charAt str i = '$' ∧ i + 1 < str.length
  · simp only [expandStep, hd, and_self, if_true]
    generalize (match appendStart with
      | some appendStart => ret ++ QString.mid str appendStart appendLength
      | none => ret) = ret1
    by_cases hp : QString.charAt str (i + 1) = '('
    · simp only [hp, if_true]
      obtain ⟨hok, hcyc⟩ := expandInvocation_cycleSimNamed mt B R used U2 recur h str (i + 1) ret1
      rcases hinv : expandInvocation mt recur str (i + 1) ret1 used with e1 | ⟨i2, ret2, W⟩
      · simp only
        refine ⟨fun _ hc => (by cases hc), fun n hn => ?_⟩
        simp only [Except.error.injEq] at hn
        subst hn
        obtain ⟨k, hk, hr⟩ := hcyc n hinv
        simp only [hk]
        exact isCycleOf_error _ k hr
      · simp only
        refine ⟨?_, fun n hn => (by cases hn)⟩
        intro st1 hst
        simp only [Except.ok.injEq] at hst
        subst hst
        obtain ⟨hW, h2⟩ := hok i2 ret2 W hinv
        refine ⟨hW, ?_⟩
        rcases h2 with h2 | ⟨k, hk, hb⟩
        · left; simp only [h2]
        · right; simp only [hk]; exact isCycleOf_error _ k hb
    · simp only [hp, if_false]
      by_cases hdd : QString.charAt str (i + 1) = '$'
      · simp only [hdd, if_true]
        refine ⟨?_, fun n hn => (by cases hn)⟩
        intro st1 hst
        simp only [Except.ok.injEq] at hst
        subst hst
        exact ⟨rfl, Or.inl rfl⟩
      · simp only [hdd, if_false]
        by_cases hl : isLetterOrNumber (QString.charAt str (i + 1)) = true
        · simp only [hl, if_true]
          generalize ([QString.charAt str (i + 1)] : QString) = name
          by_cases hm1 : name ∈ used
          · simp only [cycleCheckedMacroValue, hm1, if_true]
            refine ⟨fun _ hc => (by cases hc), fun n hn => ?_⟩
            simp only [Except.error.injEq, Error.exception.injEq] at hn
            have hnn := cycleMessage_injective _ _ hn
            subst hnn
            rcases h.inProgress name hm1 with ⟨hm2, hr⟩ | ⟨hm2, k, hk, hr⟩
            · simp only [hm2, if_true]
              exact isCycleOf_error _ name hr
            · simp only [hm2, if_false, hk]
              exact isCycleOf_error _ k hr
          · simp only [cycleCheckedMacroValue, hm1, if_false]
            rcases hrec : recur (macroValue mt name) (insert name used) with e1 | ⟨v, W1⟩
            · simp only
              refine ⟨fun _ hc => (by cases hc), fun n hn => ?_⟩
              simp only [Except.error.injEq] at hn
              subst hn
              by_cases hm2 : name ∈ U2
              · simp only [hm2, if_true]
                exact isCycleOf_error _ name (h.weak n name (h.fresh name hm1 hm2))
              · simp only [hm2, if_false]
                obtain ⟨k, hk, hr⟩ := h.raises name hm1 hm2 n hrec
                simp only [hk]
                exact isCycleOf_error _ k hr
            · have hW1 := h.restores name hm1 v W1 hrec
              subst hW1
              simp only [Finset.erase_insert hm1]
              refine ⟨?_, fun n hn => (by cases hn)⟩
              intro st1 hst
              simp only [Except.ok.injEq] at hst
              subst hst
              refine ⟨rfl, ?_⟩
              by_cases hm2 : name ∈ U2
              · right
                simp only [hm2, if_true]
                exact isCycleOf_error _ name (h.fresh name hm1 hm2)
              · simp only [hm2, if_false]
                rcases h.returns name hm1 hm2 v hrec with hrec2 | ⟨k, hk, hb⟩
                · left
                  simp only [hrec2, Finset.erase_insert hm2]
                · right
                  simp only [hk]
                  exact isCycleOf_error _ k hb
        · simp only [hl, Bool.false_eq_true, if_false]
          by_cases hf : isFileNameMacroChar (QString.charAt str (i + 1)) = true
          · simp only [hf, if_true]
            refine ⟨?_, fun n hn => (by cases hn)⟩
            intro st1 hst
            simp only [Except.ok.injEq] at hst
            subst hst
            exact ⟨rfl, Or.inl rfl⟩
          · simp only [hf, Bool.false_eq_true, if_false]
            exact ⟨fun _ hc => (by cases hc),
              fun n hn => absurd hn (ne_cycleMessage _ n (by decide))⟩
  · simp only [expandStep, hd, if_false]
    cases appendStart with
    | none =>
      simp only
      refine ⟨?_, fun n hn => (by cases hn)⟩
      intro st1 hst
      simp only [Except.ok.injEq] at hst
      subst hst
      exact ⟨rfl, Or.inl rfl⟩
    | some a =>
      simp only
      refine ⟨?_, fun n hn => (by cases hn)⟩
      intro st1 hst
      simp only [Except.ok.injEq] at hst
      subst hst
      exact ⟨rfl, Or.inl rfl⟩

theorem expandLoop_cycleSimNamed (mt : MacroTable) (inDependentsLine : Bool)
    (B : QString → Prop) (R : QString → QString → Prop)
    (U1 U2 : Finset QString) (recur : QString → Finset QString → Expansion)
    (h : CycleSimNamed mt B R U1 U2 recur) (str : QString) :
    ∀ (fuel : Nat) (st : LoopState), st.usedMacros = U1 →
      (∀ st1, expandLoop mt inDependentsLine recur str fuel st = .ok st1 →
        st1.usedMacros = U1 ∧
          (expandLoop mt inDependentsLine recur str fuel { st with usedMacros := U2 }
              = .ok { st1 with usedMacros := U2 } ∨
            IsCycleOf B (expandLoop mt inDependentsLine recur str fuel
              { st with usedMacros := U2 }))) ∧
      (∀ n, expandLoop mt inDependentsLine recur str fuel st
          = .error (.exception (cycleMessage n)) →
        IsCycleOf (R n)
          (expandLoop mt inDependentsLine recur str fuel { st with usedMacros := U2 })) := by
  intro fuel
  induction fuel with
  | zero =>
    intro st hU
    by_cases hi : st.i < str.length
    · simp only [expandLoop, hi, if_true]
      exact ⟨fun _ hc => (by cases hc), fun n hn => (by cases hn)⟩
    · simp only [expandLoop, hi, if_false]
      refine ⟨?_, fun n hn => (by cases hn)⟩
      intro st1 hst
      simp only [Except.ok.injEq] at hst
      subst hst
      exact ⟨hU, Or.inl rfl⟩
  | succ fuel ih =>
    intro st hU
    by_cases hi : st.i < str.length
    · simp only [expandLoop, hi, if_true]
      obtain ⟨hok, hcyc⟩ := expandStep_cycleSimNamed mt inDependentsLine B R U1 U2 recur h str st hU
      rcases hstep : expandStep mt inDependentsLine recur str st with e1 | st2
      · simp only
        refine ⟨fun _ hc => (by cases hc), fun n hn => ?_⟩
        simp only [Except.error.injEq] at hn
        subst hn
        obtain ⟨k, hk, hr⟩ := hcyc n hstep
        simp only [hk]
        exact isCycleOf_error _ k hr
      · obtain ⟨hU2, h2⟩ := hok st2 hstep
        obtain ⟨hok1, hcyc1⟩ := ih { st2 with i := st2.i + 1 } hU2
        simp only
        rcases h2 with h2 | ⟨k, hk, hb⟩
        · simp only [h2]
          exact ⟨hok1, hcyc1⟩
        · simp only [hk]
          exact ⟨fun st1 hst => ⟨(hok1 st1 hst).1, Or.inr (isCycleOf_error _ k hb)⟩,
            fun n _ => isCycleOf_error _ k (h.weak n k hb)⟩
    · simp only [expandLoop, hi, if_false]
      refine ⟨?_, fun n hn => (by cases hn)⟩
      intro st1 hst
      simp only [Except.ok.injEq] at hst
      subst hst
      exact ⟨hU, Or.inl rfl⟩

theorem expandBody_cycleSimNamed (mt : MacroTable) (inDependentsLine : Bool)
    (B : QString → Prop) (R : QString → QString → Prop)
    (U1 U2 : Finset QString) (recur : QString → Finset QString → Expansion)
    (h : CycleSimNamed mt B R U1 U2 recur) (str : QString) :
    (∀ r W, expandBody mt inDependentsLine recur str U1 = .ok (r, W) →
      W = U1 ∧ (expandBody mt inDependentsLine recur str U2 = .ok (r, U2) ∨
        IsCycleOf B (expandBody mt inDependentsLine recur str U2))) ∧
    (∀ n, expandBody mt inDependentsLine recur str U1 = .error (.exception (cycleMessage n)) →
      IsCycleOf (R n) (expandBody mt inDependentsLine recur str U2)) := by
  obtain ⟨hok, hcyc⟩ := expandLoop_cycleSimNamed mt inDependentsLine B R U1 U2 recur h str
    str.length { i := 0, ret := [], appendStart := none, appendLength := 0, usedMacros := U1 } rfl
  unfold expandBody
  rcases hloop : expandLoop mt inDependentsLine recur str str.length
      { i := 0, ret := [], appendStart := none, appendLength := 0, usedMacros := U1 }
    with e1 | st1
  · simp only
    refine ⟨fun _ _ hc => (by cases hc), fun n hn => ?_⟩
    simp only [Except.error.injEq] at hn
    subst hn
    obtain ⟨k, hk, hr⟩ := hcyc n hloop
    simp only at hk
    simp only [hk]
    exact isCycleOf_error _ k hr
  · obtain ⟨hU1, h2⟩ := hok st1 hloop
    simp only at h2
    simp only
    rcases h2 with h2 | ⟨k, hk, hb⟩
    · simp only [h2]
      cases hs : st1.appendStart with
      | none =>
        simp only
        refine ⟨?_, fun n hn => (by cases hn)⟩
        intro r W hr
        simp only [Except.ok.injEq, Prod.mk.injEq] at hr
        obtain ⟨rfl, rfl⟩ := hr
        exact ⟨hU1, Or.inl rfl⟩
      | some a =>
        simp only
        by_cases hc : a = 0 ∧ st1.appendLength = str.length
        · simp only [hc, and_self, if_true]
          refine ⟨?_, fun n hn => (by cases hn)⟩
          intro r W hr
          simp only [Except.ok.injEq, Prod.mk.injEq] at hr
          obtain ⟨rfl, rfl⟩ := hr
          exact ⟨hU1, Or.inl rfl⟩
        · simp only [hc, if_false]
          refine ⟨?_, fun n hn => (by cases hn)⟩
          intro r W hr
          simp only [Except.ok.injEq, Prod.mk.injEq] at hr
          obtain ⟨rfl, rfl⟩ := hr
          exact ⟨hU1, Or.inl rfl⟩
    · simp only [hk]
      refine ⟨?_, fun n hn => ?_⟩
      · intro r W hr
        refine ⟨?_, Or.inr (isCycleOf_error _ k hb)⟩
        cases hs : st1.appendStart with
        | none =>
          simp only [hs, Except.ok.injEq, Prod.mk.injEq] at hr
          rw [← hr.2, hU1]
        | some a =>
          simp only [hs] at hr
          split at hr <;>
            (simp only [Except.ok.injEq, Prod.mk.injEq] at hr; rw [← hr.2, hU1])
      · cases hs : st1.appendStart with
        | none => simp only [hs] at hn; cases hn
        | some a =>
          simp only [hs] at hn
          split at hn <;> cases hn

/-! ## The macro of a cycle exception lies on a cycle -/

theorem getElem?_split (l : QString) (n : Nat) (c : Char) (h : l[n]? = some c) :
    l = l.take n ++ c :: l.drop (n + 1) := by
  induction l generalizing n with
  | nil => simp at h
  | cons a t ih =>
    cases n with
    | zero =>
      simp only [List.getElem?_cons_zero, Option.some.injEq] at h
      simp [h]
    | succ n =>
      simp only [List.getElem?_cons_succ] at h
      simp only [List.take_succ_cons, List.drop_succ_cons, List.cons_append, List.cons.injEq,
        true_and]
      exact ih n h

theorem charAt_getElem? (s : QString) (i : Nat) (c : Char) (h : QString.charAt s i = c)
    (hc : c ≠ Char.ofNat 0) : s[i]? = some c := by
  unfold QString.charAt at h
  rw [List.getD_eq_getElem?_getD] at h
  cases hs : s[i]? with
  | none => rw [hs] at h; exact absurd h.symm hc
  | some d => rw [hs] at h; simpa using h

theorem scanInvocation_closing (rest : QString) :
    ∀ (k : Nat) (ne ne1 : Option Nat) (e : Nat),
      scanInvocation rest k ne = (ne1, e, true) → rest[e - k]? = some ')' := by
  induction rest with
  | nil => intro k ne ne1 e h; simp [scanInvocation] at h
  | cons ch rest ih =>
    intro k ne ne1 e h
    unfold scanInvocation at h
    split at h
    · have hle := (scanInvocation_le _ _ _ _ _ _ h).1
      have := ih _ _ _ _ h
      rw [show e - k = (e - (k + 1)) + 1 by omega, List.getElem?_cons_succ]
      exact this
    · split at h
      · next hc =>
        simp only [Prod.mk.injEq, and_true] at h
        rw [← h.2, Nat.sub_self, List.getElem?_cons_zero, hc]
      · have hle := (scanInvocation_le _ _ _ _ _ _ h).1
        have := ih _ _ _ _ h
        rw [show e - k = (e - (k + 1)) + 1 by omega, List.getElem?_cons_succ]
        exact this

theorem scanInvocation_colon (rest : QString) :
    ∀ (k : Nat) (ne ne1 : Option Nat) (e : Nat) (b : Bool),
      scanInvocation rest k ne = (ne1, e, b) →
        ∀ x, ne1 = some x → ne = some x ∨ (k ≤ x ∧ rest[x - k]? = some ':') := by
  induction rest with
  | nil =>
    intro k ne ne1 e b h x hx
    simp only [scanInvocation, Prod.mk.injEq] at h
    left; rw [h.1, hx]
  | cons ch rest ih =>
    intro k ne ne1 e b h x hx
    unfold scanInvocation at h
    split at h
    · next hc =>
      rcases ih _ _ _ _ _ h x hx with h1 | ⟨h1, h2⟩
      · cases ne with
        | none =>
          simp only [Option.isNone_none, if_true, Option.some.injEq] at h1
          right
          refine ⟨by omega, ?_⟩
          rw [← h1, Nat.sub_self, List.getElem?_cons_zero, hc]
        | some y => left; simpa using h1
      · right
        refine ⟨by omega, ?_⟩
        rw [show x - k = (x - (k + 1)) + 1 by omega, List.getElem?_cons_succ]
        exact h2
    · split at h
      · simp only [Prod.mk.injEq] at h
        left; rw [h.1, hx]
      · rcases ih _ _ _ _ _ h x hx with h1 | ⟨h1, h2⟩
        · left; exact h1
        · right
          refine ⟨by omega, ?_⟩
          rw [show x - k = (x - (k + 1)) + 1 by omega, List.getElem?_cons_succ]
          exact h2

/-- The name that the branch `$(` reads is followed by `:` or `)` in the text. -/
theorem refers_of_scan (str : QString) (j : Nat) (ne : Option Nat) (e : Nat)
    (hd : QString.charAt str j = '$') (hp : QString.charAt str (j + 1) = '(')
    (hscan : scanInvocation (str.drop (j + 1 + 1)) (j + 1 + 1) none = (ne, e, true)) :
    Refers str (QString.mid str (j + 1 + 1) (ne.getD e - (j + 1) - 1)) := by
  have h1 := getElem?_split str j '$' (charAt_getElem? str j '$' hd (by decide))
  have h2 : str.drop (j + 1) = '(' :: str.drop (j + 1 + 1) := by
    have := charAt_getElem? str (j + 1) '(' hp (by decide)
    have hlt : j + 1 < str.length := by
      by_contra hlt
      rw [List.getElem?_eq_none (by omega)] at this
      cases this
    rw [List.drop_eq_getElem_cons hlt]
    rw [List.getElem?_eq_getElem hlt] at this
    simp only [Option.some.injEq] at this
    rw [this]
  have hle := (scanInvocation_le _ _ _ _ _ _ hscan).1
  have hname : QString.mid str (j + 1 + 1) (ne.getD e - (j + 1) - 1)
      = (str.drop (j + 1 + 1)).take (ne.getD e - (j + 1 + 1)) := by
    unfold QString.mid
    rw [show ne.getD e - (j + 1) - 1 = ne.getD e - (j + 1 + 1) by omega]
  rw [hname]
  cases ne with
  | none =>
    simp only [Option.getD_none]
    have h3 := getElem?_split _ _ _ (scanInvocation_closing _ _ _ _ _ hscan)
    left
    refine ⟨str.take j, (str.drop (j + 1 + 1)).drop (e - (j + 1 + 1) + 1), ?_⟩
    conv_rhs => rw [h1, h2, h3]
    simp
  | some x =>
    simp only [Option.getD_some]
    rcases scanInvocation_colon _ _ _ _ _ _ hscan x rfl with h | ⟨hx1, hx2⟩
    · cases h
    · have h3 := getElem?_split _ _ _ hx2
      right; left
      refine ⟨str.take j, (str.drop (j + 1 + 1)).drop (x - (j + 1 + 1) + 1), ?_⟩
      conv_rhs => rw [h1, h2, h3]
      simp

theorem refers_of_char (str : QString) (j : Nat) (hd : QString.charAt str j = '$')
    (hlt : j + 1 < str.length)
    (hl : isLetterOrNumber (QString.charAt str (j + 1)) = true) :
    Refers str [QString.charAt str (j + 1)] := by
  have h1 := getElem?_split str j '$' (charAt_getElem? str j '$' hd (by decide))
  have h2 : str.drop (j + 1) = QString.charAt str (j + 1) :: str.drop (j + 1 + 1) := by
    rw [List.drop_eq_getElem_cons hlt]
    congr 1
    unfold QString.charAt
    rw [List.getD_eq_getElem?_getD, List.getElem?_eq_getElem hlt]
    rfl
  right; right
  refine ⟨_, rfl, hl, str.take j, str.drop (j + 1 + 1), ?_⟩
  conv_rhs => rw [h1, h2]
  simp

theorem expandInvocation_cycle_refers (mt : MacroTable)
    (recur : QString → Finset QString → Expansion) (str : QString) (j : Nat) (ret : QString)
    (U : Finset QString) (N : QString)
    (hd : QString.charAt str j = '$') (hp : QString.charAt str (j + 1) = '(')
    (h : expandInvocation mt recur str (j + 1) ret U = .error (.exception (cycleMessage N))) :
    ∃ m, Refers str m ∧ ((m ∈ U ∧ N = m) ∨
      (m ∉ U ∧ recur (macroValue mt m) (insert m U) = .error (.exception (cycleMessage N)))) := by
  rcases hscan : scanInvocation (str.drop (j + 1 + 1)) (j + 1 + 1) none with ⟨ne, e, b⟩
  cases b
  · simp only [expandInvocation, hscan] at h
    exact absurd h (ne_cycleMessage _ N (by decide))
  · have href := refers_of_scan str j ne e hd hp hscan
    simp only [expandInvocation, hscan] at h
    by_cases hname : QString.mid str (j + 1 + 1) (ne.getD e - (j + 1) - 1) = []
    · simp only [hname, if_true] at h
      exact absurd h (ne_cycleMessage _ N (by decide))
    · simp only [hname, if_false] at h
      by_cases hfile :
          isFileNameMacroChar (QString.charAt (QString.mid str (j + 1 + 1)
            (ne.getD e - (j + 1) - 1)) 0) = true
      · simp only [hfile, if_true] at h
        cases h
      · simp only [hfile, Bool.false_eq_true, if_false] at h
        revert h href
        generalize QString.mid str (j + 1 + 1) (ne.getD e - (j + 1) - 1) = name
        intro href h
        refine ⟨name, href, ?_⟩
        by_cases hm : name ∈ U
        · simp only [cycleCheckedMacroValue, hm, if_true, Except.error.injEq,
            Error.exception.injEq] at h
          exact Or.inl ⟨hm, (cycleMessage_injective _ _ h).symm⟩
        · simp only [cycleCheckedMacroValue, hm, if_false] at h
          right
          refine ⟨hm, ?_⟩
          rcases hrec : recur (macroValue mt name) (insert name U) with e1 | ⟨v, W1⟩
          · simp only [hrec, Except.error.injEq] at h
            rw [h]
          · simp only [hrec] at h
            split at h
            · split at h
              · next hp =>
                rw [parseSubstitutionStatement_message _ _ _ hp] at h
                exact absurd h (ne_cycleMessage _ N (by decide))
              · cases h
            · cases h

theorem expandStep_cycle_refers (mt : MacroTable) (inDependentsLine : Bool)
    (recur : QString → Finset QString → Expansion) (str : QString) (st : LoopState)
    (N : QString)
    (h : expandStep mt inDependentsLine recur str st = .error (.exception (cycleMessage N))) :
    ∃ m, Refers str m ∧ ((m ∈ st.usedMacros ∧ N = m) ∨
      (m ∉ st.usedMacros ∧
        recur (macroValue mt m) (insert m st.usedMacros)
          = .error (.exception (cycleMessage N)))) := by
  obtain ⟨i, ret, appendStart, appendLength, used⟩ := st
  by_cases hd : QString.charAt str i = '$' ∧ i + 1 < str.length
  · simp only [expandStep, hd, and_self, if_true] at h
    by_cases hp : QString.charAt str (i + 1) = '('
    · simp only [hp, if_true] at h
      split at h
      · next e1 hinv =>
        simp only [Except.error.injEq] at h
        subst h
        exact expandInvocation_cycle_refers mt recur str i _ used N hd.1 hp hinv
      · cases h
    · simp only [hp, if_false] at h
      by_cases hdd : QString.charAt str (i + 1) = '$'
      · simp only [hdd, if_true] at h
        cases h
      · simp only [hdd, if_false] at h
        by_cases hl : isLetterOrNumber (QString.charAt str (i + 1)) = true
        · simp only [hl, if_true] at h
          refine ⟨[QString.charAt str (i + 1)], refers_of_char str i hd.1 hd.2 hl, ?_⟩
          revert h
          generalize ([QString.charAt str (i + 1)] : QString) = name
          intro h
          by_cases hm : name ∈ used
          · simp only [cycleCheckedMacroValue, hm, if_true, Except.error.injEq,
              Error.exception.injEq] at h
            exact Or.inl ⟨hm, (cycleMessage_injective _ _ h).symm⟩
          · simp only [cycleCheckedMacroValue, hm, if_false] at h
            right
            refine ⟨hm, ?_⟩
            rcases hrec : recur (macroValue mt name) (insert name used) with e1 | ⟨v, W1⟩
            · simp only [hrec, Except.error.injEq] at h
              rw [h]
            · simp only [hrec] at h
              cases h
        · simp only [hl, Bool.false_eq_true, if_false] at h
          by_cases hf : isFileNameMacroChar (QString.charAt str (i + 1)) = true
          · simp only [hf, if_true] at h
            cases h
          · simp only [hf, Bool.false_eq_true, if_false] at h
            exact absurd h (ne_cycleMessage _ N (by decide))
  · simp only [expandStep, hd, if_false] at h
    cases appendStart with
    | none => cases h
    | some a => cases h

theorem expandLoop_cycle_refers (mt : MacroTable) (inDependentsLine : Bool)
    (recur : QString → Finset QString → Expansion) (str : QString) (U : Finset QString)
    (N : QString)
    (hres : ∀ m, m ∉ U → ∀ r W, recur (macroValue mt m) (insert m U) = .ok (r, W) →
      W = insert m U) :
    ∀ (fuel : Nat) (st : LoopState), st.usedMacros = U →
      expandLoop mt inDependentsLine recur str fuel st = .error (.exception (cycleMessage N)) →
      ∃ m, Refers str m ∧ ((m ∈ U ∧ N = m) ∨
        (m ∉ U ∧ recur (macroValue mt m) (insert m U)
          = .error (.exception (cycleMessage N)))) := by
  intro fuel
  induction fuel with
  | zero =>
    intro st hU h
    by_cases hi : st.i < str.length
    · simp only [expandLoop, hi, if_true] at h
      cases h
    · simp only [expandLoop, hi, if_false] at h
      cases h
  | succ fuel ih =>
    intro st hU h
    by_cases hi : st.i < str.length
    · simp only [expandLoop, hi, if_true] at h
      rcases hstep : expandStep mt inDependentsLine recur str st with e1 | st2
      · simp only [hstep, Except.error.injEq] at h
        subst h
        have := expandStep_cycle_refers mt inDependentsLine recur str st N hstep
        rw [hU] at this
        exact this
      · simp only [hstep] at h
        have hU2 := (expandStep_sim mt inDependentsLine True U U recur recur
          (fun m hm r W hr => ⟨hres m hm r W hr, Or.inr trivial⟩) str st st2 hU hstep).1
        exact ih { st2 with i := st2.i + 1 } hU2 h
    · simp only [expandLoop, hi, if_false] at h
      cases h

theorem expandBody_cycle_refers (mt : MacroTable) (inDependentsLine : Bool)
    (recur : QString → Finset QString → Expansion) (str : QString) (U : Finset QString)
    (N : QString)
    (hres : ∀ m, m ∉ U → ∀ r W, recur (macroValue mt m) (insert m U) = .ok (r, W) →
      W = insert m U)
    (h : expandBody mt inDependentsLine recur str U = .error (.exception (cycleMessage N))) :
    ∃ m, Refers str m ∧ ((m ∈ U ∧ N = m) ∨
      (m ∉ U ∧ recur (macroValue mt m) (insert m U)
        = .error (.exception (cycleMessage N)))) := by
  unfold expandBody at h
  rcases hloop : expandLoop mt inDependentsLine recur str str.length
      { i := 0, ret := [], appendStart := none, appendLength := 0, usedMacros := U }
    with e1 | st1
  · simp only [hloop, Except.error.injEq] at h
    subst h
    exact expandLoop_cycle_refers mt inDependentsLine recur str U N hres str.length _ rfl hloop
  · simp only [hloop] at h
    cases hs : st1.appendStart with
    | none => simp only [hs] at h; cases h
    | some a =>
      simp only [hs] at h
      split at h <;> cases h

/-- The macro of a cycle exception is reached from the text through
invocations, and it is in progress or lies on a cycle of the graph. -/
theorem expandMacrosDepth_cycle_refers (mt : MacroTable) (inDependentsLine : Bool) (N : QString) :
    ∀ (depth : Nat) (str : QString) (U : Finset QString),
      expandMacrosDepth mt inDependentsLine depth str U = .error (.exception (cycleMessage N)) →
      (∃ m, Refers str m ∧ Relation.ReflTransGen (DependsOn mt) m N) ∧
        (N ∈ U ∨ Relation.TransGen (DependsOn mt) N N) := by
  intro depth
  induction depth with
  | zero =>
    intro str U h
    rw [expandMacrosDepth_eq] at h
    obtain ⟨m, _, hm | ⟨_, hm⟩⟩ := expandBody_cycle_refers mt inDependentsLine _ str U N
      (fun m _ r W hr => by cases hr) h
    · exact ⟨⟨m, ‹_›, by rw [hm.2]⟩, Or.inl (hm.2 ▸ hm.1)⟩
    · cases hm
  | succ d ih =>
    intro str U h
    rw [expandMacrosDepth_eq] at h
    obtain ⟨m, href, hm | ⟨hmU, hm⟩⟩ := expandBody_cycle_refers mt inDependentsLine _ str U N
      (fun m _ r W hr => expandMacrosDepth_restores mt inDependentsLine d _ _ _ _ hr) h
    · exact ⟨⟨m, href, by rw [hm.2]⟩, Or.inl (hm.2 ▸ hm.1)⟩
    · obtain ⟨⟨m1, href1, hreach⟩, hN⟩ := ih (macroValue mt m) (insert m U) hm
      refine ⟨⟨m, href, Relation.ReflTransGen.head href1 hreach⟩, ?_⟩
      rcases hN with hN | hN
      · rcases Finset.mem_insert.mp hN with rfl | hN
        · exact Or.inr (Relation.TransGen.head' href1 hreach)
        · exact Or.inl hN
      · exact Or.inr hN

/-- With more macros in progress, an expansion returns the same text or
raises the cycle exception for one of the added macros, and a cycle exception
stays the same or becomes the one for an added macro. -/
theorem expandMacrosDepth_grow (mt : MacroTable) (inDependentsLine : Bool) :
    ∀ (depth : Nat) (str : QString) (U1 U2 : Finset QString), U1 ⊆ U2 →
      (∀ r, expandMacrosDepth mt inDependentsLine depth str U1 = .ok (r, U1) →
        expandMacrosDepth mt inDependentsLine depth str U2 = .ok (r, U2) ∨
          IsCycleOf (fun k => k ∈ U2 ∧ k ∉ U1)
            (expandMacrosDepth mt inDependentsLine depth str U2)) ∧
      (∀ n, expandMacrosDepth mt inDependentsLine depth str U1
          = .error (.exception (cycleMessage n)) →
        IsCycleOf (fun k => k = n ∨ (k ∈ U2 ∧ k ∉ U1))
          (expandMacrosDepth mt inDependentsLine depth str U2)) := by
  intro depth
  induction depth with
  | zero =>
    intro str U1 U2 hsub
    have hsim : CycleSimNamed mt (fun k => k ∈ U2 ∧ k ∉ U1)
        (fun n k => k = n ∨ (k ∈ U2 ∧ k ∉ U1)) U1 U2 (recurAt mt inDependentsLine 0) :=
      { weak := fun n b hb => Or.inr hb
        inProgress := fun m hm => Or.inl ⟨hsub hm, Or.inl rfl⟩
        fresh := fun m hm1 hm2 => ⟨hm2, hm1⟩
        restores := fun m _ r W h => by cases h
        returns := fun m _ _ r h => by cases h
        raises := fun m _ _ n h => by cases h }
    obtain ⟨hok, hcyc⟩ := expandBody_cycleSimNamed mt inDependentsLine _ _ U1 U2 _ hsim str
    rw [expandMacrosDepth_eq]
    exact ⟨fun r hr => (hok r U1 hr).2, hcyc⟩
  | succ d ih =>
    intro str U1 U2 hsub
    have hsim : CycleSimNamed mt (fun k => k ∈ U2 ∧ k ∉ U1)
        (fun n k => k = n ∨ (k ∈ U2 ∧ k ∉ U1)) U1 U2 (recurAt mt inDependentsLine (d + 1)) :=
      { weak := fun n b hb => Or.inr hb
        inProgress := fun m hm => Or.inl ⟨hsub hm, Or.inl rfl⟩
        fresh := fun m hm1 hm2 => ⟨hm2, hm1⟩
        restores := fun m _ r W h => expandMacrosDepth_restores mt inDependentsLine d _ _ _ _ h
        returns := by
          intro m hm1 hm2 r h
          rcases (ih (macroValue mt m) _ _ (Finset.insert_subset_insert m hsub)).1 r h
            with h2 | h2
          · exact Or.inl h2
          · refine Or.inr (h2.imp fun k hk => ?_)
            simp only [Finset.mem_insert, not_or] at hk
            rcases hk.1 with hkm | hk2
            · exact absurd hkm hk.2.1
            · exact ⟨hk2, hk.2.2⟩
        raises := by
          intro m hm1 hm2 n h
          refine ((ih (macroValue mt m) _ _ (Finset.insert_subset_insert m hsub)).2 n h).imp
            fun k hk => ?_
          simp only [Finset.mem_insert, not_or] at hk
          rcases hk with hk | ⟨hk1, hk2⟩
          · exact Or.inl hk
          · rcases hk1 with hkm | hk1
            · exact absurd hkm hk2.1
            · exact Or.inr ⟨hk1, hk2.2⟩ }
    obtain ⟨hok, hcyc⟩ := expandBody_cycleSimNamed mt inDependentsLine _ _ U1 U2 _ hsim str
    rw [expandMacrosDepth_eq]
    exact ⟨fun r hr => (hok r U1 hr).2, hcyc⟩

theorem reach_of_cycle (mt : MacroTable) (inDependentsLine : Bool) (depth : Nat)
    (m N : QString) (U : Finset QString)
    (h : expandMacrosDepth mt inDependentsLine depth (macroValue mt m) U
      = .error (.exception (cycleMessage N))) :
    Relation.ReflTransGen (DependsOn mt) m N := by
  obtain ⟨⟨m1, href, hreach⟩, _⟩ := expandMacrosDepth_cycle_refers mt inDependentsLine N depth
    _ _ h
  exact Relation.ReflTransGen.head href hreach

/-- Let the value of `X` re-enter `X`.  An expansion that stops at an
invocation of `X` when `X` is taken to be in progress raises, when it is not,
the cycle exception for a macro that `X` reaches in the graph and that
reaches `X` or is in progress. -/
theorem expandMacrosDepth_unmark_named (mt : MacroTable) (inDependentsLine : Bool) (X : QString)
    (hdef : X ∈ mt.m_macros.map Prod.fst)
    (hX : ∀ k, expandMacrosDepth mt inDependentsLine (definedCount mt + k)
      (macroValue mt X) {X} = .error (.exception (cycleMessage X))) :
    ∀ (depth : Nat) (str : QString) (U : Finset QString), X ∉ U → freeCount mt U + 1 ≤ depth →
      expandMacrosDepth mt inDependentsLine depth str (insert X U)
        = .error (.exception (cycleMessage X)) →
      IsCycleOf (fun N => Relation.ReflTransGen (DependsOn mt) X N ∧
          (Relation.ReflTransGen (DependsOn mt) N X ∨ N ∈ U))
        (expandMacrosDepth mt inDependentsLine depth str U) := by
  have hXc : ∀ k, IsCycle (expandMacrosDepth mt inDependentsLine (definedCount mt + k)
      (macroValue mt X) {X}) := fun k => ⟨X, hX k⟩
  intro depth
  induction depth with
  | zero => intro str U _ h; omega
  | succ d ih =>
    intro str U hXU hd hrun
    have hfreeX : freeCount mt (insert X U) + 1 ≤ d := by
      have := freeCount_insert mt U X hXU hdef
      omega
    have hsim : CycleSimNamed mt (fun _ => False)
        (fun n k => n = X → Relation.ReflTransGen (DependsOn mt) X k ∧
          (Relation.ReflTransGen (DependsOn mt) k X ∨ k ∈ U))
        (insert X U) U (recurAt mt inDependentsLine (d + 1)) :=
      { weak := fun n b hb => hb.elim
        inProgress := by
          intro m hm
          rcases Finset.mem_insert.mp hm with rfl | hm
          · right
            refine ⟨hXU, ?_⟩
            have h1 := (expandMacrosDepth_grow mt inDependentsLine (definedCount mt + d)
              (macroValue mt m) {m} (insert m U) (by
                intro x hx
                rw [Finset.mem_singleton] at hx
                rw [hx]
                exact Finset.mem_insert_self _ _)).2 m (hX d)
            rw [expandMacrosDepth_stable mt inDependentsLine (insert m U) (macroValue mt m)
              (definedCount mt + d) (by omega)] at h1
            show IsCycleOf _ (expandMacrosDepth mt inDependentsLine d _ _)
            rw [expandMacrosDepth_stable mt inDependentsLine (insert m U) (macroValue mt m) d
              hfreeX]
            obtain ⟨k, hk, hk2⟩ := h1
            refine ⟨k, hk, fun _ => ⟨reach_of_cycle mt inDependentsLine _ m k _ hk, ?_⟩⟩
            rcases hk2 with rfl | ⟨hk2, hk3⟩
            · exact Or.inl Relation.ReflTransGen.refl
            · rcases Finset.mem_insert.mp hk2 with rfl | hk2
              · exact Or.inl Relation.ReflTransGen.refl
              · exact Or.inr hk2
          · exact Or.inl ⟨hm, fun hmX => absurd (hmX ▸ hm) hXU⟩
        fresh := fun m hm1 hm2 => absurd (Finset.mem_insert_of_mem hm2) hm1
        restores := fun m _ r W h => expandMacrosDepth_restores mt inDependentsLine d _ _ _ _ h
        returns := by
          intro m hm1 hm2 r h
          left
          exact expandMacrosDepth_subset mt inDependentsLine d (macroValue mt m) (insert m U)
            (insert m (insert X U)) r
            (Finset.insert_subset_insert m (Finset.subset_insert X U)) h
        raises := by
          intro m hm1 hm2 n h
          show IsCycleOf _ (expandMacrosDepth mt inDependentsLine d _ _)
          have hne : X ∉ insert m U := by
            simp only [Finset.mem_insert, not_or] at hm1 ⊢
            exact ⟨fun h => hm1.1 h.symm, hXU⟩
          have hmdef : m ∈ mt.m_macros.map Prod.fst := by
            by_contra hmdef
            have h3 : expandMacrosDepth mt inDependentsLine d (macroValue mt m)
                (insert m (insert X U)) = .error (.exception (cycleMessage n)) := h
            rw [macroValue_undefined mt m hmdef, expandMacrosDepth_nil] at h3
            cases h3
          have hfree := freeCount_insert mt U m hm2 hmdef
          have h3 : expandMacrosDepth mt inDependentsLine d (macroValue mt m)
              (insert X (insert m U)) = .error (.exception (cycleMessage n)) := by
            rw [Finset.Insert.comm X m U]
            exact h
          by_cases hn : n = X
          · subst hn
            obtain ⟨k, hk, hk1, hk2⟩ := ih (macroValue mt m) (insert m U) hne (by omega) h3
            refine ⟨k, hk, fun _ => ⟨hk1, ?_⟩⟩
            rcases hk2 with hk2 | hk2
            · exact Or.inl hk2
            · rcases Finset.mem_insert.mp hk2 with rfl | hk2
              · exact Or.inl (reach_of_cycle mt inDependentsLine _ k n _ h3)
              · exact Or.inr hk2
          · obtain ⟨k, hk⟩ := (expandMacrosDepth_unmark mt inDependentsLine X hdef hXc d
              (macroValue mt m) (insert m U) hne (by omega)).2 ⟨n, h3⟩
            exact ⟨k, hk, fun h => absurd h hn⟩ }
    obtain ⟨_, hcyc⟩ := expandBody_cycleSimNamed mt inDependentsLine _ _ (insert X U) U _ hsim
      str
    rw [expandMacrosDepth_eq] at hrun ⊢
    exact (hcyc X hrun).imp fun k hk => hk rfl

/-- An expansion that reaches an invocation of a macro `X` whose value
re-enters `X` raises the cycle exception for a macro that lies on a cycle of
the graph through `X`. -/
theorem expandMacros_reenter_named (mt : MacroTable) (inDependentsLine : Bool) (s X : QString)
    (hX : expandMacrosDepth mt inDependentsLine (definedCount mt) (macroValue mt X) {X}
      = .error (.exception (cycleMessage X)))
    (hs : expandMacrosDepth mt inDependentsLine (definedCount mt + 1) s {X}
      = .error (.exception (cycleMessage X))) :
    ∃ name, expandMacros mt s inDependentsLine = .error (.exception (cycleMessage name)) ∧
      Relation.ReflTransGen (DependsOn mt) X name ∧
      Relation.ReflTransGen (DependsOn mt) name X ∧
      Relation.TransGen (DependsOn mt) name name := by
  have hdef : X ∈ mt.m_macros.map Prod.fst := by
    by_contra hdef
    rw [macroValue_undefined mt X hdef, expandMacrosDepth_nil] at hX
    cases hX
  have hfree : freeCount mt {X} + 1 ≤ definedCount mt := by
    have := freeCount_insert mt ∅ X (Finset.not_mem_empty _) hdef
    rw [freeCount_empty] at this
    simpa using this
  have hXk : ∀ k, expandMacrosDepth mt inDependentsLine (definedCount mt + k)
      (macroValue mt X) {X} = .error (.exception (cycleMessage X)) := by
    intro k
    rw [expandMacrosDepth_stable mt inDependentsLine {X} (macroValue mt X) (definedCount mt + k)
      (by omega),
      ← expandMacrosDepth_stable mt inDependentsLine {X} (macroValue mt X) (definedCount mt)
        hfree]
    exact hX
  have hs1 : expandMacrosDepth mt inDependentsLine (definedCount mt + 1) s (insert X ∅)
      = .error (.exception (cycleMessage X)) := by
    rw [insert_emptyc_eq]
    exact hs
  obtain ⟨n, hn, hn1, hn2⟩ := expandMacrosDepth_unmark_named mt inDependentsLine X hdef hXk
    (definedCount mt + 1) s ∅ (Finset.not_mem_empty _) (by rw [freeCount_empty]) hs1
  have hcyc := (expandMacrosDepth_cycle_refers mt inDependentsLine n _ _ _ hn).2
  refine ⟨n, by unfold expandMacros; rw [hn], hn1, ?_, ?_⟩
  · rcases hn2 with h | h
    · exact h
    · exact absurd h (Finset.not_mem_empty _)
  · rcases hcyc with h | h
    · exact absurd h (Finset.not_mem_empty _)
    · exact h

/-- Whatever the text: the macro that a cycle exception names lies on a cycle
of the graph and is reached from the text. -/
theorem expandMacros_cycle_refers (mt : MacroTable) (inDependentsLine : Bool) (s name : QString)
    (h : expandMacros mt s inDependentsLine = .error (.exception (cycleMessage name))) :
    (∃ m, Refers s m ∧ Relation.ReflTransGen (DependsOn mt) m name) ∧
      Relation.TransGen (DependsOn mt) name name := by
  unfold expandMacros at h
  split at h
  · next e he =>
    simp only [Except.error.injEq] at h
    subst h
    obtain ⟨h1, h2⟩ := expandMacrosDepth_cycle_refers mt inDependentsLine name _ _ _ he
    refine ⟨h1, ?_⟩
    rcases h2 with h2 | h2
    · exact absurd h2 (Finset.not_mem_empty _)
    · exact h2
  · cases h

/-! ## The cycle exception -/

/-- C4: an expansion that re-enters a macro in progress returns no string and
raises the cycle exception for a macro on the cycle.  The graph of the macros
has an edge from `a` to `b` when the raw value of `a` holds an invocation of
`b` (`DependsOn`).  First part, for every string `s` and macro `X`: when the
value of `X` re-enters `X` (expanded with `X` in progress, as `$(X)` does, it
stops with the cycle exception for `X`) and the expansion of `s` comes to
invoke `X` with nothing failing before (run with `X` taken to be in progress,
it stops with the cycle exception for `X`), `expandMacros(s)` raises
"Cycle in macro detected when trying to invoke $(NAME)." for a macro `NAME`
that `X` reaches in the graph and that reaches `X`: `NAME` lies on a cycle
through `X`.  Second part, for every string: the macro that a cycle exception
of `expandMacros(s)` names lies on a cycle of the graph and is reached from an
invocation in `s`.  Third part, which names the macro: when the first `$` of
`s` starts the plain invocation of `a`, and `a` leads through a chain of
distinct macros, each invoking the next one before anything else in its
value, back to a macro `target` of the chain, the exception is the one for
`target`. -/
theorem expandMacros_cycle (mt : MacroTable) (inDependentsLine : Bool) :
    (∀ s X : QString,
      expandMacrosDepth mt inDependentsLine (definedCount mt) (macroValue mt X) {X}
        = .error (.exception (cycleMessage X)) →
      expandMacrosDepth mt inDependentsLine (definedCount mt + 1) s {X}
        = .error (.exception (cycleMessage X)) →
      ∃ name, expandMacros mt s inDependentsLine = .error (.exception (cycleMessage name)) ∧
        Relation.ReflTransGen (DependsOn mt) X name ∧
        Relation.ReflTransGen (DependsOn mt) name X ∧
        Relation.TransGen (DependsOn mt) name name) ∧
    (∀ s name : QString,
      expandMacros mt s inDependentsLine = .error (.exception (cycleMessage name)) →
      (∃ m, Refers s m ∧ Relation.ReflTransGen (DependsOn mt) m name) ∧
        Relation.TransGen (DependsOn mt) name name) ∧
    (∀ (a : QString) (l : List QString) (target pre post : QString),
      List.Chain (InvokesFirst mt) a l →
      InvokesFirst mt ((a :: l).getLast (List.cons_ne_nil a l)) target →
      target ∈ a :: l → (a :: l).Nodup → (∀ x ∈ a :: l, isMacroNameValid x = true) →
      '$' ∉ pre →
      expandMacros mt (pre ++ "$(".toList ++ a ++ ")".toList ++ post) inDependentsLine
        = .error (.exception (cycleMessage target))) :=
  ⟨fun s X hX hs => expandMacros_reenter_named mt inDependentsLine s X hX hs,
    fun s name h => expandMacros_cycle_refers mt inDependentsLine s name h,
    fun a l target pre post hchain hback htarget hnodup hvalid hpre =>
      expandMacros_chain mt inDependentsLine a l target pre post hchain hback htarget hnodup
        hvalid hpre⟩

/-- The witness of C4.  In the table `A = $(C)$(B)`, `B = $(A)`, `C = c` the
macro `A` invokes `B` after `C`; the text `x $(A)` comes to invoke `A`, whose
value re-enters `A`, and the exception names `A`.  In the table `A = $(B)`,
`B = $(A)`, `C = c` the text `$(C) $(A)` comes to invoke `B`, whose value
re-enters `B`, and the exception names `A`, which is re-entered first and lies
on the cycle through `B`; `$(A)` starts the chain `A`, `B` that leads back to
`A`. -/
theorem expandMacros_cycle_witness :
    (expandMacrosDepth cyclicTableLate false (definedCount cyclicTableLate)
        (macroValue cyclicTableLate "A".toList) {"A".toList}
      = .error (.exception (cycleMessage "A".toList)) ∧
     expandMacrosDepth cyclicTableLate false (definedCount cyclicTableLate + 1) "x $(A)".toList
        {"A".toList}
      = .error (.exception (cycleMessage "A".toList)) ∧
     (∃ name, expandMacros cyclicTableLate "x $(A)".toList false
          = .error (.exception (cycleMessage name)) ∧
        Relation.ReflTransGen (DependsOn cyclicTableLate) "A".toList name ∧
        Relation.ReflTransGen (DependsOn cyclicTableLate) name "A".toList ∧
        Relation.TransGen (DependsOn cyclicTableLate) name name) ∧
     expandMacros cyclicTableLate "x $(A)".toList false
        = .error (.exception (cycleMessage "A".toList))) ∧
    (expandMacrosDepth cyclicTable false (definedCount cyclicTable)
        (macroValue cyclicTable "B".toList) {"B".toList}
      = .error (.exception (cycleMessage "B".toList)) ∧
     expandMacrosDepth cyclicTable false (definedCount cyclicTable + 1) "$(C) $(A)".toList
        {"B".toList}
      = .error (.exception (cycleMessage "B".toList)) ∧
     ((∃ m, Refers "$(C) $(A)".toList m ∧
          Relation.ReflTransGen (DependsOn cyclicTable) m "A".toList) ∧
        Relation.TransGen (DependsOn cyclicTable) "A".toList "A".toList) ∧
     expandMacros cyclicTable "$(C) $(A)".toList false
        = .error (.exception (cycleMessage "A".toList))) ∧
    (List.Chain (InvokesFirst cyclicTable) "A".toList ["B".toList] ∧
     expandMacros cyclicTable "$(A)".toList false
      = .error (.exception
          "Cycle in macro detected when trying to invoke $(A).".toList)) :=
  have hAB : InvokesFirst cyclicTable "A".toList "B".toList := ⟨[], [], by decide, by decide⟩
  have hBA : InvokesFirst cyclicTable "B".toList "A".toList := ⟨[], [], by decide, by decide⟩
  have hchain : List.Chain (InvokesFirst cyclicTable) "A".toList ["B".toList] :=
    List.Chain.cons hAB List.Chain.nil
  ⟨⟨by decide!, by decide!,
      (expandMacros_cycle cyclicTableLate false).1 "x $(A)".toList "A".toList (by decide!)
        (by decide!),
      by decide!⟩,
    ⟨by decide!, by decide!,
      (expandMacros_cycle cyclicTable false).2.1 "$(C) $(A)".toList "A".toList (by decide!),
      by decide!⟩,
    ⟨hchain,
      (expandMacros_cycle cyclicTable false).2.2 "A".toList ["B".toList] "A".toList [] [] hchain
        hBA (by decide) (by decide) (by decide) (by decide)⟩⟩

/-! ## The lines of the commands of a block -/

theorem Parser.pending_readLine (p : Parser) : p.readLine.pending = p.m_preprocessor.m_lines := by
  unfold Parser.pending Parser.readLine Preprocessor.readLine Parser.macroTable
  cases h : p.m_preprocessor.m_lines with
  | nil => rfl
  | cons e rest => rfl

theorem Parser.atInput_readLine (p : Parser) : p.readLine.AtInput := by
  unfold Parser.AtInput Parser.readLine Preprocessor.readLine
  cases h : p.m_preprocessor.m_lines with
  | nil =>
    intro _
    show p.m_preprocessor.m_lines = []
    exact h
  | cons e rest => intro h1; cases h1

theorem Parser.pending_none (p : Parser) (h : p.m_line = none) : p.pending = [] := by
  unfold Parser.pending
  rw [h]

theorem Parser.pending_some (p : Parser) (l : QString) (h : p.m_line = some l) :
    p.pending = (l, p.macroTable) :: p.readLine.pending := by
  rw [Parser.pending_readLine]
  unfold Parser.pending
  rw [h]

theorem trimmed_nil : (QString.trimmed []).isEmpty = true := rfl

/-- The loop that eats the empty lines skips lines that `commandBlock` skips. -/
theorem Parser.eatEmptyLines_block :
    ∀ (fuel : Nat) (p p1 : Parser) (b : Bool), p.AtInput →
      Parser.eatEmptyLines fuel p = some (p1, b) →
      p1.AtInput ∧ commandBlock false p.pending = commandBlock false p1.pending ∧
        (b = false → p1.m_line = none) ∧
        (b = true → ∃ l, p1.m_line = some l ∧ (QString.trimmed l).isEmpty = false) := by
  intro fuel
  induction fuel with
  | zero => intro p p1 b _ h; cases h
  | succ f ih =>
    intro p p1 b hat h
    unfold Parser.eatEmptyLines at h
    by_cases hempty : (QString.trimmed p.line).isEmpty = true
    · simp only [hempty, if_true] at h
      have hblock : commandBlock false p.pending = commandBlock false p.readLine.pending := by
        cases hl : p.m_line with
        | none =>
          rw [Parser.pending_none p hl, Parser.pending_readLine, hat hl]
        | some l =>
          rw [Parser.pending_some p l hl]
          have : (QString.trimmed l).isEmpty = true := by
            simpa [Parser.line, hl] using hempty
          simp only [commandBlock, this, if_true]
      by_cases hnull : p.readLine.m_line.isNone = true
      · simp only [hnull, if_true, Option.some.injEq, Prod.mk.injEq] at h
        obtain ⟨rfl, rfl⟩ := h
        refine ⟨Parser.atInput_readLine p, hblock, fun _ => ?_, fun hb => by cases hb⟩
        simpa using hnull
      · simp only [hnull, Bool.false_eq_true, if_false] at h
        obtain ⟨h1, h2, h3, h4⟩ := ih p.readLine p1 b (Parser.atInput_readLine p) h
        exact ⟨h1, hblock.trans h2, h3, h4⟩
    · simp only [hempty, Bool.false_eq_true, if_false, Option.some.injEq, Prod.mk.injEq] at h
      obtain ⟨rfl, rfl⟩ := h
      refine ⟨hat, rfl, (fun hb => by cases hb), fun _ => ?_⟩
      cases hl : p.m_line with
      | none => simp [Parser.line, hl, QString.trimmed] at hempty
      | some l =>
        refine ⟨l, rfl, ?_⟩
        simpa [Parser.line, hl] using hempty

/-- The loop of `parseInlineFile` reads the lines that `commandBlock` marks as
the text of the inline file: it returns when each of them expands, and raises
the exception of the first that does not. -/
theorem Parser.parseInlineFileLoop_block :
    ∀ (fuel : Nat) (p : Parser) (inlineFile : InlineFile), p.AtInput → p.linesLeft + 1 ≤ fuel →
      (∀ p1 f, Parser.parseInlineFileLoop fuel p inlineFile = (p1, .ok f) →
        p1.AtInput ∧ ∃ body : List (QString × MacroTable),
          commandBlock true p.pending
            = body.map (fun l => (false, l)) ++ commandBlock false p1.readLine.pending ∧
          ∀ l ∈ body, ∃ e, expandMacros l.2 (QString.trimmed l.1) false = .ok e) ∧
      (∀ p1 e, Parser.parseInlineFileLoop fuel p inlineFile = (p1, .error e) →
        ∃ l, (false, l) ∈ commandBlock true p.pending ∧
          expandMacros l.2 (QString.trimmed l.1) false = .error e) := by
  intro fuel
  induction fuel with
  | zero => intro p _ _ h; omega
  | succ f ih =>
    intro p inlineFile hat h
    unfold Parser.parseInlineFileLoop
    cases hl : p.m_line with
    | none =>
      simp only
      refine ⟨?_, fun p1 e he => by cases he⟩
      intro p1 f1 he
      simp only [Prod.mk.injEq, Except.ok.injEq] at he
      obtain ⟨rfl, rfl⟩ := he
      refine ⟨hat, [], ?_, fun l hl => by cases hl⟩
      rw [Parser.pending_none p hl, Parser.pending_readLine, hat hl]
      rfl
    | some line =>
      simp only
      have hpend := Parser.pending_some p line hl
      by_cases hstart : QString.startsWith line "<<".toList = true
      · simp only [hstart, if_true]
        refine ⟨?_, fun p1 e he => by cases he⟩
        intro p1 f1 he
        simp only [Prod.mk.injEq, Except.ok.injEq] at he
        obtain ⟨rfl, _⟩ := he
        refine ⟨hat, [], ?_, fun l hl => by cases hl⟩
        rw [hpend]
        simp only [commandBlock, hstart, if_true, List.map_nil, List.nil_append]
      · simp only [hstart, Bool.false_eq_true, if_false]
        have hblock : commandBlock true p.pending
            = (false, (line, p.macroTable)) :: commandBlock true p.readLine.pending := by
          rw [hpend]
          simp only [commandBlock, hstart, Bool.false_eq_true, if_false]
        cases hexp : expandMacros p.macroTable (QString.trimmed line) false with
        | error e =>
          simp only
          refine ⟨fun p1 f1 he => (by cases he), ?_⟩
          intro p1 e1 he
          simp only [Prod.mk.injEq, Except.error.injEq] at he
          obtain ⟨_, rfl⟩ := he
          exact ⟨(line, p.macroTable), by rw [hblock]; exact List.mem_cons_self _ _, hexp⟩
        | ok text =>
          simp only
          have hlines : p.readLine.linesLeft + 1 ≤ f := by
            have h1 := (Parser.linesLeft_readLine p).1
            unfold Parser.linesLeft at h
            simp only [hl, Option.isSome_some, if_true] at h
            omega
          obtain ⟨h1, h2⟩ := ih p.readLine
            { inlineFile with m_content := inlineFile.m_content ++ (text ++ "\n".toList) }
            (Parser.atInput_readLine p) hlines
          refine ⟨?_, ?_⟩
          · intro p1 f1 he
            obtain ⟨hat1, body, hb1, hb2⟩ := h1 p1 f1 he
            refine ⟨hat1, (line, p.macroTable) :: body, ?_, ?_⟩
            · rw [hblock, hb1]
              rfl
            · intro l hl
              rcases List.mem_cons.mp hl with rfl | hl
              · exact ⟨text, hexp⟩
              · exact hb2 l hl
          · intro p1 e he
            obtain ⟨l, hl1, hl2⟩ := h2 p1 e he
            exact ⟨l, by rw [hblock]; exact List.mem_cons_of_mem _ hl1, hl2⟩

theorem expansionOf_command (inferenceRule : Bool) (l : QString) (mt : MacroTable) :
    expansionOf inferenceRule (true, (l, mt))
      = (if inferenceRule = false then expandMacros mt (QString.trimmed l) false
          else .ok (QString.trimmed l)) := by
  cases inferenceRule <;> simp [expansionOf]

theorem expansionOf_inline (inferenceRule : Bool) (l : QString × MacroTable) :
    expansionOf inferenceRule (false, l) = expandMacros l.2 (QString.trimmed l.1) false := by
  simp [expansionOf]

/-- One call of `parseCommand` against the lines that `commandBlock` marks. -/
theorem Parser.parseCommand_block (p : Parser) (commands : List Command) (inferenceRule : Bool)
    (hat : p.AtInput) :
    (∀ p1 cs, Parser.parseCommand p commands inferenceRule = (p1, .ok (false, cs)) →
      cs = commands ∧ commandBlock false p.pending = []) ∧
    (∀ p1 cs, Parser.parseCommand p commands inferenceRule = (p1, .ok (true, cs)) →
      p1.AtInput ∧ ∃ (l : QString × MacroTable) (cmd : Command)
          (body : List (QString × MacroTable)) (e : QString),
        cs = commands ++ [cmd] ∧
        commandBlock false p.pending
          = (true, l) :: (body.map (fun b => (false, b))
              ++ commandBlock false p1.readLine.pending) ∧
        expansionOf inferenceRule (true, l) = .ok e ∧
        cmd.m_commandLine = stripCommandPrefix e ∧
        ∀ b ∈ body, ∃ t, expandMacros b.2 (QString.trimmed b.1) false = .ok t) ∧
    (∀ p1 e, Parser.parseCommand p commands inferenceRule = (p1, .error e) →
      ∃ x ∈ commandBlock false p.pending, expansionOf inferenceRule x = .error e) := by
  obtain ⟨q, b, heat, hadv, _⟩ := Parser.eatEmptyLines_spec (p.remaining + 1) p (le_refl _)
  obtain ⟨hatq, hblock, hb0, hb1⟩ := Parser.eatEmptyLines_block _ p q b hat heat
  unfold Parser.parseCommand
  rw [heat]
  cases b with
  | false =>
    simp only
    refine ⟨?_, (fun p1 cs h => by cases h), (fun p1 e h => by cases h)⟩
    intro p1 cs h
    simp only [Prod.mk.injEq, Except.ok.injEq, true_and] at h
    refine ⟨h.2.symm, ?_⟩
    rw [hblock, Parser.pending_none q (hb0 rfl)]
    rfl
  | true =>
    obtain ⟨l, hl, hne⟩ := hb1 rfl
    have hline : q.line = l := by simp [Parser.line, hl]
    have hpend := Parser.pending_some q l hl
    simp only [hline]
    by_cases hstart : QString.startsWithChar l ' ' = false ∧ QString.startsWithChar l '\t' = false
    · simp only [hstart, and_self, if_true]
      refine ⟨?_, (fun p1 cs h => by cases h), (fun p1 e h => by cases h)⟩
      intro p1 cs h
      simp only [Prod.mk.injEq, Except.ok.injEq, true_and] at h
      refine ⟨h.2.symm, ?_⟩
      rw [hblock, hpend]
      simp only [commandBlock, hne, Bool.false_eq_true, if_false, hstart, and_self, if_true]
    · simp only [hstart, if_false]
      have hcb : commandBlock false p.pending = (true, (l, q.macroTable))
          :: commandBlock (inlineMarkerOption l).isSome q.readLine.pending := by
        rw [hblock, hpend]
        simp only [commandBlock, hne, Bool.false_eq_true, if_false, hstart]
      have hexp := expansionOf_command inferenceRule l q.macroTable
      rcases hfirst : (if inferenceRule = false then
          expandMacros q.macroTable (QString.trimmed l) false
        else .ok (QString.trimmed l)) with e | commandLine
      · simp only
        refine ⟨(fun p1 cs h => by cases h), (fun p1 cs h => by cases h), ?_⟩
        intro p1 e1 h
        simp only [Prod.mk.injEq, Except.error.injEq] at h
        obtain ⟨_, rfl⟩ := h
        exact ⟨(true, (l, q.macroTable)), by rw [hcb]; exact List.mem_cons_self _ _,
          by rw [hexp, hfirst]⟩
      · simp only
        rw [hfirst] at hexp
        by_cases hmark : (inlineMarkerOption l).isSome = true
        · simp only [hmark, if_true]
          rw [hmark] at hcb
          have hfuel : q.readLine.linesLeft + 1 ≤ q.remaining + 1 := by
            have := (Parser.linesLeft_readLine q).1
            omega
          obtain ⟨hI1, hI2⟩ := Parser.parseInlineFileLoop_block (q.remaining + 1) q.readLine
            { m_filename := (inlineMarkerOption q.line).getD [] } (Parser.atInput_readLine q)
            hfuel
          unfold Parser.parseInlineFile
          simp only
          rcases hr : Parser.parseInlineFileLoop (q.remaining + 1) q.readLine
              { m_filename := (inlineMarkerOption q.line).getD [] } with ⟨p2, r⟩
          cases r with
          | error e =>
            simp only
            refine ⟨(fun p1 cs h => by cases h), (fun p1 cs h => by cases h), ?_⟩
            intro p1 e1 h
            simp only [Prod.mk.injEq, Except.error.injEq] at h
            obtain ⟨_, rfl⟩ := h
            obtain ⟨x, hx1, hx2⟩ := hI2 p2 e hr
            exact ⟨(false, x), by rw [hcb]; exact List.mem_cons_of_mem _ hx1,
              by rw [expansionOf_inline]; exact hx2⟩
          | ok f =>
            simp only
            refine ⟨(fun p1 cs h => by cases h), ?_, (fun p1 e h => by cases h)⟩
            intro p1 cs h
            simp only [Prod.mk.injEq, Except.ok.injEq, true_and] at h
            obtain ⟨rfl, rfl⟩ := h
            obtain ⟨hat2, body, hbody1, hbody2⟩ := hI1 p2 f hr
            refine ⟨hat2, (l, q.macroTable), _, body, commandLine, rfl, ?_, hexp, ?_, hbody2⟩
            · rw [hcb, hbody1]
            · exact Parser.parseCommandPrefix_commandLine _
        · simp only [hmark, Bool.false_eq_true, if_false]
          refine ⟨(fun p1 cs h => by cases h), ?_, (fun p1 e h => by cases h)⟩
          intro p1 cs h
          simp only [Prod.mk.injEq, Except.ok.injEq, true_and] at h
          obtain ⟨rfl, rfl⟩ := h
          refine ⟨hatq, (l, q.macroTable), _, [], commandLine, rfl, ?_, hexp, ?_,
            fun b hb => by cases hb⟩
          · rw [hcb]
            simp only [Bool.not_eq_true] at hmark
            rw [hmark]
            rfl
          · exact Parser.parseCommandPrefix_commandLine _

/-- The loop over `parseCommand` against the lines that `commandBlock` marks:
it returns when every line that the first pass expands does expand, with one
command for each command line, and otherwise it raises the exception of the
first line that does not expand. -/
theorem Parser.parseCommands_block (inferenceRule : Bool) :
    ∀ (fuel : Nat) (p : Parser) (commands : List Command), p.AtInput → p.linesLeft + 1 ≤ fuel →
      (∀ p2 cs, Parser.parseCommands inferenceRule fuel p commands = (p2, .ok cs) →
        ∃ new, cs = commands ++ new ∧
          List.Forall₂ (fun (l : QString × MacroTable) (cmd : Command) =>
            ∃ e, expansionOf inferenceRule (true, l) = .ok e ∧
              cmd.m_commandLine = stripCommandPrefix e) (commandLinesOf p.pending) new ∧
          ∀ x ∈ commandBlock false p.pending, ∃ e, expansionOf inferenceRule x = .ok e) ∧
      (∀ p2 e, Parser.parseCommands inferenceRule fuel p commands = (p2, .error e) →
        ∃ x ∈ commandBlock false p.pending, expansionOf inferenceRule x = .error e) := by
  intro fuel
  induction fuel with
  | zero => intro p _ _ h; omega
  | succ f ih =>
    intro p commands hat h
    obtain ⟨_, _, h3⟩ := Parser.parseCommand_spec p commands inferenceRule
    obtain ⟨hc1, hc2, hc3⟩ := Parser.parseCommand_block p commands inferenceRule hat
    unfold Parser.parseCommands
    rcases hr : Parser.parseCommand p commands inferenceRule with ⟨p1, r⟩
    rw [hr] at h3
    simp only at h3
    cases r with
    | error e =>
      simp only
      refine ⟨(fun p2 cs h => by cases h), ?_⟩
      intro p2 e1 he
      simp only [Prod.mk.injEq, Except.error.injEq] at he
      obtain ⟨_, rfl⟩ := he
      exact hc3 p1 e hr
    | ok r =>
      obtain ⟨b, cs⟩ := r
      cases b with
      | false =>
        simp only
        refine ⟨?_, (fun p2 e h => by cases h)⟩
        intro p2 cs2 he
        simp only [Prod.mk.injEq, Except.ok.injEq] at he
        obtain ⟨_, rfl⟩ := he
        obtain ⟨hcs, hblock⟩ := hc1 p1 cs hr
        refine ⟨[], by rw [hcs, List.append_nil], ?_, ?_⟩
        · unfold commandLinesOf
          rw [hblock]
          exact List.Forall₂.nil
        · rw [hblock]
          intro x hx
          cases hx
      | true =>
        simp only
        have hpos := h3 cs rfl
        have hrl := (Parser.linesLeft_readLine p1).1
        have hle : p1.readLine.linesLeft + 1 ≤ f := by omega
        obtain ⟨hat1, l, cmd, body, e, hcs, hblock, hexp, hcmd, hbody⟩ := hc2 p1 cs hr
        obtain ⟨ih1, ih2⟩ := ih p1.readLine cs (Parser.atInput_readLine p1) hle
        have hlines : commandLinesOf p.pending = l :: commandLinesOf p1.readLine.pending := by
          unfold commandLinesOf
          rw [hblock]
          simp [List.filter_cons, List.filter_append, List.filter_map, Function.comp_def]
        refine ⟨?_, ?_⟩
        · intro p2 cs2 he
          obtain ⟨new, hnew, hall, hok⟩ := ih1 p2 cs2 he
          refine ⟨cmd :: new, by rw [hnew, hcs, List.append_assoc, List.singleton_append], ?_, ?_⟩
          · rw [hlines]
            exact List.Forall₂.cons ⟨e, hexp, hcmd⟩ hall
          · intro x hx
            rw [hblock] at hx
            rcases List.mem_cons.mp hx with rfl | hx
            · exact ⟨e, hexp⟩
            · rcases List.mem_append.mp hx with hx | hx
              · obtain ⟨b, hb, rfl⟩ := List.mem_map.mp hx
                rw [expansionOf_inline]
                exact hbody b hb
              · exact hok x hx
        · intro p2 e1 he
          obtain ⟨x, hx1, hx2⟩ := ih2 p2 e1 he
          refine ⟨x, ?_, hx2⟩
          rw [hblock]
          exact List.mem_cons_of_mem _ (List.mem_append_right _ hx1)

/-! ## The two expansions of every command line -/

theorem expansionOf_false (x : Bool × (QString × MacroTable)) :
    expansionOf false x = expandMacros x.2.2 (QString.trimmed x.2.1) false := by
  simp [expansionOf]

/-- Reading the commands of a description block against the lines that
`commandBlock` marks. -/
theorem Parser.readCommands_block (p : Parser) :
    (∀ p2 cs, Parser.readCommands p = (p2, .ok cs) →
      List.Forall₂ (fun (l : QString × MacroTable) (cmd : Command) =>
          ∃ e, expandMacros l.2 (QString.trimmed l.1) false = .ok e ∧
            cmd.m_commandLine = stripCommandPrefix e)
        (commandLinesOf (blockLines p.m_preprocessor.m_lines)) cs ∧
      ∀ x ∈ commandBlock false (blockLines p.m_preprocessor.m_lines),
        ∃ e, expandMacros x.2.2 (QString.trimmed x.2.1) false = .ok e) ∧
    (∀ p2 e, Parser.readCommands p = (p2, .error e) →
      ∃ x ∈ commandBlock false (blockLines p.m_preprocessor.m_lines),
        expandMacros x.2.2 (QString.trimmed x.2.1) false = .error e) := by
  have hpend := Parser.pending_readLine p
  unfold Parser.readCommands
  by_cases hempty : (QString.trimmed p.readLine.line).isEmpty = true
  · have hblock : blockLines p.m_preprocessor.m_lines = [] := by
      cases hl : p.m_preprocessor.m_lines with
      | nil => rfl
      | cons l rest =>
        have : p.readLine.line = l.1 := by
          simp [Parser.readLine, Preprocessor.readLine, hl, Parser.line]
        rw [this] at hempty
        simp only [blockLines, hempty, if_true]
    simp only [hempty, if_true, hblock]
    refine ⟨?_, (fun p2 e h => by cases h)⟩
    intro p2 cs h
    simp only [Prod.mk.injEq, Except.ok.injEq] at h
    obtain ⟨_, rfl⟩ := h
    exact ⟨List.Forall₂.nil, fun x hx => by cases hx⟩
  · have hblock : blockLines p.m_preprocessor.m_lines = p.readLine.pending := by
      rw [hpend]
      cases hl : p.m_preprocessor.m_lines with
      | nil => rfl
      | cons l rest =>
        have : p.readLine.line = l.1 := by
          simp [Parser.readLine, Preprocessor.readLine, hl, Parser.line]
        rw [this] at hempty
        simp only [blockLines, hempty, Bool.false_eq_true, if_false]
    simp only [hempty, if_false, hblock]
    have hfuel : p.readLine.linesLeft + 1 ≤ p.readLine.remaining + 2 := by
      unfold Parser.linesLeft
      split_ifs <;> omega
    obtain ⟨h1, h2⟩ := Parser.parseCommands_block false (p.readLine.remaining + 2) p.readLine []
      (Parser.atInput_readLine p) hfuel
    refine ⟨?_, ?_⟩
    · intro p2 cs h
      obtain ⟨new, hnew, hall, hok⟩ := h1 p2 cs h
      rw [List.nil_append] at hnew
      subst hnew
      refine ⟨hall.imp ?_, ?_⟩
      · rintro l cmd ⟨e, he, hc⟩
        rw [expansionOf_false] at he
        exact ⟨e, he, hc⟩
      · intro x hx
        obtain ⟨e, he⟩ := hok x hx
        rw [expansionOf_false] at he
        exact ⟨e, he⟩
    · intro p2 e h
      obtain ⟨x, hx, he⟩ := h2 p2 e h
      rw [expansionOf_false] at he
      exact ⟨x, hx, he⟩

theorem mem_commandLinesOf (lines : List (QString × MacroTable)) (l : QString × MacroTable)
    (h : l ∈ commandLinesOf lines) : (true, l) ∈ commandBlock false lines := by
  unfold commandLinesOf at h
  obtain ⟨x, hx, rfl⟩ := List.mem_map.mp h
  obtain ⟨hx1, hx2⟩ := List.mem_filter.mp hx
  obtain ⟨b, l⟩ := x
  simp only at hx2
  subst hx2
  exact hx1

/-- The second pass over the commands that the first pass has made. -/
theorem secondPass_texts (mt2 : MacroTable) :
    ∀ (ls : List (QString × MacroTable)) (cmds : List Command),
      List.Forall₂ (fun (l : QString × MacroTable) (cmd : Command) =>
        ∃ e, expandMacros l.2 (QString.trimmed l.1) false = .ok e ∧
          cmd.m_commandLine = stripCommandPrefix e) ls cmds →
      (∀ l ∈ ls, ∀ e, expandMacros l.2 (QString.trimmed l.1) false = .ok e →
        ∃ s, expandMacros mt2 (stripCommandPrefix e) false = .ok s) →
      ∃ ss, List.Forall₂ (fun (cmd : Command) (s : QString) =>
          expandMacros mt2 cmd.m_commandLine false = .ok s) cmds ss ∧
        List.Forall₂ (fun (l : QString × MacroTable) (s : QString) =>
          ∃ e, expandMacros l.2 (QString.trimmed l.1) false = .ok e ∧
            expandMacros mt2 (stripCommandPrefix e) false = .ok s) ls ss := by
  intro ls cmds h
  induction h with
  | nil => intro _; exact ⟨[], List.Forall₂.nil, List.Forall₂.nil⟩
  | cons h0 _ ih =>
    rename_i l cmd ls cmds _
    intro hsec
    obtain ⟨e, he, hc⟩ := h0
    obtain ⟨s, hs⟩ := hsec l (List.mem_cons_self _ _) e he
    obtain ⟨ss, h1, h2⟩ := ih fun l1 hl1 => hsec l1 (List.mem_cons_of_mem _ hl1)
    exact ⟨s :: ss, List.Forall₂.cons (by rw [hc]; exact hs) h1,
      List.Forall₂.cons ⟨e, he, hs⟩ h2⟩

/-- The block of a new target, named once in the description line behind
targets that raise nothing, gets the commands of the line, expanded under the
macro table of the parser. -/
theorem Parser.addTargets_new (fs : FileSystem) (p2 : Parser) (separatorLength : Nat)
    (dependents : List QString) (commands : List Command) (ss : List QString)
    (before more : List QString) (t : QString)
    (hbefore : (Parser.addTargets fs separatorLength dependents commands before p2).2 = none)
    (hb : t ∉ before) (hm : t ∉ more) (hnew : p2.m_makefile.target t = none)
    (hall : List.Forall₂ (fun (c : Command) (s : QString) =>
      expandMacros p2.macroTable c.m_commandLine false = .ok s) commands ss) :
    (Parser.addTargets fs separatorLength dependents commands (before ++ t :: more)
        p2).1.m_makefile.target t = some t ∧
    ((Parser.addTargets fs separatorLength dependents commands (before ++ t :: more)
        p2).1.m_makefile.block t).m_commands.map (·.m_commandLine) = ss := by
  rw [Parser.addTargets_append fs separatorLength dependents commands (t :: more) before p2 hbefore]
  set pB := (Parser.addTargets fs separatorLength dependents commands before p2).1 with hpB
  have hframeB := Parser.addTargets_frame fs separatorLength dependents commands t before p2 hb
  have hnewB : pB.m_makefile.target t = none := by
    cases hc : pB.m_makefile.target t with
    | none => rfl
    | some d =>
      have hd := Makefile.target_eq_some _ _ _ hc
      subst hd
      have := hframeB.2.mp hc
      rw [hnew] at this
      cases this
  have hmtB : pB.macroTable = p2.macroTable := by
    unfold Parser.macroTable
    rw [hpB, Parser.addTargets_preprocessor]
  obtain ⟨hx1, hx2⟩ := Parser.expandCommands_all p2.macroTable commands ss hall
  obtain ⟨hn1, hn2, hn3⟩ := Parser.addTarget_new fs pB separatorLength dependents commands t hnewB
  rw [hmtB] at hn1 hn2
  rw [hx1] at hn1
  unfold Parser.addTargets
  rcases hr : Parser.addTarget fs pB separatorLength dependents commands t with ⟨p3, e⟩
  rw [hr] at hn1 hn2 hn3
  simp only at hn1 hn2 hn3
  subst hn1
  simp only
  have hframe := Parser.addTargets_frame fs separatorLength dependents commands t more p3 hm
  exact ⟨hframe.2.mpr hn3, by rw [hframe.1, hn2, hx2]⟩

/-- C25: the command lines of a description block that declares a new target
are expanded twice.  The command lines of the block are the ones that
`commandLinesOf` picks from the lines behind the description line: blank lines
between them are skipped, a command line with `<<` is followed by the text of
its inline file, and the first other line ends the block.  When the first
pass raises nothing, that is when every command line and every line of an
inline file expands under the macro table that goes with it, the commands are
read, one for each command line, with the text `strip(expandMacros(trim(line)))`.
For a target `t` of the description line that has no block yet, and that the
line names once, behind targets that raise nothing: when the second pass
raises nothing, the command texts stored in the block of `t` are, line by
line, `expandMacros(strip(expandMacros(trim(line))))`, the second expansion
under the macro table as it is once the commands are read. -/
theorem parseDescriptionBlock_two_passes (fs : FileSystem) (p : Parser)
    (separatorPos separatorLength : Nat) (target value t : QString)
    (before more : List QString)
    (h1 : expandMacros p.macroTable (QString.trimmed (QString.left p.line separatorPos)) false
      = .ok target)
    (h2 : expandMacros p.macroTable
      (QString.trimmed (QString.right p.line (p.line.length - separatorPos - separatorLength)))
      false = .ok value)
    (hfirst : ∀ x ∈ commandBlock false (blockLines p.m_preprocessor.m_lines),
      ∃ e, expandMacros x.2.2 (QString.trimmed x.2.1) false = .ok e)
    (hsecond : ∀ l ∈ commandLinesOf (blockLines p.m_preprocessor.m_lines), ∀ e,
      expandMacros l.2 (QString.trimmed l.1) false = .ok e →
      ∃ s, expandMacros (Parser.readCommands p).1.macroTable (stripCommandPrefix e) false = .ok s)
    (hsplit : QString.splitSpace target = before ++ t :: more)
    (hbefore : ∀ commands, (Parser.readCommands p).2 = .ok commands →
      (Parser.addTargets fs separatorLength (QString.splitSpaceSkipEmpty value) commands before
        (Parser.readCommands p).1).2 = none)
    (hb : t ∉ before) (hm : t ∉ more) (hnew : p.m_makefile.target t = none) :
    (∃ commands, (Parser.readCommands p).2 = .ok commands ∧
      List.Forall₂ (fun (l : QString × MacroTable) (cmd : Command) =>
          ∃ e, expandMacros l.2 (QString.trimmed l.1) false = .ok e ∧
            cmd.m_commandLine = stripCommandPrefix e)
        (commandLinesOf (blockLines p.m_preprocessor.m_lines)) commands) ∧
    (Parser.parseDescriptionBlock fs p separatorPos separatorLength).1.m_makefile.target t
      = some t ∧
    List.Forall₂ (fun (l : QString × MacroTable) (text : QString) =>
        ∃ e, expandMacros l.2 (QString.trimmed l.1) false = .ok e ∧
          expandMacros (Parser.readCommands p).1.macroTable (stripCommandPrefix e) false
            = .ok text)
      (commandLinesOf (blockLines p.m_preprocessor.m_lines))
      (((Parser.parseDescriptionBlock fs p separatorPos separatorLength).1.m_makefile.block
        t).m_commands.map (·.m_commandLine)) := by
  obtain ⟨hr1, hr2⟩ := Parser.readCommands_block p
  have hadv := (Parser.readCommands_spec p).2
  rcases hr : Parser.readCommands p with ⟨p2, r⟩
  rw [hr] at hsecond hbefore hadv
  simp only at hsecond hbefore hadv
  cases r with
  | error e =>
    obtain ⟨x, hx, he⟩ := hr2 p2 e hr
    obtain ⟨e1, he1⟩ := hfirst x hx
    rw [he1] at he
    cases he
  | ok commands =>
    obtain ⟨hall, _⟩ := hr1 p2 commands hr
    obtain ⟨ss, hs1, hs2⟩ := secondPass_texts p2.macroTable _ _ hall hsecond
    have hnew2 : p2.m_makefile.target t = none := by rw [hadv.makefile]; exact hnew
    obtain ⟨ht1, ht2⟩ := Parser.addTargets_new fs p2 separatorLength
      (QString.splitSpaceSkipEmpty value) commands ss before more t (hbefore commands rfl) hb hm
      hnew2 hs1
    rw [Parser.parseDescriptionBlock_first fs p p2 separatorPos separatorLength target value
      commands h1 h2 hr, hsplit]
    refine ⟨⟨commands, rfl, hall⟩, ht1, ?_⟩
    rw [ht2]
    exact hs2

/-- The witness of C25: `all: dep` under `A = x`, with the command
`echo $$(A) <<` and its inline file, a blank line, the command `-@echo $(A)`
and a blank line before the next description line.  The first pass makes
`echo $(A) <<` and `-@echo x` of the command lines; the stored texts are
`echo x <<` and `@echo x`. -/
theorem parseDescriptionBlock_two_passes_witness :
    commandLinesOf (blockLines (parserAtTable tableAx "all: dep".toList
        linesTwoPasses).m_preprocessor.m_lines)
      = [("\techo $$(A) <<".toList, tableAx), ("\t-@echo $(A)".toList, tableAx)] ∧
    ((Parser.parseDescriptionBlock noFiles
        (parserAtTable tableAx "all: dep".toList linesTwoPasses) 3 1).1.m_makefile.block
      "all".toList).m_commands.map (·.m_commandLine) = ["echo x <<".toList, "@echo x".toList] ∧
    List.Forall₂ (fun (l : QString × MacroTable) (text : QString) =>
        ∃ e, expandMacros l.2 (QString.trimmed l.1) false = .ok e ∧
          expandMacros (Parser.readCommands (parserAtTable tableAx "all: dep".toList
            linesTwoPasses)).1.macroTable (stripCommandPrefix e) false = .ok text)
      (commandLinesOf (blockLines (parserAtTable tableAx "all: dep".toList
        linesTwoPasses).m_preprocessor.m_lines))
      (((Parser.parseDescriptionBlock noFiles
        (parserAtTable tableAx "all: dep".toList linesTwoPasses) 3 1).1.m_makefile.block
        "all".toList).m_commands.map (·.m_commandLine)) ∧
    expandMacros tableAx (QString.trimmed "\techo $$(A) <<".toList) false
      = .ok "echo $(A) <<".toList ∧
    expandMacros tableAx (stripCommandPrefix "echo $(A) <<".toList) false
      = .ok "echo x <<".toList :=
  have hblock : commandBlock false (blockLines (parserAtTable tableAx "all: dep".toList
      linesTwoPasses).m_preprocessor.m_lines)
      = [(true, ("\techo $$(A) <<".toList, tableAx)), (false, ("text $(A)".toList, tableAx)),
         (true, ("\t-@echo $(A)".toList, tableAx))] := by decide!
  have hlines : commandLinesOf (blockLines (parserAtTable tableAx "all: dep".toList
      linesTwoPasses).m_preprocessor.m_lines)
      = [("\techo $$(A) <<".toList, tableAx), ("\t-@echo $(A)".toList, tableAx)] := by decide!
  have hmt : (Parser.readCommands (parserAtTable tableAx "all: dep".toList
      linesTwoPasses)).1.macroTable = tableAx := by decide!
  have h := parseDescriptionBlock_two_passes noFiles
    (parserAtTable tableAx "all: dep".toList linesTwoPasses) 3 1
    "all".toList "dep".toList "all".toList [] []
    (by decide!) (by decide!)
    (by
      intro x hx
      rw [hblock] at hx
      simp only [List.mem_cons, List.mem_singleton, List.not_mem_nil, or_false] at hx
      rcases hx with rfl | rfl | rfl
      · exact ⟨"echo $(A) <<".toList, by decide!⟩
      · exact ⟨"text x".toList, by decide!⟩
      · exact ⟨"-@echo x".toList, by decide!⟩)
    (by
      intro l hl e he
      rw [hmt]
      rw [hlines] at hl
      simp only [List.mem_cons, List.mem_singleton, List.not_mem_nil, or_false] at hl
      rcases hl with rfl | rfl
      · have h0 : expandMacros tableAx (QString.trimmed "\techo $$(A) <<".toList) false
            = .ok "echo $(A) <<".toList := by decide!
        rw [h0] at he
        cases he
        exact ⟨"echo x <<".toList, by decide!⟩
      · have h0 : expandMacros tableAx (QString.trimmed "\t-@echo $(A)".toList) false
            = .ok "-@echo x".toList := by decide!
        rw [h0] at he
        cases he
        exact ⟨"@echo x".toList, by decide!⟩)
    (by decide) (fun _ _ => rfl) (by decide) (by decide) (by decide)
  ⟨hlines, by decide!, h.2.2, by decide!, by decide!⟩

/-! ## Inference rules: when the rule is appended -/

theorem mem_inlineLinesOf (lines : List (QString × MacroTable)) (l : QString × MacroTable) :
    l ∈ inlineLinesOf lines ↔ (false, l) ∈ commandBlock false lines := by
  unfold inlineLinesOf
  constructor
  · intro h
    obtain ⟨x, hx, rfl⟩ := List.mem_map.mp h
    obtain ⟨hx1, hx2⟩ := List.mem_filter.mp hx
    obtain ⟨b, l⟩ := x
    simp only [Bool.not_eq_true'] at hx2
    subst hx2
    exact hx1
  · intro h
    exact List.mem_map.mpr ⟨(false, l), List.mem_filter.mpr ⟨h, rfl⟩, rfl⟩

theorem expansionOf_true_command (l : QString × MacroTable) :
    expansionOf true (true, l) = .ok (QString.trimmed l.1) := by
  simp [expansionOf]

/-- The commands of an inference rule against the lines that `commandBlock`
marks: the loop returns exactly when every line of an inline file expands. -/
theorem Parser.parseInferenceRule_commands (p : Parser) :
    (∀ p2 cs, Parser.parseCommands true (p.readLine.remaining + 2) p.readLine [] = (p2, .ok cs) →
      List.Forall₂ (fun (l : QString × MacroTable) (cmd : Command) =>
          cmd.m_commandLine = stripCommandPrefix (QString.trimmed l.1))
        (commandLinesOf p.m_preprocessor.m_lines) cs ∧
      ∀ l ∈ inlineLinesOf p.m_preprocessor.m_lines,
        ∃ e, expandMacros l.2 (QString.trimmed l.1) false = .ok e) ∧
    (∀ p2 e, Parser.parseCommands true (p.readLine.remaining + 2) p.readLine [] = (p2, .error e) →
      ∃ l ∈ inlineLinesOf p.m_preprocessor.m_lines,
        expandMacros l.2 (QString.trimmed l.1) false = .error e) := by
  have hfuel : p.readLine.linesLeft + 1 ≤ p.readLine.remaining + 2 := by
    unfold Parser.linesLeft
    split_ifs <;> omega
  obtain ⟨h1, h2⟩ := Parser.parseCommands_block true (p.readLine.remaining + 2) p.readLine []
    (Parser.atInput_readLine p) hfuel
  rw [Parser.pending_readLine] at h1 h2
  refine ⟨?_, ?_⟩
  · intro p2 cs h
    obtain ⟨new, hnew, hall, hok⟩ := h1 p2 cs h
    rw [List.nil_append] at hnew
    subst hnew
    refine ⟨hall.imp ?_, ?_⟩
    · rintro l cmd ⟨e, he, hc⟩
      rw [expansionOf_true_command] at he
      cases he
      exact hc
    · intro l hl
      obtain ⟨e, he⟩ := hok (false, l) ((mem_inlineLinesOf _ l).mp hl)
      rw [expansionOf_inline] at he
      exact ⟨e, he⟩
  · intro p2 e h
    obtain ⟨x, hx, he⟩ := h2 p2 e h
    obtain ⟨b, l⟩ := x
    cases b with
    | true =>
      rw [expansionOf_true_command] at he
      cases he
    | false =>
      rw [expansionOf_inline] at he
      exact ⟨l, (mem_inlineLinesOf _ l).mpr hx, he⟩

/-- C21: the list of inference rules never holds two rules with the same
search paths and extensions.  Let the list have no two equal rules before
`parseInferenceRule` runs.  The command lines of the rule are the ones that
`commandLinesOf` picks from the lines behind the rule line, and they are not
expanded; the lines of the inline files of these commands are.  First part:
the call returns exactly when every line of every inline file expands; in
particular it returns when no command has an inline file.  Second part: when
it returns, the commands read are the command lines, trimmed and without the
`-` or `@` at the head, and the list is the old list without the rules equal
to the new one, in their old order, followed by the new rule with these
commands; again no two rules of the list are equal.  Third part: when it
raises, the exception is the one of a line of an inline file that does not
expand, and the makefile is as it was. -/
theorem parseInferenceRule_no_duplicates (p : Parser)
    (h : RulesDistinct p.m_makefile.m_inferenceRules) :
    (p.parseInferenceRule.2 = none ↔
      ∀ l ∈ inlineLinesOf p.m_preprocessor.m_lines,
        ∃ e, expandMacros l.2 (QString.trimmed l.1) false = .ok e) ∧
    (p.parseInferenceRule.2 = none →
      ∃ commands,
        List.Forall₂ (fun (l : QString × MacroTable) (cmd : Command) =>
            cmd.m_commandLine = stripCommandPrefix (QString.trimmed l.1))
          (commandLinesOf p.m_preprocessor.m_lines) commands ∧
        p.parseInferenceRule.1.m_makefile.m_inferenceRules =
          (p.m_makefile.m_inferenceRules.filter fun r => !r.equals p.inferenceRuleOfLine)
            ++ [{ p.inferenceRuleOfLine with m_commands := commands }] ∧
        RulesDistinct p.parseInferenceRule.1.m_makefile.m_inferenceRules) ∧
    (∀ e, p.parseInferenceRule.2 = some e →
      (∃ msg, e = .exception msg) ∧ p.parseInferenceRule.1.m_makefile = p.m_makefile ∧
      ∃ l ∈ inlineLinesOf p.m_preprocessor.m_lines,
        expandMacros l.2 (QString.trimmed l.1) false = .error e) := by
  have hfuel : p.readLine.linesLeft + 1 ≤ p.readLine.remaining + 2 := by
    unfold Parser.linesLeft
    split_ifs <;> omega
  obtain ⟨h1, h2⟩ := Parser.parseCommands_spec true (p.readLine.remaining + 2) p.readLine []
    hfuel
  obtain ⟨hc1, hc2⟩ := Parser.parseInferenceRule_commands p
  have hmf := ((Parser.advanced_readLine p).trans h2).makefile
  unfold Parser.parseInferenceRule
  rcases hr : Parser.parseCommands true (p.readLine.remaining + 2) p.readLine [] with ⟨p1, r⟩
  rw [hr] at h1 hmf
  simp only at h1 hmf
  cases r with
  | error e =>
    obtain ⟨msg, hmsg⟩ := h1 e rfl
    obtain ⟨l, hl, he⟩ := hc2 p1 e hr
    simp only
    refine ⟨⟨(fun hn => by cases hn), fun hall => ?_⟩, (fun hn => by cases hn), ?_⟩
    · obtain ⟨e1, he1⟩ := hall l hl
      rw [he1] at he
      cases he
    · intro e1 he1
      simp only [Option.some.injEq] at he1
      subst he1
      exact ⟨⟨msg, hmsg⟩, hmf, l, hl, he⟩
  | ok commands =>
    obtain ⟨hall, hok⟩ := hc1 p1 commands hr
    simp only
    refine ⟨⟨fun _ => hok, fun _ => trivial⟩, fun _ => ⟨commands, hall, ?_, ?_⟩,
      fun e he => by cases he⟩
    · simp only [hmf]
      rw [Parser.replaceRule_spec _ _ h]
      rfl
    · simp only [hmf]
      rw [Parser.replaceRule_spec _ _ h]
      exact rulesDistinct_replace _ _ h

/-- The witness of C21: the rule line `.c.obj:` with the commands `cl $< <<`,
which has an inline file, and `@echo done`, in a makefile that has the rules
`.c.obj:` and `.cpp.obj:`.  The call returns; the old rule `.c.obj:` is gone,
and the new one is the last rule. -/
theorem parseInferenceRule_no_duplicates_witness :
    RulesDistinct parserNewRule.m_makefile.m_inferenceRules ∧
    (parserNewRule.parseInferenceRule.2 = none ↔
      ∀ l ∈ inlineLinesOf parserNewRule.m_preprocessor.m_lines,
        ∃ e, expandMacros l.2 (QString.trimmed l.1) false = .ok e) ∧
    parserNewRule.parseInferenceRule.2 = none ∧
    commandLinesOf parserNewRule.m_preprocessor.m_lines
      = [("\tcl $< <<".toList, MacroTable.empty), ("\t@echo done".toList, MacroTable.empty)] ∧
    (parserNewRule.parseInferenceRule.1.m_makefile.m_inferenceRules.map fun r =>
        (r.m_fromExtension, r.m_toExtension, r.m_commands.map (·.m_commandLine)))
      = [(".cpp".toList, ".obj".toList, ["old".toList]),
         (".c".toList, ".obj".toList, ["cl $< <<".toList, "echo done".toList])] ∧
    RulesDistinct parserNewRule.parseInferenceRule.1.m_makefile.m_inferenceRules :=
  have hd : RulesDistinct parserNewRule.m_makefile.m_inferenceRules := by
    unfold RulesDistinct; decide
  have h := parseInferenceRule_no_duplicates parserNewRule hd
  have hnone : parserNewRule.parseInferenceRule.2 = none := by decide!
  ⟨hd, h.1, hnone, by decide!, by decide!, by
    obtain ⟨_, _, _, h4⟩ := h.2.1 hnone
    exact h4⟩

/-! ## The loop of `apply` ends -/

theorem Parser.linesLeft_readLine_lt (p : Parser) (h : p.m_line.isNone = false) :
    p.readLine.linesLeft + 1 ≤ p.linesLeft := by
  have h1 := (Parser.linesLeft_readLine p).1
  have h2 : p.m_line.isSome = true := by
    cases hl : p.m_line with
    | none => rw [hl] at h; cases h
    | some l => rfl
  unfold Parser.linesLeft at h1 ⊢
  simp only [h2, if_true]
  omega

theorem Parser.linesLeft_congr (p q : Parser) (h1 : q.m_preprocessor = p.m_preprocessor)
    (h2 : q.m_line = p.m_line) : q.linesLeft = p.linesLeft := by
  unfold Parser.linesLeft Parser.remaining
  rw [h1, h2]

theorem Parser.parseDotDirective_linesLeft (p : Parser) :
    p.parseDotDirective.linesLeft = p.readLine.linesLeft := by
  apply Parser.linesLeft_congr
  · unfold Parser.parseDotDirective
    simp only
    split_ifs <;> rfl
  · unfold Parser.parseDotDirective
    simp only
    split_ifs <;> rfl

theorem Parser.parseInferenceRule_total (p : Parser) :
    (∀ e, p.parseInferenceRule.2 = some e → e.IsException) ∧
      p.parseInferenceRule.1.linesLeft ≤ p.readLine.linesLeft := by
  have hfuel : p.readLine.linesLeft + 1 ≤ p.readLine.remaining + 2 := by
    unfold Parser.linesLeft
    split_ifs <;> omega
  obtain ⟨h1, h2⟩ := Parser.parseCommands_spec true (p.readLine.remaining + 2) p.readLine []
    hfuel
  unfold Parser.parseInferenceRule
  rcases hr : Parser.parseCommands true (p.readLine.remaining + 2) p.readLine [] with ⟨p1, r⟩
  rw [hr] at h1 h2
  simp only at h1 h2
  cases r with
  | error e =>
    refine ⟨fun e1 he => ?_, h2.linesLeft⟩
    simp only [Option.some.injEq] at he
    subst he
    exact h1 e rfl
  | ok commands => exact ⟨(fun e he => by cases he), h2.linesLeft⟩

theorem Parser.expandCommands_thrown (mt : MacroTable) :
    ∀ (commands : List Command) (e : Error),
      (Parser.expandCommands mt commands).2 = some e → e.IsException := by
  intro commands
  induction commands with
  | nil => intro e h; cases h
  | cons cmd rest ih =>
    intro e h
    unfold Parser.expandCommands at h
    cases hexp : expandMacros mt cmd.m_commandLine false with
    | error e1 =>
      simp only [hexp, Option.some.injEq] at h
      subst h
      exact thrown_expandMacros _ _ _ e1 hexp
    | ok commandLine =>
      simp only [hexp] at h
      exact ih e h

theorem Parser.addTarget_total (fs : FileSystem) (p : Parser) (separatorLength : Nat)
    (dependents : List QString) (commands : List Command) (t : QString) :
    (∀ e, (Parser.addTarget fs p separatorLength dependents commands t).2 = some e →
      e.IsException) ∧
    (Parser.addTarget fs p separatorLength dependents commands t).1.m_line = p.m_line ∧
    (Parser.addTarget fs p separatorLength dependents commands t).1.m_suffixes = p.m_suffixes := by
  cases hex : p.m_makefile.target t with
  | some d =>
    have hd := Makefile.target_eq_some _ _ _ hex
    subst hd
    by_cases hbad : (if separatorLength > 1 then AddCommandsState.ACSEnabled
          else AddCommandsState.ACSDisabled) ≠ (p.m_makefile.block d).m_canAddCommands ∧
        (p.m_makefile.block d).m_canAddCommands ≠ AddCommandsState.ACSUnknown
    · rw [Parser.addTarget_conflict fs p separatorLength dependents commands d hex hbad]
      refine ⟨fun e he => ?_, rfl, rfl⟩
      simp only [Option.some.injEq] at he
      exact ⟨_, he.symm⟩
    · rw [Parser.addTarget_existing fs p separatorLength dependents commands d hex hbad]
      exact ⟨fun e he => Parser.expandCommands_thrown _ _ e he, rfl, rfl⟩
  | none =>
    unfold Parser.addTarget
    simp only [hex, Parser.createTarget]
    exact ⟨fun e he => Parser.expandCommands_thrown _ _ e he, trivial, trivial⟩

theorem Parser.addTargets_total (fs : FileSystem) (separatorLength : Nat)
    (dependents : List QString) (commands : List Command) :
    ∀ (targets : List QString) (p : Parser),
      (∀ e, (Parser.addTargets fs separatorLength dependents commands targets p).2 = some e →
        e.IsException) ∧
      (Parser.addTargets fs separatorLength dependents commands targets p).1.m_line = p.m_line ∧
      (Parser.addTargets fs separatorLength dependents commands targets p).1.m_suffixes
        = p.m_suffixes := by
  intro targets
  induction targets with
  | nil => intro p; exact ⟨(fun e he => by cases he), rfl, rfl⟩
  | cons t rest ih =>
    intro p
    obtain ⟨h1, h2, h3⟩ := Parser.addTarget_total fs p separatorLength dependents commands t
    unfold Parser.addTargets
    rcases hr : Parser.addTarget fs p separatorLength dependents commands t with ⟨p1, e⟩
    rw [hr] at h1 h2 h3
    simp only at h1 h2 h3
    cases e with
    | some e =>
      refine ⟨fun e1 he => ?_, h2, h3⟩
      simp only [Option.some.injEq] at he
      subst he
      exact h1 e rfl
    | none =>
      obtain ⟨i1, i2, i3⟩ := ih p1
      exact ⟨i1, i2.trans h2, i3.trans h3⟩

theorem Parser.readCommands_linesLeft (p : Parser) :
    (Parser.readCommands p).1.linesLeft ≤ p.readLine.linesLeft := by
  unfold Parser.readCommands
  split
  · exact (Parser.advanced_readLine p.readLine).linesLeft
  · have hfuel : p.readLine.linesLeft + 1 ≤ p.readLine.remaining + 2 := by
      unfold Parser.linesLeft
      split_ifs <;> omega
    exact (Parser.parseCommands_spec false (p.readLine.remaining + 2) p.readLine []
      hfuel).2.linesLeft

theorem Parser.parseDescriptionBlock_total (fs : FileSystem) (p : Parser)
    (separatorPos separatorLength : Nat) :
    (∀ e, (Parser.parseDescriptionBlock fs p separatorPos separatorLength).2 = some e →
      e.IsException) ∧
    ((Parser.parseDescriptionBlock fs p separatorPos separatorLength).2 = none →
      (Parser.parseDescriptionBlock fs p separatorPos separatorLength).1.linesLeft
        ≤ p.readLine.linesLeft) := by
  unfold Parser.parseDescriptionBlock
  cases h1 : expandMacros p.macroTable (QString.trimmed (QString.left p.line separatorPos))
      false with
  | error e =>
    refine ⟨fun e1 he => ?_, (fun he => by cases he)⟩
    simp only [Option.some.injEq] at he
    subst he
    exact thrown_expandMacros _ _ _ e h1
  | ok target =>
    simp only
    cases h2 : expandMacros p.macroTable (QString.trimmed
        (QString.right p.line (p.line.length - separatorPos - separatorLength))) false with
    | error e =>
      refine ⟨fun e1 he => ?_, (fun he => by cases he)⟩
      simp only [Option.some.injEq] at he
      subst he
      exact thrown_expandMacros _ _ _ e h2
    | ok value =>
      simp only
      have hthrown := (Parser.readCommands_spec p).1
      have hlines := Parser.readCommands_linesLeft p
      rcases hr : Parser.readCommands p with ⟨p2, r⟩
      rw [hr] at hthrown hlines
      simp only at hthrown hlines
      cases r with
      | error e =>
        refine ⟨fun e1 he => ?_, (fun he => by cases he)⟩
        simp only [Option.some.injEq] at he
        subst he
        exact hthrown e rfl
      | ok commands =>
        simp only
        obtain ⟨t1, t2, _⟩ := Parser.addTargets_total fs separatorLength
          (QString.splitSpaceSkipEmpty value) commands (QString.splitSpace target) p2
        refine ⟨t1, fun _ => ?_⟩
        rw [Parser.linesLeft_congr p2 _
          (Parser.addTargets_preprocessor fs separatorLength _ commands _ p2) t2]
        exact hlines

/-- The loop of `apply` ends within its budget: it leaves with the end of the
input or with an exception. -/
theorem Parser.applyLoop_total (fs : FileSystem) :
    ∀ (fuel : Nat) (p : Parser), p.linesLeft + 1 ≤ fuel →
      (∀ e, (Parser.applyLoop fs fuel p).2 = some e → e.IsException) ∧
      ((Parser.applyLoop fs fuel p).2 = none → (Parser.applyLoop fs fuel p).1.m_line = none) := by
  intro fuel
  induction fuel with
  | zero => intro p h; omega
  | succ f ih =>
    intro p h
    unfold Parser.applyLoop
    by_cases hnull : p.m_line.isNone = true
    · simp only [hnull, if_true]
      refine ⟨(fun e he => by cases he), fun _ => ?_⟩
      simpa using hnull
    · simp only [hnull, Bool.false_eq_true, if_false]
      have hlt := Parser.linesLeft_readLine_lt p (by
        cases hl : p.m_line with
        | none => rw [hl] at hnull; exact absurd rfl hnull
        | some l => rfl)
      by_cases hempty : p.isEmptyLine = true
      · simp only [hempty, if_true]
        exact ih p.readLine (by omega)
      · simp only [hempty, Bool.false_eq_true, if_false]
        by_cases hdot : p.isDotDirective = true
        · simp only [hdot, if_true]
          exact ih p.parseDotDirective (by rw [Parser.parseDotDirective_linesLeft]; omega)
        · simp only [hdot, Bool.false_eq_true, if_false]
          by_cases hrule : p.isInferenceRule = true
          · simp only [hrule, if_true]
            obtain ⟨r1, r2⟩ := Parser.parseInferenceRule_total p
            rcases hr : p.parseInferenceRule with ⟨p1, e⟩
            rw [hr] at r1 r2
            simp only at r1 r2
            cases e with
            | some e =>
              exact ⟨fun e1 he => by simp only [Option.some.injEq] at he; subst he; exact r1 e rfl,
                (fun he => by cases he)⟩
            | none => exact ih p1 (by omega)
          · simp only [hrule, Bool.false_eq_true, if_false]
            cases hdb : p.isDescriptionBlock with
            | none =>
              simp only
              exact ⟨fun e he => by simp only [Option.some.injEq] at he; exact ⟨_, he.symm⟩,
                (fun he => by cases he)⟩
            | some sep =>
              obtain ⟨separatorPos, separatorLength⟩ := sep
              simp only
              obtain ⟨d1, d2⟩ := Parser.parseDescriptionBlock_total fs p separatorPos
                separatorLength
              rcases hr : p.parseDescriptionBlock fs separatorPos separatorLength with ⟨p1, e⟩
              rw [hr] at d1 d2
              simp only at d1 d2
              cases e with
              | some e =>
                exact ⟨fun e1 he => by
                    simp only [Option.some.injEq] at he; subst he; exact d1 e rfl,
                  (fun he => by cases he)⟩
              | none =>
                have := d2 rfl
                exact ih p1 (by omega)

/-! ## The suffix list of a block is the list of its declaration -/

/-- The character classes on some characters beyond ASCII: `é` (U+00E9) is a
letter, and a name made of it is a valid macro name; `²` (U+00B2) is a number;
the combining acute accent (U+0301) is a mark; the no-break space (U+00A0) is
white space; the upper case of `ßé` is `SSÉ`; and the ASCII characters keep
their classes. -/
theorem character_classes :
    isLetterOrNumber (Char.ofNat 233) = true ∧ isMacroNameValid [Char.ofNat 233] = true ∧
    isLetterOrNumber (Char.ofNat 178) = true ∧ isLetter (Char.ofNat 178) = false ∧
    isMark (Char.ofNat 769) = true ∧ isLetterOrNumber (Char.ofNat 769) = false ∧
    isSpace (Char.ofNat 160) = true ∧ isSpace (Char.ofNat 133) = true ∧
    QString.toUpper [Char.ofNat 223, Char.ofNat 233] = ['S', 'S', Char.ofNat 201] ∧
    QString.toUpper "path".toList = "PATH".toList ∧
    isLetterOrNumber 'a' = true ∧ isLetterOrNumber '7' = true ∧ isLetterOrNumber '+' = false ∧
    isSpace ' ' = true ∧ isSpace '\t' = true ∧ isSpace 'a' = false := by
  decide!

end NMakeFile
